import Mathlib

/-!
# bwview: sample store (`file.c`) and analysis driver (`analysis.c`)

A shallow embedding of the block store of `file.c`, of the analysis engine of
`analysis.c` that drives it, of the settings of `settings.c` and of the peak
search of the status line of `bwview.c`, followed by theorems about them.

Conventions of the embedding.

* C `int` values are `Int`.  The file length `ff->len`, the one value that
  counts the samples of the whole stream, is reduced to the range of a 32-bit
  `int` where it is computed (`to_int`, two's-complement wrap-around).  The
  remaining arithmetic (block numbers, reference counts, the use counter) is
  carried out on unbounded integers.
* A `BWBlock*` is an address (`Nat`).  The live blocks are exactly the
  elements of the cache list, in list order (`ff->cache`, `bb->nxt`).  `Alloc`
  is `calloc`; it hands out the address `brk` and advances it.
* An `fpos_t` is a `Nat`.  The array `ff->blk` is a list read with default `0`
  (the array is zero-filled by `calloc`).
* The format decoder `ff->read` of `file_formats.inc` is a parameter: a
  function from the file position at which decoding starts to the frames it
  produces, the position afterwards, and the end-of-file indicator.
* `dlog` records every decoder invocation (block number and start position),
  most recent first.  It is a ghost field used to state which blocks are
  decoded; no operation reads it.
* The floating-point operations of the analysis engine are not computed: the
  engine takes them from a record of functions, `Fp`.  The magnitude formulas
  of `bwanal_calc` are given a second time over the real numbers.
* The preview mode of `bwanal_window` takes its floating-point operations
  from a second record, `FpWin`; an operation with a NaN operand gives NaN.
* The loops that lay out the carrier and the convolution product in the work
  buffers are given over an arbitrary ring of scalars.  The settings that are
  `double` in the source are real numbers.
-/

namespace Bwview

/-- Sample values (`float` in the source), carried as opaque ordered scalars. -/
abbrev Sample := Int

/-- One decoded frame: a sample per channel and the sync-error flag. -/
abbrev Frame := List Sample × Bool

/-- Result of one call of `ff->read` followed by `feof` / `fgetpos`. -/
structure ReadResult where
  /-- the frames written into the block, in order; their count is the return value -/
  frames : List Frame
  /-- file position after the read (`fgetpos`) -/
  pos : Nat
  /-- value of `feof(fp)` after the read -/
  eof : Bool
deriving DecidableEq, Repr

/-- The return value of `ff->read`: number of samples produced. -/
def ReadResult.len (r : ReadResult) : Int := (r.frames.length : Int)

/-- The format-specific read routine, as a function of the start position. -/
abbrev Decoder := Nat → ReadResult

/-- `struct BWBlock`; `addr` is the address of the block, `nxt` is the list order. -/
structure BWBlock where
  addr : Nat
  num : Int
  ref : Int
  last_used : Int
  len : Int
  chan : List (List Sample)
  err : List Bool
deriving DecidableEq, Repr

/-- `struct BWFile` (without the `FILE*`, the read routine and the sample rate). -/
structure BWFile where
  blk : List Nat
  m_blk : Int
  n_blk : Int
  pos : Nat
  eof : Bool
  bsiz : Int
  max_unref : Int
  chan : Int
  len : Int
  cache : List BWBlock
  use : Int
  /-- next address handed out by `Alloc` -/
  brk : Nat
  /-- decoder invocations: (block number, start position), most recent first -/
  dlog : List (Int × Nat)
deriving DecidableEq, Repr

/-- `bwfile_open`: the number of channels and the position after the header come
from the format set-up code. -/
def bwfile_open (chan : Int) (pos0 : Nat) (bsiz max_unref : Int) : BWFile :=
  { blk := [], m_blk := 256, n_blk := 0, pos := pos0, eof := false,
    bsiz := bsiz, max_unref := max_unref, chan := chan, len := -1,
    cache := [], use := 0, brk := 0, dlog := [] }

/-- Writing `new` over the front of the buffer `old`. -/
def overlay {α : Type} (new old : List α) : List α :=
  new ++ old.drop new.length

/-- Channel buffers after the decoder has written `frames` into them
(`c` is the index of the first buffer of the list). -/
def fill_chan (frames : List Frame) : Nat → List (List Sample) → List (List Sample)
  | _, [] => []
  | c, old :: rest =>
      overlay (frames.map (fun f => f.1.getD c 0)) old :: fill_chan frames (c + 1) rest

/-- Effect of `ff->read(ff, bb, fp, bb->chan, bb->err, ff->bsiz)` on the buffers of `bb`. -/
def read_block (r : ReadResult) (bb : BWBlock) : BWBlock :=
  { bb with chan := fill_chan r.frames 0 bb.chan,
            err := overlay (r.frames.map (fun f => f.2)) bb.err }

/-- Array store `arr[i]= v`. -/
def arrSet (arr : List Nat) (i : Nat) (v : Nat) : List Nat :=
  arr.take i ++ v :: arr.drop (i + 1)

/-- The block `get_block` allocates on entry (`Alloc` zero-fills) and numbers `num`. -/
def new_block (ff : BWFile) (num : Int) : BWBlock :=
  { addr := ff.brk, num := num, ref := 0, last_used := 0, len := 0,
    chan := List.replicate ff.chan.toNat (List.replicate ff.bsiz.toNat 0),
    err := List.replicate ff.bsiz.toNat false }

/-- Reallocation of `ff->blk` when `num + 2 > m_blk`: the new array is zero-filled and
receives the first `n_blk` entries (`m_blk` itself is not updated by the source). -/
def grow_blk (ff : BWFile) (num : Int) : BWFile :=
  if num + 2 > ff.m_blk then { ff with blk := ff.blk.take ff.n_blk.toNat } else ff

/-- The statement `memcpy(&ff->blk[ff->n_blk++], &ff->pos, sizeof(fpos_t))`, together with
the log entry of the read that follows it. -/
def note_pos (ff : BWFile) : BWFile :=
  { ff with blk := arrSet ff.blk ff.n_blk.toNat ff.pos,
            n_blk := ff.n_blk + 1,
            dlog := (ff.n_blk, ff.pos) :: ff.dlog }

/-- The value an `int` variable holds after the integer `x` is stored in it: `x` reduced
to the range `-2^31 .. 2^31 - 1` (32-bit two's complement). -/
def to_int (x : Int) : Int := (x + 2147483648) % 4294967296 - 2147483648

/-- The statements `ff->eof= 1; ff->len= (ff->n_blk-1)*ff->bsiz + len`; `ff->len` is an
`int`. -/
def set_eof (ff : BWFile) (len : Int) : BWFile :=
  { ff with eof := true, len := to_int ((ff.n_blk - 1) * ff.bsiz + len) }

/-- The forward scan of `get_block` (the `while (num > ff->n_blk)` loop); the
first argument bounds the number of iterations and is `num - n_blk` at the call. -/
def scan_blocks (d : Decoder) (num : Int) : Nat → BWFile → BWBlock → BWFile × BWBlock
  | 0, ff, bb => (ff, bb)
  | k + 1, ff, bb =>
      if num > ff.n_blk then
        let r := d ff.pos
        let ff1 := note_pos ff
        let bb1 := read_block r bb
        if r.eof then (set_eof ff1 r.len, bb1)
        else scan_blocks d num k { ff1 with pos := r.pos } bb1
      else (ff, bb)

/-- The end of `get_block`: clear `bb->err`, record the position, read the block, and
either flag end-of-file or save the new position. -/
def read_target (d : Decoder) (ff : BWFile) (bb0 : BWBlock) : BWFile × BWBlock :=
  let bb1 := { bb0 with err := List.replicate ff.bsiz.toNat false }
  let r := d ff.pos
  let ff1 := note_pos ff
  let bb := { read_block r bb1 with len := r.len }
  if r.eof then (set_eof ff1 bb.len, bb) else ({ ff1 with pos := r.pos }, bb)

/-- `get_block`: read block `num` from the file, ignoring the cache. -/
def get_block (d : Decoder) (ff0 : BWFile) (num : Int) : BWFile × Option BWBlock :=
  let bb := new_block ff0 num
  let ff := { ff0 with brk := ff0.brk + 1 }
  if num < 0 then (ff, none)
  else if num < ff.n_blk then
    let p := ff.blk.getD num.toNat 0
    let r := d p
    ({ ff with dlog := (num, p) :: ff.dlog }, some { read_block r bb with len := r.len })
  else
    let ff := grow_blk ff num
    let sc := if num > ff.n_blk ∧ ff.eof = false
              then scan_blocks d num (num - ff.n_blk).toNat ff bb else (ff, bb)
    if sc.1.eof then (sc.1, none)
    else
      let rt := read_target d sc.1 sc.2
      (rt.1, some rt.2)

/-- The cache scan of `bwfile_get`: the first block numbered `num` gets `ref++`
and its address is returned. -/
def cache_hit (num : Int) : List BWBlock → Option (List BWBlock × Nat)
  | [] => none
  | bb :: rest =>
      if bb.num = num then some ({ bb with ref := bb.ref + 1 } :: rest, bb.addr)
      else match cache_hit num rest with
        | none => none
        | some (c, a) => some (bb :: c, a)

/-- `bwfile_get`: the new store and the returned pointer (`none` is the null pointer). -/
def bwfile_get (d : Decoder) (ff : BWFile) (num : Int) : BWFile × Option Nat :=
  match cache_hit num ff.cache with
  | some (c, a) => ({ ff with cache := c }, some a)
  | none =>
      match get_block d ff num with
      | (ff1, none) => (ff1, none)
      | (ff1, some bb) =>
          ({ ff1 with cache := { bb with ref := bb.ref + 1 } :: ff1.cache }, some bb.addr)

/-- Dereferencing a block pointer: the live block at address `a`. -/
def deref (cache : List BWBlock) (a : Nat) : Option BWBlock :=
  cache.find? (fun bb => bb.addr = a)

/-- Updating the block a pointer designates. -/
def modify_at (a : Nat) (f : BWBlock → BWBlock) : List BWBlock → List BWBlock
  | [] => []
  | bb :: rest => if bb.addr = a then f bb :: rest else bb :: modify_at a f rest

/-- The scan of `bwfile_free` over the cache: `(cnt, old_prvp, old_age)`, where
`old_prvp` is the list index of the link it points at (`none` is the null pointer)
and `i` is the index of the head of the list being scanned. -/
def scan_unref (use : Int) : List BWBlock → Nat → Int × Option Nat × Int → Int × Option Nat × Int
  | [], _, st => st
  | bb :: rest, i, (cnt, old, age) =>
      if bb.ref = 0 then
        if old = none ∨ use - bb.last_used > age then
          scan_unref use rest (i + 1) (cnt + 1, some i, use - bb.last_used)
        else scan_unref use rest (i + 1) (cnt + 1, old, age)
      else scan_unref use rest (i + 1) (cnt, old, age)

/-- `bwfile_free`.  A pointer that is not a live block is outside the model (the
store is returned as it is). -/
def bwfile_free (ff : BWFile) (a : Nat) : BWFile :=
  match deref ff.cache a with
  | none => ff
  | some bb =>
      let cache1 := modify_at a (fun b => { b with ref := b.ref - 1 }) ff.cache
      if bb.ref - 1 = 0 then
        let cache2 := modify_at a (fun b => { b with last_used := ff.use }) cache1
        let use := ff.use + 1
        let st := scan_unref use cache2 0 (0, none, 0)
        if st.1 > ff.max_unref then
          match st.2.1 with
          | some i => { ff with use := use, cache := cache2.eraseIdx i }
          | none => { ff with use := use, cache := cache2 }
        else { ff with use := use, cache := cache2 }
      else { ff with cache := cache1 }

/-- `bwfile_check_eof`. -/
def bwfile_check_eof (ff : BWFile) : BWFile :=
  if ff.eof = false then ff
  else
    let ff1 : BWFile :=
      if ff.n_blk = 0 then { ff with eof := false, len := -1, pos := 0 }
      else { ff with eof := false, len := -1, n_blk := ff.n_blk - 1,
                     pos := ff.blk.getD (ff.n_blk - 1).toNat 0 }
    let n := ff1.n_blk
    { ff1 with cache := List.map (fun bb => if bb.num ≥ n then { bb with num := -999 } else bb)
                          ff1.cache }

/-- Modelled from the spec: the decoder of `file_formats.inc` on a stream of
frames, positions counting frames: a read returns `min(bsiz, remaining)` frames
and signals end-of-file exactly when fewer than `bsiz` frames remained. -/
def stream_read (bsiz : Int) (stream : List Frame) : Decoder := fun p =>
  { frames := (stream.drop p).take bsiz.toNat,
    pos := p + ((stream.drop p).take bsiz.toNat).length,
    eof := decide ((stream.length : Int) - (p : Int) < bsiz) }


/-- Number of cached blocks with reference count 0. -/
def unref_count (cache : List BWBlock) : Nat :=
  cache.countP (fun bb => decide (bb.ref = 0))

/-- The cache after the first two statements of `bwfile_free` applied to the block
at address `a`: `bb->ref--`, and `bb->last_used= ff->use` when that reached 0. -/
def released (ff : BWFile) (a : Nat) : List BWBlock :=
  modify_at a
    (fun b => if b.ref - 1 = 0 then { b with ref := b.ref - 1, last_used := ff.use }
              else { b with ref := b.ref - 1 })
    ff.cache

/-- States reached from `s0` by calls of `bwfile_get` (with a decoder satisfying
`P`; the stream may change between calls), `bwfile_free` on a cached block whose
reference count is at least 1, and `bwfile_check_eof`. -/
inductive Reach (P : Decoder → Prop) (s0 : BWFile) : BWFile → Prop
  | start : Reach P s0 s0
  | get (s : BWFile) (d : Decoder) (num : Int) :
      Reach P s0 s → P d → Reach P s0 (bwfile_get d s num).1
  | free (s : BWFile) (a : Nat) (bb : BWBlock) :
      Reach P s0 s → deref s.cache a = some bb → 1 ≤ bb.ref → Reach P s0 (bwfile_free s a)
  | check_eof (s : BWFile) : Reach P s0 s → Reach P s0 (bwfile_check_eof s)

/-- Reference counts are never negative and the unreferenced blocks are within the limit. -/
def RefInv (s : BWFile) : Prop :=
  (∀ b ∈ s.cache, 0 ≤ b.ref) ∧ (unref_count s.cache : Int) ≤ s.max_unref

/-- A ten-frame, two-channel stream with a sync error at frame 3 (used in examples). -/
def demo_stream : List Frame :=
  [([0, 100], false), ([1, 101], false), ([2, 102], false), ([3, 103], true),
   ([4, 104], false), ([5, 105], false), ([6, 106], false), ([7, 107], false),
   ([8, 108], false), ([9, 109], false)]

/-- Decoder of `demo_stream` in blocks of 4. -/
def demo_read : Decoder := stream_read 4 demo_stream

/-- A one-channel stream of `2^31` frames, all zero: one frame more than the largest
`int`. -/
def long_stream : List Frame := List.replicate 2147483648 ([0], false)

/-- A freshly opened store on `demo_stream`: block size 4, no unreferenced blocks kept. -/
def demo_open : BWFile := bwfile_open 2 0 4 0

/-- The store on `demo_stream` after the whole stream has been scanned by a request for
block 2: that block (2 frames) is cached at address 0 and end-of-file has been hit. -/
def demo_eof : BWFile := (bwfile_get demo_read demo_open 2).1

/-- A store keeping one unreferenced block, holding blocks 1 and 0 of `demo_stream`,
block 0 already released. -/
def demo_two : BWFile :=
  bwfile_free (bwfile_get demo_read (bwfile_get demo_read (bwfile_open 2 0 4 1) 0).1 1).1 0

/-- Block 1 of `demo_stream` as it sits in the cache of `demo_two` (address 1, one reference). -/
def demo_blk1 : BWBlock :=
  { addr := 1, num := 1, ref := 1, last_used := 0, len := 4,
    chan := [[4, 5, 6, 7], [104, 105, 106, 107]], err := [false, false, false, false] }

/-- Cached addresses are pairwise distinct and were all handed out by `Alloc`. -/
def AddrInv (s : BWFile) : Prop :=
  (s.cache.map (fun b => b.addr)).Nodup ∧ ∀ b ∈ s.cache, b.addr < s.brk

/-- Two block records that differ at most in `ref` and `last_used`. -/
def SameData (b b0 : BWBlock) : Prop :=
  b.addr = b0.addr ∧ b.num = b0.num ∧ b.len = b0.len ∧ b.chan = b0.chan ∧ b.err = b0.err

/-- The block at address `a`, if still cached, carries the sentinel number. -/
def SentInv (a : Nat) (s : BWFile) : Prop :=
  a < s.brk ∧ ∀ b ∈ s.cache, b.addr = a → b.num = -999

/-- The block `b` holds what the read `r` produced: its `len` is the number of frames,
and below that index its error flags and the samples of each channel are those of `r`. -/
def Decoded (r : ReadResult) (b : BWBlock) : Prop :=
  b.len = r.len ∧
  b.err.take r.frames.length = r.frames.map (fun f => f.2) ∧
  b.chan.map (List.take r.frames.length) =
    (List.range' 0 b.chan.length).map (fun c => r.frames.map (fun f => f.1.getD c 0))

/-- The position array covers the recorded blocks. -/
def Wf (s : BWFile) : Prop := 0 ≤ s.n_blk ∧ s.n_blk.toNat ≤ s.blk.length

/-- From `s` to `s2` no recorded block is forgotten and no recorded position changes. -/
def Grows (s s2 : BWFile) : Prop :=
  s.n_blk ≤ s2.n_blk ∧ ∀ i, i < s.n_blk.toNat → s2.blk.getD i 0 = s.blk.getD i 0

/-- When `eof` is set it was raised by the read of the last recorded block: that read
started at `pos`, which is the last recorded position, and `len` was computed from it. -/
def EofInv (d : Decoder) (s : BWFile) : Prop :=
  s.eof = true →
    1 ≤ s.n_blk ∧ s.pos = s.blk.getD (s.n_blk - 1).toNat 0 ∧ (d s.pos).eof = true ∧
    s.len = to_int ((s.n_blk - 1) * s.bsiz + (d s.pos).len)

/-- Invariant of the store under a fixed decoder `d`: the recorded positions cover the
blocks `0 .. n_blk-1`, `EofInv`, and every cached block is numbered below `n_blk`, has
one buffer per channel and, unless it carries a negative number, holds what `d` decodes
at its recorded position. -/
def StoreInv (d : Decoder) (s : BWFile) : Prop :=
  Wf s ∧ EofInv d s ∧
  ∀ b ∈ s.cache, b.num < s.n_blk ∧ b.chan.length = s.chan.toNat ∧
    (0 ≤ b.num → Decoded (d (s.blk.getD b.num.toNat 0)) b)

/-- Blocks `b1` and `b2` have the same `len` and, at every index below it, the same
error flags and the same samples in every channel. -/
def same_content (b1 b2 : BWBlock) : Prop :=
  b2.len = b1.len ∧ b2.err.take b1.len.toNat = b1.err.take b1.len.toNat ∧
  b2.chan.map (List.take b1.len.toNat) = b1.chan.map (List.take b1.len.toNat)

/-- Invariant of a store reading a stream of `T` frames through `stream_read bsiz`
(positions count frames): block `i` is recorded at `i * bsiz`; while end-of-file has not
been hit, `pos` is the start of block `n_blk` and lies within the stream; once it has
been hit, `pos` is the start of the last recorded block, fewer than `bsiz` frames follow
it, and `len` is `T` stored in an `int`. -/
def PosInv (bsiz : Int) (T : Nat) (s : BWFile) : Prop :=
  s.bsiz = bsiz ∧ Wf s ∧
  (∀ i, i < s.n_blk.toNat → s.blk.getD i 0 = i * bsiz.toNat) ∧
  (s.eof = false → s.pos = s.n_blk.toNat * bsiz.toNat ∧ s.pos ≤ T) ∧
  (s.eof = true → 1 ≤ s.n_blk ∧ s.pos + bsiz.toNat = s.n_blk.toNat * bsiz.toNat ∧
    s.pos ≤ T ∧ T < s.pos + bsiz.toNat ∧ s.len = to_int T)

/-! ## The analysis object of `analysis.c` : the part that drives the store -/

/-- A floating-point value held in a result or work array: NaN, a number (carried on the
same scale as `Sample`), `HUGE_VAL` or `-HUGE_VAL`. -/
inductive FV where
  | nan : FV
  | val (x : Sample) : FV
  | pinf : FV
  | ninf : FV
deriving DecidableEq, Repr

/-- `struct BWSetup`. -/
structure BWSetup where
  typ : Int
  off : Int
  chan : Int
  tbase : Int
  sx : Int
  sy : Int
  freq0 : Sample
  freq1 : Sample
  wwrat : Sample
deriving DecidableEq, Repr

/-- `struct BWAnal` (without the FFTW plans and the `wav`, `tmp`, `out` work arrays).
`blk` holds block pointers, `none` being the null pointer. -/
structure BWAnal where
  file : BWFile
  blk : List (Option Nat)
  n_blk : Int
  bsiz : Int
  bnum : Int
  half : Int
  inp_siz : Int
  inp : List FV
  n_chan : Int
  rate : Sample
  c : BWSetup
  sig : List FV
  sig0 : List FV
  sig1 : List FV
  mag : List FV
  est : List FV
  freq : List FV
  wwid : List FV
  awwid : List Int
  fftp : List Int
  iir : List FV
  yy : Int
  sig_wind : Int
  req : BWSetup
deriving DecidableEq, Repr

/-- The loop of `bwanal_recheck_file` over the slots of `aa->blk`: a held block whose
number is negative is released and its slot cleared.  (A pointer to a block that is not
live is outside the model; the slot is kept.) -/
def drop_stale : BWFile → List (Option Nat) → BWFile × List (Option Nat)
  | ff, [] => (ff, [])
  | ff, none :: rest =>
      let r := drop_stale ff rest
      (r.1, none :: r.2)
  | ff, some a :: rest =>
      match deref ff.cache a with
      | some bb =>
          if bb.num < 0 then
            let r := drop_stale (bwfile_free ff a) rest
            (r.1, none :: r.2)
          else
            let r := drop_stale ff rest
            (r.1, some a :: r.2)
      | none =>
          let r := drop_stale ff rest
          (r.1, some a :: r.2)

/-- `bwanal_recheck_file`. -/
def bwanal_recheck_file (aa : BWAnal) : BWAnal :=
  let ff := bwfile_check_eof aa.file
  let r := drop_stale ff (aa.blk.take aa.n_blk.toNat)
  { aa with file := r.1, blk := r.2 ++ aa.blk.drop aa.n_blk.toNat }

/-- The scan loop of `bwanal_length`, `while (!ff->eof) { ... }`, run for at most `fuel`
evaluations of the loop condition; the flag tells whether the loop was left. -/
def length_scan (d : Decoder) : Nat → BWFile → BWFile × Bool
  | 0, ff => (ff, false)
  | fuel + 1, ff =>
      if ff.eof then (ff, true)
      else
        match bwfile_get d ff ff.n_blk with
        | (ff1, none) => (ff1, true)
        | (ff1, some a) => length_scan d fuel (bwfile_free ff1 a)

/-- Outcome of `bwanal_length`: the returned length, the fatal `error("Internal error in
bwanal_length()")`, or the scan loop still running when the fuel ran out. -/
inductive LenResult where
  | value (len : Int) : LenResult
  | fatal : LenResult
  | running : LenResult
deriving DecidableEq, Repr

/-- `bwanal_length`. -/
def bwanal_length (d : Decoder) (fuel : Nat) (aa : BWAnal) : BWAnal × LenResult :=
  let aa1 := bwanal_recheck_file aa
  let r := length_scan d fuel aa1.file
  let aa2 := { aa1 with file := r.1 }
  if r.2 = false then (aa2, LenResult.running)
  else if r.1.eof = false ∨ r.1.len < 0 then (aa2, LenResult.fatal)
  else (aa2, LenResult.value r.1.len)

/-- The position reached from `p` by decoding `k` blocks one after the other. -/
def seek (d : Decoder) (p : Nat) : Nat → Nat
  | 0 => p
  | k + 1 => (d (seek d p k)).pos

/-- Decoder-independent part of the store invariant. -/
def NumInv (s : BWFile) : Prop :=
  Wf s ∧ ∀ b ∈ s.cache, b.num < s.n_blk

/-- An analysis object on `demo_stream` with nothing loaded yet (block size 4). -/
def demo_anal : BWAnal :=
  { file := demo_open, blk := [], n_blk := 0, bsiz := 4, bnum := 0, half := 0,
    inp_siz := 0, inp := [], n_chan := 2, rate := 256,
    c := { typ := 0, off := 0, chan := 0, tbase := 0, sx := 0, sy := 0,
           freq0 := 0, freq1 := 0, wwrat := 0 },
    sig := [], sig0 := [], sig1 := [], mag := [], est := [], freq := [], wwid := [],
    awwid := [], fftp := [], iir := [], yy := 0, sig_wind := 0,
    req := { typ := 0, off := 0, chan := 0, tbase := 1, sx := 1, sy := 1,
             freq0 := 128, freq1 := 64, wwrat := 1 } }

/-- An analysis object whose store has hit end-of-file on `demo_stream` (three blocks
recorded, the last one cached and referenced). -/
def demo_anal_eof : BWAnal := { demo_anal with file := demo_eof }

/-! ## The analysis engine of `analysis.c`

Floating-point arithmetic (`exp`, `log`, `sin`, `cos`, `hypot`, the FFTW transforms and the
casts from `double` to `int`) is not computed: it is supplied by a record of functions,
`Fp`.  Integer arithmetic, array indexing, block handling and control flow follow the
source. -/

/-- The floating-point operations used by the engine, as functions of what the source
computes them from. -/
structure Fp where
  /-- `aa->freq[a]= exp(log0 + (a + 0.5)/sy * (log1-log0))` -/
  freq : BWSetup → Int → FV
  /-- `aa->wwid[a]= (aa->rate / aa->freq[a]) * aa->c.wwrat`, from rate, `freq[a]`, `wwrat` -/
  wwid : Sample → FV → Sample → FV
  /-- the cast `(int)x` -/
  trunc : FV → Int
  /-- `floor(x * 0.5)` -/
  floor_half : FV → Int
  /-- the three biquad coefficients of a row, from the analysis type and `wwid[a]` -/
  iir_coef : Int → FV → FV × FV × FV
  /-- `(int)(1 + 2 * k / freq)` of the biquad path, from the analysis type and `wwid[a]` -/
  iir_siz : Int → FV → Int
  /-- magnitude of column `b` of the current row on the biquad path, from the engine
  state and the copied samples -/
  iir_mag : BWAnal → List FV → Nat → FV
  /-- `rfftw_one` of the copied input segment -/
  rfft : BWAnal → List FV → List FV
  /-- magnitude of column `a` of the current row on the wavelet path -/
  fft_mag : BWAnal → Nat → FV
  /-- frequency estimate of an inner column `a` of the current row on the wavelet path -/
  fft_est : BWAnal → Nat → FV
  /-- the windowed samples of preview mode, from the state, `xx`, `yy` and the samples -/
  win_tmp : BWAnal → Int → Int → List FV → List FV
  /-- the window shape stored in `sig` in preview mode -/
  win_sig : BWAnal → Int → Int → List FV → List FV

/-- `PLAN_SIZE(n)`, `((n)/3%2 ? 3 : 2) << ((n)/6)` (a negative shift count, undefined in C,
shifts by 0 here). -/
def PLAN_SIZE (n : Int) : Int :=
  (if (n.tdiv 3).tmod 2 ≠ 0 then 3 else 2) * 2 ^ (n.tdiv 6).toNat

/-- The loop `for (c= siz, b= -1; c; c>>=1) b++;` from the state `(c, b)`, for at most
`fuel` turns. -/
def shift_count : Nat → Int → Int → Int
  | 0, _, b => b
  | k + 1, c, b => if c ≠ 0 then shift_count k (c / 2) (b + 1) else b

/-- The loop `while (PLAN_SIZE(b-1) > siz) b--;`, for at most `fuel` turns. -/
def plan_shrink : Nat → Int → Int → Int
  | 0, _, b => b
  | k + 1, siz, b => if PLAN_SIZE (b - 1) > siz then plan_shrink k siz (b - 1) else b

/-- The plan index `b` chosen by `bwanal_start` for the required size `siz`; `none` is the
fatal `error("Internal error -- plan size calculation failed")`. -/
def plan_index (siz : Int) : Option Int :=
  let b := shift_count 64 siz (-1) * 6
  if PLAN_SIZE b < siz then none else some (plan_shrink 64 siz b)

/-- `recreate_arrays`: every result array is allocated afresh (zero-filled). -/
def recreate_arrays (aa : BWAnal) : BWAnal :=
  { aa with
    sig := List.replicate aa.c.sx.toNat (FV.val 0),
    sig0 := List.replicate aa.c.sx.toNat (FV.val 0),
    sig1 := List.replicate aa.c.sx.toNat (FV.val 0),
    mag := List.replicate (aa.c.sx * aa.c.sy).toNat (FV.val 0),
    est := List.replicate (aa.c.sx * aa.c.sy).toNat (FV.val 0),
    freq := List.replicate aa.c.sy.toNat (FV.val 0),
    wwid := List.replicate aa.c.sy.toNat (FV.val 0),
    awwid := List.replicate aa.c.sy.toNat 0,
    fftp := List.replicate aa.c.sy.toNat 0,
    iir := List.replicate (aa.c.sy * 3).toNat (FV.val 0) }

/-- First loop of `load_data`: the held blocks outside `[blk0, blk1)` are released and
their slots cleared; `num` is the block number of the first slot of the list. -/
def release_outside (blk0 blk1 : Int) : BWFile → List (Option Nat) → Int → BWFile × List (Option Nat)
  | ff, [], _ => (ff, [])
  | ff, slot :: rest, num =>
      if num < blk0 ∨ num ≥ blk1 then
        let ff1 := match slot with
          | some a => bwfile_free ff a
          | none => ff
        let r := release_outside blk0 blk1 ff1 rest (num + 1)
        (r.1, none :: r.2)
      else
        let r := release_outside blk0 blk1 ff rest (num + 1)
        (r.1, slot :: r.2)

/-- Second loop of `load_data`: `blk[a]= bwfile_get(aa->file, blk0+a)` for `cnt` slots. -/
def load_blocks (d : Decoder) : Nat → BWFile → Int → BWFile × List (Option Nat)
  | 0, ff, _ => (ff, [])
  | cnt + 1, ff, num =>
      let g := bwfile_get d ff num
      let r := load_blocks d cnt g.1 (num + 1)
      (r.1, g.2 :: r.2)

/-- Third loop of `load_data`: every block still held in the previous set is released. -/
def release_all : BWFile → List (Option Nat) → BWFile
  | ff, [] => ff
  | ff, some a :: rest => release_all (bwfile_free ff a) rest
  | ff, none :: rest => release_all ff rest

/-- `load_data`. -/
def load_data (d : Decoder) (aa : BWAnal) (siz : Int) : BWAnal :=
  let len := aa.c.sx * aa.c.tbase
  let off := aa.c.off + len.tdiv 2
  let off0 := off - siz.tdiv 2 - 1
  let off1 := if aa.half ≠ 0 then off + len.tdiv 2 + 1 else off + siz.tdiv 2 + 1
  let blk0 := if off0 < 0 then 0 else off0.tdiv aa.bsiz
  let blk1 := (off1 + aa.bsiz - 1).tdiv aa.bsiz
  let n_blk := blk1 - blk0
  let r1 := release_outside blk0 blk1 aa.file (aa.blk.take aa.n_blk.toNat) aa.bnum
  let r2 := load_blocks d n_blk.toNat r1.1 blk0
  let f3 := release_all r2.1 r1.2
  { aa with file := f3, blk := r2.2, n_blk := n_blk, bnum := blk0 }

/-- The value `copy_samples` stores for index `j` of block `b`. -/
def sample_at (b : BWBlock) (chan : Int) (errors : Bool) (j : Nat) : FV :=
  if errors ∧ b.err.getD j false = true then FV.nan
  else FV.val ((b.chan.getD chan.toNat []).getD j 0)

/-- The main loop of `copy_samples`, one turn per touched block; `none` is the fatal
`error("Internal error -- block not loaded")` (or a loop that cannot finish, for a block
size that is not positive).  A slot holding a pointer to a block that is not live is read
as a null slot. -/
def copy_main (aa : BWAnal) (chan : Int) (errors : Bool) : Nat → Int → Int → Option (List FV)
  | 0, _, len => if len > 0 then none else some []
  | k + 1, off, len =>
      if len > 0 then
        let num := off.tdiv aa.bsiz
        let boff := off - aa.bsiz * num
        let slot := num - aa.bnum
        if slot < 0 ∨ slot ≥ aa.n_blk then none
        else
          let bb := (aa.blk.getD slot.toNat none).bind (deref aa.file.cache)
          let cnt1 := match bb with
            | some b => max 0 (min len (b.len - boff))
            | none => 0
          let part1 := match bb with
            | some b => (List.range cnt1.toNat).map (fun i => sample_at b chan errors (boff.toNat + i))
            | none => []
          let cnt2 := max 0 (min (len - cnt1) (aa.bsiz - (boff + cnt1)))
          match copy_main aa chan errors k (off + cnt1 + cnt2) (len - cnt1 - cnt2) with
          | none => none
          | some rest => some (part1 ++ List.replicate cnt2.toNat (FV.val 0) ++ rest)
      else some []

/-- `copy_samples`: the `len` values written to `arr`. -/
def copy_samples (aa : BWAnal) (off chan len : Int) (errors : Bool) : Option (List FV) :=
  let cnt0 := if off < 0 ∧ len > 0 then min (-off) len else 0
  match copy_main aa chan errors ((len - cnt0).toNat + 1) (off + cnt0) (len - cnt0) with
  | none => none
  | some rest => some (List.replicate cnt0.toNat (FV.val 0) ++ rest)

/-- The comparison `x < y` of two floating-point values (false when either is NaN). -/
def FV.lt : FV → FV → Bool
  | FV.val x, FV.val y => decide (x < y)
  | FV.val _, FV.pinf => true
  | FV.ninf, FV.val _ => true
  | FV.ninf, FV.pinf => true
  | _, _ => false

/-- The inner loop of the envelope computation over the samples of one column:
`(nan, min, max)`. -/
def column_scan : List FV → Bool × FV × FV → Bool × FV × FV
  | [], st => st
  | v :: rest, (nan, mn, mx) =>
      column_scan rest
        (nan || decide (v = FV.nan), (if FV.lt v mn then v else mn), (if FV.lt mx v then v else mx))

/-- One turn of the loop "Map samples to ->sig arrays" of `bwanal_window`, for column `a`. -/
def column_step (wind : Bool) (tbase : Int) (tmp : List FV) (a : Nat) (aa : BWAnal) : BWAnal :=
  let b := (a : Int) * tbase
  let aa1 := if wind then aa
             else { aa with sig := aa.sig.set a (tmp.getD (b + tbase.tdiv 2).toNat (FV.val 0)) }
  let st := column_scan ((tmp.drop b.toNat).take tbase.toNat) (false, FV.pinf, FV.ninf)
  if st.1 then
    { aa1 with sig := aa1.sig.set a FV.nan, sig0 := aa1.sig0.set a FV.nan,
               sig1 := aa1.sig1.set a FV.nan }
  else { aa1 with sig0 := aa1.sig0.set a st.2.1, sig1 := aa1.sig1.set a st.2.2 }

/-- The loop "Map samples to ->sig arrays" of `bwanal_window` for the columns `a, a+1, ...`
(`cnt` of them). -/
def map_columns (wind : Bool) (tbase : Int) (tmp : List FV) : Nat → Nat → BWAnal → BWAnal
  | 0, _, aa => aa
  | cnt + 1, a, aa => map_columns wind tbase tmp cnt (a + 1) (column_step wind tbase tmp a aa)

/-- `bwanal_window`; `none` is a fatal error of `copy_samples`. -/
def bwanal_window (fp : Fp) (aa0 : BWAnal) (xx yy : Int) : Option BWAnal :=
  let sx := aa0.c.sx
  let tbase := aa0.c.tbase
  let len := sx * tbase
  let wind : Bool := decide (yy ≥ 0 ∧ xx ≥ 0)
  let aa := { aa0 with sig_wind := if wind then 1 else 0 }
  match copy_samples aa aa.c.off aa.c.chan len true with
  | none => none
  | some tmp0 =>
      let tmp := if wind then fp.win_tmp aa xx yy tmp0 else tmp0
      let aa1 := if wind then { aa with sig := fp.win_sig aa xx yy tmp0 } else aa
      some (map_columns wind tbase tmp sx.toNat 0 aa1)

/-- `bwanal_signal`. -/
def bwanal_signal (fp : Fp) (aa : BWAnal) : Option BWAnal :=
  bwanal_window fp aa (-1) (-1)

/-- One turn of the loop of `bwanal_start` that fills `freq`, `wwid`, `awwid`, `fftp` and
`iir` for row `a`; the result carries the new `maxsiz`; `none` is a fatal error. -/
def start_row (fp : Fp) (analtyp : Int) (aa : BWAnal) (a : Int) : Option (BWAnal × Int) :=
  let f := fp.freq aa.c a
  let w := fp.wwid aa.rate f aa.c.wwrat
  let aa1 := { aa with freq := aa.freq.set a.toNat f, wwid := aa.wwid.set a.toNat w }
  if analtyp = 0 then
    let siz := aa1.c.sx * aa1.c.tbase + fp.trunc w + 2 + 10
    if siz < 0 then none
    else
      match plan_index siz with
      | none => none
      | some b =>
          some ({ aa1 with fftp := aa1.fftp.set a.toNat b,
                           awwid := aa1.awwid.set a.toNat (PLAN_SIZE b) }, PLAN_SIZE b)
  else
    let co := fp.iir_coef analtyp w
    let siz := fp.iir_siz analtyp w
    some ({ aa1 with iir := ((aa1.iir.set (a * 3).toNat co.1).set (a * 3 + 1).toNat co.2.1).set
                              (a * 3 + 2).toNat co.2.2,
                     awwid := aa1.awwid.set a.toNat siz }, siz + aa1.c.sx * aa1.c.tbase)

/-- The row loop of `bwanal_start`, `for (a= 0; a<sy; a++)`, for `cnt` more rows from
row `a`. -/
def start_rows (fp : Fp) (analtyp : Int) : Nat → Int → BWAnal → Int → Option (BWAnal × Int)
  | 0, _, aa, maxsiz => some (aa, maxsiz)
  | cnt + 1, a, aa, _ =>
      match start_row fp analtyp aa a with
      | none => none
      | some r => start_rows fp analtyp cnt (a + 1) r.1 r.2

/-- `bwanal_start`; `none` is one of its fatal errors. -/
def bwanal_start (fp : Fp) (d : Decoder) (aa0 : BWAnal) : Option BWAnal :=
  let x := aa0.c
  let y := aa0.req
  let aa1 := { aa0 with c := aa0.req, inp := [] }
  let aa2 := if x.sx ≠ y.sx ∨ x.sy ≠ y.sy then recreate_arrays aa1 else aa1
  let analtyp := aa2.c.typ
  if analtyp < 0 ∨ analtyp > 2 then none
  else
    let aa3 := { aa2 with half := if analtyp ≠ 0 then 1 else 0 }
    match start_rows fp analtyp aa3.c.sy.toNat 0 aa3 0 with
    | none => none
    | some r =>
        let aa4 := load_data d r.1 r.2
        match bwanal_signal fp aa4 with
        | none => none
        | some aa5 =>
            let aa6 := if analtyp = 0
                       then { aa5 with inp := List.replicate r.2.toNat (FV.val 0), inp_siz := 0 }
                       else aa5
            some { aa6 with yy := 0 }

/-- Storing the values `vals` at `arr[bas]`, `arr[bas+1]`, ... -/
def write_row (arr : List FV) (bas : Int) : List FV → List FV
  | [] => arr
  | v :: rest => write_row (arr.set bas.toNat v) (bas + 1) rest

/-- `bwanal_calc`: the new state and the return value; `none` is a fatal error of
`copy_samples`. -/
def bwanal_calc (fp : Fp) (aa : BWAnal) : Option (BWAnal × Int) :=
  let yy := aa.yy
  if yy ≥ aa.c.sy then some (aa, 0)
  else
    let bas := yy * aa.c.sx
    let sx := aa.c.sx
    let tbase := aa.c.tbase
    if aa.c.typ ≠ 0 then
      let siz := aa.awwid.getD yy.toNat 0
      let start := siz.tdiv 2
      match copy_samples aa (aa.c.off - start) aa.c.chan (start + sx * tbase) false with
      | none => none
      | some tmp =>
          let mag := write_row aa.mag bas ((List.range sx.toNat).map (fun (b : Nat) => fp.iir_mag aa tmp b))
          let est := write_row aa.est bas (List.replicate sx.toNat (FV.val 0))
          some ({ aa with mag := mag, est := est, yy := yy + 1 },
                if yy + 1 < aa.c.sy then 1 else 0)
    else
      let pl := aa.fftp.getD yy.toNat 0
      let siz := PLAN_SIZE pl
      let siz2 := siz.tdiv 2
      let inp := if siz ≠ aa.inp_siz then
          match copy_samples aa (aa.c.off + (sx * tbase).tdiv 2 - siz2) aa.c.chan siz false with
          | none => none
          | some tmp => some (fp.rfft aa tmp)
        else some aa.inp
      match inp with
      | none => none
      | some v =>
          let aa1 := { aa with inp := v, inp_siz := siz }
          let mag := write_row aa.mag bas ((List.range sx.toNat).map (fun (a : Nat) => fp.fft_mag aa1 a))
          let est := write_row aa.est bas ((List.range sx.toNat).map (fun (a : Nat) =>
            if (a : Int) - 1 < 0 ∨ (a : Int) + 1 ≥ sx then FV.nan else fp.fft_est aa1 a))
          some ({ aa1 with mag := mag, est := est, yy := yy + 1 },
                if yy + 1 < aa.c.sy then 1 else 0)

/-- `k` successive calls of `bwanal_calc`: the final state and the return values, in
order; `none` when one of the calls ends in a fatal error. -/
def calc_run (fp : Fp) : Nat → BWAnal → Option (BWAnal × List Int)
  | 0, aa => some (aa, [])
  | k + 1, aa =>
      match calc_run fp k aa with
      | none => none
      | some r =>
          match bwanal_calc fp r.1 with
          | none => none
          | some r2 => some (r2.1, r.2 ++ [r2.2])

/-- Floating-point operations standing in for the real ones in examples: every result
is the number of its column or row. -/
def demo_fp : Fp :=
  { freq := fun _ a => FV.val a,
    wwid := fun _ _ _ => FV.val 4,
    trunc := fun _ => 4,
    floor_half := fun _ => 2,
    iir_coef := fun _ _ => (FV.val 1, FV.val 0, FV.val 0),
    iir_siz := fun _ _ => 5,
    iir_mag := fun _ _ b => FV.val b,
    rfft := fun _ tmp => tmp,
    fft_mag := fun _ a => FV.val a,
    fft_est := fun _ a => FV.val a,
    win_tmp := fun _ _ _ tmp => tmp,
    win_sig := fun _ _ _ tmp => tmp }

/-- `demo_anal` with a request for a 3-column, 2-row wavelet analysis, two samples per
column. -/
def demo_req : BWAnal :=
  { demo_anal with req := { typ := 0, off := 0, chan := 0, tbase := 2, sx := 3, sy := 2,
                            freq0 := 128, freq1 := 64, wwrat := 1 } }

/-- The engine after `bwanal_start` on `demo_req`. -/
def demo_started : BWAnal := (bwanal_start demo_fp demo_read demo_req).getD demo_req


/-! ## Further objects used in examples -/

/-- The engine `demo_started` after both rows have been computed, with a request for a
biquad (type 1) analysis of the same grid. -/
def demo_biquad_req : BWAnal :=
  { ((calc_run demo_fp 2 demo_started).getD (demo_started, [])).1 with
    req := { typ := 1, off := 0, chan := 0, tbase := 2, sx := 3, sy := 2,
             freq0 := 128, freq1 := 64, wwrat := 1 } }

/-- The engine after `bwanal_start` on `demo_biquad_req`. -/
def demo_biquad : BWAnal :=
  (bwanal_start demo_fp demo_read demo_biquad_req).getD demo_biquad_req

/-- The engine `demo_anal` with a request for a 4-column, 2-row wavelet analysis, two samples
per column: with `demo_fp` the required size of each row is `4*2 + 4 + 12 = 24`. -/
def demo_wide : BWAnal :=
  { demo_anal with req := { typ := 0, off := 0, chan := 0, tbase := 2, sx := 4, sy := 2,
                            freq0 := 128, freq1 := 64, wwrat := 1 } }

/-- The engine after `bwanal_start` on `demo_wide`. -/
def demo_wide_started : BWAnal := (bwanal_start demo_fp demo_read demo_wide).getD demo_wide

/-- Floating-point operations standing in for the real ones in examples, with a window that
widens from row to row: `(int)wwid[a]` is `8 * a`. -/
def demo_fp_rows : Fp :=
  { demo_fp with
    wwid := fun _ f _ => f,
    trunc := fun w => match w with
      | FV.val x => 8 * x
      | _ => 0 }

/-- The engine after `bwanal_start` on `demo_req` with the operations `demo_fp_rows`. -/
def demo_rows_started : BWAnal := (bwanal_start demo_fp_rows demo_read demo_req).getD demo_req

/-! ## The row loop of `bwanal_start` -/

/-- The value `aa->wwid[a]` as the row loop of `bwanal_start` computes it from the set-up `c`
and the sample rate. -/
def row_wwid (fp : Fp) (rate : Sample) (c : BWSetup) (a : Int) : FV :=
  fp.wwid rate (fp.freq c a) c.wwrat

/-- The required size `siz` of row `a` in the wavelet path of `bwanal_start`,
`sx * tbase + (int)wwid[a] + 2 + 10`. -/
def row_siz (fp : Fp) (rate : Sample) (c : BWSetup) (a : Int) : Int :=
  c.sx * c.tbase + fp.trunc (row_wwid fp rate c a) + 2 + 10

/-- The transform sizes of the plan array, 2, 3, 4, 6, 8, 12, 16, 24, ...: twice or three
times a power of 2. -/
def IsPlanSize (s : Int) : Prop := ∃ k : Nat, s = 2 * 2 ^ k ∨ s = 3 * 2 ^ k

/-- The result arrays have the sizes `recreate_arrays` gives them for the current set-up. -/
def ArrOk (aa : BWAnal) : Prop :=
  aa.sig.length = aa.c.sx.toNat ∧ aa.sig0.length = aa.c.sx.toNat ∧
  aa.sig1.length = aa.c.sx.toNat ∧
  aa.mag.length = (aa.c.sx * aa.c.sy).toNat ∧ aa.est.length = (aa.c.sx * aa.c.sy).toNat ∧
  aa.freq.length = aa.c.sy.toNat ∧ aa.wwid.length = aa.c.sy.toNat ∧
  aa.awwid.length = aa.c.sy.toNat ∧ aa.fftp.length = aa.c.sy.toNat ∧
  aa.iir.length = (aa.c.sy * 3).toNat

/-- From `aa` to `aa2` at most the per-row arrays `freq`, `wwid`, `awwid`, `fftp` and `iir`
have changed, and their lengths have not. -/
def RowsOnly (aa aa2 : BWAnal) : Prop :=
  (aa2.c = aa.c ∧ aa2.rate = aa.rate ∧ aa2.bsiz = aa.bsiz ∧ aa2.half = aa.half ∧
    aa2.file = aa.file ∧ aa2.blk = aa.blk ∧ aa2.n_blk = aa.n_blk ∧ aa2.bnum = aa.bnum ∧
    aa2.sig = aa.sig ∧ aa2.sig0 = aa.sig0 ∧ aa2.sig1 = aa.sig1 ∧
    aa2.mag = aa.mag ∧ aa2.est = aa.est) ∧
  (aa2.awwid.length = aa.awwid.length ∧ aa2.fftp.length = aa.fftp.length ∧
    aa2.freq.length = aa.freq.length ∧ aa2.wwid.length = aa.wwid.length ∧
    aa2.iir.length = aa.iir.length)

/-- The first statements of `bwanal_start`: the request becomes the current set-up, the FFT
arrays are released, the result arrays are recreated if the grid size has changed, and
`half` is set from the analysis type. -/
def start_prep (aa0 : BWAnal) : BWAnal :=
  let aa1 := { aa0 with c := aa0.req, inp := [] }
  let aa2 := if aa0.c.sx ≠ aa0.req.sx ∨ aa0.c.sy ≠ aa0.req.sy then recreate_arrays aa1 else aa1
  { aa2 with half := if aa2.c.typ ≠ 0 then 1 else 0 }

/-- The last statements of `bwanal_start`: the FFT arrays are allocated for `maxsiz` in the
wavelet path, and `yy` is reset. -/
def start_finish (typ : Int) (aa5 : BWAnal) (maxsiz : Int) : BWAnal :=
  let aa6 := if typ = 0
             then { aa5 with inp := List.replicate maxsiz.toNat (FV.val 0), inp_siz := 0 }
             else aa5
  { aa6 with yy := 0 }

/-- The Blackman window weight `0.42 + 0.5 * cos(ang) + 0.08 * cos(2*ang)`. -/
noncomputable def blackman (ang : ℝ) : ℝ :=
  0.42 + 0.5 * Real.cos ang + 0.08 * Real.cos (2 * ang)

/-- The variable `wadj` after the turns `a = 1 .. n` of the loop that builds the window and
carrier: `wadj= 1.0` before the loop and `wadj += 2 * mag` in each turn, where `mag` is the
Blackman weight at `ang= a/wwid * (M_PI * 1.0)`. -/
noncomputable def wadj_loop (wwid : ℝ) : Nat → ℝ
  | 0 => 1.0
  | n + 1 => wadj_loop wwid n + 2 * blackman (((n + 1 : Nat) : ℝ) / wwid * (Real.pi * 1.0))

/-- The function `hypot(x, y)`. -/
noncomputable def hypot (x y : ℝ) : ℝ := Real.sqrt (x ^ 2 + y ^ 2)

/-- The magnitude `hypot(p[0], p[1]) * adj` stored by the wavelet path for an output sample
`(p0, p1)`, where `adj= 2.0 / siz / wadj`, `siz= PLAN_SIZE(pl)`, `wwid= aa->wwid[yy] * 0.5`,
`wid= floor(wwid)`, and `wadj` results from the turns `a = 1 .. wid` of the loop; `w` is
`aa->wwid[yy]`. -/
noncomputable def wavelet_mag (p0 p1 : ℝ) (pl : Int) (w : ℝ) : ℝ :=
  hypot p0 p1 * (2.0 / ((PLAN_SIZE pl : Int) : ℝ) / wadj_loop (w * 0.5) (⌊w * 0.5⌋).toNat)

/-- The magnitude `hypot(cc, ss)` stored by the biquad path for the filter outputs `cc`
and `ss`. -/
noncomputable def biquad_mag (cc ss : ℝ) : ℝ := hypot cc ss


/-! ## The numbers of the cached blocks -/

/-- The recorded positions cover the recorded blocks, every cached block carries the sentinel
number -999 or the number of a recorded block, and no two cached blocks share a number other
than the sentinel. -/
def NumsOk (s : BWFile) : Prop :=
  Wf s ∧ (∀ b ∈ s.cache, b.num = -999 ∨ (0 ≤ b.num ∧ b.num < s.n_blk)) ∧
  s.cache.Pairwise (fun b c => b.num = c.num → b.num = -999)

/-- States reached from `s0` by any calls of `bwfile_get` (with any decoder; the stream may
change between calls), `bwfile_free` and `bwfile_check_eof`. -/
inductive Ops (s0 : BWFile) : BWFile → Prop
  | start : Ops s0 s0
  | get (s : BWFile) (d : Decoder) (num : Int) : Ops s0 s → Ops s0 (bwfile_get d s num).1
  | free (s : BWFile) (a : Nat) : Ops s0 s → Ops s0 (bwfile_free s a)
  | check_eof (s : BWFile) : Ops s0 s → Ops s0 (bwfile_check_eof s)



/-! ## The blocks held by the analysis object -/

/-- The pointers held in a list of slots of `aa->blk`, each with the block number its slot
stands for; `num` is the number of the first slot. -/
def holders : List (Option Nat) → Int → List (Nat × Int)
  | [], _ => []
  | none :: rest, num => holders rest (num + 1)
  | some a :: rest, num => (a, num) :: holders rest (num + 1)

/-- The number a block numbered `m` carries after `bwfile_check_eof` has marked the blocks
numbered `n` and above as unusable. -/
def renumber (n m : Int) : Int := if m ≥ n then -999 else m

/-- The reference counts of a store that keeps no unreferenced block agree with a list `H` of
held pointers: every held pointer designates a cached block carrying the number it is held
for, and the reference count of every cached block is the number of times its address is
held, which is at least 1. -/
def RefCnt (ff : BWFile) (H : List (Nat × Int)) : Prop :=
  ff.max_unref = 0 ∧ AddrInv ff ∧
  (∀ h ∈ H, ∃ b ∈ ff.cache, b.addr = h.1 ∧ b.num = h.2) ∧
  (∀ b ∈ ff.cache, 1 ≤ b.ref ∧ b.ref = (((H.map Prod.fst).count b.addr : Nat) : Int))

/-- The reference counts of the store agree with the pointers in the slots
`aa->blk[0 .. n_blk-1]`, slot `a` standing for block `bnum + a`. -/
def HeldInv (aa : BWAnal) : Prop :=
  1 ≤ aa.bsiz ∧ 0 ≤ aa.bnum ∧ RefCnt aa.file (holders (aa.blk.take aa.n_blk.toNat) aa.bnum)

/-- Every cached block has reference count 1 and is held in exactly one of the slots
`aa->blk[0 .. n_blk-1]`, and every such slot that is not null holds a cached block whose
number is `bnum + a`, which is not negative. -/
def Held (aa : BWAnal) : Prop :=
  (∀ b ∈ aa.file.cache, b.ref = 1 ∧
    ∃! i : Nat, (i : Int) < aa.n_blk ∧ aa.blk.getD i none = some b.addr) ∧
  (∀ (i a : Nat), (i : Int) < aa.n_blk → aa.blk.getD i none = some a →
    ∃ b ∈ aa.file.cache, b.addr = a ∧ b.num = aa.bnum + i ∧ 0 ≤ b.num) ∧
  (∀ b ∈ aa.file.cache, b.ref ≠ 0)

/-- `bwanal_new`: the object is zero-filled by `ALLOC`, the block size is 1024, the store is
opened keeping no unreferenced block, and the request gets "a few safe values"; the number of
channels, the position after the header and the sample rate come from the format set-up
code of `bwfile_open`. -/
def bwanal_new (chan : Int) (pos0 : Nat) (rate : Sample) : BWAnal :=
  { file := bwfile_open chan pos0 1024 0, blk := [], n_blk := 0, bsiz := 1024, bnum := 0,
    half := 0, inp_siz := 0, inp := [], n_chan := chan, rate := rate,
    c := { typ := 0, off := 0, chan := 0, tbase := 0, sx := 0, sy := 0,
           freq0 := 0, freq1 := 0, wwrat := 0 },
    sig := [], sig0 := [], sig1 := [], mag := [], est := [], freq := [], wwid := [],
    awwid := [], fftp := [], iir := [], yy := 0, sig_wind := 0,
    req := { typ := 0, off := 0, chan := 0, tbase := 1, sx := 1, sy := 1,
             freq0 := rate / 2, freq1 := rate / 4, wwrat := 1 } }

/-- The states of an analysis object `aa0` (with the operations `fp`) driven by its caller:
the caller writes a request into `aa->req` and calls `bwanal_start`, `bwanal_calc`,
`bwanal_window` (so also `bwanal_signal`), `bwanal_recheck_file` and `bwanal_length`; only
calls that return are followed, and the stream may change between calls. -/
inductive Driven (fp : Fp) (aa0 : BWAnal) : BWAnal → Prop
  | made : Driven fp aa0 aa0
  | request (aa : BWAnal) (req : BWSetup) :
      Driven fp aa0 aa → Driven fp aa0 { aa with req := req }
  | start (aa aa2 : BWAnal) (d : Decoder) :
      Driven fp aa0 aa → bwanal_start fp d aa = some aa2 → Driven fp aa0 aa2
  | row (aa : BWAnal) (r : BWAnal × Int) :
      Driven fp aa0 aa → bwanal_calc fp aa = some r → Driven fp aa0 r.1
  | window (aa aa2 : BWAnal) (xx yy : Int) :
      Driven fp aa0 aa → bwanal_window fp aa xx yy = some aa2 → Driven fp aa0 aa2
  | recheck (aa : BWAnal) : Driven fp aa0 aa → Driven fp aa0 (bwanal_recheck_file aa)
  | length (aa : BWAnal) (d : Decoder) (fuel : Nat) :
      Driven fp aa0 aa → Driven fp aa0 (bwanal_length d fuel aa).1

/-- A fresh analysis object for a two-channel stream, with a request for a 3-column, 2-row
wavelet analysis, two samples per column. -/
def demo_new_req : BWAnal :=
  { bwanal_new 2 0 256 with req := { typ := 0, off := 0, chan := 0, tbase := 2, sx := 3, sy := 2,
                                      freq0 := 128, freq1 := 64, wwrat := 1 } }

/-- The object `demo_new_req` after `bwanal_start` on `demo_stream`, read in blocks of 1024. -/
def demo_new_started : BWAnal :=
  (bwanal_start demo_fp (stream_read 1024 demo_stream) demo_new_req).getD demo_new_req



/-! ## The value of a sample position -/

/-- The value that a slot of `aa->blk` gives for index `j`: the sample `chan[chan][j]` of the
block when the slot is not null and `j` is below the block's `len`, NaN instead when `errors`
is set and the block's `err[j]` is set, and 0 when the slot is null or `j` is not below the
block's `len`. -/
def block_value (bb : Option BWBlock) (chan : Int) (errors : Bool) (j : Int) : FV :=
  match bb with
  | none => FV.val 0
  | some b =>
      if j < b.len then
        if errors = true ∧ b.err.getD j.toNat false = true then FV.nan
        else FV.val ((b.chan.getD chan.toNat []).getD j.toNat 0)
      else FV.val 0

/-- The value at sample position `p` of channel `chan`, as the blocks held in `aa->blk`
give it: 0 before the start of the stream; otherwise the value that the slot of block number
`p / bsiz` gives for the index `p mod bsiz`. -/
def sample_value (aa : BWAnal) (chan : Int) (errors : Bool) (p : Int) : FV :=
  if p < 0 then FV.val 0
  else
    block_value ((aa.blk.getD (p / aa.bsiz - aa.bnum).toNat none).bind (deref aa.file.cache))
      chan errors (p % aa.bsiz)

/-- The engine `demo_started` after its first row has been computed. -/
def demo_row1 : BWAnal := ((calc_run demo_fp 1 demo_started).getD (demo_started, [])).1



/-! ## The preview mode of `bwanal_window`

In preview mode (`xx >= 0` and `yy >= 0`) `bwanal_window` shapes the copied samples by the
analysis window of row `yy` placed at column `xx`.  Its floating-point operations are taken
from a record, `FpWin`; an arithmetic operation with a NaN operand gives NaN. -/

/-- The floating-point operations of preview mode, for operands that are not NaN. -/
structure FpWin where
  /-- the Blackman weight `0.42 + 0.5 * cos(ang) + 0.08 * cos(2*ang)` with
  `ang= dist/wwid * (M_PI * 1.0)`, `wwid= aa->wwid[yy] * 0.5`, from `aa->wwid[yy]` and `dist` -/
  weight : FV → Int → FV
  /-- the value returned by the call of `iir_step` made for index `a` in the backward loop of
  the biquad path, from the three coefficients of the row, `len`, `off` and `a` -/
  amp : FV → FV → FV → Int → Int → Int → FV
  /-- the product `x * y` -/
  mul : FV → FV → FV
  /-- the quotient `x / y` -/
  div : FV → FV → FV
  /-- `fabs(x)` -/
  abs : FV → FV

/-- The product of two floating-point values. -/
def fmul (w : FpWin) (x y : FV) : FV :=
  if x = FV.nan ∨ y = FV.nan then FV.nan else w.mul x y

/-- The quotient of two floating-point values. -/
def fdiv (w : FpWin) (x y : FV) : FV :=
  if x = FV.nan ∨ y = FV.nan then FV.nan else w.div x y

/-- The absolute value of a floating-point value. -/
def fabs (w : FpWin) (x : FV) : FV :=
  if x = FV.nan then FV.nan else w.abs x

/-- The array `tmp` after the first loop of the wavelet branch of preview mode:
`dist= abs(a-off); if (dist <= wid) tmp[a] *= mag; else tmp[a]= 0;` for `a < len`. -/
def preview_fft_tmp (w : FpWin) (wwid : FV) (wid off len : Int) (tmp : List FV) : List FV :=
  overlay
    ((List.range len.toNat).map (fun (a : Nat) =>
      if ((((a : Int) - off).natAbs : Nat) : Int) ≤ wid
      then fmul w (tmp.getD a (FV.val 0)) (w.weight wwid ((((a : Int) - off).natAbs : Nat) : Int))
      else FV.val 0))
    tmp

/-- The array `sig` after the second loop of the wavelet branch of preview mode:
`dist= abs(a*tbase + tbase/2 - off); if (dist <= wid) sig[a]= mag; else sig[a]= 0;` for
`a < sx`. -/
def preview_fft_sig (w : FpWin) (wwid : FV) (wid off tbase sx : Int) (sig : List FV) : List FV :=
  overlay
    ((List.range sx.toNat).map (fun (a : Nat) =>
      if ((((a : Int) * tbase + tbase.tdiv 2 - off).natAbs : Nat) : Int) ≤ wid
      then w.weight wwid ((((a : Int) * tbase + tbase.tdiv 2 - off).natAbs : Nat) : Int)
      else FV.val 0))
    sig

/-- The loop `for (a= len-1; a>=0; a--)` of the biquad branch of preview mode, on the state
`(tmp, sig, max)`; the first argument is the number of indices still to be handled, the next
one being `a = k`. -/
def preview_iir_loop (w : FpWin) (c0 c1 c2 : FV) (len off awid tbase : Int) :
    Nat → List FV × List FV × FV → List FV × List FV × FV
  | 0, st => st
  | k + 1, (tmp, sig, mx) =>
      if (k : Int) > off ∨ (k : Int) ≤ off - awid then
        preview_iir_loop w c0 c1 c2 len off awid tbase k (tmp.set k (FV.val 0), sig, mx)
      else
        let amp := w.amp c0 c1 c2 len off (k : Int)
        let tmp1 := tmp.set k (fmul w (tmp.getD k (FV.val 0)) amp)
        let amp1 := fabs w amp
        let mx1 := if FV.lt mx amp1 then amp1 else mx
        let idx := ((k : Int).tdiv tbase).toNat
        let sig1 := if FV.lt (sig.getD idx (FV.val 0)) amp1 then sig.set idx amp1 else sig
        preview_iir_loop w c0 c1 c2 len off awid tbase k (tmp1, sig1, mx1)

/-- The biquad branch of preview mode: the arrays `tmp` and `sig` it leaves. -/
def preview_iir (w : FpWin) (aa : BWAnal) (xx yy : Int) (tmp0 : List FV) : List FV × List FV :=
  let sx := aa.c.sx
  let tbase := aa.c.tbase
  let len := sx * tbase
  let off := xx * tbase + tbase.tdiv 2
  let awid := (aa.awwid.getD yy.toNat 0).tdiv 2
  let sig0 := overlay (List.replicate sx.toNat (FV.val 0)) aa.sig
  let st := preview_iir_loop w (aa.iir.getD (yy * 3).toNat (FV.val 0))
    (aa.iir.getD (yy * 3 + 1).toNat (FV.val 0)) (aa.iir.getD (yy * 3 + 2).toNat (FV.val 0))
    len off awid tbase len.toNat (tmp0, sig0, FV.val 0)
  (overlay ((st.1.take len.toNat).map (fun v => fdiv w v st.2.2)) st.1,
   overlay ((st.2.1.take sx.toNat).map (fun v => fdiv w v st.2.2)) st.2.1)

/-- "Apply window to tmp[] if required": the array `tmp` in preview mode; `floor_half` is
`floor(x * 0.5)`. -/
def preview_tmp (w : FpWin) (floor_half : FV → Int) (aa : BWAnal) (xx yy : Int)
    (tmp0 : List FV) : List FV :=
  if aa.c.typ = 0 then
    preview_fft_tmp w (aa.wwid.getD yy.toNat (FV.val 0))
      (floor_half (aa.wwid.getD yy.toNat (FV.val 0)))
      (xx * aa.c.tbase + aa.c.tbase.tdiv 2) (aa.c.sx * aa.c.tbase) tmp0
  else (preview_iir w aa xx yy tmp0).1

/-- "... and store window in ->sig[]": the array `sig` in preview mode, before the samples
are mapped to the envelope arrays. -/
def preview_sig (w : FpWin) (floor_half : FV → Int) (aa : BWAnal) (xx yy : Int)
    (tmp0 : List FV) : List FV :=
  if aa.c.typ = 0 then
    preview_fft_sig w (aa.wwid.getD yy.toNat (FV.val 0))
      (floor_half (aa.wwid.getD yy.toNat (FV.val 0)))
      (xx * aa.c.tbase + aa.c.tbase.tdiv 2) aa.c.tbase aa.c.sx aa.sig
  else (preview_iir w aa xx yy tmp0).2

/-- The operations `fp` with the preview mode of `bwanal_window` as the source computes it. -/
def fp_preview (w : FpWin) (fp : Fp) : Fp :=
  { fp with win_tmp := fun aa xx yy tmp0 => preview_tmp w fp.floor_half aa xx yy tmp0,
            win_sig := fun aa xx yy tmp0 => preview_sig w fp.floor_half aa xx yy tmp0 }

/-- Operations of preview mode standing in for the real ones in examples: integer
arithmetic on numbers, a weight that falls off with the distance, and an impulse response
that decays from 4. -/
def demo_win : FpWin :=
  { weight := fun _ dist => FV.val (4 - dist),
    amp := fun _ _ _ _ off a => FV.val (4 - 2 * (off - a)),
    mul := fun x y => match x, y with
      | FV.val a, FV.val b => FV.val (a * b)
      | _, _ => FV.nan,
    div := fun x y => match x, y with
      | FV.val a, FV.val b => if b = 0 then FV.nan else FV.val (a.tdiv b)
      | _, _ => FV.nan,
    abs := fun x => match x with
      | FV.val a => FV.val (|a|)
      | v => v }



/-! ## The wavelet branch of `bwanal_calc`: carrier and convolution multiply

The work buffers hold `fftw_real` values; the loops below are given over an arbitrary ring
of scalars, so that they run on integers and are stated over the real numbers. -/

/-- The store `p[i]= v` into a buffer; a store outside the buffer is outside the model (the
buffer is returned as it is). -/
def buf_store {R : Type} (p : List R) (i : Int) (v : R) : List R :=
  if 0 ≤ i ∧ i < p.length then p.set i.toNat v else p

/-- The loop `for (a= 1; a<=wid; a++) { ...; p[a]= re; p[siz-a-1]= im; ... }` of `bwanal_calc`
from the value `a`, for `cnt` turns; `re a` and `im a` are the values `mag * cos(ang2)` and
`mag * sin(ang2)` computed in turn `a`. -/
def carrier_loop {R : Type} (siz : Int) (re im : Int → R) : Nat → Int → List R → List R
  | 0, _, p => p
  | cnt + 1, a, p =>
      carrier_loop siz re im cnt (a + 1) (buf_store (buf_store p a (re a)) (siz - a - 1) (im a))

/-- The buffer `tmp[0..siz)` after "Calculate combined window and AM-carrier" in
`bwanal_calc`: cleared, `p[0]= 1.0`, then the loop over `a = 1 .. wid`. -/
def carrier {R : Type} [Zero R] [One R] (siz wid : Int) (re im : Int → R) : List R :=
  carrier_loop siz re im wid.toNat 1 (buf_store (List.replicate siz.toNat 0) 0 1)

/-- The indices stored to by the carrier loop, in the order of the stores. -/
def carrier_stores (siz : Int) : Nat → Int → List Int
  | 0, _ => []
  | cnt + 1, a => a :: (siz - a - 1) :: carrier_stores siz cnt (a + 1)

/-- The pointers of the convolution multiply in `bwanal_calc` and what has been written
through `r` so far: `q` walks `wav`, `p0` and `p1` walk `inp` (all three as indices). -/
structure ConvSt (R : Type) where
  out : List R
  q : Int
  p0 : Int
  p1 : Int

/-- The loop "Handle 1..(siz/2-1)": `mult= *q++; *r++= *p0++ * mult; *r++= *--p1 * mult;`,
for `cnt` turns. -/
def conv_lower {R : Type} [Ring R] (wav inp : List R) : Nat → ConvSt R → ConvSt R
  | 0, s => s
  | cnt + 1, s =>
      let mult := wav.getD s.q.toNat 0
      conv_lower wav inp cnt
        { out := s.out ++ [inp.getD s.p0.toNat 0 * mult, inp.getD (s.p1 - 1).toNat 0 * mult],
          q := s.q + 1, p0 := s.p0 + 1, p1 := s.p1 - 1 }

/-- The loop "Handle (siz/2+1)..(siz-1)": `mult= *q++; *r++= *--p0 * mult;
*r++= *p1++ * -mult;`, for `cnt` turns. -/
def conv_upper {R : Type} [Ring R] (wav inp : List R) : Nat → ConvSt R → ConvSt R
  | 0, s => s
  | cnt + 1, s =>
      let mult := wav.getD s.q.toNat 0
      conv_upper wav inp cnt
        { out := s.out ++ [inp.getD (s.p0 - 1).toNat 0 * mult, inp.getD s.p1.toNat 0 * -mult],
          q := s.q + 1, p0 := s.p0 - 1, p1 := s.p1 + 1 }

/-- "Do convolution by multiplying ->inp and ->wav" in `bwanal_calc`: the values written to
`tmp` through `r`, in order, for the transform size `siz`. -/
def conv_multiply {R : Type} [Ring R] (siz : Int) (wav inp : List R) : List R :=
  let siz2 := siz.tdiv 2
  let s0 : ConvSt R := { out := [wav.getD 0 0 * inp.getD 0 0, 0], q := 1, p0 := 1, p1 := siz }
  let s1 := conv_lower wav inp (siz2 - 1).toNat s0
  let s2 : ConvSt R :=
    { s1 with out := s1.out ++ [wav.getD s1.q.toNat 0 * inp.getD s1.p0.toNat 0, 0],
              q := s1.q + 1 }
  (conv_upper wav inp (siz - (siz2 + 1)).toNat s2).out

/-- Element `k` of the conjugate-symmetric spectrum that a half-complex array `inp` of size
`siz` encodes: `X[0] = inp[0]`, `X[siz/2] = inp[siz/2]`, `X[k] = inp[k] + i*inp[siz-k]` for
`0 < k < siz/2`, and `X[k] = inp[siz-k] - i*inp[k]` (the conjugate of `X[siz-k]`) for
`siz/2 < k < siz`. -/
noncomputable def spectrum (siz : Nat) (inp : List ℝ) (k : Nat) : ℂ :=
  if k = 0 then ((inp.getD 0 0 : ℝ) : ℂ)
  else if 2 * k = siz then ((inp.getD (siz / 2) 0 : ℝ) : ℂ)
  else if 2 * k < siz then ⟨inp.getD k 0, inp.getD (siz - k) 0⟩
  else ⟨inp.getD (siz - k) 0, - inp.getD k 0⟩

/-- The pair `(out[2k], out[2k+1])` of an interleaved complex buffer, read as a complex
number. -/
noncomputable def pair_at (out : List ℝ) (k : Nat) : ℂ :=
  ⟨out.getD (2 * k) 0, out.getD (2 * k + 1) 0⟩



/-! ## The cursor status line of `bwview.c` -/

/-- The comparison `x <= y` of two floating-point values (false when either is NaN). -/
def FV.le : FV → FV → Bool
  | FV.val x, FV.val y => decide (x ≤ y)
  | FV.val _, FV.pinf => true
  | FV.ninf, FV.val _ => true
  | FV.ninf, FV.pinf => true
  | FV.pinf, FV.pinf => true
  | FV.ninf, FV.ninf => true
  | _, _ => false

/-- The loop `for (oy1= oy; oy1 > 0; oy1--) if (mag[xx + (oy1-1)*sx] <= mag[xx + oy1*sx]) break;`
of `show_mag_status`, from the value `oy1`, for at most `fuel` turns. -/
def peak_down (mag : List FV) (xx sx : Int) : Nat → Int → Int
  | 0, oy1 => oy1
  | k + 1, oy1 =>
      if oy1 > 0 then
        if FV.le (mag.getD (xx + (oy1 - 1) * sx).toNat (FV.val 0))
                 (mag.getD (xx + oy1 * sx).toNat (FV.val 0)) then oy1
        else peak_down mag xx sx k (oy1 - 1)
      else oy1

/-- The loop `for (oy2= oy; oy2 <= sy-2; oy2++) if (mag[xx + (oy2+1)*sx] <= mag[xx + oy2*sx])
break;` of `show_mag_status`, from the value `oy2`, for at most `fuel` turns. -/
def peak_up (mag : List FV) (xx sx sy : Int) : Nat → Int → Int
  | 0, oy2 => oy2
  | k + 1, oy2 =>
      if oy2 ≤ sy - 2 then
        if FV.le (mag.getD (xx + (oy2 + 1) * sx).toNat (FV.val 0))
                 (mag.getD (xx + oy2 * sx).toNat (FV.val 0)) then oy2
        else peak_up mag xx sx sy k (oy2 + 1)
      else oy2

/-- The expression `(oy==oy1) ? oy2 : (oy==oy2) ? oy1 : (oy-oy1 < oy2-oy) ? oy1 : oy2`. -/
def peak_select (oy oy1 oy2 : Int) : Int :=
  if oy = oy1 then oy2 else if oy = oy2 then oy1 else if oy - oy1 < oy2 - oy then oy1 else oy2

/-- The row `oy1` found by `show_mag_status` scanning from the cursor row towards row 0. -/
def show_mag_oy1 (aa : BWAnal) (s_vert xx yy : Int) : Int :=
  peak_down aa.mag xx aa.c.sx (yy.tdiv s_vert).toNat (yy.tdiv s_vert)

/-- The row `oy2` found by `show_mag_status` scanning from the cursor row towards the last
row. -/
def show_mag_oy2 (aa : BWAnal) (s_vert xx yy : Int) : Int :=
  peak_up aa.mag xx aa.c.sx aa.c.sy (aa.c.sy - 1 - yy.tdiv s_vert).toNat (yy.tdiv s_vert)

/-- The row `oyp` whose frequency and magnitude `show_mag_status(aa, xx, yy)` reports as the
nearest peak (`PkF`, `PkM`); `s_vert` is the vertical pixel size. -/
def show_mag_peak (aa : BWAnal) (s_vert xx yy : Int) : Int :=
  peak_select (yy.tdiv s_vert) (show_mag_oy1 aa s_vert xx yy) (show_mag_oy2 aa s_vert xx yy)

/-- An engine with a one-column, three-row magnitude grid holding 5, 1, 5: seen from row 1 the
magnitudes rise towards row 0 and towards row 2. -/
def demo_peaks : BWAnal :=
  { demo_anal with
    c := { typ := 0, off := 0, chan := 0, tbase := 1, sx := 1, sy := 3,
           freq0 := 128, freq1 := 64, wwrat := 1 },
    mag := [FV.val 5, FV.val 1, FV.val 5] }



/-! ## The settings of `settings.c`

The settings are C globals; the floating-point ones are read as real numbers, and so is the
`double` through which `set_get`, `set_incdec` and `set_put` pass every value. -/

/-- The globals `s_oct0`, `s_noct`, `s_chan`, `s_gain`, `s_vert`, `s_tbase`, `s_bri`,
`s_focus`, `s_mode`, `s_font` and `s_iir`, in the order of their setting index. -/
structure Settings where
  s_oct0 : Int
  s_noct : Int
  s_chan : Int
  s_gain : ℝ
  s_vert : Int
  s_tbase : Int
  s_bri : ℝ
  s_focus : ℝ
  s_mode : Int
  s_font : Int
  s_iir : Int

/-- An entry of `set_inc`, as the three `sscanf` calls of `set_incdec` read it: `"i<num>"`
(format `"i%d"`), `"e<num>"` (format `"e%lf"`) or `"ie<num>"` (format `"ie%lf"`; the format
`"i%d"` converts nothing on such a string, its second character not being a digit). -/
inductive IncCode where
  | i (n : Int) : IncCode
  | e (n : ℝ) : IncCode
  | ie (n : ℝ) : IncCode

/-- The table `set_inc`: `"i1", "i1", "i1", "e8", "i1", "ie8", "e8", "e8", "i1", "i1", "i1"`. -/
noncomputable def set_inc (set : Nat) : IncCode :=
  match set with
  | 3 => IncCode.e 8
  | 5 => IncCode.ie 8
  | 6 => IncCode.e 8
  | 7 => IncCode.e 8
  | _ => IncCode.i 1

/-- The cast `(int)fp` of a `double`: rounding towards zero. -/
noncomputable def int_cast (fp : ℝ) : Int := if 0 ≤ fp then ⌊fp⌋ else ⌈fp⌉

/-- `set_get`. -/
noncomputable def set_get (s : Settings) (set : Nat) : ℝ :=
  match set with
  | 0 => s.s_oct0
  | 1 => s.s_noct
  | 2 => s.s_chan
  | 3 => s.s_gain
  | 4 => s.s_vert
  | 5 => s.s_tbase
  | 6 => s.s_bri
  | 7 => s.s_focus
  | 8 => s.s_mode
  | 9 => s.s_font
  | 10 => s.s_iir
  | _ => 0

/-- `set_put`, as far as the settings themselves go (the flags `restart`, `redraw` and
`rearrange`, the font size and the preset marks are left out); `n_chan` is `aa->n_chan`. -/
noncomputable def set_put (n_chan : Int) (s : Settings) (set : Nat) (fp : ℝ) : Settings :=
  let ii := int_cast fp
  match set with
  | 0 => let ii := if ii < 1 then 1 else ii
         if ii = s.s_oct0 then s else { s with s_oct0 := ii }
  | 1 => let ii := if ii < 1 then 1 else ii
         if ii = s.s_noct then s else { s with s_noct := ii }
  | 2 => if ii < 0 ∨ ii ≥ n_chan then s
         else if ii = s.s_chan then s else { s with s_chan := ii }
  | 3 => if fp = s.s_gain then s else { s with s_gain := fp }
  | 4 => let ii := if ii < 1 then 1 else ii
         if ii = s.s_vert then s else { s with s_vert := ii }
  | 5 => let ii := if ii < 1 then 1 else ii
         if ii = s.s_tbase then s else { s with s_tbase := ii }
  | 6 => if fp = s.s_bri then s else { s with s_bri := fp }
  | 7 => if fp = s.s_focus then s else { s with s_focus := fp }
  | 8 => if ii % 8 = s.s_mode then s else { s with s_mode := ii % 8 }
  | 9 => { s with s_font := ii % 2 }
  | 10 => if ii < 0 ∨ ii > 2 then s else { s with s_iir := ii }
  | _ => s

/-- The step `delta` of an `"ie<num>"` setting in `set_incdec`:
`delta= floor(0.5 + pow(2, dir/n_steps)); if (delta == 0) delta= dir;`. -/
noncomputable def ie_delta (n_steps : ℝ) (dir : Int) : Int :=
  let delta := ⌊(0.5 : ℝ) + (2 : ℝ) ^ ((dir : ℝ) / n_steps)⌋
  if delta = 0 then dir else delta

/-- `set_incdec`. -/
noncomputable def set_incdec (n_chan : Int) (s : Settings) (set : Nat) (dir : Int) : Settings :=
  let fp := set_get s set
  match set_inc set with
  | IncCode.i ii => set_put n_chan s set (fp + ((ii * dir : Int) : ℝ))
  | IncCode.e n_steps => set_put n_chan s set (fp * (2 : ℝ) ^ ((dir : ℝ) / n_steps))
  | IncCode.ie n_steps => set_put n_chan s set (fp + ((ie_delta n_steps dir : Int) : ℝ))

/-- Settings with a time-base of 4 samples per column. -/
noncomputable def demo_settings : Settings :=
  { s_oct0 := 8, s_noct := 4, s_chan := 0, s_gain := 1, s_vert := 1, s_tbase := 4,
    s_bri := 1, s_focus := 1, s_mode := 0, s_font := 0, s_iir := 0 }


/-! ## Buffers and the position array -/

theorem arrSet_length (l : List Nat) (n v : Nat) (h : n ≤ l.length) :
    n + 1 ≤ (arrSet l n v).length := by
  simp [arrSet]; omega

theorem arrSet_getD_lt (l : List Nat) (n v i : Nat) (hi : i < n) (h : n ≤ l.length) :
    (arrSet l n v).getD i 0 = l.getD i 0 := by
  unfold arrSet
  rw [List.getD_append _ _ _ _ (by simp; omega)]
  simp [List.getD_eq_getElem?_getD, List.getElem?_take, hi]

theorem arrSet_getD_eq (l : List Nat) (n v : Nat) (h : n ≤ l.length) :
    (arrSet l n v).getD n 0 = v := by
  unfold arrSet
  rw [List.getD_append_right _ _ _ _ (by simp)]
  simp [Nat.min_eq_left h]

theorem take_getD_lt (l : List Nat) (n i : Nat) (hi : i < n) :
    (l.take n).getD i 0 = l.getD i 0 := by
  simp [List.getD_eq_getElem?_getD, List.getElem?_take, hi]

theorem take_overlay {α : Type} (new old : List α) :
    (overlay new old).take new.length = new := by
  simp [overlay]

theorem fill_chan_length (frames : List Frame) (c : Nat) (bufs : List (List Sample)) :
    (fill_chan frames c bufs).length = bufs.length := by
  induction bufs generalizing c with
  | nil => rfl
  | cons x rest ih => simp [fill_chan, ih]

theorem fill_chan_take (frames : List Frame) (c : Nat) (bufs : List (List Sample)) :
    (fill_chan frames c bufs).map (List.take frames.length) =
      (List.range' c bufs.length).map (fun c => frames.map (fun f => f.1.getD c 0)) := by
  induction bufs generalizing c with
  | nil => rfl
  | cons x rest ih =>
    simp only [fill_chan, List.map_cons, List.length_cons, List.range'_succ, ih]
    congr 1
    have := take_overlay (frames.map (fun f => f.1.getD c 0)) x
    simpa using this

theorem read_block_Decoded (r : ReadResult) (bb : BWBlock) :
    Decoded r { read_block r bb with len := r.len } ∧
    ({ read_block r bb with len := r.len } : BWBlock).chan.length = bb.chan.length := by
  refine ⟨⟨rfl, ?_, ?_⟩, ?_⟩
  · have := take_overlay (r.frames.map (fun f => f.2)) bb.err
    simpa [read_block] using this
  · simp only [read_block, fill_chan_length]
    exact fill_chan_take r.frames 0 bb.chan
  · simp [read_block, fill_chan_length]



/-! ## Frame lemmas for `get_block` -/

theorem scan_blocks_frame (d : Decoder) (num : Int) (k : Nat) (ff : BWFile) (bb : BWBlock) :
    (scan_blocks d num k ff bb).1.cache = ff.cache ∧
    (scan_blocks d num k ff bb).1.max_unref = ff.max_unref ∧
    (scan_blocks d num k ff bb).1.use = ff.use ∧
    (scan_blocks d num k ff bb).1.bsiz = ff.bsiz ∧
    (scan_blocks d num k ff bb).1.chan = ff.chan ∧
    (scan_blocks d num k ff bb).1.m_blk = ff.m_blk ∧
    (scan_blocks d num k ff bb).1.brk = ff.brk := by
  induction k generalizing ff bb with
  | zero => simp [scan_blocks]
  | succ k ih =>
    simp only [scan_blocks]
    split_ifs with h1 h2
    · simp [set_eof, note_pos]
    · have := ih { note_pos ff with pos := (d ff.pos).pos } (read_block (d ff.pos) bb)
      simpa [note_pos] using this
    · simp

theorem scan_blocks_block (d : Decoder) (num : Int) (k : Nat) (ff : BWFile) (bb : BWBlock) :
    (scan_blocks d num k ff bb).2.addr = bb.addr ∧
    (scan_blocks d num k ff bb).2.num = bb.num ∧
    (scan_blocks d num k ff bb).2.ref = bb.ref ∧
    (scan_blocks d num k ff bb).2.last_used = bb.last_used ∧
    (scan_blocks d num k ff bb).2.chan.length = bb.chan.length := by
  induction k generalizing ff bb with
  | zero => simp [scan_blocks]
  | succ k ih =>
    simp only [scan_blocks]
    split_ifs with h1 h2
    · simp [read_block, fill_chan_length]
    · have := ih { note_pos ff with pos := (d ff.pos).pos } (read_block (d ff.pos) bb)
      simpa [read_block, fill_chan_length] using this
    · simp

theorem read_target_frame (d : Decoder) (ff : BWFile) (bb : BWBlock) :
    (read_target d ff bb).1.cache = ff.cache ∧
    (read_target d ff bb).1.max_unref = ff.max_unref ∧
    (read_target d ff bb).1.use = ff.use ∧
    (read_target d ff bb).1.bsiz = ff.bsiz ∧
    (read_target d ff bb).1.chan = ff.chan ∧
    (read_target d ff bb).1.m_blk = ff.m_blk ∧
    (read_target d ff bb).1.brk = ff.brk := by
  unfold read_target
  simp only []
  split_ifs <;> simp [set_eof, note_pos]

theorem read_target_block (d : Decoder) (ff : BWFile) (bb : BWBlock) :
    (read_target d ff bb).2.addr = bb.addr ∧
    (read_target d ff bb).2.num = bb.num ∧
    (read_target d ff bb).2.ref = bb.ref ∧
    (read_target d ff bb).2.last_used = bb.last_used ∧
    (read_target d ff bb).2.chan.length = bb.chan.length := by
  unfold read_target
  simp only []
  split_ifs <;> simp [read_block, fill_chan_length]

theorem grow_blk_frame (ff : BWFile) (num : Int) :
    (grow_blk ff num).cache = ff.cache ∧ (grow_blk ff num).max_unref = ff.max_unref ∧
    (grow_blk ff num).use = ff.use ∧ (grow_blk ff num).bsiz = ff.bsiz ∧
    (grow_blk ff num).chan = ff.chan ∧ (grow_blk ff num).m_blk = ff.m_blk ∧
    (grow_blk ff num).brk = ff.brk ∧ (grow_blk ff num).n_blk = ff.n_blk ∧
    (grow_blk ff num).pos = ff.pos ∧ (grow_blk ff num).eof = ff.eof ∧
    (grow_blk ff num).len = ff.len ∧ (grow_blk ff num).dlog = ff.dlog := by
  unfold grow_blk
  split_ifs <;> simp

theorem get_block_frame (d : Decoder) (ff : BWFile) (num : Int) :
    (get_block d ff num).1.cache = ff.cache ∧
    (get_block d ff num).1.max_unref = ff.max_unref ∧
    (get_block d ff num).1.use = ff.use ∧
    (get_block d ff num).1.bsiz = ff.bsiz ∧
    (get_block d ff num).1.chan = ff.chan ∧
    (get_block d ff num).1.m_blk = ff.m_blk ∧
    (get_block d ff num).1.brk = ff.brk + 1 := by
  unfold get_block
  simp only []
  split_ifs <;>
    simp [scan_blocks_frame, read_target_frame, grow_blk_frame]

theorem get_block_block (d : Decoder) (ff : BWFile) (num : Int) (bb : BWBlock)
    (h : (get_block d ff num).2 = some bb) :
    bb.addr = ff.brk ∧ bb.num = num ∧ bb.ref = 0 ∧ bb.last_used = 0 ∧
    bb.chan.length = ff.chan.toNat := by
  unfold get_block at h
  simp only [] at h
  split_ifs at h <;> simp at h <;> subst h <;>
    simp [read_block, scan_blocks_block, read_target_block, new_block, fill_chan_length]


/-! ## The cache list: pointer updates, the eviction scan -/

theorem deref_split (c : List BWBlock) (a : Nat) (bb : BWBlock) (h : deref c a = some bb) :
    bb.addr = a ∧ ∃ l1 l2, c = l1 ++ bb :: l2 ∧ (∀ b ∈ l1, b.addr ≠ a) ∧
      ∀ f, modify_at a f c = l1 ++ f bb :: l2 := by
  induction c with
  | nil => simp [deref] at h
  | cons x rest ih =>
    by_cases hx : x.addr = a
    · have : bb = x := by simpa [deref, List.find?, hx] using h.symm
      subst this
      exact ⟨hx, [], rest, rfl, by simp, fun f => by simp [modify_at, hx]⟩
    · have h' : deref rest a = some bb := by simpa [deref, List.find?, hx] using h
      obtain ⟨h1, l1, l2, hc, hl, hm⟩ := ih h'
      refine ⟨h1, x :: l1, l2, by simp [hc], ?_, fun f => by simp [modify_at, hx, hm]⟩
      intro b hb
      rcases List.mem_cons.1 hb with rfl | hb
      · exact hx
      · exact hl b hb

theorem deref_mem (c : List BWBlock) (a : Nat) (bb : BWBlock) (h : deref c a = some bb) :
    bb ∈ c := by
  obtain ⟨_, l1, l2, hc, _, _⟩ := deref_split c a bb h
  simp [hc]

theorem released_eq (ff : BWFile) (a : Nat) (bb : BWBlock) (h : deref ff.cache a = some bb) :
    ∃ l1 l2, ff.cache = l1 ++ bb :: l2 ∧ (∀ b ∈ l1, b.addr ≠ a) ∧
      released ff a = l1 ++ (if bb.ref - 1 = 0 then { bb with ref := bb.ref - 1, last_used := ff.use }
                             else { bb with ref := bb.ref - 1 }) :: l2 := by
  obtain ⟨_, l1, l2, hc, hl, hm⟩ := deref_split ff.cache a bb h
  exact ⟨l1, l2, hc, hl, by simp [released, hm]⟩

theorem bwfile_free_eq (ff : BWFile) (a : Nat) (bb : BWBlock) (h : deref ff.cache a = some bb) :
    bwfile_free ff a =
      if bb.ref - 1 = 0 then
        if (scan_unref (ff.use + 1) (released ff a) 0 (0, none, 0)).1 > ff.max_unref then
          match (scan_unref (ff.use + 1) (released ff a) 0 (0, none, 0)).2.1 with
          | some i => { ff with use := ff.use + 1, cache := (released ff a).eraseIdx i }
          | none => { ff with use := ff.use + 1, cache := released ff a }
        else { ff with use := ff.use + 1, cache := released ff a }
      else { ff with cache := released ff a } := by
  obtain ⟨ha, l1, l2, hc, hl, hm⟩ := deref_split ff.cache a bb h
  have hm2 : ∀ f g : BWBlock → BWBlock, modify_at a g (l1 ++ f bb :: l2) = l1 ++ g (f bb) :: l2 ∨ (f bb).addr ≠ a := by
    intro f g
    by_cases hf : (f bb).addr = a
    · left
      clear hc hm
      induction l1 with
      | nil => simp [modify_at, hf]
      | cons x l1 ih =>
        have hx : x.addr ≠ a := hl x (by simp)
        simp [modify_at, hx, ih (fun b hb => hl b (by simp [hb]))]
    · exact Or.inr hf
  unfold bwfile_free
  simp only [h]
  by_cases h0 : bb.ref - 1 = 0
  · have hr : released ff a = modify_at a (fun b => { b with last_used := ff.use })
        (modify_at a (fun b => { b with ref := b.ref - 1 }) ff.cache) := by
      rw [hm]
      rcases hm2 (fun b => { b with ref := b.ref - 1 }) (fun b => { b with last_used := ff.use })
        with h2 | h2
      · rw [h2]; simp [released, hm, h0]
      · exact absurd ha h2
    simp only [h0, if_true, ← hr]
  · simp [h0, released, hm]

theorem unref_count_append (l1 l2 : List BWBlock) :
    unref_count (l1 ++ l2) = unref_count l1 + unref_count l2 := by
  simp [unref_count]

theorem unref_count_cons (b : BWBlock) (l : List BWBlock) :
    unref_count (b :: l) = unref_count l + (if b.ref = 0 then 1 else 0) := by
  simp [unref_count, List.countP_cons]

theorem scan_unref_count (use : Int) (l : List BWBlock) (i : Nat) (cnt : Int) (old : Option Nat)
    (age : Int) : (scan_unref use l i (cnt, old, age)).1 = cnt + unref_count l := by
  induction l generalizing i cnt old age with
  | nil => simp [scan_unref, unref_count]
  | cons b rest ih =>
    simp only [scan_unref, unref_count_cons]
    split_ifs <;> rw [ih] <;> simp <;> omega

/-- What the scan of `bwfile_free` selects: either it keeps the candidate it started
with, which no unreferenced block of the list beats, or it ends on an unreferenced
block of the list that is at least as old as every unreferenced block of the list. -/
theorem scan_unref_sel (use : Int) (l : List BWBlock) (i : Nat) (cnt : Int) (old : Option Nat)
    (age : Int) :
    ((scan_unref use l i (cnt, old, age)).2 = (old, age) ∧
        ∀ b ∈ l, b.ref = 0 → old ≠ none ∧ use - b.last_used ≤ age) ∨
    ∃ j b, l[j]? = some b ∧ (scan_unref use l i (cnt, old, age)).2 = (some (i + j), use - b.last_used) ∧
      b.ref = 0 ∧ (∀ b2 ∈ l, b2.ref = 0 → use - b2.last_used ≤ use - b.last_used) ∧
      (old ≠ none → age ≤ use - b.last_used) := by
  induction l generalizing i cnt old age with
  | nil => left; simp [scan_unref]
  | cons x rest ih =>
    simp only [scan_unref]
    by_cases hx : x.ref = 0
    · by_cases ht : old = none ∨ use - x.last_used > age
      · simp only [hx, ht, if_true]
        right
        rcases ih (i + 1) (cnt + 1) (some i) (use - x.last_used) with ⟨h1, h2⟩ | ⟨j, b, hj, h1, hb, h2, h3⟩
        · refine ⟨0, x, by simp, by simpa using h1, hx, ?_, ?_⟩
          · intro b2 hb2 hz
            rcases List.mem_cons.1 hb2 with rfl | hb2
            · exact le_refl _
            · exact (h2 b2 hb2 hz).2
          · intro ho
            rcases ht with ht | ht
            · exact absurd ht ho
            · omega
        · have h3' := h3 (by simp)
          refine ⟨j + 1, b, by simpa using hj, ?_, hb, ?_, ?_⟩
          · rw [h1]; simp; omega
          · intro b2 hb2 hz
            rcases List.mem_cons.1 hb2 with rfl | hb2
            · exact h3'
            · exact h2 b2 hb2 hz
          · intro ho
            rcases ht with ht | ht
            · exact absurd ht ho
            · omega
      · simp only [hx, ht, if_true, if_false]
        have hon : old ≠ none := fun h => ht (Or.inl h)
        have hage : use - x.last_used ≤ age := by
          by_contra hc; exact ht (Or.inr (by omega))
        rcases ih (i + 1) (cnt + 1) old age with ⟨h1, h2⟩ | ⟨j, b, hj, h1, hb, h2, h3⟩
        · left
          refine ⟨h1, ?_⟩
          intro b2 hb2 hz
          rcases List.mem_cons.1 hb2 with rfl | hb2
          · exact ⟨hon, hage⟩
          · exact h2 b2 hb2 hz
        · right
          have h3' := h3 hon
          refine ⟨j + 1, b, by simpa using hj, ?_, hb, ?_, fun _ => h3'⟩
          · rw [h1]; simp; omega
          · intro b2 hb2 hz
            rcases List.mem_cons.1 hb2 with rfl | hb2
            · omega
            · exact h2 b2 hb2 hz
    · simp only [hx, if_false]
      rcases ih (i + 1) cnt old age with ⟨h1, h2⟩ | ⟨j, b, hj, h1, hb, h2, h3⟩
      · left
        refine ⟨h1, ?_⟩
        intro b2 hb2 hz
        rcases List.mem_cons.1 hb2 with rfl | hb2
        · exact absurd hz hx
        · exact h2 b2 hb2 hz
      · right
        refine ⟨j + 1, b, by simpa using hj, ?_, hb, ?_, h3⟩
        · rw [h1]; simp; omega
        · intro b2 hb2 hz
          rcases List.mem_cons.1 hb2 with rfl | hb2
          · exact absurd hz hx
          · exact h2 b2 hb2 hz

theorem unref_count_eraseIdx (l : List BWBlock) (j : Nat) (b : BWBlock) (h : l[j]? = some b)
    (hb : b.ref = 0) : unref_count (l.eraseIdx j) + 1 = unref_count l := by
  induction l generalizing j with
  | nil => simp at h
  | cons x rest ih =>
    cases j with
    | zero =>
      simp at h; subst h
      simp [unref_count_cons, hb]
    | succ j =>
      simp at h
      simp only [List.eraseIdx_cons_succ, unref_count_cons]
      have := ih j h
      omega

theorem mem_eraseIdx_mem (l : List BWBlock) (j : Nat) (b : BWBlock) (h : b ∈ l.eraseIdx j) :
    b ∈ l := by
  induction l generalizing j with
  | nil => simp at h
  | cons x rest ih =>
    cases j with
    | zero => simp at h; simp [h]
    | succ j =>
      simp only [List.eraseIdx_cons_succ, List.mem_cons] at h
      rcases h with h | h
      · simp [h]
      · simp [ih j h]


/-! ## `bwfile_get`, `bwfile_check_eof` on the cache -/

theorem cache_hit_some (num : Int) (c c2 : List BWBlock) (a : Nat)
    (h : cache_hit num c = some (c2, a)) :
    ∃ l1 bb l2, c = l1 ++ bb :: l2 ∧ (∀ b ∈ l1, b.num ≠ num) ∧ bb.num = num ∧ a = bb.addr ∧
      c2 = l1 ++ { bb with ref := bb.ref + 1 } :: l2 := by
  induction c generalizing c2 a with
  | nil => simp [cache_hit] at h
  | cons x rest ih =>
    by_cases hx : x.num = num
    · simp [cache_hit, hx] at h
      exact ⟨[], x, rest, rfl, by simp, hx, h.2.symm, by simp [← h.1, hx]⟩
    · simp only [cache_hit, hx, if_false] at h
      cases hr : cache_hit num rest with
      | none => simp [hr] at h
      | some p =>
        obtain ⟨c3, a3⟩ := p
        simp [hr] at h
        obtain ⟨l1, bb, l2, hc, hl, hb, ha, hc2⟩ := ih c3 a3 hr
        refine ⟨x :: l1, bb, l2, by simp [hc], ?_, hb, by rw [← h.2, ha], by simp [← h.1, hc2]⟩
        intro b hb
        rcases List.mem_cons.1 hb with rfl | hb
        · exact hx
        · exact hl b hb

theorem cache_hit_none (num : Int) (c : List BWBlock) (h : cache_hit num c = none) :
    ∀ b ∈ c, b.num ≠ num := by
  induction c with
  | nil => simp
  | cons x rest ih =>
    by_cases hx : x.num = num
    · simp [cache_hit, hx] at h
    · simp only [cache_hit, hx, if_false] at h
      cases hr : cache_hit num rest with
      | none =>
        intro b hb
        rcases List.mem_cons.1 hb with rfl | hb
        · exact hx
        · exact ih hr b hb
      | some p => simp [hr] at h

theorem cache_hit_of_mem (num : Int) (c : List BWBlock) (b : BWBlock) (hb : b ∈ c)
    (hn : b.num = num) : ∃ p, cache_hit num c = some p := by
  cases h : cache_hit num c with
  | none => exact absurd hn (cache_hit_none num c h b hb)
  | some p => exact ⟨p, rfl⟩

theorem bwfile_get_hit (d : Decoder) (ff : BWFile) (num : Int) (c : List BWBlock) (a : Nat)
    (h : cache_hit num ff.cache = some (c, a)) :
    bwfile_get d ff num = ({ ff with cache := c }, some a) := by
  simp [bwfile_get, h]

theorem bwfile_get_miss (d : Decoder) (ff : BWFile) (num : Int)
    (h : cache_hit num ff.cache = none) :
    bwfile_get d ff num =
      match (get_block d ff num).2 with
      | none => ((get_block d ff num).1, none)
      | some bb => ({ (get_block d ff num).1 with
                        cache := { bb with ref := bb.ref + 1 } :: ff.cache }, some bb.addr) := by
  have hc := (get_block_frame d ff num).1
  simp only [bwfile_get, h]
  rcases hg : get_block d ff num with ⟨ff1, _ | bb⟩
  · simp
  · simp [hg] at hc
    simp [hc]

theorem bwfile_get_max_unref (d : Decoder) (ff : BWFile) (num : Int) :
    (bwfile_get d ff num).1.max_unref = ff.max_unref := by
  cases h : cache_hit num ff.cache with
  | some p => obtain ⟨c, a⟩ := p; simp [bwfile_get_hit d ff num c a h]
  | none =>
    rw [bwfile_get_miss d ff num h]
    have := (get_block_frame d ff num).2.1
    split <;> simp [this]

theorem bwfile_free_max_unref (ff : BWFile) (a : Nat) :
    (bwfile_free ff a).max_unref = ff.max_unref := by
  cases h : deref ff.cache a with
  | none => simp [bwfile_free, h]
  | some bb =>
    rw [bwfile_free_eq ff a bb h]
    split_ifs
    · split <;> rfl
    · rfl
    · rfl

theorem bwfile_check_eof_max_unref (ff : BWFile) :
    (bwfile_check_eof ff).max_unref = ff.max_unref := by
  unfold bwfile_check_eof
  split_ifs <;> simp

theorem unref_count_renumber (n : Int) (c : List BWBlock) :
    unref_count (List.map (fun bb => if bb.num ≥ n then { bb with num := -999 } else bb) c)
      = unref_count c := by
  induction c with
  | nil => rfl
  | cons x rest ih =>
    simp only [List.map_cons, unref_count_cons, ih]
    split_ifs <;> simp_all

theorem bwfile_check_eof_cache (ff : BWFile) :
    (bwfile_check_eof ff).cache = ff.cache ∨
    ∃ n, (bwfile_check_eof ff).cache =
      List.map (fun bb => if bb.num ≥ n then { bb with num := -999 } else bb) ff.cache := by
  unfold bwfile_check_eof
  split_ifs
  · left; rfl
  · right; exact ⟨_, rfl⟩
  · right; exact ⟨_, rfl⟩

theorem RefInv_get (d : Decoder) (s : BWFile) (num : Int) (h : RefInv s) :
    RefInv (bwfile_get d s num).1 := by
  obtain ⟨h1, h2⟩ := h
  unfold RefInv
  rw [bwfile_get_max_unref]
  cases hc : cache_hit num s.cache with
  | some p =>
    obtain ⟨c, a⟩ := p
    obtain ⟨l1, bb, l2, hs, _, _, _, hc2⟩ := cache_hit_some num s.cache c a hc
    rw [bwfile_get_hit d s num c a hc]
    simp only [hc2]
    have hbb : 0 ≤ bb.ref := h1 bb (by simp [hs])
    constructor
    · intro b hb
      simp only [List.mem_append, List.mem_cons] at hb
      rcases hb with hb | rfl | hb
      · exact h1 b (by simp [hs, hb])
      · simp; omega
      · exact h1 b (by simp [hs, hb])
    · rw [hs] at h2
      simp only [unref_count_append, unref_count_cons] at h2 ⊢
      have : ¬ (bb.ref + 1 = 0) := by omega
      simp only [this, if_false]
      push_cast at h2 ⊢
      omega
  | none =>
    rw [bwfile_get_miss d s num hc]
    cases hg : (get_block d s num).2 with
    | none => simpa [(get_block_frame d s num).1] using ⟨h1, h2⟩
    | some bb =>
      have hr := (get_block_block d s num bb hg).2.2.1
      simp only [List.mem_cons, unref_count_cons]
      constructor
      · intro b hb
        rcases hb with rfl | hb
        · simp [hr]
        · exact h1 b hb
      · simp [hr]; exact h2

theorem RefInv_free (s : BWFile) (a : Nat) (bb : BWBlock) (h : RefInv s)
    (hd : deref s.cache a = some bb) (hr : 1 ≤ bb.ref) : RefInv (bwfile_free s a) := by
  obtain ⟨h1, h2⟩ := h
  obtain ⟨l1, l2, hs, _, hrel⟩ := released_eq s a bb hd
  have hmem : ∀ b ∈ released s a, 0 ≤ b.ref := by
    intro b hb
    rw [hrel] at hb
    simp only [List.mem_append, List.mem_cons] at hb
    rcases hb with hb | rfl | hb
    · exact h1 b (by simp [hs, hb])
    · split_ifs
      all_goals simp
      all_goals omega
    · exact h1 b (by simp [hs, hb])
  have hcnt : unref_count (released s a) =
      unref_count s.cache + (if bb.ref - 1 = 0 then 1 else 0) := by
    rw [hrel, hs]
    simp only [unref_count_append, unref_count_cons]
    have hne : ¬ bb.ref = 0 := by omega
    split_ifs <;> simp_all <;> omega
  unfold RefInv
  rw [bwfile_free_max_unref, bwfile_free_eq s a bb hd]
  by_cases h0 : bb.ref - 1 = 0
  · simp only [h0, if_true] at hcnt ⊢
    rw [scan_unref_count]
    split_ifs with hgt
    · rcases scan_unref_sel (s.use + 1) (released s a) 0 0 none 0 with ⟨_, hall⟩ | ⟨j, b, hj, hsel, hb, _, _⟩
      · exfalso
        have hpos : 0 < unref_count (released s a) := by omega
        obtain ⟨b, hb, hz⟩ := List.countP_pos_iff.1 hpos
        exact (hall b hb (by simpa using hz)).1 rfl
      · simp only [hsel, Nat.zero_add]
        have he := unref_count_eraseIdx (released s a) j b hj hb
        refine ⟨fun b2 hb2 => hmem b2 (mem_eraseIdx_mem _ _ _ hb2), ?_⟩
        omega
    · exact ⟨hmem, by simpa using hgt⟩
  · simp only [h0, if_false] at hcnt ⊢
    exact ⟨hmem, by simpa [hcnt] using h2⟩

theorem RefInv_check_eof (s : BWFile) (h : RefInv s) : RefInv (bwfile_check_eof s) := by
  obtain ⟨h1, h2⟩ := h
  unfold RefInv
  rw [bwfile_check_eof_max_unref]
  rcases bwfile_check_eof_cache s with hc | ⟨n, hc⟩
  · rw [hc]; exact ⟨h1, h2⟩
  · rw [hc, unref_count_renumber]
    refine ⟨?_, h2⟩
    intro b hb
    obtain ⟨b0, hb0, rfl⟩ := List.mem_map.1 hb
    split_ifs
    · exact h1 b0 hb0
    · exact h1 b0 hb0

theorem Reach_max_unref (P : Decoder → Prop) (s0 s : BWFile) (h : Reach P s0 s) :
    s.max_unref = s0.max_unref := by
  induction h with
  | start => rfl
  | get s d num _ _ ih => rw [bwfile_get_max_unref, ih]
  | free s a bb _ _ _ ih => rw [bwfile_free_max_unref, ih]
  | check_eof s _ ih => rw [bwfile_check_eof_max_unref, ih]

theorem Reach_RefInv (P : Decoder → Prop) (s0 s : BWFile) (h0 : RefInv s0) (h : Reach P s0 s) :
    RefInv s := by
  induction h with
  | start => exact h0
  | get s d num _ _ ih => exact RefInv_get d s num ih
  | free s a bb _ hd hr ih => exact RefInv_free s a bb ih hd hr
  | check_eof s _ ih => exact RefInv_check_eof s ih


/-! ## C1, C2: the bound on unreferenced blocks and the eviction rule -/

/-- C1: for a store opened with `max_unref >= 0`, after every sequence of
`bwfile_get` / `bwfile_free` / `bwfile_check_eof` calls in which `bwfile_free` is
only applied to a cached block with reference count at least 1, the number of
cached blocks with reference count 0 is at most `max_unref`. -/
theorem C1_unref_bounded (chan : Int) (pos0 : Nat) (bsiz max_unref : Int) (hm : 0 ≤ max_unref)
    (s : BWFile) (hr : Reach (fun _ => True) (bwfile_open chan pos0 bsiz max_unref) s) :
    (unref_count s.cache : Int) ≤ max_unref := by
  have h0 : RefInv (bwfile_open chan pos0 bsiz max_unref) := by
    simp [RefInv, bwfile_open, unref_count, hm]
  have h1 := (Reach_RefInv _ _ s h0 hr).2
  rw [Reach_max_unref _ _ s hr] at h1
  exact h1

theorem C1_unref_bounded_witness :
    (0 : Int) ≤ 0 ∧
    (unref_count (bwfile_free (bwfile_get demo_read demo_open 2).1 0).cache : Int) ≤ 0 :=
  ⟨by decide,
   C1_unref_bounded 2 0 4 0 (by decide) _
     (Reach.free _ 0
        { addr := 0, num := 2, ref := 1, last_used := 0, len := 2,
          chan := [[8, 9, 6, 7], [108, 109, 106, 107]], err := [false, false, false, false] }
        (Reach.get _ demo_read 2 Reach.start trivial) (by decide) (by decide))⟩

theorem mem_eraseIdx_of_ne (l : List BWBlock) (j : Nat) (b b2 : BWBlock) (h : l[j]? = some b)
    (h2 : b2 ∈ l) (hne : b2 ≠ b) : b2 ∈ l.eraseIdx j := by
  induction l generalizing j with
  | nil => simp at h2
  | cons x rest ih =>
    cases j with
    | zero =>
      simp at h; subst h
      rcases List.mem_cons.1 h2 with h2 | h2
      · exact absurd h2 hne
      · simpa using h2
    | succ j =>
      simp at h
      simp only [List.eraseIdx_cons_succ, List.mem_cons]
      rcases List.mem_cons.1 h2 with h2 | h2
      · exact Or.inl h2
      · exact Or.inr (ih j h h2)

/-- C2: `bwfile_free` on the cached block `bb` at address `a`.  `released ff a` is the
cache after `bb->ref--` (and the stamping of `last_used`).  When the count dropped to 0
and the unreferenced blocks then exceed `max_unref`, exactly one block is removed, it
has reference count 0 and its `last_used` stamp is the smallest among the unreferenced
blocks; in every other case nothing is removed.  A block whose reference count is not 0
is never removed. -/
theorem C2_free_evicts_oldest (ff : BWFile) (a : Nat) (bb : BWBlock)
    (hd : deref ff.cache a = some bb) :
    ((bb.ref = 1 ∧ (unref_count (released ff a) : Int) > ff.max_unref) →
      ∃ j b, (released ff a)[j]? = some b ∧ b.ref = 0 ∧
        (∀ b2 ∈ released ff a, b2.ref = 0 → b.last_used ≤ b2.last_used) ∧
        (bwfile_free ff a).cache = (released ff a).eraseIdx j) ∧
    (¬ (bb.ref = 1 ∧ (unref_count (released ff a) : Int) > ff.max_unref) →
      (bwfile_free ff a).cache = released ff a) ∧
    (∀ b2 ∈ released ff a, b2.ref ≠ 0 → b2 ∈ (bwfile_free ff a).cache) := by
  have hsel := scan_unref_sel (ff.use + 1) (released ff a) 0 0 none 0
  have hcnt := scan_unref_count (ff.use + 1) (released ff a) 0 0 none 0
  have key : (bb.ref = 1 ∧ (unref_count (released ff a) : Int) > ff.max_unref) →
      ∃ j b, (released ff a)[j]? = some b ∧ b.ref = 0 ∧
        (∀ b2 ∈ released ff a, b2.ref = 0 → b.last_used ≤ b2.last_used) ∧
        (bwfile_free ff a).cache = (released ff a).eraseIdx j := by
    rintro ⟨h1, h2⟩
    have h0 : bb.ref - 1 = 0 := by omega
    rw [bwfile_free_eq ff a bb hd]
    have hgt : (scan_unref (ff.use + 1) (released ff a) 0 (0, none, 0)).1 > ff.max_unref := by
      rw [hcnt]; simpa using h2
    simp only [h0, if_true, hgt]
    rcases hsel with ⟨_, hall⟩ | ⟨j, b, hj, hs, hb, hmin, _⟩
    · exfalso
      obtain ⟨l1, l2, _, _, hrel⟩ := released_eq ff a bb hd
      have hmem : ({ bb with ref := bb.ref - 1, last_used := ff.use } : BWBlock) ∈ released ff a := by
        rw [hrel]; simp [h0]
      exact (hall _ hmem (by simpa using h0)).1 rfl
    · refine ⟨j, b, hj, hb, ?_, ?_⟩
      · intro b2 hb2 hz
        have := hmin b2 hb2 hz
        omega
      · simp [hs]
  refine ⟨key, ?_, ?_⟩
  · intro hn
    rw [bwfile_free_eq ff a bb hd]
    by_cases h0 : bb.ref - 1 = 0
    · have hle : ¬ (scan_unref (ff.use + 1) (released ff a) 0 (0, none, 0)).1 > ff.max_unref := by
        rw [hcnt]
        intro hgt
        exact hn ⟨by omega, by simpa using hgt⟩
      simp [h0, hle]
    · simp [h0]
  · intro b2 hb2 hnz
    by_cases hc : bb.ref = 1 ∧ (unref_count (released ff a) : Int) > ff.max_unref
    · obtain ⟨j, b, hj, hb, _, he⟩ := key hc
      rw [he]
      refine mem_eraseIdx_of_ne _ j b b2 hj hb2 ?_
      rintro rfl
      exact hnz hb
    · have : (bwfile_free ff a).cache = released ff a := by
        rw [bwfile_free_eq ff a bb hd]
        by_cases h0 : bb.ref - 1 = 0
        · have hle : ¬ (scan_unref (ff.use + 1) (released ff a) 0 (0, none, 0)).1 > ff.max_unref := by
            rw [hcnt]
            intro hgt
            exact hc ⟨by omega, by simpa using hgt⟩
          simp [h0, hle]
        · simp [h0]
      rw [this]; exact hb2


theorem C2_free_evicts_oldest_witness :
    deref demo_two.cache 1 = some demo_blk1 ∧
    (((demo_blk1.ref = 1 ∧ (unref_count (released demo_two 1) : Int) > demo_two.max_unref) →
      ∃ j b, (released demo_two 1)[j]? = some b ∧ b.ref = 0 ∧
        (∀ b2 ∈ released demo_two 1, b2.ref = 0 → b.last_used ≤ b2.last_used) ∧
        (bwfile_free demo_two 1).cache = (released demo_two 1).eraseIdx j) ∧
    (¬ (demo_blk1.ref = 1 ∧ (unref_count (released demo_two 1) : Int) > demo_two.max_unref) →
      (bwfile_free demo_two 1).cache = released demo_two 1) ∧
    (∀ b2 ∈ released demo_two 1, b2.ref ≠ 0 → b2 ∈ (bwfile_free demo_two 1).cache)) :=
  ⟨by decide, C2_free_evicts_oldest demo_two 1 demo_blk1 (by decide)⟩

/-- In `demo_two` (blocks 1 and 0 cached, block 0 released first, one unreferenced block
allowed) releasing block 1 evicts block 0, the one released longest ago. -/
theorem demo_two_evicts_block0 :
    (released demo_two 1).map (fun b => (b.num, b.ref, b.last_used)) = [(1, 0, 1), (0, 0, 0)] ∧
    (bwfile_free demo_two 1).cache.map (fun b => b.num) = [1] := by
  decide

/-! ## C9: `bwfile_check_eof` -/

/-- C9: `bwfile_check_eof` leaves the store unchanged when `eof` is not set.  When `eof`
is set and `n_blk >= 1`, afterwards `eof = 0`, `len = -1`, `n_blk` is one less, `pos` is
the recorded start of the old last block, the recorded positions are unchanged, exactly
the cached blocks numbered `>=` the new `n_blk` are renumbered to -999 with everything
else in them untouched, and no other field changes. -/
theorem C9_check_eof (ff : BWFile) :
    (ff.eof = false → bwfile_check_eof ff = ff) ∧
    (ff.eof = true → 1 ≤ ff.n_blk →
      bwfile_check_eof ff =
        { ff with eof := false, len := -1, n_blk := ff.n_blk - 1,
                  pos := ff.blk.getD (ff.n_blk - 1).toNat 0,
                  cache := ff.cache.map (fun bb =>
                    if bb.num ≥ ff.n_blk - 1 then { bb with num := -999 } else bb) }) := by
  constructor
  · intro h
    simp [bwfile_check_eof, h]
  · intro h hn
    have : ff.n_blk ≠ 0 := by omega
    simp [bwfile_check_eof, h, this]

theorem C9_check_eof_witness :
    demo_eof.eof = true ∧ 1 ≤ demo_eof.n_blk ∧
    bwfile_check_eof demo_eof =
      { demo_eof with eof := false, len := -1, n_blk := demo_eof.n_blk - 1,
                      pos := demo_eof.blk.getD (demo_eof.n_blk - 1).toNat 0,
                      cache := demo_eof.cache.map (fun bb =>
                        if bb.num ≥ demo_eof.n_blk - 1 then { bb with num := -999 } else bb) } :=
  ⟨by decide, by decide, (C9_check_eof demo_eof).2 (by decide) (by decide)⟩


/-! ## Addresses of cached blocks -/

theorem released_mem (ff : BWFile) (a : Nat) (b : BWBlock) (hb : b ∈ released ff a) :
    ∃ b0 ∈ ff.cache, SameData b b0 := by
  cases hd : deref ff.cache a with
  | none =>
    have hno : ∀ c : List BWBlock, deref c a = none →
        ∀ f, modify_at a f c = c := by
      intro c hc f
      induction c with
      | nil => rfl
      | cons x rest ih =>
        by_cases hx : x.addr = a
        · simp [deref, List.find?, hx] at hc
        · have : deref rest a = none := by simpa [deref, List.find?, hx] using hc
          simp [modify_at, hx, ih this]
    rw [released, hno _ hd] at hb
    exact ⟨b, hb, rfl, rfl, rfl, rfl, rfl⟩
  | some bb =>
    obtain ⟨l1, l2, hs, _, hrel⟩ := released_eq ff a bb hd
    rw [hrel] at hb
    simp only [List.mem_append, List.mem_cons] at hb
    rcases hb with hb | rfl | hb
    · exact ⟨b, by simp [hs, hb], rfl, rfl, rfl, rfl, rfl⟩
    · refine ⟨bb, by simp [hs], ?_⟩
      split_ifs <;> exact ⟨rfl, rfl, rfl, rfl, rfl⟩
    · exact ⟨b, by simp [hs, hb], rfl, rfl, rfl, rfl, rfl⟩

theorem released_addrs (ff : BWFile) (a : Nat) :
    (released ff a).map (fun b => b.addr) = ff.cache.map (fun b => b.addr) := by
  unfold released
  induction ff.cache with
  | nil => rfl
  | cons x rest ih =>
    by_cases hx : x.addr = a
    · simp only [modify_at, hx, if_true, List.map_cons]
      split_ifs <;> simp [hx]
    · simp [modify_at, hx, ih]

theorem bwfile_free_cache (ff : BWFile) (a : Nat) :
    (bwfile_free ff a).cache = released ff a ∨
    ∃ i, (bwfile_free ff a).cache = (released ff a).eraseIdx i := by
  cases hd : deref ff.cache a with
  | none =>
    left
    have hno : ∀ c : List BWBlock, deref c a = none →
        ∀ f, modify_at a f c = c := by
      intro c hc f
      induction c with
      | nil => rfl
      | cons x rest ih =>
        by_cases hx : x.addr = a
        · simp [deref, List.find?, hx] at hc
        · have : deref rest a = none := by simpa [deref, List.find?, hx] using hc
          simp [modify_at, hx, ih this]
    simp [bwfile_free, hd, released, hno _ hd]
  | some bb =>
    rw [bwfile_free_eq ff a bb hd]
    split_ifs
    · split
      · right; exact ⟨_, rfl⟩
      · left; rfl
    · left; rfl
    · left; rfl

theorem bwfile_free_mem (ff : BWFile) (a : Nat) (b : BWBlock) (hb : b ∈ (bwfile_free ff a).cache) :
    ∃ b0 ∈ ff.cache, SameData b b0 := by
  rcases bwfile_free_cache ff a with h | ⟨i, h⟩
  · rw [h] at hb; exact released_mem ff a b hb
  · rw [h] at hb; exact released_mem ff a b (mem_eraseIdx_mem _ _ _ hb)

theorem bwfile_free_frame (ff : BWFile) (a : Nat) :
    (bwfile_free ff a).blk = ff.blk ∧ (bwfile_free ff a).n_blk = ff.n_blk ∧
    (bwfile_free ff a).pos = ff.pos ∧ (bwfile_free ff a).eof = ff.eof ∧
    (bwfile_free ff a).len = ff.len ∧ (bwfile_free ff a).bsiz = ff.bsiz ∧
    (bwfile_free ff a).chan = ff.chan ∧ (bwfile_free ff a).m_blk = ff.m_blk ∧
    (bwfile_free ff a).brk = ff.brk ∧ (bwfile_free ff a).dlog = ff.dlog := by
  cases h : deref ff.cache a with
  | none => simp [bwfile_free, h]
  | some bb =>
    rw [bwfile_free_eq ff a bb h]
    split_ifs
    · split <;> simp
    · simp
    · simp

theorem bwfile_get_mem (d : Decoder) (ff : BWFile) (num : Int) (b : BWBlock)
    (hb : b ∈ (bwfile_get d ff num).1.cache) :
    (∃ b0 ∈ ff.cache, SameData b b0) ∨
    (cache_hit num ff.cache = none ∧
      ∃ bb, (get_block d ff num).2 = some bb ∧ b = { bb with ref := bb.ref + 1 }) := by
  cases hc : cache_hit num ff.cache with
  | some p =>
    obtain ⟨c, a⟩ := p
    left
    obtain ⟨l1, bb, l2, hs, _, _, _, hc2⟩ := cache_hit_some num ff.cache c a hc
    rw [bwfile_get_hit d ff num c a hc] at hb
    simp only [hc2, List.mem_append, List.mem_cons] at hb
    rcases hb with hb | rfl | hb
    · exact ⟨b, by simp [hs, hb], rfl, rfl, rfl, rfl, rfl⟩
    · exact ⟨bb, by simp [hs], rfl, rfl, rfl, rfl, rfl⟩
    · exact ⟨b, by simp [hs, hb], rfl, rfl, rfl, rfl, rfl⟩
  | none =>
    rw [bwfile_get_miss d ff num hc] at hb
    cases hg : (get_block d ff num).2 with
    | none =>
      left
      simp only [hg, (get_block_frame d ff num).1] at hb
      exact ⟨b, hb, rfl, rfl, rfl, rfl, rfl⟩
    | some bb =>
      simp only [hg, List.mem_cons] at hb
      rcases hb with rfl | hb
      · right; exact ⟨rfl, bb, rfl, rfl⟩
      · left; exact ⟨b, hb, rfl, rfl, rfl, rfl, rfl⟩

theorem bwfile_get_brk (d : Decoder) (ff : BWFile) (num : Int) :
    ff.brk ≤ (bwfile_get d ff num).1.brk := by
  cases hc : cache_hit num ff.cache with
  | some p => obtain ⟨c, a⟩ := p; simp [bwfile_get_hit d ff num c a hc]
  | none =>
    rw [bwfile_get_miss d ff num hc]
    have := (get_block_frame d ff num).2.2.2.2.2.2
    split <;> simp [this]

/-- What `bwfile_get` returns: the address of a block of the new cache numbered `num`. -/
theorem bwfile_get_result (d : Decoder) (ff : BWFile) (num : Int) (a : Nat)
    (h : (bwfile_get d ff num).2 = some a) :
    ∃ b ∈ (bwfile_get d ff num).1.cache, b.addr = a ∧ b.num = num ∧
      ((∃ b0 ∈ ff.cache, SameData b b0) ∨ a = ff.brk) := by
  cases hc : cache_hit num ff.cache with
  | some p =>
    obtain ⟨c, a2⟩ := p
    obtain ⟨l1, bb, l2, hs, _, hn, ha, hc2⟩ := cache_hit_some num ff.cache c a2 hc
    rw [bwfile_get_hit d ff num c a2 hc] at h ⊢
    simp at h
    refine ⟨{ bb with ref := bb.ref + 1 }, by simp [hc2], by simp [← h, ha], hn, Or.inl ?_⟩
    exact ⟨bb, by simp [hs], rfl, rfl, rfl, rfl, rfl⟩
  | none =>
    rw [bwfile_get_miss d ff num hc] at h ⊢
    cases hg : (get_block d ff num).2 with
    | none => simp [hg] at h
    | some bb =>
      simp [hg] at h
      obtain ⟨h1, h2, _, _, _⟩ := get_block_block d ff num bb hg
      exact ⟨{ bb with ref := bb.ref + 1 }, by simp, by simp [← h], h2,
        Or.inr (by rw [← h, h1])⟩

theorem AddrInv_get (d : Decoder) (s : BWFile) (num : Int) (h : AddrInv s) :
    AddrInv (bwfile_get d s num).1 := by
  obtain ⟨h1, h2⟩ := h
  cases hc : cache_hit num s.cache with
  | some p =>
    obtain ⟨c, a⟩ := p
    obtain ⟨l1, bb, l2, hs, _, _, _, hc2⟩ := cache_hit_some num s.cache c a hc
    rw [bwfile_get_hit d s num c a hc]
    constructor
    · simpa [hc2, hs] using h1
    · intro b hb
      simp only [hc2, List.mem_append, List.mem_cons] at hb
      rcases hb with hb | rfl | hb
      · exact h2 b (by simp [hs, hb])
      · exact h2 bb (by simp [hs])
      · exact h2 b (by simp [hs, hb])
  | none =>
    unfold AddrInv
    rw [bwfile_get_miss d s num hc]
    have hbrk := (get_block_frame d s num).2.2.2.2.2.2
    have hcache := (get_block_frame d s num).1
    cases hg : (get_block d s num).2 with
    | none =>
      simp only [hcache, hbrk]
      exact ⟨h1, fun b hb => Nat.lt_succ_of_lt (h2 b hb)⟩
    | some bb =>
      obtain ⟨ha, _, _, _, _⟩ := get_block_block d s num bb hg
      simp only [List.map_cons, List.nodup_cons, List.mem_map, List.mem_cons, hbrk]
      refine ⟨⟨?_, h1⟩, ?_⟩
      · rintro ⟨b, hb, hbe⟩
        have := h2 b hb
        omega
      · intro b hb
        rcases hb with rfl | hb
        · simp [ha]
        · exact Nat.lt_succ_of_lt (h2 b hb)

theorem AddrInv_free (s : BWFile) (a : Nat) (h : AddrInv s) : AddrInv (bwfile_free s a) := by
  obtain ⟨h1, h2⟩ := h
  constructor
  · rcases bwfile_free_cache s a with hc | ⟨i, hc⟩
    · rw [hc, released_addrs]; exact h1
    · rw [hc]
      have hsub : ((released s a).eraseIdx i).Sublist (released s a) := List.eraseIdx_sublist _ _
      have := (hsub.map (fun b => b.addr))
      rw [released_addrs] at this
      exact h1.sublist this
  · intro b hb
    obtain ⟨b0, hb0, hsd⟩ := bwfile_free_mem s a b hb
    rw [(bwfile_free_frame s a).2.2.2.2.2.2.2.2.1, hsd.1]
    exact h2 b0 hb0

theorem bwfile_check_eof_mem (s : BWFile) (b : BWBlock) (hb : b ∈ (bwfile_check_eof s).cache) :
    ∃ b0 ∈ s.cache, b.addr = b0.addr ∧ b.ref = b0.ref ∧ b.last_used = b0.last_used ∧
      b.len = b0.len ∧ b.chan = b0.chan ∧ b.err = b0.err ∧
      ((b.num = b0.num ∧ b0.num < (bwfile_check_eof s).n_blk) ∨ b.num = -999 ∨
        (b = b0 ∧ bwfile_check_eof s = s)) := by
  unfold bwfile_check_eof at hb ⊢
  split_ifs at hb ⊢ with h1 h2
  · exact ⟨b, hb, rfl, rfl, rfl, rfl, rfl, rfl, Or.inr (Or.inr ⟨rfl, rfl⟩)⟩
  · simp only [List.mem_map] at hb
    obtain ⟨b0, hb0, rfl⟩ := hb
    refine ⟨b0, hb0, ?_⟩
    split_ifs with h3
    · simp
    · simp; left; omega
  · simp only [List.mem_map] at hb
    obtain ⟨b0, hb0, rfl⟩ := hb
    refine ⟨b0, hb0, ?_⟩
    split_ifs with h3
    · simp
    · simp; left; omega

theorem bwfile_check_eof_addrs (s : BWFile) :
    (bwfile_check_eof s).cache.map (fun b => b.addr) = s.cache.map (fun b => b.addr) ∧
    (bwfile_check_eof s).brk = s.brk := by
  have hm : ∀ (n : Int) (c : List BWBlock),
      (List.map (fun bb => if bb.num ≥ n then { bb with num := -999 } else bb) c).map
        (fun b => b.addr) = c.map (fun b => b.addr) := by
    intro n c
    induction c with
    | nil => rfl
    | cons x rest ih =>
      simp only [List.map_cons, ih]
      split_ifs <;> rfl
  unfold bwfile_check_eof
  split_ifs
  · exact ⟨rfl, rfl⟩
  · exact ⟨hm _ _, rfl⟩
  · exact ⟨hm _ _, rfl⟩

theorem AddrInv_check_eof (s : BWFile) (h : AddrInv s) : AddrInv (bwfile_check_eof s) := by
  obtain ⟨h1, h2⟩ := h
  obtain ⟨ha, hb⟩ := bwfile_check_eof_addrs s
  constructor
  · rw [ha]; exact h1
  · intro b hb2
    obtain ⟨b0, hb0, hadr, _⟩ := bwfile_check_eof_mem s b hb2
    rw [hb, hadr]; exact h2 b0 hb0

theorem Reach_AddrInv (P : Decoder → Prop) (s0 s : BWFile) (h0 : AddrInv s0) (h : Reach P s0 s) :
    AddrInv s := by
  induction h with
  | start => exact h0
  | get s d num _ _ ih => exact AddrInv_get d s num ih
  | free s a bb _ _ _ ih => exact AddrInv_free s a ih
  | check_eof s _ ih => exact AddrInv_check_eof s ih

theorem AddrInv_open (chan : Int) (pos0 : Nat) (bsiz max_unref : Int) :
    AddrInv (bwfile_open chan pos0 bsiz max_unref) := by
  simp [AddrInv, bwfile_open]

theorem deref_of_mem (c : List BWBlock) (b : BWBlock)
    (hn : (c.map (fun b => b.addr)).Nodup) (hb : b ∈ c) : deref c b.addr = some b := by
  induction c with
  | nil => simp at hb
  | cons x rest ih =>
    simp only [List.map_cons, List.nodup_cons, List.mem_map, not_exists, not_and] at hn
    rcases List.mem_cons.1 hb with rfl | hb
    · simp [deref, List.find?]
    · have hx : x.addr ≠ b.addr := fun he => hn.1 b hb he.symm
      simp only [deref, List.find?, hx, decide_False]
      exact ih hn.2 hb


/-! ## C10: the sentinel number -/

theorem SentInv_get (a : Nat) (d : Decoder) (s : BWFile) (num : Int) (h : SentInv a s) :
    SentInv a (bwfile_get d s num).1 := by
  obtain ⟨h1, h2⟩ := h
  refine ⟨lt_of_lt_of_le h1 (bwfile_get_brk d s num), ?_⟩
  intro b hb hba
  rcases bwfile_get_mem d s num b hb with ⟨b0, hb0, hsd⟩ | ⟨_, bb, hg, rfl⟩
  · rw [hsd.2.1]; exact h2 b0 hb0 (by rw [← hsd.1, hba])
  · obtain ⟨hadr, _, _, _, _⟩ := get_block_block d s num bb hg
    simp at hba
    omega

theorem SentInv_free (a : Nat) (s : BWFile) (a2 : Nat) (h : SentInv a s) :
    SentInv a (bwfile_free s a2) := by
  obtain ⟨h1, h2⟩ := h
  refine ⟨by rw [(bwfile_free_frame s a2).2.2.2.2.2.2.2.2.1]; exact h1, ?_⟩
  intro b hb hba
  obtain ⟨b0, hb0, hsd⟩ := bwfile_free_mem s a2 b hb
  rw [hsd.2.1]; exact h2 b0 hb0 (by rw [← hsd.1, hba])

theorem SentInv_check_eof (a : Nat) (s : BWFile) (h : SentInv a s) :
    SentInv a (bwfile_check_eof s) := by
  obtain ⟨h1, h2⟩ := h
  refine ⟨by rw [(bwfile_check_eof_addrs s).2]; exact h1, ?_⟩
  intro b hb hba
  obtain ⟨b0, hb0, hadr, _, _, _, _, _, hnum⟩ := bwfile_check_eof_mem s b hb
  rcases hnum with ⟨hn, _⟩ | hn | ⟨rfl, _⟩
  · rw [hn]; exact h2 b0 hb0 (by rw [← hadr, hba])
  · exact hn
  · exact h2 b hb0 hba

theorem Reach_SentInv (a : Nat) (P : Decoder → Prop) (s0 s : BWFile) (h0 : SentInv a s0)
    (h : Reach P s0 s) : SentInv a s := by
  induction h with
  | start => exact h0
  | get s d num _ _ ih => exact SentInv_get a d s num ih
  | free s a2 bb _ _ _ ih => exact SentInv_free a s a2 ih
  | check_eof s _ ih => exact SentInv_check_eof a s ih

/-- C10 (as stated, refuted): on `demo_eof` the last block (number 2) is cached at
address 0; `bwfile_check_eof` renumbers it to -999, and a following `bwfile_get` for
block number -999 returns that very block. -/
theorem C10_sentinel_request_hits :
    (deref demo_eof.cache 0).map (fun b => b.num) = some 2 ∧
    (deref (bwfile_check_eof demo_eof).cache 0).map (fun b => b.num) = some (-999) ∧
    (bwfile_get demo_read (bwfile_check_eof demo_eof) (-999)).2 = some 0 := by
  decide

/-- C10 (amended): after `bwfile_check_eof` has renumbered a cached block to -999, no
later `bwfile_get` for a block number other than -999 returns that block, whatever
calls were made in between. -/
theorem C10_invalidated_not_returned (chan : Int) (pos0 : Nat) (bsiz max_unref : Int)
    (s : BWFile) (hs : Reach (fun _ => True) (bwfile_open chan pos0 bsiz max_unref) s)
    (a : Nat) (b : BWBlock) (hb : deref (bwfile_check_eof s).cache a = some b)
    (hnum : b.num = -999)
    (s2 : BWFile) (hs2 : Reach (fun _ => True) (bwfile_check_eof s) s2)
    (d : Decoder) (N : Int) (hN : N ≠ -999) :
    (bwfile_get d s2 N).2 ≠ some a := by
  have hA : AddrInv (bwfile_check_eof s) :=
    AddrInv_check_eof s (Reach_AddrInv _ _ s (AddrInv_open chan pos0 bsiz max_unref) hs)
  have hba : b.addr = a := (deref_split _ a b hb).1
  have h0 : SentInv a (bwfile_check_eof s) := by
    refine ⟨by rw [← hba]; exact hA.2 b (deref_mem _ a b hb), ?_⟩
    intro b2 hb2 hb2a
    have := deref_of_mem _ b2 hA.1 hb2
    rw [hb2a, hb] at this
    have : b = b2 := by simpa using this
    rw [← this]; exact hnum
  obtain ⟨h1, h2⟩ := Reach_SentInv a _ _ s2 h0 hs2
  intro hget
  obtain ⟨b3, _, hadr, hn3, hor⟩ := bwfile_get_result d s2 N a hget
  rcases hor with ⟨b0, hb0, hsd⟩ | hbrk
  · have := h2 b0 hb0 (by rw [← hsd.1, hadr])
    rw [← hsd.2.1, hn3] at this
    exact hN this
  · omega

theorem C10_invalidated_not_returned_witness :
    deref (bwfile_check_eof demo_eof).cache 0 =
      some { addr := 0, num := -999, ref := 1, last_used := 0, len := 2,
             chan := [[8, 9, 6, 7], [108, 109, 106, 107]],
             err := [false, false, false, false] } ∧
    (bwfile_get demo_read (bwfile_get demo_read (bwfile_check_eof demo_eof) 2).1 2).2 ≠ some 0 :=
  ⟨by decide,
   C10_invalidated_not_returned 2 0 4 0 demo_eof (Reach.get _ demo_read 2 Reach.start trivial)
     0 _ (by decide : deref (bwfile_check_eof demo_eof).cache 0 =
      some { addr := 0, num := -999, ref := 1, last_used := 0, len := 2,
             chan := [[8, 9, 6, 7], [108, 109, 106, 107]],
             err := [false, false, false, false] }) (by decide)
     _ (Reach.get _ demo_read 2 Reach.start trivial) demo_read 2 (by decide)⟩


theorem Decoded_of_SameData (r : ReadResult) (b b0 : BWBlock) (h : SameData b b0)
    (h0 : Decoded r b0) : Decoded r b := by
  obtain ⟨_, _, h3, h4, h5⟩ := h
  unfold Decoded at h0 ⊢
  rw [h3, h4, h5]; exact h0


/-! ## `get_block` and the store invariant -/

theorem Grows_refl (s : BWFile) : Grows s s := ⟨le_refl _, fun _ _ => rfl⟩

theorem Grows_trans (s1 s2 s3 : BWFile) (_h0 : 0 ≤ s1.n_blk) (h12 : Grows s1 s2)
    (h23 : Grows s2 s3) : Grows s1 s3 := by
  refine ⟨le_trans h12.1 h23.1, ?_⟩
  intro i hi
  have := h12.1
  rw [h23.2 i (by omega), h12.2 i hi]

theorem grow_blk_inv (ff : BWFile) (num : Int) (h : Wf ff) :
    Wf (grow_blk ff num) ∧ Grows ff (grow_blk ff num) := by
  obtain ⟨h0, h1⟩ := h
  unfold grow_blk
  split_ifs
  · refine ⟨⟨h0, ?_⟩, le_refl _, ?_⟩
    · simp only [List.length_take]; omega
    · intro i hi; exact take_getD_lt _ _ _ hi
  · exact ⟨⟨h0, h1⟩, Grows_refl ff⟩

theorem note_pos_inv (ff : BWFile) (h : Wf ff) :
    Wf (note_pos ff) ∧ Grows ff (note_pos ff) ∧ (note_pos ff).n_blk = ff.n_blk + 1 ∧
    (note_pos ff).blk.getD ff.n_blk.toNat 0 = ff.pos ∧ (note_pos ff).pos = ff.pos ∧
    (note_pos ff).eof = ff.eof ∧ (note_pos ff).len = ff.len ∧ (note_pos ff).bsiz = ff.bsiz ∧
    (note_pos ff).dlog = (ff.n_blk, ff.pos) :: ff.dlog := by
  obtain ⟨h0, h1⟩ := h
  have hlen := arrSet_length ff.blk ff.n_blk.toNat ff.pos h1
  refine ⟨⟨?_, ?_⟩, ⟨?_, ?_⟩, rfl, arrSet_getD_eq _ _ _ h1, rfl, rfl, rfl, rfl, rfl⟩
  · simp only [note_pos]; omega
  · simp only [note_pos]; omega
  · simp only [note_pos]; omega
  · intro i hi; exact arrSet_getD_lt _ _ _ _ hi h1

/-- One recorded read that hit end-of-file establishes `EofInv`. -/
theorem set_eof_note_pos_EofInv (d : Decoder) (ff : BWFile) (h : Wf ff)
    (hr : (d ff.pos).eof = true) : EofInv d (set_eof (note_pos ff) (d ff.pos).len) := by
  obtain ⟨_, _, n3, n4, n5, _, _, n8, _⟩ := note_pos_inv ff h
  intro _
  have := h.1
  refine ⟨?_, ?_, ?_, ?_⟩
  · simp only [set_eof, n3]; omega
  · have : (ff.n_blk + 1 - 1).toNat = ff.n_blk.toNat := by congr 1; omega
    simp only [set_eof, n3, this, n4, n5]
  · simpa [set_eof, n5] using hr
  · simp only [set_eof, n5]

theorem EofInv_of_not_eof (d : Decoder) (s : BWFile) (h : s.eof = false) : EofInv d s := by
  intro he; rw [h] at he; exact absurd he (by simp)

theorem scan_blocks_inv (d : Decoder) (num : Int) (k : Nat) (ff : BWFile) (bb : BWBlock)
    (h : Wf ff) (he : ff.eof = false) :
    Wf (scan_blocks d num k ff bb).1 ∧ Grows ff (scan_blocks d num k ff bb).1 ∧
    EofInv d (scan_blocks d num k ff bb).1 ∧
    (ff.n_blk ≤ num → (scan_blocks d num k ff bb).1.n_blk ≤ num) ∧
    ((scan_blocks d num k ff bb).1.eof = false → (num - ff.n_blk).toNat ≤ k →
      num ≤ (scan_blocks d num k ff bb).1.n_blk) := by
  induction k generalizing ff bb with
  | zero =>
    simp only [scan_blocks]
    exact ⟨h, Grows_refl ff, EofInv_of_not_eof d ff he, fun h => h, fun _ hk => by omega⟩
  | succ k ih =>
    simp only [scan_blocks]
    obtain ⟨n1, n2, n3, n4, n5, n6, n7, n8, n9⟩ := note_pos_inv ff h
    by_cases hgt : num > ff.n_blk
    · simp only [hgt, if_true]
      by_cases hr : (d ff.pos).eof = true
      · simp only [hr, if_true]
        refine ⟨n1, n2, set_eof_note_pos_EofInv d ff h hr, ?_, ?_⟩
        · intro _; simp only [set_eof, n3]; omega
        · intro hx; simp [set_eof] at hx
      · simp only [hr, Bool.false_eq_true, if_false]
        obtain ⟨a1, a2, a3, a4, a5⟩ := ih { note_pos ff with pos := (d ff.pos).pos }
          (read_block (d ff.pos) bb) n1 (by simp only [n6]; exact he)
        refine ⟨a1, Grows_trans _ _ _ h.1 n2 a2, a3, ?_, ?_⟩
        · intro _; exact a4 (by simp only [n3]; omega)
        · intro hx hk; exact a5 hx (by simp only [n3]; omega)
    · simp only [hgt, if_false]
      exact ⟨h, Grows_refl ff, EofInv_of_not_eof d ff he, fun h => h, fun _ _ => by omega⟩

theorem read_target_inv (d : Decoder) (ff : BWFile) (bb : BWBlock) (h : Wf ff)
    (he : ff.eof = false) :
    Wf (read_target d ff bb).1 ∧ Grows ff (read_target d ff bb).1 ∧
    EofInv d (read_target d ff bb).1 ∧
    (read_target d ff bb).1.n_blk = ff.n_blk + 1 ∧
    (read_target d ff bb).1.blk.getD ff.n_blk.toNat 0 = ff.pos ∧
    Decoded (d ff.pos) (read_target d ff bb).2 := by
  obtain ⟨n1, n2, n3, n4, n5, n6, n7, n8, n9⟩ := note_pos_inv ff h
  unfold read_target
  simp only []
  by_cases hr : (d ff.pos).eof = true
  · simp only [hr, if_true]
    exact ⟨n1, n2, set_eof_note_pos_EofInv d ff h hr, n3, n4, (read_block_Decoded _ _).1⟩
  · simp only [hr, Bool.false_eq_true, if_false]
    refine ⟨n1, n2, EofInv_of_not_eof d _ (by simp only [n6]; exact he), n3, n4,
      (read_block_Decoded _ _).1⟩

/-- What `get_block` does to the position array, for any decoder: recorded blocks stay
recorded at the same positions, and a returned block is numbered `num`, lies below the new
`n_blk`, and holds what the decoder yields at the recorded position of block `num`. -/
theorem get_block_core (d : Decoder) (s : BWFile) (num : Int) (hw : Wf s) :
    Wf (get_block d s num).1 ∧ (EofInv d s → EofInv d (get_block d s num).1) ∧
    Grows s (get_block d s num).1 ∧
    ∀ bb, (get_block d s num).2 = some bb →
      0 ≤ num ∧ num < (get_block d s num).1.n_blk ∧
      Decoded (d ((get_block d s num).1.blk.getD num.toNat 0)) bb := by
  have hwb : Wf { s with brk := s.brk + 1 } := hw
  have heb : EofInv d s → EofInv d { s with brk := s.brk + 1 } := fun h => h
  have hgb : Grows s { s with brk := s.brk + 1 } := Grows_refl s
  unfold get_block
  simp only []
  by_cases hneg : num < 0
  · simp only [hneg, if_true]
    exact ⟨hwb, heb, hgb, fun bb hbb => by simp at hbb⟩
  · simp only [hneg, if_false]
    by_cases hlt : num < s.n_blk
    · simp only [hlt, if_true]
      refine ⟨hwb, heb, hgb, ?_⟩
      intro bb hbb
      simp only [Option.some.injEq] at hbb
      subst hbb
      exact ⟨by omega, by first | exact hlt | trivial, (read_block_Decoded _ _).1⟩
    · simp only [hlt, if_false]
      obtain ⟨gw, gg⟩ := grow_blk_inv { s with brk := s.brk + 1 } num hwb
      obtain ⟨_, _, _, _, _, _, _, gn, gp, ge, gl, _⟩ := grow_blk_frame { s with brk := s.brk + 1 } num
      have gE : EofInv d s → EofInv d (grow_blk { s with brk := s.brk + 1 } num) := by
        intro h2 he
        rw [ge] at he
        obtain ⟨e1, e2, e3, e4⟩ := h2 he
        have := hw.1
        refine ⟨by rw [gn]; exact e1, ?_, by rw [gp]; exact e3, ?_⟩
        · rw [gp, gn, gg.2 _ (by simp only []; omega)]; exact e2
        · rw [gl, gn, gp, (grow_blk_frame _ num).2.2.2.1]; exact e4
      generalize grow_blk { s with brk := s.brk + 1 } num = s1 at gw gg gn gp ge gl gE
      simp only [] at gn gg
      by_cases hsc : num > s1.n_blk ∧ s1.eof = false
      · simp only [hsc, and_self, if_true]
        obtain ⟨a1, a2, a3, a4, a5⟩ := scan_blocks_inv d num (num - s1.n_blk).toNat s1
          (new_block s num) gw hsc.2
        generalize scan_blocks d num (num - s1.n_blk).toNat s1 (new_block s num) = sc
          at a1 a2 a3 a4 a5
        have hg2 : Grows s sc.1 := Grows_trans _ _ _ hw.1 gg a2
        by_cases he2 : sc.1.eof = true
        · simp only [he2, if_true]
          exact ⟨a1, fun _ => a3, hg2, fun bb hbb => by simp at hbb⟩
        · have he2' : sc.1.eof = false := by simpa using he2
          have hnn : sc.1.n_blk = num := le_antisymm (a4 (by omega)) (a5 he2' (le_refl _))
          simp only [he2', Bool.false_eq_true, if_false]
          obtain ⟨r1, r2, r3, r4, r5, r6⟩ := read_target_inv d sc.1 sc.2 a1 he2'
          refine ⟨r1, fun _ => r3, Grows_trans _ _ _ hw.1 hg2 r2, ?_⟩
          intro bb hbb
          simp only [Option.some.injEq] at hbb
          subst hbb
          refine ⟨by omega, by omega, ?_⟩
          rw [hnn] at r5
          rw [r5]; exact r6
      · simp only [hsc, if_false]
        by_cases he2 : s1.eof = true
        · simp only [he2, if_true]
          exact ⟨gw, gE, gg, fun bb hbb => by simp at hbb⟩
        · have he2' : s1.eof = false := by simpa using he2
          have hnn : s1.n_blk = num := by
            have : ¬ num > s1.n_blk := fun hx => hsc ⟨hx, he2'⟩
            omega
          simp only [he2', Bool.false_eq_true, if_false]
          obtain ⟨r1, r2, r3, r4, r5, r6⟩ := read_target_inv d s1 (new_block s num) gw he2'
          refine ⟨r1, fun _ => r3, Grows_trans _ _ _ hw.1 gg r2, ?_⟩
          intro bb hbb
          simp only [Option.some.injEq] at hbb
          subst hbb
          refine ⟨by omega, by omega, ?_⟩
          rw [hnn] at r5
          rw [r5]; exact r6

/-- The store invariant is kept by `get_block`. -/
theorem get_block_inv (d : Decoder) (s : BWFile) (num : Int) (h : StoreInv d s) :
    StoreInv d (get_block d s num).1 ∧ Grows s (get_block d s num).1 ∧
    ∀ bb, (get_block d s num).2 = some bb →
      0 ≤ num ∧ num < (get_block d s num).1.n_blk ∧
      Decoded (d ((get_block d s num).1.blk.getD num.toNat 0)) bb := by
  obtain ⟨hw, h2, h3⟩ := h
  have hfr := get_block_frame d s num
  obtain ⟨c1, c2, c3, c4⟩ := get_block_core d s num hw
  refine ⟨⟨c1, c2 h2, ?_⟩, c3, c4⟩
  intro b hb
  rw [hfr.1] at hb
  obtain ⟨b1, b2, b3⟩ := h3 b hb
  have := c3.1
  have := hw.1
  refine ⟨by omega, by rw [hfr.2.2.2.2.1]; exact b2, ?_⟩
  intro hb0
  rw [c3.2 _ (by omega)]
  exact b3 hb0

/-! ## The store invariant along a run; C3 -/

theorem StoreInv_get (d : Decoder) (s : BWFile) (num : Int) (h : StoreInv d s) :
    StoreInv d (bwfile_get d s num).1 := by
  cases hc : cache_hit num s.cache with
  | some p =>
    obtain ⟨c, a⟩ := p
    obtain ⟨hw, h2, h3⟩ := h
    obtain ⟨l1, bb, l2, hs, _, _, _, hc2⟩ := cache_hit_some num s.cache c a hc
    rw [bwfile_get_hit d s num c a hc]
    refine ⟨hw, h2, ?_⟩
    intro b hb
    simp only [hc2, List.mem_append, List.mem_cons] at hb
    rcases hb with hb | rfl | hb
    · exact h3 b (by simp [hs, hb])
    · exact h3 bb (by simp [hs])
    · exact h3 b (by simp [hs, hb])
  | none =>
    obtain ⟨⟨hw, h2, h3⟩, _, hbb⟩ := get_block_inv d s num h
    rw [bwfile_get_miss d s num hc]
    cases hg : (get_block d s num).2 with
    | none =>
      refine ⟨hw, h2, ?_⟩
      intro b hb
      simp only [] at hb
      exact h3 b hb
    | some bb =>
      obtain ⟨g1, g2, g3⟩ := hbb bb hg
      obtain ⟨_, k2, _, _, k5⟩ := get_block_block d s num bb hg
      refine ⟨hw, h2, ?_⟩
      intro b hb
      simp only [List.mem_cons] at hb
      rcases hb with rfl | hb
      · refine ⟨by simp only [k2]; exact g2, by simp only [k5, (get_block_frame d s num).2.2.2.2.1],
          fun _ => ?_⟩
        simp only [k2]
        exact g3
      · exact h3 b (by rw [(get_block_frame d s num).1]; exact hb)

theorem StoreInv_free (d : Decoder) (s : BWFile) (a : Nat) (h : StoreInv d s) :
    StoreInv d (bwfile_free s a) := by
  obtain ⟨hw, h2, h3⟩ := h
  obtain ⟨f1, f2, f3, f4, f5, f6, f7, _, _, _⟩ := bwfile_free_frame s a
  refine ⟨by unfold Wf; rw [f1, f2]; exact hw, ?_, ?_⟩
  · unfold EofInv; rw [f1, f2, f3, f4, f5, f6]; exact h2
  · intro b hb
    obtain ⟨b0, hb0, hsd⟩ := bwfile_free_mem s a b hb
    obtain ⟨c1, c2, c3⟩ := h3 b0 hb0
    rw [f1, f2, f7, hsd.2.1, hsd.2.2.2.1]
    exact ⟨c1, c2, fun hx => Decoded_of_SameData _ b b0 hsd (c3 hx)⟩

theorem bwfile_check_eof_frame (s : BWFile) :
    (bwfile_check_eof s).blk = s.blk ∧ (bwfile_check_eof s).bsiz = s.bsiz ∧
    (bwfile_check_eof s).chan = s.chan ∧ (bwfile_check_eof s).m_blk = s.m_blk ∧
    (bwfile_check_eof s).dlog = s.dlog ∧ (bwfile_check_eof s).use = s.use ∧
    (bwfile_check_eof s).eof = false ∧
    (bwfile_check_eof s).n_blk ≤ s.n_blk ∧
    (1 ≤ s.n_blk → s.eof = true → (bwfile_check_eof s).n_blk = s.n_blk - 1 ∧
      (bwfile_check_eof s).pos = s.blk.getD (s.n_blk - 1).toNat 0) ∧
    (s.eof = false → bwfile_check_eof s = s) := by
  unfold bwfile_check_eof
  split_ifs with h1 h2
  · simp [h1]
  · refine ⟨rfl, rfl, rfl, rfl, rfl, rfl, rfl, ?_, ?_, fun h => absurd h h1⟩
    · simp only [h2]; exact le_refl _
    · intro hn; omega
  · refine ⟨rfl, rfl, rfl, rfl, rfl, rfl, rfl, ?_, fun _ _ => ⟨rfl, rfl⟩, fun h => absurd h h1⟩
    simp only []; omega

theorem StoreInv_check_eof (d : Decoder) (s : BWFile) (h : StoreInv d s) :
    StoreInv d (bwfile_check_eof s) := by
  by_cases he : s.eof = false
  · rw [(bwfile_check_eof_frame s).2.2.2.2.2.2.2.2.2 he]; exact h
  · have he' : s.eof = true := by simpa using he
    obtain ⟨hw, h2, h3⟩ := h
    obtain ⟨e1, _, _, _⟩ := h2 he'
    obtain ⟨f1, f2, f3, _, _, _, f7, _, f9, _⟩ := bwfile_check_eof_frame s
    obtain ⟨f9, _⟩ := f9 e1 he'
    have hw0 := hw.1
    have hw1 := hw.2
    refine ⟨⟨by rw [f9]; omega, by rw [f9, f1]; omega⟩, EofInv_of_not_eof d _ f7, ?_⟩
    intro b hb
    obtain ⟨b0, hb0, _, _, _, k4, k5, k6, hnum⟩ := bwfile_check_eof_mem s b hb
    obtain ⟨c1, c2, c3⟩ := h3 b0 hb0
    rcases hnum with ⟨hn, hlt⟩ | hn | ⟨_, hx⟩
    · refine ⟨by rw [hn]; exact hlt, by rw [k5, f3]; exact c2, ?_⟩
      intro hb
      rw [f1, hn]
      exact Decoded_of_SameData _ b b0 ⟨by assumption, hn, k4, k5, k6⟩ (c3 (by rw [← hn]; exact hb))
    · refine ⟨by rw [hn, f9]; omega, by rw [k5, f3]; exact c2, ?_⟩
      intro hb; rw [hn] at hb; omega
    · rw [hx] at f7; rw [f7] at he'; exact absurd he' (by simp)

theorem StoreInv_open (d : Decoder) (chan : Int) (pos0 : Nat) (bsiz max_unref : Int) :
    StoreInv d (bwfile_open chan pos0 bsiz max_unref) := by
  refine ⟨⟨by simp [bwfile_open], by simp [bwfile_open]⟩, EofInv_of_not_eof d _ rfl, ?_⟩
  intro b hb
  simp [bwfile_open] at hb

theorem Reach_StoreInv (d : Decoder) (s0 s : BWFile) (h0 : StoreInv d s0)
    (h : Reach (fun d2 => d2 = d) s0 s) : StoreInv d s := by
  induction h with
  | start => exact h0
  | get s d2 num _ hd ih => subst hd; exact StoreInv_get _ s num ih
  | free s a bb _ _ _ ih => exact StoreInv_free d s a ih
  | check_eof s _ ih => exact StoreInv_check_eof d s ih


theorem bwfile_get_frame (d : Decoder) (s : BWFile) (num : Int) :
    (bwfile_get d s num).1.chan = s.chan ∧ (bwfile_get d s num).1.bsiz = s.bsiz ∧
    (bwfile_get d s num).1.m_blk = s.m_blk ∧ (bwfile_get d s num).1.use = s.use := by
  cases hc : cache_hit num s.cache with
  | some p => obtain ⟨c, a⟩ := p; simp [bwfile_get_hit d s num c a hc]
  | none =>
    rw [bwfile_get_miss d s num hc]
    obtain ⟨_, _, f3, f4, f5, f6, _⟩ := get_block_frame d s num
    split <;> simp [f3, f4, f5, f6]

theorem bwfile_get_Grows (d : Decoder) (s : BWFile) (num : Int) (h : StoreInv d s) :
    Grows s (bwfile_get d s num).1 := by
  cases hc : cache_hit num s.cache with
  | some p => obtain ⟨c, a⟩ := p; rw [bwfile_get_hit d s num c a hc]; exact Grows_refl s
  | none =>
    rw [bwfile_get_miss d s num hc]
    have := (get_block_inv d s num h).2.1
    split
    · exact this
    · exact this

theorem get_block_reread (d : Decoder) (s : BWFile) (num : Int) (h0 : 0 ≤ num)
    (h1 : num < s.n_blk) :
    get_block d s num =
      ({ s with brk := s.brk + 1, dlog := (num, s.blk.getD num.toNat 0) :: s.dlog },
       some { read_block (d (s.blk.getD num.toNat 0)) (new_block s num) with
                len := (d (s.blk.getD num.toNat 0)).len }) := by
  have : ¬ num < 0 := by omega
  simp [get_block, this, h1]

theorem bwfile_get_some (d : Decoder) (s : BWFile) (num : Int) (h0 : 0 ≤ num)
    (h1 : num < s.n_blk) : ∃ a, (bwfile_get d s num).2 = some a := by
  cases hc : cache_hit num s.cache with
  | some p => obtain ⟨c, a⟩ := p; exact ⟨a, by rw [bwfile_get_hit d s num c a hc]⟩
  | none =>
    rw [bwfile_get_miss d s num hc, get_block_reread d s num h0 h1]
    exact ⟨_, rfl⟩

theorem same_content_of_Decoded (r : ReadResult) (b1 b2 : BWBlock) (h1 : Decoded r b1)
    (h2 : Decoded r b2) (hc : b1.chan.length = b2.chan.length) : same_content b1 b2 := by
  obtain ⟨x1, x2, x3⟩ := h1
  obtain ⟨y1, y2, y3⟩ := h2
  have hl : b1.len.toNat = r.frames.length := by rw [x1]; simp [ReadResult.len]
  refine ⟨by rw [x1, y1], by rw [hl, x2, y2], ?_⟩
  rw [hl, x3, y3, hc]

/-- C3: for a store run on a fixed decoder (its output a function of the start position)
and every block number `N >= 0` for which `bwfile_get` returns a block, the sequence
`bwfile_get(N); bwfile_free; bwfile_get(N)` returns a block again, and that block has the
same `len` and, at every index below `len`, the same error flags and the same samples in
every channel as the block of the first call. -/
theorem C3_reread_same_content (d : Decoder) (chan : Int) (pos0 : Nat) (bsiz max_unref : Int)
    (s : BWFile) (hr : Reach (fun d2 => d2 = d) (bwfile_open chan pos0 bsiz max_unref) s)
    (N : Int) (hN : 0 ≤ N) (a1 : Nat) (h1 : (bwfile_get d s N).2 = some a1) :
    ∃ b1 a2 b2,
      deref (bwfile_get d s N).1.cache a1 = some b1 ∧
      (bwfile_get d (bwfile_free (bwfile_get d s N).1 a1) N).2 = some a2 ∧
      deref (bwfile_get d (bwfile_free (bwfile_get d s N).1 a1) N).1.cache a2 = some b2 ∧
      b1.num = N ∧ b2.num = N ∧ same_content b1 b2 := by
  have hS : StoreInv d s := Reach_StoreInv d _ s (StoreInv_open d chan pos0 bsiz max_unref) hr
  have hA : AddrInv s := Reach_AddrInv _ _ s (AddrInv_open chan pos0 bsiz max_unref) hr
  have hS1 := StoreInv_get d s N hS
  have hA1 := AddrInv_get d s N hA
  obtain ⟨b1, hb1, hadr1, hnum1, _⟩ := bwfile_get_result d s N a1 h1
  have hd1 : deref (bwfile_get d s N).1.cache a1 = some b1 := by
    rw [← hadr1]; exact deref_of_mem _ b1 hA1.1 hb1
  obtain ⟨c1, c2, c3⟩ := hS1.2.2 b1 hb1
  have hS2 := StoreInv_free d _ a1 hS1
  have hA2 := AddrInv_free _ a1 hA1
  obtain ⟨f1, f2, _, _, _, _, f7, _, _, _⟩ := bwfile_free_frame (bwfile_get d s N).1 a1
  generalize hs1 : (bwfile_get d s N).1 = s1 at *
  generalize hs2 : bwfile_free s1 a1 = s2 at *
  have hlt2 : N < s2.n_blk := by rw [f2, ← hnum1]; exact c1
  obtain ⟨a2, h2⟩ := bwfile_get_some d s2 N hN hlt2
  have hS3 := StoreInv_get d s2 N hS2
  have hA3 := AddrInv_get d s2 N hA2
  have hG := bwfile_get_Grows d s2 N hS2
  obtain ⟨b2, hb2, hadr2, hnum2, _⟩ := bwfile_get_result d s2 N a2 h2
  have hd2 : deref (bwfile_get d s2 N).1.cache a2 = some b2 := by
    rw [← hadr2]; exact deref_of_mem _ b2 hA3.1 hb2
  obtain ⟨e1, e2, e3⟩ := hS3.2.2 b2 hb2
  refine ⟨b1, a2, b2, hd1, h2, hd2, hnum1, hnum2, ?_⟩
  have hpos : (bwfile_get d s2 N).1.blk.getD b2.num.toNat 0 = s1.blk.getD b1.num.toNat 0 := by
    rw [hnum2, hnum1, hG.2 _ (by omega), f1]
  have hD2 := e3 (by omega)
  rw [hpos] at hD2
  refine same_content_of_Decoded _ b1 b2 (c3 (by omega)) hD2 ?_
  rw [c2, e2, (bwfile_get_frame d s2 N).1, f7]

theorem C3_reread_same_content_witness :
    (0 : Int) ≤ 1 ∧ (bwfile_get demo_read demo_eof 1).2 = some 1 ∧
    ∃ b1 a2 b2,
      deref (bwfile_get demo_read demo_eof 1).1.cache 1 = some b1 ∧
      (bwfile_get demo_read (bwfile_free (bwfile_get demo_read demo_eof 1).1 1) 1).2 = some a2 ∧
      deref (bwfile_get demo_read (bwfile_free (bwfile_get demo_read demo_eof 1).1 1) 1).1.cache a2
        = some b2 ∧
      b1.num = 1 ∧ b2.num = 1 ∧ same_content b1 b2 :=
  ⟨by decide, by decide,
   C3_reread_same_content demo_read 2 0 4 0 demo_eof
     (Reach.get _ demo_read 2 Reach.start rfl) 1 (by decide) 1 (by decide)⟩


/-! ## C5: the length found at end-of-file, for the frame-counting decoder -/

theorem stream_read_eof (bsiz : Int) (stream : List Frame) (p : Nat) (hb : 1 ≤ bsiz) :
    ((stream_read bsiz stream p).eof = true ↔ stream.length < p + bsiz.toNat) := by
  simp only [stream_read, decide_eq_true_eq]
  omega

theorem stream_read_len (bsiz : Int) (stream : List Frame) (p : Nat) :
    (stream_read bsiz stream p).frames.length = min bsiz.toNat (stream.length - p) := by
  simp [stream_read]

theorem stream_read_pos (bsiz : Int) (stream : List Frame) (p : Nat) :
    (stream_read bsiz stream p).pos = p + min bsiz.toNat (stream.length - p) := by
  simp [stream_read]

theorem read_step_pos (bsiz : Int) (hb : 1 ≤ bsiz) (stream : List Frame) (ff : BWFile)
    (h : PosInv bsiz stream.length ff) (he : ff.eof = false) :
    ((stream_read bsiz stream ff.pos).eof = true →
      PosInv bsiz stream.length (set_eof (note_pos ff) (stream_read bsiz stream ff.pos).len)) ∧
    ((stream_read bsiz stream ff.pos).eof = false →
      PosInv bsiz stream.length { note_pos ff with pos := (stream_read bsiz stream ff.pos).pos }) := by
  obtain ⟨p1, p2, p3, p4, _⟩ := h
  obtain ⟨q1, q2⟩ := p4 he
  obtain ⟨n1, n2, n3, n4, n5, n6, n7, n8, _⟩ := note_pos_inv ff p2
  have hn0 := p2.1
  have hsucc : (ff.n_blk + 1).toNat = ff.n_blk.toNat + 1 := by omega
  have hmul : (ff.n_blk.toNat + 1) * bsiz.toNat = ff.n_blk.toNat * bsiz.toNat + bsiz.toNat :=
    Nat.succ_mul _ _
  have hblk : ∀ i, i < (ff.n_blk + 1).toNat → (note_pos ff).blk.getD i 0 = i * bsiz.toNat := by
    intro i hi
    by_cases hlt : i < ff.n_blk.toNat
    · rw [n2.2 i hlt]; exact p3 i hlt
    · have : i = ff.n_blk.toNat := by omega
      rw [this, n4, q1]
  constructor
  · intro hr
    have hr' := (stream_read_eof bsiz stream ff.pos hb).1 hr
    refine ⟨by simp only [set_eof, n8]; exact p1, n1, ?_, ?_, ?_⟩
    · intro i hi; exact hblk i (by simpa [set_eof, n3] using hi)
    · intro hx; simp [set_eof] at hx
    · intro _
      refine ⟨by simp only [set_eof, n3]; omega, ?_, by simp only [set_eof, n5]; exact q2,
        by simp only [set_eof, n5]; exact hr', ?_⟩
      · simp only [set_eof, n3, n5, hsucc, hmul]; omega
      · have hl : (stream_read bsiz stream ff.pos).len = ((stream.length - ff.pos : Nat) : Int) := by
          simp only [ReadResult.len, stream_read_len]
          congr 1
          omega
        have hB : ((bsiz.toNat : Nat) : Int) = bsiz := Int.toNat_of_nonneg (by omega)
        have hN : ((ff.n_blk.toNat : Nat) : Int) = ff.n_blk := Int.toNat_of_nonneg hn0
        have hpc : (ff.pos : Int) = ff.n_blk * bsiz := by
          rw [q1]; push_cast; rw [hB, hN]
        simp only [set_eof, n3, n8, p1, hl]
        have : ff.n_blk + 1 - 1 = ff.n_blk := by omega
        rw [this, ← hpc]
        congr 1
        omega
  · intro hr
    have hr' : ¬ stream.length < ff.pos + bsiz.toNat := by
      intro hx
      have := (stream_read_eof bsiz stream ff.pos hb).2 hx
      rw [hr] at this; exact absurd this (by simp)
    have hpos : (stream_read bsiz stream ff.pos).pos = ff.pos + bsiz.toNat := by
      rw [stream_read_pos]; congr 1; omega
    refine ⟨by simp only [n8]; exact p1, n1, ?_, ?_, ?_⟩
    · intro i hi; exact hblk i (by simpa [n3] using hi)
    · intro _
      simp only [n3, hsucc, hmul, hpos]
      omega
    · intro hx; simp only [n6] at hx; rw [he] at hx; exact absurd hx (by simp)

theorem scan_blocks_pos (bsiz : Int) (hb : 1 ≤ bsiz) (stream : List Frame) (num : Int) (k : Nat)
    (ff : BWFile) (bb : BWBlock) (h : PosInv bsiz stream.length ff) (he : ff.eof = false) :
    PosInv bsiz stream.length (scan_blocks (stream_read bsiz stream) num k ff bb).1 := by
  induction k generalizing ff bb with
  | zero => simpa [scan_blocks] using h
  | succ k ih =>
    simp only [scan_blocks]
    obtain ⟨s1, s2⟩ := read_step_pos bsiz hb stream ff h he
    by_cases hgt : num > ff.n_blk
    · simp only [hgt, if_true]
      by_cases hr : (stream_read bsiz stream ff.pos).eof = true
      · simp only [hr, if_true]; exact s1 hr
      · have hr' : (stream_read bsiz stream ff.pos).eof = false := by simpa using hr
        simp only [hr', Bool.false_eq_true, if_false]
        exact ih _ _ (s2 hr') (by simp only [note_pos]; exact he)
    · simp only [hgt, if_false]; exact h

theorem read_target_pos (bsiz : Int) (hb : 1 ≤ bsiz) (stream : List Frame)
    (ff : BWFile) (bb : BWBlock) (h : PosInv bsiz stream.length ff) (he : ff.eof = false) :
    PosInv bsiz stream.length (read_target (stream_read bsiz stream) ff bb).1 := by
  obtain ⟨s1, s2⟩ := read_step_pos bsiz hb stream ff h he
  unfold read_target
  simp only []
  by_cases hr : (stream_read bsiz stream ff.pos).eof = true
  · simp only [hr, if_true]; exact s1 hr
  · have hr' : (stream_read bsiz stream ff.pos).eof = false := by simpa using hr
    simp only [hr', Bool.false_eq_true, if_false]
    exact s2 hr'

theorem PosInv_congr (bsiz : Int) (T : Nat) (s s2 : BWFile) (h : PosInv bsiz T s)
    (h1 : s2.bsiz = s.bsiz) (h2 : s2.n_blk = s.n_blk) (h3 : s2.pos = s.pos)
    (h4 : s2.eof = s.eof) (h5 : s2.len = s.len) (h6 : Wf s2)
    (h7 : ∀ i, i < s.n_blk.toNat → s2.blk.getD i 0 = s.blk.getD i 0) : PosInv bsiz T s2 := by
  obtain ⟨p1, _, p3, p4, p5⟩ := h
  refine ⟨by rw [h1]; exact p1, h6, ?_, ?_, ?_⟩
  · intro i hi
    rw [h2] at hi
    rw [h7 i hi]; exact p3 i hi
  · rw [h2, h3, h4]; exact p4
  · rw [h2, h3, h4, h5]; exact p5

theorem get_block_pos (bsiz : Int) (hb : 1 ≤ bsiz) (stream : List Frame) (s : BWFile) (num : Int)
    (h : PosInv bsiz stream.length s) :
    PosInv bsiz stream.length (get_block (stream_read bsiz stream) s num).1 := by
  have hb1 : PosInv bsiz stream.length { s with brk := s.brk + 1 } :=
    PosInv_congr _ _ s _ h rfl rfl rfl rfl rfl h.2.1 (fun _ _ => rfl)
  unfold get_block
  simp only []
  by_cases hneg : num < 0
  · simp only [hneg, if_true]; exact hb1
  · simp only [hneg, if_false]
    by_cases hlt : num < s.n_blk
    · simp only [hlt, if_true]
      exact PosInv_congr _ _ s _ h rfl rfl rfl rfl rfl h.2.1 (fun _ _ => rfl)
    · simp only [hlt, if_false]
      obtain ⟨gw, gg⟩ := grow_blk_inv { s with brk := s.brk + 1 } num h.2.1
      obtain ⟨_, _, _, g4, _, _, _, gn, gp, ge, gl, _⟩ :=
        grow_blk_frame { s with brk := s.brk + 1 } num
      have hg : PosInv bsiz stream.length (grow_blk { s with brk := s.brk + 1 } num) :=
        PosInv_congr _ _ s _ h g4 gn gp ge gl gw gg.2
      generalize grow_blk { s with brk := s.brk + 1 } num = s1 at hg
      by_cases hsc : num > s1.n_blk ∧ s1.eof = false
      · simp only [hsc, and_self, if_true]
        have hsp := scan_blocks_pos bsiz hb stream num (num - s1.n_blk).toNat s1
          (new_block s num) hg hsc.2
        generalize scan_blocks (stream_read bsiz stream) num (num - s1.n_blk).toNat s1
          (new_block s num) = sc at hsp
        by_cases he2 : sc.1.eof = true
        · simp only [he2, if_true]; exact hsp
        · have he2' : sc.1.eof = false := by simpa using he2
          simp only [he2', Bool.false_eq_true, if_false]
          exact read_target_pos bsiz hb stream sc.1 sc.2 hsp he2'
      · simp only [hsc, if_false]
        by_cases he2 : s1.eof = true
        · simp only [he2, if_true]; exact hg
        · have he2' : s1.eof = false := by simpa using he2
          simp only [he2', Bool.false_eq_true, if_false]
          exact read_target_pos bsiz hb stream s1 _ hg he2'


theorem PosInv_get (bsiz : Int) (hb : 1 ≤ bsiz) (stream : List Frame) (s : BWFile) (num : Int)
    (h : PosInv bsiz stream.length s) :
    PosInv bsiz stream.length (bwfile_get (stream_read bsiz stream) s num).1 := by
  cases hc : cache_hit num s.cache with
  | some p =>
    obtain ⟨c, a⟩ := p
    rw [bwfile_get_hit _ s num c a hc]
    exact PosInv_congr _ _ s _ h rfl rfl rfl rfl rfl h.2.1 (fun _ _ => rfl)
  | none =>
    rw [bwfile_get_miss _ s num hc]
    have hg := get_block_pos bsiz hb stream s num h
    split
    · exact hg
    · exact PosInv_congr _ _ _ _ hg rfl rfl rfl rfl rfl hg.2.1 (fun _ _ => rfl)

theorem PosInv_free (bsiz : Int) (T : Nat) (s : BWFile) (a : Nat) (h : PosInv bsiz T s) :
    PosInv bsiz T (bwfile_free s a) := by
  obtain ⟨f1, f2, f3, f4, f5, f6, _⟩ := bwfile_free_frame s a
  refine PosInv_congr _ _ s _ h f6 f2 f3 f4 f5 ?_ (fun _ _ => by rw [f1])
  unfold Wf; rw [f1, f2]; exact h.2.1

/-- `bwfile_check_eof` keeps the invariant, also when the stream has grown meanwhile. -/
theorem PosInv_check_eof (bsiz : Int) (T T2 : Nat) (hT : T ≤ T2) (s : BWFile)
    (h : PosInv bsiz T s) :
    PosInv bsiz T2 (bwfile_check_eof s) ∧ (bwfile_check_eof s).eof = false := by
  obtain ⟨f1, f2, _, _, _, _, f7, _, f9, f10⟩ := bwfile_check_eof_frame s
  refine ⟨?_, f7⟩
  obtain ⟨p1, p2, p3, p4, p5⟩ := h
  by_cases he : s.eof = false
  · rw [f10 he]
    obtain ⟨q1, q2⟩ := p4 he
    refine ⟨p1, p2, p3, fun _ => ⟨q1, le_trans q2 hT⟩, ?_⟩
    intro hx; rw [he] at hx; exact absurd hx (by simp)
  · have he' : s.eof = true := by simpa using he
    obtain ⟨e1, e2, e3, e4, e5⟩ := p5 he'
    obtain ⟨g1, g2⟩ := f9 e1 he'
    have hw0 := p2.1
    have hw1 := p2.2
    have hn : (s.n_blk - 1).toNat + 1 = s.n_blk.toNat := by omega
    have hmul : s.n_blk.toNat * bsiz.toNat = (s.n_blk - 1).toNat * bsiz.toNat + bsiz.toNat := by
      rw [← hn, Nat.succ_mul]
    refine ⟨by rw [f2]; exact p1, ⟨by rw [g1]; omega, by rw [g1, f1]; omega⟩, ?_, ?_, ?_⟩
    · intro i hi
      rw [f1]; exact p3 i (by rw [g1] at hi; omega)
    · intro _
      rw [g2, g1, p3 _ (by omega)]
      refine ⟨rfl, ?_⟩
      omega
    · intro hx; rw [f7] at hx; exact absurd hx (by simp)

theorem PosInv_open (bsiz : Int) (T : Nat) (chan max_unref : Int) :
    PosInv bsiz T (bwfile_open chan 0 bsiz max_unref) := by
  refine ⟨rfl, ⟨by simp [bwfile_open], by simp [bwfile_open]⟩, ?_, ?_, ?_⟩
  · intro i hi; simp [bwfile_open] at hi
  · intro _; simp [bwfile_open]
  · intro hx; simp [bwfile_open] at hx

/-- A value within the range of `int` is stored unchanged. -/
theorem to_int_of_range (x : Int) (h0 : -2147483648 ≤ x) (h1 : x < 2147483648) :
    to_int x = x := by
  unfold to_int; omega

theorem cache_hit_none_of (num : Int) (c : List BWBlock) (h : ∀ b ∈ c, b.num ≠ num) :
    cache_hit num c = none := by
  cases hc : cache_hit num c with
  | none => rfl
  | some p =>
    obtain ⟨c2, a⟩ := p
    obtain ⟨l1, bb, l2, hs, _, hn, _, _⟩ := cache_hit_some num c c2 a hc
    exact absurd hn (h bb (by simp [hs]))

theorem bwfile_check_eof_Wf (s : BWFile) (h : Wf s) : Wf (bwfile_check_eof s) := by
  obtain ⟨h0, h1⟩ := h
  unfold bwfile_check_eof Wf
  split_ifs with e1 e2
  · exact ⟨h0, h1⟩
  · exact ⟨h0, h1⟩
  · simp only []
    constructor <;> omega

theorem NumInv_get (d : Decoder) (s : BWFile) (num : Int) (h : NumInv s) :
    NumInv (bwfile_get d s num).1 := by
  obtain ⟨hw, h3⟩ := h
  cases hc : cache_hit num s.cache with
  | some p =>
    obtain ⟨c, a⟩ := p
    obtain ⟨l1, bb, l2, hs, _, _, _, hc2⟩ := cache_hit_some num s.cache c a hc
    rw [bwfile_get_hit d s num c a hc]
    refine ⟨hw, ?_⟩
    intro b hb
    simp only [hc2, List.mem_append, List.mem_cons] at hb
    rcases hb with hb | rfl | hb
    · exact h3 b (by simp [hs, hb])
    · exact h3 bb (by simp [hs])
    · exact h3 b (by simp [hs, hb])
  | none =>
    obtain ⟨c1, _, c3, c4⟩ := get_block_core d s num hw
    rw [bwfile_get_miss d s num hc]
    have hold : ∀ b ∈ s.cache, b.num < (get_block d s num).1.n_blk := by
      intro b hb
      have := h3 b hb
      have := c3.1
      omega
    cases hg : (get_block d s num).2 with
    | none =>
      refine ⟨c1, ?_⟩
      intro b hb
      simp only [(get_block_frame d s num).1] at hb
      exact hold b hb
    | some bb =>
      obtain ⟨_, g2, _⟩ := c4 bb hg
      obtain ⟨_, k2, _, _, _⟩ := get_block_block d s num bb hg
      refine ⟨c1, ?_⟩
      intro b hb
      simp only [List.mem_cons] at hb
      rcases hb with rfl | hb
      · simp only [k2]; exact g2
      · exact hold b hb

theorem NumInv_free (s : BWFile) (a : Nat) (h : NumInv s) : NumInv (bwfile_free s a) := by
  obtain ⟨hw, h3⟩ := h
  obtain ⟨f1, f2, _⟩ := bwfile_free_frame s a
  refine ⟨by unfold Wf; rw [f1, f2]; exact hw, ?_⟩
  intro b hb
  obtain ⟨b0, hb0, hsd⟩ := bwfile_free_mem s a b hb
  rw [f2, hsd.2.1]; exact h3 b0 hb0

theorem NumInv_check_eof (s : BWFile) (h : NumInv s) : NumInv (bwfile_check_eof s) := by
  obtain ⟨hw, h3⟩ := h
  have hw2 := bwfile_check_eof_Wf s hw
  refine ⟨hw2, ?_⟩
  intro b hb
  obtain ⟨b0, hb0, _, _, _, _, _, _, hnum⟩ := bwfile_check_eof_mem s b hb
  rcases hnum with ⟨hn, hlt⟩ | hn | ⟨rfl, hx⟩
  · rw [hn]; exact hlt
  · have := hw2.1; omega
  · rw [hx]; exact h3 b hb0

theorem NumInv_open (chan : Int) (pos0 : Nat) (bsiz max_unref : Int) :
    NumInv (bwfile_open chan pos0 bsiz max_unref) := by
  refine ⟨⟨by simp [bwfile_open], by simp [bwfile_open]⟩, ?_⟩
  intro b hb
  simp [bwfile_open] at hb

theorem Reach_NumInv (P : Decoder → Prop) (s0 s : BWFile) (h0 : NumInv s0) (h : Reach P s0 s) :
    NumInv s := by
  induction h with
  | start => exact h0
  | get s d num _ _ ih => exact NumInv_get d s num ih
  | free s a bb _ _ _ ih => exact NumInv_free s a ih
  | check_eof s _ ih => exact NumInv_check_eof s ih

theorem get_block_next (d : Decoder) (s : BWFile) (h0 : 0 ≤ s.n_blk) (he : s.eof = false) :
    get_block d s s.n_blk =
      ((read_target d (grow_blk { s with brk := s.brk + 1 } s.n_blk) (new_block s s.n_blk)).1,
       some (read_target d (grow_blk { s with brk := s.brk + 1 } s.n_blk)
          (new_block s s.n_blk)).2) := by
  have gn : (grow_blk { s with brk := s.brk + 1 } s.n_blk).n_blk = s.n_blk :=
    (grow_blk_frame { s with brk := s.brk + 1 } s.n_blk).2.2.2.2.2.2.2.1
  have ge : (grow_blk { s with brk := s.brk + 1 } s.n_blk).eof = false := by
    rw [(grow_blk_frame { s with brk := s.brk + 1 } s.n_blk).2.2.2.2.2.2.2.2.2.1]; exact he
  have h1 : ¬ s.n_blk < 0 := by omega
  have h2 : ¬ (s.n_blk > (grow_blk { s with brk := s.brk + 1 } s.n_blk).n_blk ∧
      (grow_blk { s with brk := s.brk + 1 } s.n_blk).eof = false) := by
    rw [gn]; intro hx; exact absurd hx.1 (lt_irrefl _)
  unfold get_block
  simp only []
  rw [if_neg h1, if_neg (lt_irrefl _), if_neg h2]
  simp only [ge, Bool.false_eq_true, if_false]

theorem read_target_fields (d : Decoder) (ff : BWFile) (bb : BWBlock) :
    (read_target d ff bb).1.n_blk = ff.n_blk + 1 ∧
    (read_target d ff bb).1.dlog = (ff.n_blk, ff.pos) :: ff.dlog ∧
    (read_target d ff bb).1.bsiz = ff.bsiz ∧
    ((d ff.pos).eof = true → (read_target d ff bb).1.eof = true ∧
      (read_target d ff bb).1.pos = ff.pos ∧
      (read_target d ff bb).1.len = to_int (ff.n_blk * ff.bsiz + (d ff.pos).len)) ∧
    ((d ff.pos).eof = false → (read_target d ff bb).1.eof = ff.eof ∧
      (read_target d ff bb).1.pos = (d ff.pos).pos ∧
      (read_target d ff bb).1.len = ff.len) := by
  unfold read_target
  simp only []
  by_cases hr : (d ff.pos).eof = true
  · simp only [hr, if_true]
    simp [set_eof, note_pos]
  · simp only [hr, Bool.false_eq_true, if_false]
    simp [note_pos]

theorem grow_blk_tick (s : BWFile) (num : Int) (hw : Wf s) :
    (grow_blk { s with brk := s.brk + 1 } num).cache = s.cache ∧
    (grow_blk { s with brk := s.brk + 1 } num).bsiz = s.bsiz ∧
    (grow_blk { s with brk := s.brk + 1 } num).n_blk = s.n_blk ∧
    (grow_blk { s with brk := s.brk + 1 } num).pos = s.pos ∧
    (grow_blk { s with brk := s.brk + 1 } num).eof = s.eof ∧
    (grow_blk { s with brk := s.brk + 1 } num).len = s.len ∧
    (grow_blk { s with brk := s.brk + 1 } num).dlog = s.dlog ∧
    Wf (grow_blk { s with brk := s.brk + 1 } num) ∧
    Grows s (grow_blk { s with brk := s.brk + 1 } num) := by
  obtain ⟨g1, _, _, g4, _, _, _, gn, gp, ge, gl, gd⟩ :=
    grow_blk_frame { s with brk := s.brk + 1 } num
  obtain ⟨gw, gg⟩ := grow_blk_inv { s with brk := s.brk + 1 } num hw
  exact ⟨g1, g4, gn, gp, ge, gl, gd, gw, gg⟩

/-- One turn of the scan loop of `bwanal_length` from a store that has not hit
end-of-file: `bwfile_get(ff, ff->n_blk)` misses the cache, decodes exactly one block at
`pos`, records it, and returns it; `bwfile_free` then leaves the bookkeeping as it is. -/
theorem loop_step (d : Decoder) (s : BWFile) (h : NumInv s) (he : s.eof = false) :
    ∃ a, (bwfile_get d s s.n_blk).2 = some a ∧
      NumInv (bwfile_free (bwfile_get d s s.n_blk).1 a) ∧
      Grows s (bwfile_free (bwfile_get d s s.n_blk).1 a) ∧
      (bwfile_free (bwfile_get d s s.n_blk).1 a).n_blk = s.n_blk + 1 ∧
      (bwfile_free (bwfile_get d s s.n_blk).1 a).blk.getD s.n_blk.toNat 0 = s.pos ∧
      (bwfile_free (bwfile_get d s s.n_blk).1 a).bsiz = s.bsiz ∧
      (bwfile_free (bwfile_get d s s.n_blk).1 a).dlog = (s.n_blk, s.pos) :: s.dlog ∧
      ((d s.pos).eof = true → (bwfile_free (bwfile_get d s s.n_blk).1 a).eof = true ∧
        (bwfile_free (bwfile_get d s s.n_blk).1 a).pos = s.pos ∧
        (bwfile_free (bwfile_get d s s.n_blk).1 a).len =
          to_int (s.n_blk * s.bsiz + (d s.pos).len)) ∧
      ((d s.pos).eof = false → (bwfile_free (bwfile_get d s s.n_blk).1 a).eof = false ∧
        (bwfile_free (bwfile_get d s s.n_blk).1 a).pos = (d s.pos).pos ∧
        (bwfile_free (bwfile_get d s s.n_blk).1 a).len = s.len) := by
  obtain ⟨hw, h3⟩ := h
  have hmiss : cache_hit s.n_blk s.cache = none :=
    cache_hit_none_of _ _ (fun b hb => by have := h3 b hb; omega)
  have hgb := get_block_next d s hw.1 he
  obtain ⟨_, g4, gn, gp, ge, gl, gd, gw, gg⟩ := grow_blk_tick s s.n_blk hw
  have hnum := (read_target_block d (grow_blk { s with brk := s.brk + 1 } s.n_blk)
        (new_block s s.n_blk)).2.1
  generalize grow_blk { s with brk := s.brk + 1 } s.n_blk = g at hgb g4 gn gp ge gl gd gw gg hnum
  obtain ⟨r1, r2, r3, r4, r5⟩ := read_target_fields d g (new_block s s.n_blk)
  obtain ⟨t1, t2, _, _, t5, _⟩ := read_target_inv d g (new_block s s.n_blk) gw
    (by rw [ge]; exact he)
  rw [gn, gp] at r4
  rw [gp] at r5
  rw [gn, gp, gd] at r2
  rw [gn] at r1 t5
  rw [gp] at t5
  rw [g4] at r3 r4
  rw [ge, gl] at r5
  have hget : bwfile_get d s s.n_blk =
      ({ (get_block d s s.n_blk).1 with
          cache := { (read_target d g (new_block s s.n_blk)).2 with
            ref := (read_target d g (new_block s s.n_blk)).2.ref + 1 } :: s.cache },
       some (read_target d g (new_block s s.n_blk)).2.addr) := by
    rw [bwfile_get_miss d s s.n_blk hmiss]
    simp only [hgb]
  refine ⟨_, by rw [hget], ?_⟩
  obtain ⟨f1, f2, f3, f4, f5, f6, _, _, _, f10⟩ := bwfile_free_frame (bwfile_get d s s.n_blk).1
    (read_target d g (new_block s s.n_blk)).2.addr
  have hfile : (bwfile_get d s s.n_blk).1.blk = (get_block d s s.n_blk).1.blk ∧
      (bwfile_get d s s.n_blk).1.n_blk = (get_block d s s.n_blk).1.n_blk ∧
      (bwfile_get d s s.n_blk).1.pos = (get_block d s s.n_blk).1.pos ∧
      (bwfile_get d s s.n_blk).1.eof = (get_block d s s.n_blk).1.eof ∧
      (bwfile_get d s s.n_blk).1.len = (get_block d s s.n_blk).1.len ∧
      (bwfile_get d s s.n_blk).1.bsiz = (get_block d s s.n_blk).1.bsiz ∧
      (bwfile_get d s s.n_blk).1.dlog = (get_block d s s.n_blk).1.dlog := by
    rw [hget]; exact ⟨rfl, rfl, rfl, rfl, rfl, rfl, rfl⟩
  obtain ⟨k1, k2, k3, k4, k5, k6, k7⟩ := hfile
  have hg1 : (get_block d s s.n_blk).1 = (read_target d g (new_block s s.n_blk)).1 := by
    rw [hgb]
  rw [hg1] at k1 k2 k3 k4 k5 k6 k7
  have hGrows : Grows s (read_target d g (new_block s s.n_blk)).1 :=
    Grows_trans _ _ _ hw.1 gg t2
  refine ⟨⟨?_, ?_⟩, ?_, by rw [f2, k2, r1], by rw [f1, k1]; exact t5, by rw [f6, k6, r3],
    by rw [f10, k7, r2], ?_, ?_⟩
  · unfold Wf; rw [f1, f2, k1, k2]; exact t1
  · intro b hb
    obtain ⟨b0, hb0, hsd⟩ := bwfile_free_mem _ _ b hb
    rw [f2, k2, r1, hsd.2.1]
    rw [hget] at hb0
    simp only [List.mem_cons] at hb0
    rcases hb0 with rfl | hb0
    · show (read_target d g (new_block s s.n_blk)).2.num < s.n_blk + 1
      rw [hnum]; simp only [new_block]; omega
    · have := h3 b0 hb0; omega
  · refine ⟨by rw [f2, k2, r1]; omega, ?_⟩
    intro i hi
    rw [f1, k1]; exact hGrows.2 i hi
  · intro hr
    obtain ⟨x1, x2, x3⟩ := r4 hr
    exact ⟨by rw [f4, k4, x1], by rw [f3, k3, x2], by rw [f5, k5, x3]⟩
  · intro hr
    obtain ⟨x1, x2, x3⟩ := r5 hr
    exact ⟨by rw [f4, k4, x1, he], by rw [f3, k3, x2], by rw [f5, k5, x3]⟩


/-! ## `bwanal_recheck_file` and `bwanal_length` on the store; C6 -/

theorem drop_stale_preserves (Q : BWFile → Prop) (hQ : ∀ s a, Q s → Q (bwfile_free s a))
    (l : List (Option Nat)) (ff : BWFile) (h : Q ff) : Q (drop_stale ff l).1 := by
  induction l generalizing ff with
  | nil => exact h
  | cons x rest ih =>
    cases x with
    | none => exact ih ff h
    | some a =>
      simp only [drop_stale]
      cases hd : deref ff.cache a with
      | none => exact ih ff h
      | some bb =>
        simp only []
        split_ifs
        · exact ih _ (hQ ff a h)
        · exact ih ff h

theorem drop_stale_frame (l : List (Option Nat)) (ff : BWFile) :
    (drop_stale ff l).1.blk = ff.blk ∧ (drop_stale ff l).1.n_blk = ff.n_blk ∧
    (drop_stale ff l).1.pos = ff.pos ∧ (drop_stale ff l).1.eof = ff.eof ∧
    (drop_stale ff l).1.len = ff.len ∧ (drop_stale ff l).1.bsiz = ff.bsiz ∧
    (drop_stale ff l).1.dlog = ff.dlog := by
  refine drop_stale_preserves (fun s => s.blk = ff.blk ∧ s.n_blk = ff.n_blk ∧ s.pos = ff.pos ∧
    s.eof = ff.eof ∧ s.len = ff.len ∧ s.bsiz = ff.bsiz ∧ s.dlog = ff.dlog) ?_ l ff
    ⟨rfl, rfl, rfl, rfl, rfl, rfl, rfl⟩
  intro s a ⟨h1, h2, h3, h4, h5, h6, h7⟩
  obtain ⟨f1, f2, f3, f4, f5, f6, _, _, _, f10⟩ := bwfile_free_frame s a
  exact ⟨by rw [f1, h1], by rw [f2, h2], by rw [f3, h3], by rw [f4, h4], by rw [f5, h5],
    by rw [f6, h6], by rw [f10, h7]⟩

/-- The store after `bwanal_recheck_file`: that of `bwfile_check_eof` up to releases. -/
theorem bwanal_recheck_file_file (aa : BWAnal) :
    (bwanal_recheck_file aa).file.blk = (bwfile_check_eof aa.file).blk ∧
    (bwanal_recheck_file aa).file.n_blk = (bwfile_check_eof aa.file).n_blk ∧
    (bwanal_recheck_file aa).file.pos = (bwfile_check_eof aa.file).pos ∧
    (bwanal_recheck_file aa).file.eof = false ∧
    (bwanal_recheck_file aa).file.len = (bwfile_check_eof aa.file).len ∧
    (bwanal_recheck_file aa).file.bsiz = aa.file.bsiz ∧
    (bwanal_recheck_file aa).file.dlog = aa.file.dlog ∧
    (NumInv aa.file → NumInv (bwanal_recheck_file aa).file) := by
  obtain ⟨d1, d2, d3, d4, d5, d6, d7⟩ :=
    drop_stale_frame (aa.blk.take aa.n_blk.toNat) (bwfile_check_eof aa.file)
  obtain ⟨_, c2, _, _, c5, _, c7, _⟩ := bwfile_check_eof_frame aa.file
  refine ⟨d1, d2, d3, by rw [← c7]; exact d4, d5, by rw [← c2]; exact d6,
    by rw [← c5]; exact d7, ?_⟩
  intro h
  exact drop_stale_preserves NumInv NumInv_free _ _ (NumInv_check_eof _ h)

theorem length_scan_eof (d : Decoder) (fuel : Nat) (s : BWFile) (he : s.eof = true) :
    length_scan d (fuel + 1) s = (s, true) := by
  simp [length_scan, he]

theorem length_scan_step (d : Decoder) (fuel : Nat) (s : BWFile) (he : s.eof = false) (a : Nat)
    (ha : (bwfile_get d s s.n_blk).2 = some a) :
    length_scan d (fuel + 1) s = length_scan d fuel (bwfile_free (bwfile_get d s s.n_blk).1 a) := by
  simp only [length_scan, he, Bool.false_eq_true, if_false]
  rcases hg : bwfile_get d s s.n_blk with ⟨ff1, r⟩
  rw [hg] at ha
  simp only [] at ha
  subst ha
  rfl

/-- The scan loop, started before end-of-file: whenever it is left, `eof` is set and it was
raised by the read of the last recorded block (`EofInv`); recorded positions are kept. -/
theorem length_scan_spec (d : Decoder) (fuel : Nat) (s : BWFile) (h : NumInv s)
    (he : s.eof = false) :
    NumInv (length_scan d fuel s).1 ∧ Grows s (length_scan d fuel s).1 ∧
    (length_scan d fuel s).1.bsiz = s.bsiz ∧
    ((length_scan d fuel s).2 = true →
      (length_scan d fuel s).1.eof = true ∧ EofInv d (length_scan d fuel s).1) := by
  induction fuel generalizing s with
  | zero => exact ⟨h, Grows_refl s, rfl, fun hx => by simp [length_scan] at hx⟩
  | succ k ih =>
    obtain ⟨a, ha, l1, l2, l3, l4, l5, l6, l7, l8⟩ := loop_step d s h he
    rw [length_scan_step d k s he a ha]
    generalize bwfile_free (bwfile_get d s s.n_blk).1 a = s2 at l1 l2 l3 l4 l5 l6 l7 l8
    by_cases hr : (d s.pos).eof = true
    · obtain ⟨x1, x2, x3⟩ := l7 hr
      cases k with
      | zero => exact ⟨l1, l2, l5, fun hx => by simp [length_scan] at hx⟩
      | succ k =>
        rw [length_scan_eof d k s2 x1]
        refine ⟨l1, l2, l5, fun _ => ⟨x1, fun _ => ⟨by rw [l3]; have := h.1.1; omega, ?_, ?_, ?_⟩⟩⟩
        · have : (s2.n_blk - 1).toNat = s.n_blk.toNat := by rw [l3]; congr 1; omega
          rw [this, l4, x2]
        · rw [x2]; exact hr
        · rw [x3, l3, l5, x2, show s.n_blk + 1 - 1 = s.n_blk by omega]
    · have hr' : (d s.pos).eof = false := by simpa using hr
      obtain ⟨x1, _, _⟩ := l8 hr'
      obtain ⟨i1, i2, i3, i4⟩ := ih s2 l1 x1
      exact ⟨i1, Grows_trans _ _ _ h.1.1 l2 i2, by rw [i3, l5], i4⟩

theorem bwanal_length_value (d : Decoder) (fuel : Nat) (aa : BWAnal) (L : Int)
    (h : (bwanal_length d fuel aa).2 = LenResult.value L) :
    (length_scan d fuel (bwanal_recheck_file aa).file).2 = true ∧
    (bwanal_length d fuel aa).1.file = (length_scan d fuel (bwanal_recheck_file aa).file).1 ∧
    (bwanal_length d fuel aa).1.file.eof = true ∧ (bwanal_length d fuel aa).1.file.len = L ∧
    0 ≤ L := by
  by_cases h1 : (length_scan d fuel (bwanal_recheck_file aa).file).2 = false
  · simp [bwanal_length, h1] at h
  · by_cases h2 : (length_scan d fuel (bwanal_recheck_file aa).file).1.eof = false ∨
        (length_scan d fuel (bwanal_recheck_file aa).file).1.len < 0
    · simp [bwanal_length, h1, h2] at h
    · have hv : bwanal_length d fuel aa =
          ({ bwanal_recheck_file aa with file := (length_scan d fuel (bwanal_recheck_file aa).file).1 },
           LenResult.value (length_scan d fuel (bwanal_recheck_file aa).file).1.len) := by
        unfold bwanal_length
        simp only []
        rw [if_neg h1, if_neg h2]
      rw [hv] at h ⊢
      simp only [LenResult.value.injEq] at h
      refine ⟨by simpa using h1, rfl, ?_, h, ?_⟩
      · simp only []
        by_contra hx
        exact h2 (Or.inl (by simpa using hx))
      · rw [← h]
        by_contra hx
        exact h2 (Or.inr (by omega))

theorem bwanal_length_of_scan (d : Decoder) (fuel : Nat) (aa : BWAnal)
    (h1 : (length_scan d fuel (bwanal_recheck_file aa).file).2 = true)
    (h2 : (length_scan d fuel (bwanal_recheck_file aa).file).1.eof = true)
    (h3 : 0 ≤ (length_scan d fuel (bwanal_recheck_file aa).file).1.len) :
    (bwanal_length d fuel aa).2 =
      LenResult.value (length_scan d fuel (bwanal_recheck_file aa).file).1.len := by
  have n1 : ¬ (length_scan d fuel (bwanal_recheck_file aa).file).2 = false := by
    rw [h1]; simp
  have n2 : ¬ ((length_scan d fuel (bwanal_recheck_file aa).file).1.eof = false ∨
      (length_scan d fuel (bwanal_recheck_file aa).file).1.len < 0) := by
    rw [h2]; intro hx
    rcases hx with hx | hx
    · exact absurd hx (by simp)
    · omega
  unfold bwanal_length
  simp only []
  rw [if_neg n1, if_neg n2]

/-- C6: `bwanal_length` called twice in succession with the same decoder (no change of the
stream in between) returns the same value both times: the second call rewinds by one
block, decodes that block again, hits end-of-file on it and recomputes the same length. -/
theorem C6_length_twice (d : Decoder) (chan : Int) (pos0 : Nat) (bsiz max_unref : Int)
    (aa : BWAnal) (hr : Reach (fun _ => True) (bwfile_open chan pos0 bsiz max_unref) aa.file)
    (f1 : Nat) (L : Int) (h1 : (bwanal_length d f1 aa).2 = LenResult.value L)
    (f2 : Nat) (hf : 2 ≤ f2) :
    (bwanal_length d f2 (bwanal_length d f1 aa).1).2 = LenResult.value L := by
  have hN : NumInv aa.file := Reach_NumInv _ _ _ (NumInv_open chan pos0 bsiz max_unref) hr
  -- the first call
  obtain ⟨r1, r2, r3, r4, r5, r6, r7, r8⟩ := bwanal_recheck_file_file aa
  obtain ⟨v1, v2, v3, v4, v5⟩ := bwanal_length_value d f1 aa L h1
  obtain ⟨s1, s2, s3, s4⟩ := length_scan_spec d f1 _ (r8 hN) r4
  obtain ⟨_, hE⟩ := s4 v1
  rw [← v2] at s1 hE
  generalize (bwanal_length d f1 aa).1 = ab at v3 v4 s1 hE
  obtain ⟨e1, e2, e3, e4⟩ := hE v3
  -- the second call
  obtain ⟨q1, q2, q3, q4, q5, q6, q7, q8⟩ := bwanal_recheck_file_file ab
  obtain ⟨_, _, _, _, _, _, _, _, c9, _⟩ := bwfile_check_eof_frame ab.file
  obtain ⟨c9, c10⟩ := c9 e1 v3
  have hpos : (bwanal_recheck_file ab).file.pos = ab.file.pos := by rw [q3, c10, ← e2]
  have hnb : (bwanal_recheck_file ab).file.n_blk = ab.file.n_blk - 1 := by rw [q2, c9]
  obtain ⟨a, ha, l1, l2, l3, l4, l5, l6, l7, l8⟩ := loop_step d _ (q8 s1) q4
  obtain ⟨x1, x2, x3⟩ := l7 (by rw [hpos]; exact e3)
  obtain ⟨k, rfl⟩ : ∃ k, f2 = k + 2 := ⟨f2 - 2, by omega⟩
  have hscan : length_scan d (k + 2) (bwanal_recheck_file ab).file =
      (bwfile_free (bwfile_get d (bwanal_recheck_file ab).file
        (bwanal_recheck_file ab).file.n_blk).1 a, true) := by
    rw [length_scan_step d (k + 1) _ q4 a ha, length_scan_eof d k _ x1]
  have hlen : (bwfile_free (bwfile_get d (bwanal_recheck_file ab).file
        (bwanal_recheck_file ab).file.n_blk).1 a).len = L := by
    rw [x3, hnb, hpos, q6, ← v4, e4]
  have hs1 : (length_scan d (k + 2) (bwanal_recheck_file ab).file).1 =
      bwfile_free (bwfile_get d (bwanal_recheck_file ab).file
        (bwanal_recheck_file ab).file.n_blk).1 a := by rw [hscan]
  rw [bwanal_length_of_scan d (k + 2) ab (by rw [hscan]) (by rw [hs1]; exact x1)
    (by rw [hs1, hlen]; exact v5), hs1, hlen]


theorem C6_length_twice_witness :
    (bwanal_length demo_read 4 demo_anal).2 = LenResult.value 10 ∧ 2 ≤ 2 ∧
    (bwanal_length demo_read 2 (bwanal_length demo_read 4 demo_anal).1).2 = LenResult.value 10 :=
  ⟨by decide, by decide,
   C6_length_twice demo_read 2 0 4 0 demo_anal Reach.start 4 10 (by decide) 2 (by decide)⟩

/-! ## C7: the length after the stream has grown -/

/-- On a stream of `T` frames the scan loop is left after at most `T - pos + 2` evaluations
of its condition, with `eof` set and `len` holding `T` stored in an `int`. -/
theorem length_scan_total (bsiz : Int) (hb : 1 ≤ bsiz) (stream : List Frame) (fuel : Nat)
    (s : BWFile) (hP : PosInv bsiz stream.length s) (hN : NumInv s) (he : s.eof = false)
    (hf : stream.length - s.pos + 2 ≤ fuel) :
    (length_scan (stream_read bsiz stream) fuel s).2 = true ∧
    (length_scan (stream_read bsiz stream) fuel s).1.eof = true ∧
    (length_scan (stream_read bsiz stream) fuel s).1.len = to_int (stream.length : Int) := by
  induction fuel generalizing s with
  | zero => omega
  | succ k ih =>
    obtain ⟨a, ha, l1, l2, l3, l4, l5, l6, l7, l8⟩ := loop_step (stream_read bsiz stream) s hN he
    have hP2 : PosInv bsiz stream.length
        (bwfile_free (bwfile_get (stream_read bsiz stream) s s.n_blk).1 a) :=
      PosInv_free _ _ _ a (PosInv_get bsiz hb stream s s.n_blk hP)
    rw [length_scan_step _ k s he a ha]
    generalize bwfile_free (bwfile_get (stream_read bsiz stream) s s.n_blk).1 a = s2
      at l1 l2 l3 l4 l5 l6 l7 l8 hP2
    by_cases hr : (stream_read bsiz stream s.pos).eof = true
    · obtain ⟨x1, _, _⟩ := l7 hr
      obtain ⟨k2, rfl⟩ : ∃ k2, k = k2 + 1 := ⟨k - 1, by omega⟩
      rw [length_scan_eof _ k2 s2 x1]
      exact ⟨rfl, x1, (hP2.2.2.2.2 x1).2.2.2.2⟩
    · have hr' : (stream_read bsiz stream s.pos).eof = false := by simpa using hr
      obtain ⟨x1, x2, _⟩ := l8 hr'
      have hlt : ¬ stream.length < s.pos + bsiz.toNat := by
        intro hx
        have := (stream_read_eof bsiz stream s.pos hb).2 hx
        rw [hr'] at this; exact absurd this (by simp)
      have hpos : s2.pos = s.pos + bsiz.toNat := by
        rw [x2, stream_read_pos]; congr 1; omega
      exact ih s2 hP2 l1 x1 (by omega)

/-- `bwanal_recheck_file` keeps `PosInv`, also when the stream has grown meanwhile. -/
theorem PosInv_recheck (bsiz : Int) (T T2 : Nat) (hT : T ≤ T2) (ab : BWAnal)
    (h : PosInv bsiz T ab.file) : PosInv bsiz T2 (bwanal_recheck_file ab).file :=
  drop_stale_preserves (PosInv bsiz T2) (PosInv_free bsiz T2) _ _
    (PosInv_check_eof bsiz T T2 hT _ h).1

theorem seek_shift (d : Decoder) (p : Nat) (i : Nat) :
    seek d (d p).pos i = seek d p (i + 1) := by
  induction i with
  | zero => rfl
  | succ i ih => simp only [seek, ih]

/-- The reads of the scan loop: block `n_blk` at `pos`, then each following block at the
position the previous read ended at. -/
theorem length_scan_dlog (d : Decoder) (fuel : Nat) (s : BWFile) (h : NumInv s) :
    ∃ new, (length_scan d fuel s).1.dlog = new ++ s.dlog ∧
      ∀ e ∈ new, ∃ i : Nat, e = (s.n_blk + i, seek d s.pos i) := by
  induction fuel generalizing s with
  | zero => exact ⟨[], rfl, fun e he => by simp at he⟩
  | succ k ih =>
    by_cases he : s.eof = true
    · rw [length_scan_eof d k s he]
      exact ⟨[], rfl, fun e he => by simp at he⟩
    · have he' : s.eof = false := by simpa using he
      obtain ⟨a, ha, l1, l2, l3, l4, l5, l6, l7, l8⟩ := loop_step d s h he'
      rw [length_scan_step d k s he' a ha]
      generalize bwfile_free (bwfile_get d s s.n_blk).1 a = s2 at l1 l2 l3 l4 l5 l6 l7 l8
      by_cases hr : (d s.pos).eof = true
      · obtain ⟨x1, _, _⟩ := l7 hr
        have hd : (length_scan d k s2).1 = s2 := by
          cases k with
          | zero => rfl
          | succ k => rw [length_scan_eof d k s2 x1]
        rw [hd, l6]
        refine ⟨[(s.n_blk, s.pos)], rfl, ?_⟩
        intro e he2
        simp only [List.mem_singleton] at he2
        exact ⟨0, by rw [he2]; simp [seek]⟩
      · have hr' : (d s.pos).eof = false := by simpa using hr
        obtain ⟨_, x2, _⟩ := l8 hr'
        obtain ⟨new, hn1, hn2⟩ := ih s2 l1
        refine ⟨new ++ [(s.n_blk, s.pos)], by rw [hn1, l6]; simp, ?_⟩
        intro e he2
        simp only [List.mem_append, List.mem_singleton] at he2
        rcases he2 with he2 | he2
        · obtain ⟨i, hi⟩ := hn2 e he2
          refine ⟨i + 1, ?_⟩
          rw [hi, l3, x2, seek_shift]
          congr 1
          push_cast
          ring
        · exact ⟨0, by rw [he2]; simp [seek]⟩

/-- C8: when end-of-file had been reached with `n >= 1` recorded blocks, every decoder
invocation made by `bwanal_recheck_file` followed by `bwanal_length` (for any amount of
fuel, so also along a scan that has not finished) is for a block numbered `n - 1 + i`, and
it starts at the position reached from the stored start of block `n - 1` by decoding `i`
blocks: the previously final block at its stored position and blocks after it; no block
numbered below `n - 1` is decoded. -/
theorem C8_recheck_scans_from_last (d : Decoder) (chan : Int) (pos0 : Nat) (bsiz max_unref : Int)
    (aa : BWAnal) (hr : Reach (fun _ => True) (bwfile_open chan pos0 bsiz max_unref) aa.file)
    (he : aa.file.eof = true) (hn : 1 ≤ aa.file.n_blk) (fuel : Nat) :
    ∃ new, (bwanal_length d fuel (bwanal_recheck_file aa)).1.file.dlog = new ++ aa.file.dlog ∧
      ∀ e ∈ new, ∃ i : Nat,
        e = (aa.file.n_blk - 1 + i, seek d (aa.file.blk.getD (aa.file.n_blk - 1).toNat 0) i) := by
  have hN : NumInv aa.file := Reach_NumInv _ _ _ (NumInv_open chan pos0 bsiz max_unref) hr
  obtain ⟨_, r2, r3, r4, _, _, r7, r8⟩ := bwanal_recheck_file_file aa
  obtain ⟨_, _, _, _, _, _, _, _, c9, _⟩ := bwfile_check_eof_frame aa.file
  obtain ⟨c9, c10⟩ := c9 hn he
  rw [c9] at r2
  rw [c10] at r3
  have hN1 := r8 hN
  generalize bwanal_recheck_file aa = ab at r2 r3 r4 r7 hN1
  obtain ⟨_, q2, q3, q4, _, _, q7, q8⟩ := bwanal_recheck_file_file ab
  obtain ⟨_, _, _, _, _, _, _, _, _, c11⟩ := bwfile_check_eof_frame ab.file
  rw [c11 r4] at q2 q3
  obtain ⟨new, hn1, hn2⟩ := length_scan_dlog d fuel _ (q8 hN1)
  have hfile : (bwanal_length d fuel ab).1.file = (length_scan d fuel (bwanal_recheck_file ab).file).1 := by
    unfold bwanal_length
    simp only []
    split_ifs <;> rfl
  refine ⟨new, by rw [hfile, hn1, q7, r7], ?_⟩
  intro e he2
  obtain ⟨i, hi⟩ := hn2 e he2
  exact ⟨i, by rw [hi, q2, q3, r2, r3]⟩

theorem C8_recheck_scans_from_last_witness :
    demo_anal_eof.file.eof = true ∧ 1 ≤ demo_anal_eof.file.n_blk ∧
    ∃ new, (bwanal_length demo_read 5 (bwanal_recheck_file demo_anal_eof)).1.file.dlog
        = new ++ demo_anal_eof.file.dlog ∧
      ∀ e ∈ new, ∃ i : Nat,
        e = (demo_anal_eof.file.n_blk - 1 + i,
             seek demo_read (demo_anal_eof.file.blk.getD (demo_anal_eof.file.n_blk - 1).toNat 0) i) :=
  ⟨by decide, by decide,
   C8_recheck_scans_from_last demo_read 2 0 4 0 demo_anal_eof
     (Reach.get _ demo_read 2 Reach.start trivial) (by decide) (by decide) 5⟩

/-- On `demo_anal_eof` (three blocks recorded, end-of-file reached) the growth check and
the following length scan decode block 2 only, at its stored position 8. -/
theorem demo_recheck_decodes_last_only :
    demo_anal_eof.file.dlog = [(2, 8), (1, 4), (0, 0)] ∧
    (bwanal_length demo_read 5 (bwanal_recheck_file demo_anal_eof)).1.file.dlog =
      [(2, 8), (2, 8), (1, 4), (0, 0)] := by
  decide


/-! ## C4: the progress counter of `bwanal_calc` -/

theorem column_step_c (wind : Bool) (tbase : Int) (tmp : List FV) (a : Nat) (aa : BWAnal) :
    (column_step wind tbase tmp a aa).c = aa.c ∧ (column_step wind tbase tmp a aa).yy = aa.yy := by
  unfold column_step
  simp only []
  split_ifs <;> exact ⟨rfl, rfl⟩

theorem map_columns_c (wind : Bool) (tbase : Int) (tmp : List FV) (cnt a : Nat) (aa : BWAnal) :
    (map_columns wind tbase tmp cnt a aa).c = aa.c ∧
    (map_columns wind tbase tmp cnt a aa).yy = aa.yy := by
  induction cnt generalizing a aa with
  | zero => exact ⟨rfl, rfl⟩
  | succ n ih =>
    simp only [map_columns]
    obtain ⟨h1, h2⟩ := ih (a + 1) (column_step wind tbase tmp a aa)
    obtain ⟨h3, h4⟩ := column_step_c wind tbase tmp a aa
    exact ⟨by rw [h1, h3], by rw [h2, h4]⟩

theorem bwanal_window_c (fp : Fp) (aa aa2 : BWAnal) (xx yy : Int)
    (h : bwanal_window fp aa xx yy = some aa2) : aa2.c = aa.c := by
  unfold bwanal_window at h
  simp only [] at h
  split at h
  · simp at h
  · simp only [Option.some.injEq] at h
    rw [← h, (map_columns_c _ _ _ _ _ _).1]
    split_ifs <;> rfl

theorem start_row_c (fp : Fp) (analtyp : Int) (aa : BWAnal) (a : Int) (r : BWAnal × Int)
    (h : start_row fp analtyp aa a = some r) : r.1.c = aa.c := by
  unfold start_row at h
  simp only [] at h
  split_ifs at h
  · split at h
    · simp at h
    · simp only [Option.some.injEq] at h
      rw [← h]
  · simp only [Option.some.injEq] at h
    rw [← h]

theorem start_rows_c (fp : Fp) (analtyp : Int) (cnt : Nat) (a : Int) (aa : BWAnal) (m : Int)
    (r : BWAnal × Int) (h : start_rows fp analtyp cnt a aa m = some r) : r.1.c = aa.c := by
  induction cnt generalizing a aa m with
  | zero =>
    simp only [start_rows, Option.some.injEq] at h
    rw [← h]
  | succ n ih =>
    simp only [start_rows] at h
    cases hr : start_row fp analtyp aa a with
    | none => simp [hr] at h
    | some r1 =>
      simp only [hr] at h
      rw [ih _ _ _ h, start_row_c fp analtyp aa a r1 hr]

/-- `bwanal_start` leaves `c` equal to the requested set-up and `yy` at 0. -/
theorem bwanal_start_c_yy (fp : Fp) (d : Decoder) (aa aa0 : BWAnal)
    (h : bwanal_start fp d aa = some aa0) : aa0.c = aa.req ∧ aa0.yy = 0 := by
  unfold bwanal_start at h
  simp only [] at h
  split_ifs at h with h1 h2
  all_goals
    split at h
    · simp at h
    · rename_i r hr
      split at h
      · simp at h
      · rename_i aa5 h5
        simp only [Option.some.injEq] at h
        have hc5 := bwanal_window_c fp _ aa5 (-1) (-1) h5
        have hcr := start_rows_c fp _ _ _ _ _ r hr
        refine ⟨?_, by rw [← h]⟩
        rw [← h]
        simp only [hc5, load_data, hcr, recreate_arrays]

theorem bwanal_calc_done (fp : Fp) (aa : BWAnal) (h : aa.yy ≥ aa.c.sy) :
    bwanal_calc fp aa = some (aa, 0) := by
  simp [bwanal_calc, h]

theorem bwanal_calc_row (fp : Fp) (aa : BWAnal) (h : aa.yy < aa.c.sy) (r : BWAnal × Int)
    (hr : bwanal_calc fp aa = some r) :
    r.1.yy = aa.yy + 1 ∧ r.1.c = aa.c ∧ r.2 = (if aa.yy + 1 < aa.c.sy then 1 else 0) := by
  have h2 : ¬ aa.yy ≥ aa.c.sy := by omega
  unfold bwanal_calc at hr
  simp only [h2, if_false] at hr
  by_cases ht : aa.c.typ ≠ 0
  · rw [if_pos ht] at hr
    split at hr
    · simp at hr
    · simp only [Option.some.injEq] at hr
      rw [← hr]
      exact ⟨rfl, rfl, rfl⟩
  · rw [if_neg ht] at hr
    split at hr
    · simp at hr
    · simp only [Option.some.injEq] at hr
      rw [← hr]
      exact ⟨rfl, rfl, rfl⟩

theorem calc_run_succ (fp : Fp) (k : Nat) (aa : BWAnal) :
    calc_run fp (k + 1) aa =
      match calc_run fp k aa with
      | none => none
      | some r =>
          match bwanal_calc fp r.1 with
          | none => none
          | some r2 => some (r2.1, r.2 ++ [r2.2]) := rfl

/-- The state and the return values after `k` calls of `bwanal_calc` from a state with
`yy = 0` and `sy = H >= 1`. -/
theorem calc_run_spec (fp : Fp) (aa0 : BWAnal) (H : Int) (hy : aa0.yy = 0) (hH : aa0.c.sy = H)
    (h1 : 1 ≤ H) (k : Nat) (aak : BWAnal) (rets : List Int)
    (h : calc_run fp k aa0 = some (aak, rets)) :
    aak.c = aa0.c ∧ aak.yy = min (k : Int) H ∧
    rets = (List.range k).map (fun (i : Nat) => if (i : Int) + 1 < H then (1 : Int) else 0) := by
  induction k generalizing aak rets with
  | zero =>
    simp only [calc_run, Option.some.injEq, Prod.mk.injEq] at h
    obtain ⟨rfl, rfl⟩ := h
    refine ⟨rfl, ?_, rfl⟩
    rw [hy]; simp; omega
  | succ k ih =>
    rw [calc_run_succ] at h
    cases hk : calc_run fp k aa0 with
    | none => simp [hk] at h
    | some r =>
      obtain ⟨a1, r1⟩ := r
      obtain ⟨i1, i2, i3⟩ := ih a1 r1 hk
      simp only [hk] at h
      cases hc : bwanal_calc fp a1 with
      | none => simp [hc] at h
      | some r2 =>
        simp only [hc, Option.some.injEq, Prod.mk.injEq] at h
        obtain ⟨rfl, rfl⟩ := h
        by_cases hlt : (k : Int) < H
        · have hyy : a1.yy < a1.c.sy := by rw [i2, i1, hH]; omega
          obtain ⟨c1, c2, c3⟩ := bwanal_calc_row fp a1 hyy r2 hc
          refine ⟨by rw [c2, i1], ?_, ?_⟩
          · rw [c1, i2]; push_cast; omega
          · rw [List.range_succ, List.map_append, i3, c3, i2, i1, hH]
            have : min (k : Int) H = k := by omega
            simp [this]
        · have hyy : a1.yy ≥ a1.c.sy := by rw [i2, i1, hH]; omega
          rw [bwanal_calc_done fp a1 hyy] at hc
          simp only [Option.some.injEq] at hc
          rw [← hc]
          refine ⟨i1, ?_, ?_⟩
          · rw [i2]; push_cast; omega
          · rw [List.range_succ, List.map_append, i3]
            have : ¬ ((k : Int) + 1 < H) := by omega
            simp [this]

/-- C4: after `bwanal_start` with requested grid height `H >= 1` (no fatal error), `yy`
is 0; whenever `k` successive calls of `bwanal_calc` go through without a fatal error,
`yy` is `min k H` afterwards (so the `k`-th call sets it to `k` for `k <= H`) and the
`i`-th call returned 1 exactly when `i < H`; and after `H` or more calls a further call
always returns, returns 0, and leaves the whole state (so `yy = H` and the result grids)
unchanged. -/
theorem C4_calc_progress (fp : Fp) (d : Decoder) (aa aa0 : BWAnal) (H : Int)
    (hs : bwanal_start fp d aa = some aa0) (hH : aa.req.sy = H) (h1 : 1 ≤ H) :
    aa0.yy = 0 ∧
    (∀ (k : Nat) (aak : BWAnal) (rets : List Int), calc_run fp k aa0 = some (aak, rets) →
      aak.yy = min (k : Int) H ∧
      rets = (List.range k).map (fun (i : Nat) => if (i : Int) + 1 < H then (1 : Int) else 0)) ∧
    (∀ (k : Nat) (aak : BWAnal) (rets : List Int), H ≤ k →
      calc_run fp k aa0 = some (aak, rets) →
      calc_run fp (k + 1) aa0 = some (aak, rets ++ [0])) := by
  obtain ⟨hc, hy⟩ := bwanal_start_c_yy fp d aa aa0 hs
  have hH0 : aa0.c.sy = H := by rw [hc, hH]
  refine ⟨hy, ?_, ?_⟩
  · intro k aak rets h
    exact (calc_run_spec fp aa0 H hy hH0 h1 k aak rets h).2
  · intro k aak rets hk h
    obtain ⟨i1, i2, _⟩ := calc_run_spec fp aa0 H hy hH0 h1 k aak rets h
    have hyy : aak.yy ≥ aak.c.sy := by rw [i2, i1, hH0]; omega
    rw [calc_run_succ, h]
    simp only [bwanal_calc_done fp aak hyy]

theorem C4_calc_progress_witness :
    bwanal_start demo_fp demo_read demo_req = some demo_started ∧ demo_req.req.sy = 2 ∧
    (1 : Int) ≤ 2 ∧
    (demo_started.yy = 0 ∧
    (∀ (k : Nat) (aak : BWAnal) (rets : List Int),
      calc_run demo_fp k demo_started = some (aak, rets) →
      aak.yy = min (k : Int) 2 ∧
      rets = (List.range k).map (fun (i : Nat) => if (i : Int) + 1 < 2 then (1 : Int) else 0)) ∧
    (∀ (k : Nat) (aak : BWAnal) (rets : List Int), (2 : Int) ≤ k →
      calc_run demo_fp k demo_started = some (aak, rets) →
      calc_run demo_fp (k + 1) demo_started = some (aak, rets ++ [0]))) :=
  ⟨by decide, by decide, by decide,
   C4_calc_progress demo_fp demo_read demo_req demo_started 2 (by decide) (by decide) (by decide)⟩

/-- On the demo engine three calls of `bwanal_calc` succeed; they return 1, 0, 0 and leave
`yy` at 1, 2, 2. -/
theorem demo_calc_three_calls :
    (calc_run demo_fp 1 demo_started).map (fun r => (r.1.yy, r.2)) = some (1, [1]) ∧
    (calc_run demo_fp 2 demo_started).map (fun r => (r.1.yy, r.2)) = some (2, [1, 0]) ∧
    (calc_run demo_fp 3 demo_started).map (fun r => (r.1.yy, r.2)) = some (2, [1, 0, 0]) ∧
    calc_run demo_fp 3 demo_started =
      (calc_run demo_fp 2 demo_started).map (fun r => (r.1, r.2 ++ [0])) := by
  decide


/-! ## C11: a request for a block that has not been recorded yet -/

/-- The log entries of `k` successive reads starting with block `n` at position `p`, most
recent first. -/
theorem range_log_succ (d : Decoder) (n : Int) (p : Nat) (k : Nat) :
    ((List.range k).map (fun (i : Nat) => (n + 1 + (i : Int), seek d (d p).pos i))).reverse ++
        [(n, p)] =
      ((List.range (k + 1)).map (fun (i : Nat) => (n + (i : Int), seek d p i))).reverse := by
  rw [List.range_succ_eq_map, List.map_cons, List.reverse_cons, List.map_map]
  congr 2
  · apply List.map_congr_left
    intro i _
    simp only [Function.comp, seek_shift]
    congr 1
    push_cast
    ring
  · simp [seek]

/-- The forward scan when none of the `k` intervening reads signals end-of-file. -/
theorem scan_blocks_run (d : Decoder) (num : Int) (k : Nat) (ff : BWFile) (bb : BWBlock)
    (hw : Wf ff) (hk : ff.n_blk + k = num)
    (hok : ∀ i, i < k → (d (seek d ff.pos i)).eof = false) :
    (scan_blocks d num k ff bb).1.eof = ff.eof ∧
    (scan_blocks d num k ff bb).1.n_blk = num ∧
    (scan_blocks d num k ff bb).1.pos = seek d ff.pos k ∧
    (scan_blocks d num k ff bb).1.len = ff.len ∧
    Wf (scan_blocks d num k ff bb).1 ∧
    (scan_blocks d num k ff bb).1.dlog =
      ((List.range k).map (fun (i : Nat) => (ff.n_blk + (i : Int), seek d ff.pos i))).reverse
        ++ ff.dlog ∧
    (∀ i, i < ff.n_blk.toNat → (scan_blocks d num k ff bb).1.blk.getD i 0 = ff.blk.getD i 0) ∧
    (∀ i, i < k →
      (scan_blocks d num k ff bb).1.blk.getD (ff.n_blk.toNat + i) 0 = seek d ff.pos i) := by
  induction k generalizing ff bb with
  | zero =>
    have hs : scan_blocks d num 0 ff bb = (ff, bb) := rfl
    rw [hs]
    exact ⟨rfl, by simpa using hk, rfl, rfl, hw, by simp, fun _ _ => rfl, fun i hi => by omega⟩
  | succ k ih =>
    have hgt : num > ff.n_blk := by rw [← hk]; push_cast; omega
    have h0 : (d ff.pos).eof = false := hok 0 (by omega)
    obtain ⟨n1, n2, n3, n4, n5, n6, n7, n8, n9⟩ := note_pos_inv ff hw
    have hstep : scan_blocks d num (k + 1) ff bb =
        scan_blocks d num k { note_pos ff with pos := (d ff.pos).pos } (read_block (d ff.pos) bb) := by
      simp only [scan_blocks, hgt, if_true, h0, Bool.false_eq_true, if_false]
    rw [hstep]
    have hw1 : Wf { note_pos ff with pos := (d ff.pos).pos } := n1
    have hk1 : ({ note_pos ff with pos := (d ff.pos).pos } : BWFile).n_blk + k = num := by
      show (note_pos ff).n_blk + k = num
      rw [n3, ← hk]; push_cast; ring
    have hok1 : ∀ i, i < k →
        (d (seek d ({ note_pos ff with pos := (d ff.pos).pos } : BWFile).pos i)).eof = false := by
      intro i hi
      show (d (seek d (d ff.pos).pos i)).eof = false
      rw [seek_shift]; exact hok (i + 1) (by omega)
    obtain ⟨r1, r2, r3, r4, r5, r6, r7, r8⟩ := ih _ (read_block (d ff.pos) bb) hw1 hk1 hok1
    have e1 : ({ note_pos ff with pos := (d ff.pos).pos } : BWFile).eof = ff.eof := n6
    have e2 : ({ note_pos ff with pos := (d ff.pos).pos } : BWFile).pos = (d ff.pos).pos := rfl
    have e3 : ({ note_pos ff with pos := (d ff.pos).pos } : BWFile).len = ff.len := n7
    have e4 : ({ note_pos ff with pos := (d ff.pos).pos } : BWFile).dlog
        = (ff.n_blk, ff.pos) :: ff.dlog := n9
    have e5 : ({ note_pos ff with pos := (d ff.pos).pos } : BWFile).n_blk = ff.n_blk + 1 := n3
    have e6 : ({ note_pos ff with pos := (d ff.pos).pos } : BWFile).blk = (note_pos ff).blk := rfl
    generalize ({ note_pos ff with pos := (d ff.pos).pos } : BWFile) = f1
      at r1 r2 r3 r4 r5 r6 r7 r8 e1 e2 e3 e4 e5 e6
    generalize scan_blocks d num k f1 (read_block (d ff.pos) bb) = sc
      at r1 r2 r3 r4 r5 r6 r7 r8
    have hn0 := hw.1
    have ht : (ff.n_blk + 1).toNat = ff.n_blk.toNat + 1 := by omega
    refine ⟨by rw [r1, e1], r2, by rw [r3, e2, seek_shift], by rw [r4, e3], r5, ?_, ?_, ?_⟩
    · rw [r6, e4, e2, e5, ← range_log_succ]
      simp
    · intro i hi
      rw [r7 i (by rw [e5, ht]; omega), e6]
      exact n2.2 i hi
    · intro i hi
      rcases Nat.eq_zero_or_pos i with rfl | hpos
      · rw [r7 _ (by rw [e5, ht]; omega), e6]
        simpa [seek] using n4
      · obtain ⟨j, rfl⟩ : ∃ j, i = j + 1 := ⟨i - 1, by omega⟩
        have := r8 j (by omega)
        rw [e5, ht, e2, seek_shift] at this
        rw [← this]
        congr 1
        omega

/-- The forward scan when one of the `k` intervening reads signals end-of-file: it
stops with `eof` set. -/
theorem scan_blocks_stop (d : Decoder) (num : Int) (k : Nat) (ff : BWFile) (bb : BWBlock)
    (hk : ff.n_blk + k = num)
    (hx : ∃ i, i < k ∧ (d (seek d ff.pos i)).eof = true) :
    (scan_blocks d num k ff bb).1.eof = true := by
  induction k generalizing ff bb with
  | zero => obtain ⟨i, hi, _⟩ := hx; omega
  | succ k ih =>
    have hgt : num > ff.n_blk := by rw [← hk]; push_cast; omega
    simp only [scan_blocks, hgt, if_true]
    by_cases h0 : (d ff.pos).eof = true
    · simp only [h0, if_true]; rfl
    · simp only [h0, Bool.false_eq_true, if_false]
      apply ih
      · show ff.n_blk + 1 + k = num
        rw [← hk]; push_cast; ring
      · obtain ⟨i, hi, he⟩ := hx
        rcases Nat.eq_zero_or_pos i with rfl | hpos
        · exact absurd he h0
        · obtain ⟨j, rfl⟩ : ∃ j, i = j + 1 := ⟨i - 1, by omega⟩
          refine ⟨j, by omega, ?_⟩
          show (d (seek d (d ff.pos).pos j)).eof = true
          rw [seek_shift]; exact he

theorem read_target_blk (d : Decoder) (ff : BWFile) (bb : BWBlock) :
    (read_target d ff bb).1.blk = (note_pos ff).blk := by
  unfold read_target
  simp only []
  split_ifs <;> rfl

/-- The part of `get_block` after the re-read test, for a request `num >= n_blk`. -/
theorem get_block_beyond (d : Decoder) (s : BWFile) (num : Int) (h0 : 0 ≤ s.n_blk)
    (hN : s.n_blk ≤ num) :
    get_block d s num =
      (let g := grow_blk { s with brk := s.brk + 1 } num
       let sc := if g.eof = false then scan_blocks d num (num - g.n_blk).toNat g (new_block s num)
                 else (g, new_block s num)
       if sc.1.eof then (sc.1, none)
       else ((read_target d sc.1 sc.2).1, some (read_target d sc.1 sc.2).2)) := by
  have gn : (grow_blk { s with brk := s.brk + 1 } num).n_blk = s.n_blk :=
    (grow_blk_frame { s with brk := s.brk + 1 } num).2.2.2.2.2.2.2.1
  have h1 : ¬ num < 0 := by omega
  have h2 : ¬ num < ({ s with brk := s.brk + 1 } : BWFile).n_blk := by
    show ¬ num < s.n_blk
    omega
  unfold get_block
  simp only []
  rw [if_neg h1, if_neg h2]
  generalize grow_blk { s with brk := s.brk + 1 } num = g at gn
  by_cases hgt : num > g.n_blk
  · by_cases he : g.eof = false
    · simp only [hgt, he, and_self, if_true]
    · have he2 : g.eof = true := by simpa using he
      simp [he2]
  · have hk : (num - g.n_blk).toNat = 0 := by omega
    by_cases he : g.eof = false
    · simp only [hgt, false_and, if_false, he, if_true, hk, scan_blocks]
    · have he2 : g.eof = true := by simpa using he
      simp [he2]

theorem get_block_at_eof (d : Decoder) (s : BWFile) (num : Int) (hw : Wf s)
    (hN : s.n_blk ≤ num) (he : s.eof = true) :
    (get_block d s num).2 = none ∧ (get_block d s num).1.dlog = s.dlog ∧
    (get_block d s num).1.n_blk = s.n_blk := by
  obtain ⟨_, _, gn, _, ge, _, gd, _, _⟩ := grow_blk_tick s num hw
  have ge2 := ge.trans he
  clear ge
  rw [get_block_beyond d s num hw.1 hN]
  simp only []
  generalize grow_blk { s with brk := s.brk + 1 } num = g at gn ge2 gd
  simp [ge2, gd, gn]

theorem get_block_scan_stops (d : Decoder) (s : BWFile) (num : Int) (hw : Wf s)
    (hN : s.n_blk ≤ num) (he : s.eof = false)
    (hx : ∃ i : Nat, (i : Int) < num - s.n_blk ∧ (d (seek d s.pos i)).eof = true) :
    (get_block d s num).2 = none := by
  obtain ⟨_, _, gn, gp, ge, _, _, _, _⟩ := grow_blk_tick s num hw
  have ge2 := ge.trans he
  clear ge
  rw [get_block_beyond d s num hw.1 hN]
  simp only []
  generalize grow_blk { s with brk := s.brk + 1 } num = g at gn gp ge2
  have hstop := scan_blocks_stop d num (num - g.n_blk).toNat g (new_block s num)
    (by rw [gn]; have := hw.1; omega)
    (by
      obtain ⟨i, hi, hie⟩ := hx
      exact ⟨i, by rw [gn]; omega, by rw [gp]; exact hie⟩)
  simp [ge2, hstop]

theorem get_block_scan_reaches (d : Decoder) (s : BWFile) (num : Int) (hw : Wf s)
    (hN : s.n_blk ≤ num) (he : s.eof = false)
    (hok : ∀ i : Nat, (i : Int) < num - s.n_blk → (d (seek d s.pos i)).eof = false) :
    (∃ bb, (get_block d s num).2 = some bb) ∧
    (get_block d s num).1.n_blk = num + 1 ∧
    (get_block d s num).1.dlog =
      ((List.range ((num - s.n_blk).toNat + 1)).map
        (fun (i : Nat) => (s.n_blk + (i : Int), seek d s.pos i))).reverse ++ s.dlog ∧
    (∀ i, i < s.n_blk.toNat → (get_block d s num).1.blk.getD i 0 = s.blk.getD i 0) ∧
    (∀ i, i ≤ (num - s.n_blk).toNat →
      (get_block d s num).1.blk.getD (s.n_blk.toNat + i) 0 = seek d s.pos i) := by
  obtain ⟨_, _, gn, gp, ge, _, gd, gw, gg⟩ := grow_blk_tick s num hw
  have ge2 := ge.trans he
  clear ge
  rw [get_block_beyond d s num hw.1 hN]
  simp only []
  generalize grow_blk { s with brk := s.brk + 1 } num = g at gn gp ge2 gd gw gg
  have hn0 := hw.1
  obtain ⟨r1, r2, r3, _, r5, r6, r7, r8⟩ :=
    scan_blocks_run d num (num - g.n_blk).toNat g (new_block s num) gw
      (by rw [gn]; omega)
      (by intro i hi; rw [gp]; exact hok i (by rw [gn] at hi; omega))
  have r1b := r1.trans ge2
  clear r1
  simp only [ge2, if_true, r1b, Bool.false_eq_true, if_false]
  generalize scan_blocks d num (num - g.n_blk).toNat g (new_block s num) = sc
    at r1b r2 r3 r5 r6 r7 r8
  rw [gn] at r3 r6 r7 r8
  rw [gp] at r3 r6 r8
  rw [gd] at r6
  obtain ⟨t1, t2, _, _, _⟩ := read_target_fields d sc.1 sc.2
  obtain ⟨_, n2, _, n4, _⟩ := note_pos_inv sc.1 r5
  refine ⟨⟨_, rfl⟩, by rw [t1, r2], ?_, ?_, ?_⟩
  · rw [t2, r6, r2, r3, List.range_succ, List.map_append, List.reverse_append]
    simp only [List.map_cons, List.map_nil, List.reverse_cons, List.reverse_nil, List.nil_append,
      List.singleton_append, List.cons_append]
    congr 2
    omega
  · intro i hi
    rw [read_target_blk, n2.2 i (by rw [r2]; omega), r7 i hi]
    exact gg.2 i hi
  · intro i hi
    rw [read_target_blk]
    rcases Nat.lt_or_ge i (num - s.n_blk).toNat with hlt | hge
    · rw [n2.2 _ (by rw [r2]; omega)]
      exact r8 i hlt
    · have hi2 : i = (num - s.n_blk).toNat := by omega
      have : s.n_blk.toNat + i = sc.1.n_blk.toNat := by rw [r2, hi2]; omega
      rw [this, n4, r3, hi2]

/-- C11: in a store reached from `bwfile_open`, for a request `N >= n_blk`:
when `eof` is already set, or a read of one of the blocks `n_blk .. N-1` signals
end-of-file, `bwfile_get` returns the null pointer and the cache is unchanged; otherwise
it decodes the blocks `n_blk, n_blk+1, .., N` in this order, each at the position the
previous read ended at (the first at `pos`), records these start positions, leaves the
positions recorded before unchanged, ends with `n_blk = N + 1`, and the cache afterwards
is the cache before with one block put in front: it is numbered `N`, has reference count
1, its address is the returned pointer and it holds what the read of block `N` produced.
A request for a negative `N` that no cached block carries returns the null pointer and
leaves the cache unchanged. -/
theorem C11_get_unrecorded (d : Decoder) (chan : Int) (pos0 : Nat) (bsiz max_unref : Int)
    (s : BWFile) (hr : Reach (fun _ => True) (bwfile_open chan pos0 bsiz max_unref) s)
    (N : Int) :
    (N < 0 → (∀ b ∈ s.cache, b.num ≠ N) →
      (bwfile_get d s N).2 = none ∧ (bwfile_get d s N).1.cache = s.cache) ∧
    (s.n_blk ≤ N →
      (s.eof = true →
        (bwfile_get d s N).2 = none ∧ (bwfile_get d s N).1.cache = s.cache ∧
        (bwfile_get d s N).1.dlog = s.dlog ∧ (bwfile_get d s N).1.n_blk = s.n_blk) ∧
      (s.eof = false →
        (∃ i : Nat, (i : Int) < N - s.n_blk ∧ (d (seek d s.pos i)).eof = true) →
        (bwfile_get d s N).2 = none ∧ (bwfile_get d s N).1.cache = s.cache) ∧
      (s.eof = false →
        (∀ i : Nat, (i : Int) < N - s.n_blk → (d (seek d s.pos i)).eof = false) →
        ∃ bb, (bwfile_get d s N).2 = some bb.addr ∧
          (bwfile_get d s N).1.cache = bb :: s.cache ∧ bb.num = N ∧ bb.ref = 1 ∧
          Decoded (d (seek d s.pos (N - s.n_blk).toNat)) bb ∧
          (bwfile_get d s N).1.n_blk = N + 1 ∧
          (bwfile_get d s N).1.dlog =
            ((List.range ((N - s.n_blk).toNat + 1)).map
              (fun (i : Nat) => (s.n_blk + (i : Int), seek d s.pos i))).reverse ++ s.dlog ∧
          (∀ i, i < s.n_blk.toNat → (bwfile_get d s N).1.blk.getD i 0 = s.blk.getD i 0) ∧
          (∀ i, i ≤ (N - s.n_blk).toNat →
            (bwfile_get d s N).1.blk.getD (s.n_blk.toNat + i) 0 = seek d s.pos i))) := by
  have hN := Reach_NumInv _ _ s (NumInv_open chan pos0 bsiz max_unref) hr
  have hw : Wf s := hN.1
  have hfr := (get_block_frame d s N).1
  constructor
  · intro hneg hc
    have hm := bwfile_get_miss d s N (cache_hit_none_of N s.cache hc)
    have h2 : (get_block d s N).2 = none := by
      unfold get_block
      simp only [hneg, if_true]
    rw [h2] at hm
    rw [hm]
    exact ⟨rfl, hfr⟩
  · intro hge
    have hc : ∀ b ∈ s.cache, b.num ≠ N := fun b hb => by
      have := hN.2 b hb
      omega
    have hm := bwfile_get_miss d s N (cache_hit_none_of N s.cache hc)
    refine ⟨?_, ?_, ?_⟩
    · intro he
      obtain ⟨h2, h3, h4⟩ := get_block_at_eof d s N hw hge he
      rw [h2] at hm
      rw [hm]
      exact ⟨rfl, hfr, h3, h4⟩
    · intro he hx
      have h2 := get_block_scan_stops d s N hw hge he hx
      rw [h2] at hm
      rw [hm]
      exact ⟨rfl, hfr⟩
    · intro he hok
      obtain ⟨⟨bb, hbb⟩, q2, q3, q4, q5⟩ := get_block_scan_reaches d s N hw hge he hok
      obtain ⟨_, _, _, c4⟩ := get_block_core d s N hw
      obtain ⟨_, _, cd⟩ := c4 bb hbb
      obtain ⟨b1, b2, b3, _, _⟩ := get_block_block d s N bb hbb
      rw [hbb] at hm
      simp only [] at hm
      have hpos : (get_block d s N).1.blk.getD N.toNat 0 = seek d s.pos (N - s.n_blk).toNat := by
        have := q5 (N - s.n_blk).toNat (le_refl _)
        rw [← this]
        congr 1
        have := hw.1
        omega
      rw [hpos] at cd
      refine ⟨{ bb with ref := bb.ref + 1 }, by rw [hm], by rw [hm], b2, by simp [b3], ?_,
        by rw [hm]; exact q2, by rw [hm]; exact q3, ?_, ?_⟩
      · exact cd
      · intro i hi; rw [hm]; exact q4 i hi
      · intro i hi; rw [hm]; exact q5 i hi

theorem C11_get_unrecorded_witness :
    ∃ bb, (bwfile_get demo_read demo_open 2).2 = some bb.addr ∧
      (bwfile_get demo_read demo_open 2).1.cache = bb :: demo_open.cache ∧ bb.num = 2 ∧
      bb.ref = 1 ∧
      Decoded (demo_read (seek demo_read demo_open.pos (2 - demo_open.n_blk).toNat)) bb ∧
      (bwfile_get demo_read demo_open 2).1.n_blk = 2 + 1 ∧
      (bwfile_get demo_read demo_open 2).1.dlog =
        ((List.range ((2 - demo_open.n_blk).toNat + 1)).map
          (fun (i : Nat) => (demo_open.n_blk + (i : Int), seek demo_read demo_open.pos i))).reverse
          ++ demo_open.dlog ∧
      (∀ i, i < demo_open.n_blk.toNat →
        (bwfile_get demo_read demo_open 2).1.blk.getD i 0 = demo_open.blk.getD i 0) ∧
      (∀ i, i ≤ (2 - demo_open.n_blk).toNat →
        (bwfile_get demo_read demo_open 2).1.blk.getD (demo_open.n_blk.toNat + i) 0
          = seek demo_read demo_open.pos i) :=
  ((C11_get_unrecorded demo_read 2 0 4 0 demo_open Reach.start 2).2 (by decide)).2.2 (by decide)
    (fun i hi => by
      have h2 : i = 0 ∨ i = 1 := by
        have : (2 : Int) - demo_open.n_blk = 2 := by decide
        omega
      rcases h2 with rfl | rfl <;> decide)

/-- On `demo_stream` in blocks of 4: a request for block 2 on the fresh store decodes blocks
0, 1, 2 at positions 0, 4, 8 and caches block 2 only; a request for block 3 on the fresh
store hits end-of-file while decoding block 2, returns the null pointer and caches
nothing. -/
theorem demo_get_unrecorded :
    (bwfile_get demo_read demo_open 2).1.dlog = [(2, 8), (1, 4), (0, 0)] ∧
    (bwfile_get demo_read demo_open 2).1.cache.map (fun b => (b.num, b.ref)) = [(2, 1)] ∧
    (bwfile_get demo_read demo_open 3).2 = none ∧
    (bwfile_get demo_read demo_open 3).1.cache = [] := by
  decide


/-! ## C12: a request for a cached block -/

/-- C12: when a block numbered `N` is in the cache, `bwfile_get(ff, N)` returns the address
of the first such block of the cache list, and the store afterwards is the store before
with the reference count of that one block increased by 1: `n_blk`, the recorded
positions, `pos`, `eof`, `len`, the `use` counter, every other cached block and the log
of decoder invocations are unchanged, whatever the decoder is. -/
theorem C12_cached_get_frame (d : Decoder) (s : BWFile) (N : Int)
    (h : ∃ b ∈ s.cache, b.num = N) :
    ∃ pre b post, s.cache = pre ++ b :: post ∧ (∀ x ∈ pre, x.num ≠ N) ∧ b.num = N ∧
      bwfile_get d s N =
        ({ s with cache := pre ++ { b with ref := b.ref + 1 } :: post }, some b.addr) ∧
      (bwfile_get d s N).1.dlog = s.dlog ∧ (bwfile_get d s N).1.n_blk = s.n_blk ∧
      (bwfile_get d s N).1.blk = s.blk ∧ (bwfile_get d s N).1.pos = s.pos ∧
      (bwfile_get d s N).1.eof = s.eof ∧ (bwfile_get d s N).1.len = s.len ∧
      (bwfile_get d s N).1.use = s.use := by
  obtain ⟨b0, hb0, hn0⟩ := h
  obtain ⟨p, hp⟩ := cache_hit_of_mem N s.cache b0 hb0 hn0
  obtain ⟨c2, a⟩ := p
  obtain ⟨l1, bb, l2, hc, hl, hb, ha, hc2⟩ := cache_hit_some N s.cache c2 a hp
  have hg := bwfile_get_hit d s N c2 a hp
  refine ⟨l1, bb, l2, hc, hl, hb, ?_, ?_⟩
  · rw [hg, hc2, ha]
  · rw [hg]; exact ⟨rfl, rfl, rfl, rfl, rfl, rfl, rfl⟩

theorem C12_cached_get_frame_witness :
    (∃ b ∈ demo_eof.cache, b.num = 2) ∧
    ∃ pre b post, demo_eof.cache = pre ++ b :: post ∧ (∀ x ∈ pre, x.num ≠ 2) ∧ b.num = 2 ∧
      bwfile_get demo_read demo_eof 2 =
        ({ demo_eof with cache := pre ++ { b with ref := b.ref + 1 } :: post }, some b.addr) ∧
      (bwfile_get demo_read demo_eof 2).1.dlog = demo_eof.dlog ∧
      (bwfile_get demo_read demo_eof 2).1.n_blk = demo_eof.n_blk ∧
      (bwfile_get demo_read demo_eof 2).1.blk = demo_eof.blk ∧
      (bwfile_get demo_read demo_eof 2).1.pos = demo_eof.pos ∧
      (bwfile_get demo_read demo_eof 2).1.eof = demo_eof.eof ∧
      (bwfile_get demo_read demo_eof 2).1.len = demo_eof.len ∧
      (bwfile_get demo_read demo_eof 2).1.use = demo_eof.use :=
  ⟨by decide, C12_cached_get_frame demo_read demo_eof 2 (by decide)⟩


/-! ## C13: the current set-up changes only in `bwanal_start` -/

theorem bwanal_calc_c (fp : Fp) (aa : BWAnal) (r : BWAnal × Int)
    (h : bwanal_calc fp aa = some r) : r.1.c = aa.c := by
  by_cases hy : aa.yy < aa.c.sy
  · exact (bwanal_calc_row fp aa hy r h).2.1
  · rw [bwanal_calc_done fp aa (by omega)] at h
    simp only [Option.some.injEq] at h
    rw [← h]

theorem bwanal_recheck_file_c (aa : BWAnal) : (bwanal_recheck_file aa).c = aa.c := rfl

theorem bwanal_length_c (d : Decoder) (fuel : Nat) (aa : BWAnal) :
    (bwanal_length d fuel aa).1.c = aa.c := by
  unfold bwanal_length
  simp only []
  split_ifs <;> rfl

/-- C13: from any state, `bwanal_start` (when it returns) leaves the current set-up `c`
equal to the requested set-up `req` and the progress counter `yy` at 0; `bwanal_calc`,
`bwanal_signal`, `bwanal_window`, `bwanal_recheck_file` and `bwanal_length` leave `c` as
it was. -/
theorem C13_setup_changes_only_on_start (fp : Fp) (d : Decoder) (aa : BWAnal) :
    (∀ aa1, bwanal_start fp d aa = some aa1 → aa1.c = aa.req ∧ aa1.yy = 0) ∧
    (∀ r, bwanal_calc fp aa = some r → r.1.c = aa.c) ∧
    (∀ aa1, bwanal_signal fp aa = some aa1 → aa1.c = aa.c) ∧
    (∀ xx yy aa1, bwanal_window fp aa xx yy = some aa1 → aa1.c = aa.c) ∧
    (bwanal_recheck_file aa).c = aa.c ∧
    (∀ fuel, (bwanal_length d fuel aa).1.c = aa.c) :=
  ⟨fun aa1 h => bwanal_start_c_yy fp d aa aa1 h,
   fun r h => bwanal_calc_c fp aa r h,
   fun aa1 h => bwanal_window_c fp aa aa1 (-1) (-1) h,
   fun xx yy aa1 h => bwanal_window_c fp aa aa1 xx yy h,
   rfl,
   fun fuel => bwanal_length_c d fuel aa⟩

/-- On the demo engine: a restart with a changed request after both rows were computed
succeeds, installs the request and resets `yy` from 2 to 0; a following `bwanal_calc` and a
preview `bwanal_window` succeed and keep the set-up. -/
theorem C13_setup_changes_only_on_start_witness :
    demo_biquad_req.yy = 2 ∧ demo_biquad_req.c ≠ demo_biquad_req.req ∧
    bwanal_start demo_fp demo_read demo_biquad_req = some demo_biquad ∧
    (demo_biquad.c = demo_biquad_req.req ∧ demo_biquad.yy = 0) ∧
    (bwanal_calc demo_fp demo_biquad).map (fun r => r.1.c) = some demo_biquad.c ∧
    (bwanal_window demo_fp demo_biquad 1 0).map (fun r => r.c) = some demo_biquad.c :=
  ⟨by decide, by decide, by decide,
   (C13_setup_changes_only_on_start demo_fp demo_read demo_biquad_req).1 demo_biquad (by decide),
   by decide, by decide⟩


/-! ## C15: the scan loop of `bwanal_length` on a finite stream -/

theorem Reach_bsiz (P : Decoder → Prop) (s0 s : BWFile) (h : Reach P s0 s) :
    s.bsiz = s0.bsiz := by
  induction h with
  | start => rfl
  | get s d num _ _ ih => rw [(bwfile_get_frame d s num).2.1, ih]
  | free s a bb _ _ _ ih => rw [(bwfile_free_frame s a).2.2.2.2.2.1, ih]
  | check_eof s _ ih => rw [(bwfile_check_eof_frame s).2.1, ih]

/-- With a decoder for which every read that does not signal end-of-file leaves strictly
less of the stream (`rem`), the scan loop started before end-of-file is left after at most
`rem pos + 2` evaluations of its condition, with `eof` set, having recorded at most
`rem pos + 1` further blocks. -/
theorem length_scan_finite (d : Decoder) (rem : Nat → Nat)
    (hfin : ∀ p, (d p).eof = false → rem (d p).pos < rem p)
    (fuel : Nat) (s : BWFile) (hN : NumInv s) (he : s.eof = false)
    (hf : rem s.pos + 2 ≤ fuel) :
    (length_scan d fuel s).2 = true ∧ (length_scan d fuel s).1.eof = true ∧
    (length_scan d fuel s).1.n_blk ≤ s.n_blk + (rem s.pos : Int) + 1 := by
  induction fuel generalizing s with
  | zero => omega
  | succ k ih =>
    obtain ⟨a, ha, l1, l2, l3, l4, l5, l6, l7, l8⟩ := loop_step d s hN he
    rw [length_scan_step _ k s he a ha]
    generalize bwfile_free (bwfile_get d s s.n_blk).1 a = s2 at l1 l2 l3 l4 l5 l6 l7 l8
    by_cases hr : (d s.pos).eof = true
    · obtain ⟨x1, _, _⟩ := l7 hr
      obtain ⟨k2, rfl⟩ : ∃ k2, k = k2 + 1 := ⟨k - 1, by omega⟩
      rw [length_scan_eof _ k2 s2 x1]
      refine ⟨rfl, x1, ?_⟩
      show s2.n_blk ≤ s.n_blk + (rem s.pos : Int) + 1
      rw [l3]; omega
    · have hr2 : (d s.pos).eof = false := by simpa using hr
      obtain ⟨x1, x2, _⟩ := l8 hr2
      have := hfin s.pos hr2
      obtain ⟨i1, i2, i3⟩ := ih s2 l1 x1 (by rw [x2]; omega)
      refine ⟨i1, i2, ?_⟩
      rw [x2, l3] at i3
      omega

/-- C15: let the decoder report an occupancy between 0 and `bsiz` on every read, and let
the stream be finite: every read that does not signal end-of-file leaves strictly less of
the stream to read (`rem`, which so bounds the number of such reads).  Let the blocks
recorded after the growth check, those reads and one further block stay within the range
of `int`: `(n_blk + rem pos + 1) * bsiz < 2^31`.  Then on every store reached from
`bwfile_open`, the scan loop of `bwanal_length` is left after at most `rem pos + 2`
evaluations of its condition (`pos` being the position after the growth check), with `eof`
set and `len >= 0`, and `bwanal_length` returns that length: the branch of the internal
error is not taken. -/
theorem C15_length_scan_terminates (d : Decoder) (rem : Nat → Nat) (chan : Int) (pos0 : Nat)
    (bsiz max_unref : Int) (aa : BWAnal)
    (hr : Reach (fun _ => True) (bwfile_open chan pos0 bsiz max_unref) aa.file)
    (hocc : ∀ p, 0 ≤ (d p).len ∧ (d p).len ≤ bsiz)
    (hfin : ∀ p, (d p).eof = false → rem (d p).pos < rem p)
    (hsz : ((bwfile_check_eof aa.file).n_blk + (rem (bwfile_check_eof aa.file).pos : Int) + 1)
      * bsiz < 2147483648)
    (fuel : Nat) (hf : rem (bwfile_check_eof aa.file).pos + 2 ≤ fuel) :
    (length_scan d fuel (bwanal_recheck_file aa).file).2 = true ∧
    ∃ L, (bwanal_length d fuel aa).2 = LenResult.value L ∧ 0 ≤ L ∧
      (bwanal_length d fuel aa).1.file.eof = true ∧ (bwanal_length d fuel aa).1.file.len = L := by
  have hN := Reach_NumInv _ _ _ (NumInv_open chan pos0 bsiz max_unref) hr
  have hbs : aa.file.bsiz = bsiz := Reach_bsiz _ _ _ hr
  have hb0 : 0 ≤ bsiz := le_trans (hocc 0).1 (hocc 0).2
  obtain ⟨_, q2, q3, q4, _, q6, _, q8⟩ := bwanal_recheck_file_file aa
  obtain ⟨s1, s2, s3⟩ := length_scan_finite d rem hfin fuel (bwanal_recheck_file aa).file
    (q8 hN) q4 (by rw [q3]; exact hf)
  obtain ⟨_, _, p3, p4⟩ := length_scan_spec d fuel _ (q8 hN) q4
  obtain ⟨e1, _, _, e4⟩ := (p4 s1).2 s2
  rw [q2, q3] at s3
  rw [p3, q6, hbs, sub_one_mul] at e4
  have h1 := mul_le_mul_of_nonneg_right s3 hb0
  have h2 := mul_le_mul_of_nonneg_right e1 hb0
  have h3 := hocc (length_scan d fuel (bwanal_recheck_file aa).file).1.pos
  rw [one_mul] at h2
  have s4 : 0 ≤ (length_scan d fuel (bwanal_recheck_file aa).file).1.len := by
    rw [e4, to_int_of_range _ (by omega) (by omega)]
    omega
  have hv := bwanal_length_of_scan d fuel aa s1 s2 s4
  obtain ⟨_, _, v3, v4, _⟩ := bwanal_length_value d fuel aa _ hv
  exact ⟨s1, _, hv, s4, v3, v4⟩

theorem stream_read_occupancy (bsiz : Int) (hb : 0 ≤ bsiz) (stream : List Frame) (p : Nat) :
    0 ≤ (stream_read bsiz stream p).len ∧ (stream_read bsiz stream p).len ≤ bsiz := by
  constructor
  · simp [ReadResult.len]
  · simp only [ReadResult.len, stream_read, List.length_take, List.length_drop]
    omega

theorem stream_read_consumes (bsiz : Int) (hb : 1 ≤ bsiz) (stream : List Frame) (p : Nat)
    (h : (stream_read bsiz stream p).eof = false) :
    stream.length - (stream_read bsiz stream p).pos < stream.length - p := by
  have h1 : ¬ ((stream.length : Int) - (p : Int) < bsiz) := by
    intro hx
    simp [stream_read, hx] at h
  simp only [stream_read, List.length_take, List.length_drop]
  omega

theorem C15_length_scan_terminates_witness :
    ((bwfile_check_eof demo_anal_eof.file).n_blk
      + ((demo_stream.length - (bwfile_check_eof demo_anal_eof.file).pos : Nat) : Int) + 1) * 4
      < 2147483648 ∧
    (length_scan demo_read 12 (bwanal_recheck_file demo_anal_eof).file).2 = true ∧
    ∃ L, (bwanal_length demo_read 12 demo_anal_eof).2 = LenResult.value L ∧ 0 ≤ L ∧
      (bwanal_length demo_read 12 demo_anal_eof).1.file.eof = true ∧
      (bwanal_length demo_read 12 demo_anal_eof).1.file.len = L :=
  ⟨by decide,
   C15_length_scan_terminates demo_read (fun p => demo_stream.length - p) 2 0 4 0 demo_anal_eof
    (Reach.get _ demo_read 2 Reach.start trivial)
    (fun p => stream_read_occupancy 4 (by decide) demo_stream p)
    (fun p h => stream_read_consumes 4 (by decide) demo_stream p h)
    (by decide) 12 (by decide)⟩

/-! ## Streams beyond the range of `int` -/

theorem long_stream_length : long_stream.length = 2147483648 := by
  unfold long_stream
  exact List.length_replicate _ _

theorem bwanal_length_fatal_of_scan (d : Decoder) (fuel : Nat) (aa : BWAnal)
    (h1 : (length_scan d fuel (bwanal_recheck_file aa).file).2 = true)
    (h3 : (length_scan d fuel (bwanal_recheck_file aa).file).1.len < 0) :
    (bwanal_length d fuel aa).2 = LenResult.fatal ∧
    (bwanal_length d fuel aa).1.file = (length_scan d fuel (bwanal_recheck_file aa).file).1 := by
  have n1 : ¬ (length_scan d fuel (bwanal_recheck_file aa).file).2 = false := by
    rw [h1]; simp
  have n2 : (length_scan d fuel (bwanal_recheck_file aa).file).1.eof = false ∨
      (length_scan d fuel (bwanal_recheck_file aa).file).1.len < 0 := Or.inr h3
  unfold bwanal_length
  simp only []
  rw [if_neg n1, if_pos n2]
  exact ⟨rfl, rfl⟩

/-- C15, stream of `2^31` frames read in blocks of 1024 by the frame-counting decoder
(occupancy between 0 and 1024 on every read, every read without end-of-file leaves less
of the stream): on the analysis object made by `bwanal_new` the scan loop of
`bwanal_length` is left with `eof` set and `len = -2^31`, and `bwanal_length` takes the
branch of the internal error. -/
theorem C15_long_stream_fatal :
    (∀ p, 0 ≤ (stream_read 1024 long_stream p).len ∧
      (stream_read 1024 long_stream p).len ≤ 1024) ∧
    (∀ p, (stream_read 1024 long_stream p).eof = false →
      long_stream.length - (stream_read 1024 long_stream p).pos < long_stream.length - p) ∧
    (length_scan (stream_read 1024 long_stream) 2147483650
      (bwanal_recheck_file (bwanal_new 1 0 256)).file).2 = true ∧
    (bwanal_length (stream_read 1024 long_stream) 2147483650
      (bwanal_new 1 0 256)).1.file.eof = true ∧
    (bwanal_length (stream_read 1024 long_stream) 2147483650
      (bwanal_new 1 0 256)).1.file.len = -2147483648 ∧
    (bwanal_length (stream_read 1024 long_stream) 2147483650 (bwanal_new 1 0 256)).2
      = LenResult.fatal := by
  have hP0 : PosInv 1024 long_stream.length (bwanal_new 1 0 256).file :=
    PosInv_open 1024 long_stream.length 1 0
  have hN0 : NumInv (bwanal_new 1 0 256).file := NumInv_open 1 0 1024 0
  have hP := PosInv_recheck 1024 _ _ (le_refl _) (bwanal_new 1 0 256) hP0
  obtain ⟨_, _, _, q4, _, _, _, q8⟩ := bwanal_recheck_file_file (bwanal_new 1 0 256)
  obtain ⟨t1, t2, t3⟩ := length_scan_total 1024 (by decide) long_stream 2147483650 _ hP
    (q8 hN0) q4 (by rw [long_stream_length]; omega)
  have hneg : to_int ((long_stream.length : Nat) : Int) = -2147483648 := by
    rw [long_stream_length]; decide
  rw [hneg] at t3
  obtain ⟨f1, f2⟩ := bwanal_length_fatal_of_scan _ _ _ t1 (by rw [t3]; decide)
  exact ⟨fun p => stream_read_occupancy 1024 (by decide) long_stream p,
    fun p h => stream_read_consumes 1024 (by decide) long_stream p h,
    t1, by rw [f2]; exact t2, by rw [f2]; exact t3, f1⟩


/-! ## The plan-size computation of `bwanal_start` -/

theorem PLAN_SIZE_two (k : Nat) (r : Int) (h0 : 0 ≤ r) (h3 : r < 3) :
    PLAN_SIZE (6 * k + r) = 2 * 2 ^ k := by
  have hn : (0 : Int) ≤ 6 * k + r := by omega
  unfold PLAN_SIZE
  rw [Int.tdiv_eq_ediv hn (by decide), Int.tdiv_eq_ediv hn (by decide),
    Int.tmod_eq_emod (by omega) (by decide)]
  have h1 : ¬ ((6 * (k : Int) + r) / 3 % 2 ≠ 0) := by omega
  have h2 : ((6 * (k : Int) + r) / 6).toNat = k := by omega
  rw [if_neg h1, h2]

theorem PLAN_SIZE_three (k : Nat) (r : Int) (h0 : 3 ≤ r) (h3 : r < 6) :
    PLAN_SIZE (6 * k + r) = 3 * 2 ^ k := by
  have hn : (0 : Int) ≤ 6 * k + r := by omega
  unfold PLAN_SIZE
  rw [Int.tdiv_eq_ediv hn (by decide), Int.tdiv_eq_ediv hn (by decide),
    Int.tmod_eq_emod (by omega) (by decide)]
  have h1 : (6 * (k : Int) + r) / 3 % 2 ≠ 0 := by omega
  have h2 : ((6 * (k : Int) + r) / 6).toNat = k := by omega
  rw [if_pos h1, h2]

theorem shift_count_pow (k : Nat) : ∀ (fuel : Nat) (c b : Int),
    2 ^ k ≤ c → c < 2 ^ (k + 1) → k < fuel → shift_count fuel c b = b + k + 1 := by
  induction k with
  | zero =>
    intro fuel c b h1 h2 hf
    obtain ⟨f, rfl⟩ : ∃ f, fuel = f + 1 := ⟨fuel - 1, by omega⟩
    have hc : c = 1 := by simp at h1 h2; omega
    subst hc
    cases f with
    | zero => simp [shift_count]
    | succ f => simp [shift_count]
  | succ k ih =>
    intro fuel c b h1 h2 hf
    obtain ⟨f, rfl⟩ : ∃ f, fuel = f + 1 := ⟨fuel - 1, by omega⟩
    have hp : (0 : Int) < 2 ^ k := by positivity
    have e1 : (2 : Int) ^ (k + 1) = 2 ^ k * 2 := pow_succ 2 k
    have e2 : (2 : Int) ^ (k + 1 + 1) = 2 ^ (k + 1) * 2 := pow_succ 2 (k + 1)
    have hc : c ≠ 0 := by omega
    simp only [shift_count, hc, ne_eq, not_false_eq_true, if_true]
    rw [ih f (c / 2) (b + 1) (by omega) (by omega) (by omega)]
    push_cast
    ring

theorem plan_shrink_stop (fuel : Nat) (siz b : Int) (h : ¬ PLAN_SIZE (b - 1) > siz) :
    plan_shrink fuel siz b = b := by
  cases fuel with
  | zero => rfl
  | succ f => simp only [plan_shrink, h, if_false]

theorem plan_shrink_go (fuel : Nat) (siz b : Int) (h : PLAN_SIZE (b - 1) > siz) :
    plan_shrink (fuel + 1) siz b = plan_shrink fuel siz (b - 1) := by
  simp only [plan_shrink, h, if_true]

/-- The plan index chosen for a required size `siz` with `2^k <= siz < 2^(k+1)`. -/
theorem plan_index_eq (siz : Int) (k : Nat) (hk : 1 ≤ k) (hk2 : k < 64)
    (h1 : 2 ^ k ≤ siz) (h2 : siz < 2 ^ (k + 1)) :
    plan_index siz = some (if siz < 3 * 2 ^ (k - 1) then 6 * (k : Int) - 3 else 6 * (k : Int)) := by
  obtain ⟨j, rfl⟩ : ∃ j, k = j + 1 := ⟨k - 1, by omega⟩
  have e1 : (2 : Int) ^ (j + 1) = 2 ^ j * 2 := pow_succ 2 j
  have e2 : (2 : Int) ^ (j + 1 + 1) = 2 ^ (j + 1) * 2 := pow_succ 2 (j + 1)
  have hp : (0 : Int) < 2 ^ j := by positivity
  have hs : shift_count 64 siz (-1) = ((j + 1 : Nat) : Int) := by
    rw [shift_count_pow (j + 1) 64 siz (-1) h1 h2 hk2]; ring
  have p0 : PLAN_SIZE (((j + 1 : Nat) : Int) * 6) = 2 * 2 ^ (j + 1) := by
    have := PLAN_SIZE_two (j + 1) 0 (by decide) (by decide)
    rw [← this]; congr 1; ring
  have p1 : PLAN_SIZE (((j + 1 : Nat) : Int) * 6 - 1) = 3 * 2 ^ j := by
    have := PLAN_SIZE_three j 5 (by decide) (by decide)
    rw [← this]; congr 1; push_cast; ring
  have p2 : PLAN_SIZE (((j + 1 : Nat) : Int) * 6 - 1 - 1) = 3 * 2 ^ j := by
    have := PLAN_SIZE_three j 4 (by decide) (by decide)
    rw [← this]; congr 1; push_cast; ring
  have p3 : PLAN_SIZE (((j + 1 : Nat) : Int) * 6 - 1 - 1 - 1) = 3 * 2 ^ j := by
    have := PLAN_SIZE_three j 3 (by decide) (by decide)
    rw [← this]; congr 1; push_cast; ring
  have p4 : PLAN_SIZE (((j + 1 : Nat) : Int) * 6 - 1 - 1 - 1 - 1) = 2 * 2 ^ j := by
    have := PLAN_SIZE_two j 2 (by decide) (by decide)
    rw [← this]; congr 1; push_cast; ring
  unfold plan_index
  simp only [hs]
  have hge : ¬ PLAN_SIZE (((j + 1 : Nat) : Int) * 6) < siz := by rw [p0]; omega
  rw [if_neg hge]
  simp only [Nat.add_sub_cancel]
  by_cases hlt : siz < 3 * 2 ^ j
  · rw [if_pos hlt]
    rw [show (64 : Nat) = 60 + 1 + 1 + 1 + 1 from rfl]
    rw [plan_shrink_go _ _ _ (by rw [p1]; omega), plan_shrink_go _ _ _ (by rw [p2]; omega),
      plan_shrink_go _ _ _ (by rw [p3]; omega), plan_shrink_stop _ _ _ (by rw [p4]; omega)]
    congr 1
    push_cast
    ring
  · rw [if_neg hlt, plan_shrink_stop _ _ _ (by rw [p1]; omega)]
    congr 1
    push_cast
    ring

theorem two_pow_mono (m j : Nat) (h : m ≤ j) : (2 : Int) ^ m ≤ 2 ^ j := by
  obtain ⟨e, rfl⟩ : ∃ e, j = m + e := ⟨j - m, by omega⟩
  rw [pow_add]
  have h1 : (0 : Int) < 2 ^ m := by positivity
  have h2 : (1 : Int) ≤ 2 ^ e := one_le_pow₀ (by norm_num)
  nlinarith

theorem size_bracket (siz : Int) (h12 : 12 ≤ siz) (h30 : siz < 2 ^ 30) :
    ∃ k : Nat, 3 ≤ k ∧ k < 30 ∧ (2 : Int) ^ k ≤ siz ∧ siz < 2 ^ (k + 1) := by
  have hn0 : siz.toNat ≠ 0 := by omega
  refine ⟨Nat.log 2 siz.toNat, ?_, ?_, ?_, ?_⟩
  · apply Nat.le_log_of_pow_le (by decide)
    norm_num
    omega
  · apply Nat.log_lt_of_lt_pow hn0
    have : (siz.toNat : Int) < 2 ^ 30 := by omega
    exact_mod_cast this
  · have := Nat.pow_log_le_self 2 hn0
    have h2 : ((2 ^ Nat.log 2 siz.toNat : Nat) : Int) ≤ (siz.toNat : Int) := by exact_mod_cast this
    push_cast at h2
    omega
  · have := Nat.lt_pow_succ_log_self (by decide : 1 < 2) siz.toNat
    have h2 : (siz.toNat : Int) < ((2 ^ (Nat.log 2 siz.toNat).succ : Nat) : Int) := by
      exact_mod_cast this
    push_cast at h2
    omega

/-- The size of the chosen plan is the least plan size strictly above the required size. -/
theorem plan_index_least (siz : Int) (h12 : 12 ≤ siz) (h30 : siz < 2 ^ 30) :
    ∃ b, plan_index siz = some b ∧ 3 ∣ b ∧ 0 ≤ b ∧ IsPlanSize (PLAN_SIZE b) ∧ siz < PLAN_SIZE b ∧
      ∀ s, IsPlanSize s → siz < s → PLAN_SIZE b ≤ s := by
  obtain ⟨k, hk3, hk30, h1, h2⟩ := size_bracket siz h12 h30
  obtain ⟨j, rfl⟩ : ∃ j, k = j + 1 := ⟨k - 1, by omega⟩
  have e1 : (2 : Int) ^ (j + 1) = 2 ^ j * 2 := pow_succ 2 j
  have e2 : (2 : Int) ^ (j + 1 + 1) = 2 ^ (j + 1) * 2 := pow_succ 2 (j + 1)
  have hp : (0 : Int) < 2 ^ j := by positivity
  have hpi := plan_index_eq siz (j + 1) (by omega) (by omega) h1 h2
  simp only [Nat.add_sub_cancel] at hpi
  have key : ∀ m : Nat, (m ≤ j → (2 : Int) ^ m ≤ 2 ^ j) ∧ (j + 1 ≤ m → (2 : Int) ^ j * 2 ≤ 2 ^ m) ∧
      (m + 1 ≤ j → (2 : Int) ^ m * 2 ≤ 2 ^ j) := by
    intro m
    refine ⟨two_pow_mono m j, ?_, ?_⟩
    · intro h; rw [← e1]; exact two_pow_mono _ _ h
    · intro h; rw [← pow_succ]; exact two_pow_mono _ _ h
  by_cases hlt : siz < 3 * 2 ^ j
  · rw [if_pos hlt] at hpi
    have hps : PLAN_SIZE (6 * ((j + 1 : Nat) : Int) - 3) = 3 * 2 ^ j := by
      have := PLAN_SIZE_three j 3 (by decide) (by decide)
      rw [← this]; congr 1; push_cast; ring
    refine ⟨_, hpi, ⟨2 * ((j + 1 : Nat) : Int) - 1, by ring⟩, by push_cast; omega, ?_, ?_, ?_⟩
    · rw [hps]; exact ⟨j, Or.inr rfl⟩
    · rw [hps]; exact hlt
    · intro s ⟨m, hm⟩ hs
      rw [hps]
      obtain ⟨k1, k2, k3⟩ := key m
      have hpm : (0 : Int) < 2 ^ m := by positivity
      rcases hm with rfl | rfl
      · rcases Nat.lt_or_ge j m with h | h
        · have := k2 h; omega
        · have := k1 h; omega
      · rcases Nat.lt_or_ge m j with h | h
        · have := k3 h; omega
        · have := two_pow_mono j m h; omega
  · rw [if_neg hlt] at hpi
    have hps : PLAN_SIZE (6 * ((j + 1 : Nat) : Int)) = 2 * 2 ^ (j + 1) := by
      have := PLAN_SIZE_two (j + 1) 0 (by decide) (by decide)
      rw [← this]; congr 1
    refine ⟨_, hpi, ⟨2 * ((j + 1 : Nat) : Int), by ring⟩, by push_cast; omega, ?_, ?_, ?_⟩
    · rw [hps]; exact ⟨j + 1, Or.inl rfl⟩
    · rw [hps]; omega
    · intro s ⟨m, hm⟩ hs
      rw [hps]
      obtain ⟨k1, k2, k3⟩ := key m
      have hpm : (0 : Int) < 2 ^ m := by positivity
      rcases hm with rfl | rfl
      · rcases Nat.lt_or_ge j m with h | h
        · have := k2 h; omega
        · have := k1 h; omega
      · rcases Nat.lt_or_ge j m with h | h
        · have := k2 h; omega
        · have := k1 h; omega

/-- The plan index does not decrease when the required size grows. -/
theorem plan_index_mono (siz siz2 : Int) (h12 : 12 ≤ siz) (hle : siz ≤ siz2)
    (h30 : siz2 < 2 ^ 30) (b b2 : Int) (hb : plan_index siz = some b)
    (hb2 : plan_index siz2 = some b2) : b ≤ b2 := by
  obtain ⟨k, hk3, hk30, h1, h2⟩ := size_bracket siz h12 (by omega)
  obtain ⟨k2, hk3b, hk30b, h1b, h2b⟩ := size_bracket siz2 (by omega) h30
  rw [plan_index_eq siz k (by omega) (by omega) h1 h2] at hb
  rw [plan_index_eq siz2 k2 (by omega) (by omega) h1b h2b] at hb2
  simp only [Option.some.injEq] at hb hb2
  have hkk : k ≤ k2 := by
    by_contra hx
    have := two_pow_mono (k2 + 1) k (by omega)
    omega
  rcases Nat.eq_or_lt_of_le hkk with rfl | hlt
  · rw [← hb, ← hb2]
    split_ifs <;> omega
  · rw [← hb, ← hb2]
    split_ifs <;> omega


/-! ## The arrays filled by the row loop of `bwanal_start` -/

theorem getD_set_self {α : Type} (l : List α) (i : Nat) (v dflt : α) (h : i < l.length) :
    (l.set i v).getD i dflt = v := by
  simp only [List.getD_eq_getElem?_getD]
  rw [List.getElem?_set_self h]
  rfl

theorem getD_set_ne {α : Type} (l : List α) (i j : Nat) (v dflt : α) (h : i ≠ j) :
    (l.set i v).getD j dflt = l.getD j dflt := by
  simp only [List.getD_eq_getElem?_getD]
  rw [List.getElem?_set_ne h]

/-- One turn of the row loop: what it stores for row `a` and what it leaves alone. -/
theorem start_row_spec (fp : Fp) (typ : Int) (aa : BWAnal) (a : Int) (r : BWAnal × Int)
    (h : start_row fp typ aa a = some r)
    (hl1 : a.toNat < aa.awwid.length) (hl2 : a.toNat < aa.fftp.length) :
    RowsOnly aa r.1 ∧
    (∀ y, y ≠ a.toNat → r.1.awwid.getD y 0 = aa.awwid.getD y 0 ∧
      r.1.fftp.getD y 0 = aa.fftp.getD y 0) ∧
    (typ = 0 → plan_index (row_siz fp aa.rate aa.c a) = some (r.1.fftp.getD a.toNat 0) ∧
      0 ≤ row_siz fp aa.rate aa.c a ∧
      r.1.awwid.getD a.toNat 0 = PLAN_SIZE (r.1.fftp.getD a.toNat 0) ∧
      r.2 = PLAN_SIZE (r.1.fftp.getD a.toNat 0)) ∧
    (typ ≠ 0 → r.1.awwid.getD a.toNat 0 = fp.iir_siz typ (row_wwid fp aa.rate aa.c a) ∧
      r.2 = r.1.awwid.getD a.toNat 0 + aa.c.sx * aa.c.tbase) := by
  unfold start_row at h
  simp only [] at h
  by_cases ht : typ = 0
  · rw [if_pos ht] at h
    by_cases hneg : aa.c.sx * aa.c.tbase + fp.trunc (fp.wwid aa.rate (fp.freq aa.c a) aa.c.wwrat)
        + 2 + 10 < 0
    · rw [if_pos hneg] at h; simp at h
    · rw [if_neg hneg] at h
      cases hp : plan_index (aa.c.sx * aa.c.tbase +
          fp.trunc (fp.wwid aa.rate (fp.freq aa.c a) aa.c.wwrat) + 2 + 10) with
      | none => rw [hp] at h; simp at h
      | some b =>
        rw [hp] at h
        simp only [Option.some.injEq] at h
        rw [← h]
        refine ⟨⟨⟨rfl, rfl, rfl, rfl, rfl, rfl, rfl, rfl, rfl, rfl, rfl, rfl, rfl⟩,
          ⟨by simp, by simp, by simp, by simp, rfl⟩⟩, ?_, ?_, fun hx => absurd ht hx⟩
        · intro y hy
          exact ⟨getD_set_ne _ _ _ _ _ (Ne.symm hy), getD_set_ne _ _ _ _ _ (Ne.symm hy)⟩
        · intro _
          have e1 : (aa.fftp.set a.toNat b).getD a.toNat 0 = b := getD_set_self _ _ _ _ hl2
          have e2 : (aa.awwid.set a.toNat (PLAN_SIZE b)).getD a.toNat 0 = PLAN_SIZE b :=
            getD_set_self _ _ _ _ hl1
          refine ⟨?_, ?_, ?_, ?_⟩
          · show plan_index (row_siz fp aa.rate aa.c a) = some ((aa.fftp.set a.toNat b).getD a.toNat 0)
            rw [e1]; exact hp
          · show 0 ≤ row_siz fp aa.rate aa.c a
            unfold row_siz row_wwid; omega
          · show (aa.awwid.set a.toNat (PLAN_SIZE b)).getD a.toNat 0
              = PLAN_SIZE ((aa.fftp.set a.toNat b).getD a.toNat 0)
            rw [e1, e2]
          · show PLAN_SIZE b = PLAN_SIZE ((aa.fftp.set a.toNat b).getD a.toNat 0)
            rw [e1]
  · rw [if_neg ht] at h
    simp only [Option.some.injEq] at h
    rw [← h]
    refine ⟨⟨⟨rfl, rfl, rfl, rfl, rfl, rfl, rfl, rfl, rfl, rfl, rfl, rfl, rfl⟩,
      ⟨by simp, rfl, by simp, by simp, by simp⟩⟩, ?_, fun hx => absurd hx ht, ?_⟩
    · intro y hy
      exact ⟨getD_set_ne _ _ _ _ _ (Ne.symm hy), rfl⟩
    · intro _
      have e2 : (aa.awwid.set a.toNat (fp.iir_siz typ (fp.wwid aa.rate (fp.freq aa.c a) aa.c.wwrat))).getD
          a.toNat 0 = fp.iir_siz typ (fp.wwid aa.rate (fp.freq aa.c a) aa.c.wwrat) :=
        getD_set_self _ _ _ _ hl1
      refine ⟨?_, ?_⟩
      · show (aa.awwid.set a.toNat _).getD a.toNat 0 = _
        rw [e2]; rfl
      · show _ + _ = (aa.awwid.set a.toNat _).getD a.toNat 0 + _
        rw [e2]

theorem RowsOnly_refl (aa : BWAnal) : RowsOnly aa aa :=
  ⟨⟨rfl, rfl, rfl, rfl, rfl, rfl, rfl, rfl, rfl, rfl, rfl, rfl, rfl⟩, ⟨rfl, rfl, rfl, rfl, rfl⟩⟩

theorem RowsOnly_trans (a1 a2 a3 : BWAnal) (h12 : RowsOnly a1 a2) (h23 : RowsOnly a2 a3) :
    RowsOnly a1 a3 := by
  obtain ⟨⟨p1, p2, p3, p4, p5, p6, p7, p8, p9, p10, p11, p12, p13⟩, ⟨l1, l2, l3, l4, l5⟩⟩ := h12
  obtain ⟨⟨q1, q2, q3, q4, q5, q6, q7, q8, q9, q10, q11, q12, q13⟩, ⟨m1, m2, m3, m4, m5⟩⟩ := h23
  exact ⟨⟨q1.trans p1, q2.trans p2, q3.trans p3, q4.trans p4, q5.trans p5, q6.trans p6,
    q7.trans p7, q8.trans p8, q9.trans p9, q10.trans p10, q11.trans p11, q12.trans p12,
    q13.trans p13⟩, ⟨m1.trans l1, m2.trans l2, m3.trans l3, m4.trans l4, m5.trans l5⟩⟩

/-- The row loop over the rows `n .. n+cnt-1`: every row gets its plan index and size (or
its biquad tail width), earlier rows are left alone, and the `maxsiz` handed on is that of
the last row. -/
theorem start_rows_spec (fp : Fp) (typ : Int) (cnt : Nat) : ∀ (n : Nat) (aa : BWAnal) (m : Int)
    (r : BWAnal × Int), start_rows fp typ cnt (n : Int) aa m = some r →
    n + cnt ≤ aa.awwid.length → n + cnt ≤ aa.fftp.length →
    RowsOnly aa r.1 ∧
    (∀ y, y < n → r.1.awwid.getD y 0 = aa.awwid.getD y 0 ∧
      r.1.fftp.getD y 0 = aa.fftp.getD y 0) ∧
    (∀ y : Nat, n ≤ y → y < n + cnt →
      (typ = 0 → plan_index (row_siz fp aa.rate aa.c y) = some (r.1.fftp.getD y 0) ∧
        0 ≤ row_siz fp aa.rate aa.c y ∧
        r.1.awwid.getD y 0 = PLAN_SIZE (r.1.fftp.getD y 0)) ∧
      (typ ≠ 0 → r.1.awwid.getD y 0 = fp.iir_siz typ (row_wwid fp aa.rate aa.c y))) ∧
    (cnt = 0 → r.2 = m) ∧
    (1 ≤ cnt → r.2 = if typ = 0 then r.1.awwid.getD (n + cnt - 1) 0
                     else r.1.awwid.getD (n + cnt - 1) 0 + aa.c.sx * aa.c.tbase) := by
  induction cnt with
  | zero =>
    intro n aa m r h _ _
    simp only [start_rows, Option.some.injEq] at h
    rw [← h]
    exact ⟨RowsOnly_refl aa, fun _ _ => ⟨rfl, rfl⟩, fun y h1 h2 => by omega, fun _ => rfl,
      fun hx => by omega⟩
  | succ k ih =>
    intro n aa m r h hl1 hl2
    simp only [start_rows] at h
    cases hr : start_row fp typ aa (n : Int) with
    | none => rw [hr] at h; simp at h
    | some r1 =>
      rw [hr] at h
      simp only [] at h
      have hn : ((n : Int)).toNat = n := Int.toNat_ofNat n
      obtain ⟨s1, s2, s3, s4⟩ := start_row_spec fp typ aa n r1 hr (by rw [hn]; omega)
        (by rw [hn]; omega)
      rw [hn] at s2 s3 s4
      have hcast : ((n : Int) + 1) = ((n + 1 : Nat) : Int) := by push_cast; ring
      rw [hcast] at h
      obtain ⟨t1, t2, t3, t4, t5⟩ := ih (n + 1) r1.1 r1.2 r h
        (by rw [s1.2.1]; omega) (by rw [s1.2.2.1]; omega)
      have hc : r1.1.c = aa.c := s1.1.1
      have hrate : r1.1.rate = aa.rate := s1.1.2.1
      rw [hc, hrate] at t3
      refine ⟨RowsOnly_trans _ _ _ s1 t1, ?_, ?_, fun hx => by omega, ?_⟩
      · intro y hy
        obtain ⟨u1, u2⟩ := t2 y (by omega)
        obtain ⟨v1, v2⟩ := s2 y (by omega)
        exact ⟨u1.trans v1, u2.trans v2⟩
      · intro y hy1 hy2
        rcases Nat.eq_or_lt_of_le hy1 with rfl | hlt
        · obtain ⟨u1, u2⟩ := t2 n (by omega)
          constructor
          · intro ht
            obtain ⟨w1, w2, w3, _⟩ := s3 ht
            rw [u1, u2]
            exact ⟨w1, w2, w3⟩
          · intro ht
            rw [u1]
            exact (s4 ht).1
        · exact t3 y (by omega) (by omega)
      · intro _
        rcases Nat.eq_zero_or_pos k with rfl | hk
        · have hm := t4 rfl
          obtain ⟨u1, u2⟩ := t2 n (by omega)
          rw [hm]
          simp only [Nat.zero_add, Nat.add_sub_cancel]
          by_cases ht : typ = 0
          · rw [if_pos ht, u1]
            obtain ⟨_, _, w3, w4⟩ := s3 ht
            rw [w4, w3]
          · rw [if_neg ht, u1]
            exact (s4 ht).2
        · have := t5 hk
          rw [this, hc]
          have e : n + 1 + k - 1 = n + (k + 1) - 1 := by omega
          rw [e]

/-- The main loop of `copy_samples` goes through, and delivers `len` values, when the
samples `[off, off+len)` lie in the blocks `bnum .. bnum+n_blk-1`. -/
theorem copy_main_some (aa : BWAnal) (chan : Int) (errors : Bool) (hb : 1 ≤ aa.bsiz)
    (fuel : Nat) : ∀ (off len : Int),
    (0 < len → 0 ≤ off ∧ aa.bnum * aa.bsiz ≤ off ∧ off + len ≤ (aa.bnum + aa.n_blk) * aa.bsiz) →
    len.toNat ≤ fuel → (0 < len → 1 ≤ fuel) →
    ∃ t, copy_main aa chan errors fuel off len = some t ∧ t.length = len.toNat := by
  induction fuel with
  | zero =>
    intro off len _ hf h1
    have : ¬ len > 0 := fun hx => by have := h1 hx; omega
    exact ⟨[], by simp [copy_main, this], by simp; omega⟩
  | succ k ih =>
    intro off len h hf _
    by_cases hl : len > 0
    · obtain ⟨h0, h1, h2⟩ := h hl
      have hb0 : (0 : Int) < aa.bsiz := by omega
      have hdiv : off.tdiv aa.bsiz = off / aa.bsiz := Int.tdiv_eq_ediv h0 (by omega)
      have hm1 : off / aa.bsiz * aa.bsiz ≤ off := Int.ediv_mul_le off (by omega)
      have hm2 : off < (off / aa.bsiz + 1) * aa.bsiz := Int.lt_ediv_add_one_mul_self off hb0
      have hs1 : aa.bnum ≤ off / aa.bsiz := Int.le_ediv_of_mul_le hb0 h1
      have hs2 : off / aa.bsiz < aa.bnum + aa.n_blk :=
        Int.ediv_lt_of_lt_mul hb0 (by omega)
      have hslot : ¬ (off / aa.bsiz - aa.bnum < 0 ∨ off / aa.bsiz - aa.bnum ≥ aa.n_blk) := by
        omega
      have hboff : 0 ≤ off - aa.bsiz * (off / aa.bsiz) ∧
          off - aa.bsiz * (off / aa.bsiz) < aa.bsiz := by
        rw [mul_comm]
        constructor
        · omega
        · have : (off / aa.bsiz + 1) * aa.bsiz = off / aa.bsiz * aa.bsiz + aa.bsiz := by ring
          omega
      simp only [copy_main, hl, if_true, hdiv, hslot, if_false]
      generalize off - aa.bsiz * (off / aa.bsiz) = boff at hboff
      generalize (aa.blk.getD (off / aa.bsiz - aa.bnum).toNat none).bind (deref aa.file.cache) = bb
      cases bb with
      | none =>
        simp only []
        have hc2 : 1 ≤ max 0 (min (len - 0) (aa.bsiz - (boff + 0))) ∧
            max 0 (min (len - 0) (aa.bsiz - (boff + 0))) ≤ len := by omega
        generalize max 0 (min (len - 0) (aa.bsiz - (boff + 0))) = cnt2 at hc2
        obtain ⟨t, ht, hlen⟩ := ih (off + 0 + cnt2) (len - 0 - cnt2)
          (fun hx => ⟨by omega, by omega, by omega⟩) (by omega) (fun hx => by omega)
        rw [ht]
        refine ⟨_, rfl, ?_⟩
        simp only [List.length_append, List.length_nil, List.length_replicate, hlen]
        omega
      | some b =>
        simp only []
        have hc1 : 0 ≤ max 0 (min len (b.len - boff)) ∧ max 0 (min len (b.len - boff)) ≤ len ∧
            (max 0 (min len (b.len - boff)) = 0 → b.len - boff ≤ 0) := by omega
        generalize max 0 (min len (b.len - boff)) = cnt1 at hc1
        have hc2 : 0 ≤ max 0 (min (len - cnt1) (aa.bsiz - (boff + cnt1))) ∧
            max 0 (min (len - cnt1) (aa.bsiz - (boff + cnt1))) ≤ len - cnt1 ∧
            (cnt1 = 0 → 1 ≤ max 0 (min (len - cnt1) (aa.bsiz - (boff + cnt1)))) := by omega
        generalize max 0 (min (len - cnt1) (aa.bsiz - (boff + cnt1))) = cnt2 at hc2
        obtain ⟨t, ht, hlen⟩ := ih (off + cnt1 + cnt2) (len - cnt1 - cnt2)
          (fun hx => ⟨by omega, by omega, by omega⟩) (by omega) (fun hx => by omega)
        rw [ht]
        refine ⟨_, rfl, ?_⟩
        simp only [List.length_append, List.length_map, List.length_range, List.length_replicate,
          hlen]
        omega
    · refine ⟨[], by simp [copy_main, hl], by simp; omega⟩

/-- `copy_samples` goes through, and delivers `len` values, when the part of `[off, off+len)`
at or after sample 0 lies in the blocks `bnum .. bnum+n_blk-1`. -/
theorem copy_samples_some (aa : BWAnal) (off chan len : Int) (errors : Bool) (hb : 1 ≤ aa.bsiz)
    (h : 0 < len → 0 < off + len →
      aa.bnum * aa.bsiz ≤ max off 0 ∧ off + len ≤ (aa.bnum + aa.n_blk) * aa.bsiz) :
    ∃ t, copy_samples aa off chan len errors = some t ∧ t.length = len.toNat := by
  unfold copy_samples
  simp only []
  have hc : (0 ≤ (if off < 0 ∧ len > 0 then min (-off) len else 0)) ∧
      ((if off < 0 ∧ len > 0 then min (-off) len else 0) ≤ max len 0) ∧
      (0 < len - (if off < 0 ∧ len > 0 then min (-off) len else 0) →
        off + (if off < 0 ∧ len > 0 then min (-off) len else 0) = max off 0 ∧ 0 < off + len) := by
    split_ifs with hx
    · omega
    · omega
  generalize (if off < 0 ∧ len > 0 then min (-off) len else 0) = cnt0 at hc
  obtain ⟨t, ht, hlen⟩ := copy_main_some aa chan errors hb ((len - cnt0).toNat + 1)
    (off + cnt0) (len - cnt0)
    (fun hx => by
      obtain ⟨e1, e2⟩ := hc.2.2 hx
      have := h (by omega) e2
      omega)
    (by omega) (fun _ => by omega)
  rw [ht]
  refine ⟨_, rfl, ?_⟩
  simp only [List.length_append, List.length_replicate, hlen]
  omega


/-! ## The parts of `bwanal_start` -/

theorem bwanal_start_eq (fp : Fp) (d : Decoder) (aa : BWAnal) :
    bwanal_start fp d aa =
      if aa.req.typ < 0 ∨ aa.req.typ > 2 then none
      else
        match start_rows fp aa.req.typ aa.req.sy.toNat 0 (start_prep aa) 0 with
        | none => none
        | some r =>
            match bwanal_signal fp (load_data d r.1 r.2) with
            | none => none
            | some aa5 => some (start_finish aa.req.typ aa5 r.2) := by
  unfold bwanal_start start_prep start_finish
  by_cases hs : aa.c.sx ≠ aa.req.sx ∨ aa.c.sy ≠ aa.req.sy
  · simp only [hs, if_true]
    all_goals rfl
  · simp only [hs, if_false]

theorem start_prep_fields (aa : BWAnal) :
    (start_prep aa).c = aa.req ∧ (start_prep aa).rate = aa.rate ∧
    (start_prep aa).bsiz = aa.bsiz ∧
    (start_prep aa).half = (if aa.req.typ ≠ 0 then 1 else 0) := by
  unfold start_prep
  simp only []
  by_cases hs : aa.c.sx ≠ aa.req.sx ∨ aa.c.sy ≠ aa.req.sy
  · rw [if_pos hs]
    exact ⟨rfl, rfl, rfl, rfl⟩
  · rw [if_neg hs]
    exact ⟨rfl, rfl, rfl, rfl⟩

theorem start_prep_ArrOk (aa : BWAnal) (h : ArrOk aa) : ArrOk (start_prep aa) := by
  unfold start_prep
  simp only []
  by_cases hs : aa.c.sx ≠ aa.req.sx ∨ aa.c.sy ≠ aa.req.sy
  · simp only [hs, if_true]
    simp [ArrOk, recreate_arrays]
  · simp only [hs, if_false]
    have h1 : aa.c.sx = aa.req.sx := by
      by_contra hx; exact hs (Or.inl hx)
    have h2 : aa.c.sy = aa.req.sy := by
      by_contra hx; exact hs (Or.inr hx)
    obtain ⟨a1, a2, a3, a4, a5, a6, a7, a8, a9, a10⟩ := h
    rw [h1, h2] at a4 a5
    rw [h1] at a1 a2 a3
    rw [h2] at a6 a7 a8 a9 a10
    exact ⟨a1, a2, a3, a4, a5, a6, a7, a8, a9, a10⟩

theorem load_data_fields (d : Decoder) (aa : BWAnal) (siz : Int) :
    (load_data d aa siz).c = aa.c ∧ (load_data d aa siz).rate = aa.rate ∧
    (load_data d aa siz).bsiz = aa.bsiz ∧ (load_data d aa siz).half = aa.half ∧
    (load_data d aa siz).awwid = aa.awwid ∧ (load_data d aa siz).fftp = aa.fftp ∧
    (load_data d aa siz).sig = aa.sig ∧ (load_data d aa siz).sig0 = aa.sig0 ∧
    (load_data d aa siz).sig1 = aa.sig1 ∧ (load_data d aa siz).mag = aa.mag ∧
    (load_data d aa siz).est = aa.est ∧ (load_data d aa siz).freq = aa.freq ∧
    (load_data d aa siz).wwid = aa.wwid ∧ (load_data d aa siz).iir = aa.iir ∧
    (load_data d aa siz).yy = aa.yy :=
  ⟨rfl, rfl, rfl, rfl, rfl, rfl, rfl, rfl, rfl, rfl, rfl, rfl, rfl, rfl, rfl⟩

theorem column_step_frame (wind : Bool) (tbase : Int) (tmp : List FV) (a : Nat) (aa : BWAnal) :
    ∃ s s0 s1, column_step wind tbase tmp a aa = { aa with sig := s, sig0 := s0, sig1 := s1 } := by
  unfold column_step
  simp only []
  split_ifs <;> exact ⟨_, _, _, rfl⟩

theorem map_columns_frame (wind : Bool) (tbase : Int) (tmp : List FV) (cnt a : Nat)
    (aa : BWAnal) :
    ∃ s s0 s1, map_columns wind tbase tmp cnt a aa
      = { aa with sig := s, sig0 := s0, sig1 := s1 } := by
  induction cnt generalizing a aa with
  | zero => exact ⟨_, _, _, rfl⟩
  | succ n ih =>
    simp only [map_columns]
    obtain ⟨s, s0, s1, h1⟩ := column_step_frame wind tbase tmp a aa
    obtain ⟨t, t0, t1, h2⟩ := ih (a + 1) (column_step wind tbase tmp a aa)
    rw [h2, h1]
    exact ⟨_, _, _, rfl⟩

/-- `bwanal_window` changes the signal envelope arrays and `sig_wind` only. -/
theorem bwanal_window_frame (fp : Fp) (aa aa2 : BWAnal) (xx yy : Int)
    (h : bwanal_window fp aa xx yy = some aa2) :
    ∃ s s0 s1 w, aa2 = { aa with sig := s, sig0 := s0, sig1 := s1, sig_wind := w } := by
  unfold bwanal_window at h
  simp only [] at h
  split at h
  · simp at h
  · simp only [Option.some.injEq] at h
    rw [← h]
    have key : ∀ (w : Bool) (t : Int) (tmp : List FV) (n a0 : Nat) (x : BWAnal),
        (∃ s s0 s1 v, x = { aa with sig := s, sig0 := s0, sig1 := s1, sig_wind := v }) →
        ∃ s s0 s1 v, map_columns w t tmp n a0 x
          = { aa with sig := s, sig0 := s0, sig1 := s1, sig_wind := v } := by
      intro w t tmp n a0 x ⟨s, s0, s1, v, hx⟩
      obtain ⟨u, u0, u1, hm⟩ := map_columns_frame w t tmp n a0 x
      rw [hm, hx]
      exact ⟨_, _, _, _, rfl⟩
    apply key
    split_ifs <;> exact ⟨_, _, _, _, rfl⟩

/-- `bwanal_calc` changes the result grids, the transformed input and `yy` only, and `yy`
does not decrease. -/
theorem bwanal_calc_frame (fp : Fp) (aa : BWAnal) (r : BWAnal × Int)
    (h : bwanal_calc fp aa = some r) :
    ∃ mag est inp isz yy, aa.yy ≤ yy ∧
      r.1 = { aa with mag := mag, est := est, inp := inp, inp_siz := isz, yy := yy } := by
  unfold bwanal_calc at h
  simp only [] at h
  by_cases hy : aa.yy ≥ aa.c.sy
  · rw [if_pos hy] at h
    simp only [Option.some.injEq] at h
    rw [← h]
    exact ⟨_, _, _, _, _, le_refl _, rfl⟩
  · rw [if_neg hy] at h
    by_cases ht : aa.c.typ ≠ 0
    · rw [if_pos ht] at h
      split at h
      · simp at h
      · simp only [Option.some.injEq] at h
        rw [← h]
        exact ⟨_, _, _, _, _, by show aa.yy ≤ aa.yy + 1; omega, rfl⟩
    · rw [if_neg ht] at h
      split at h
      · simp at h
      · simp only [Option.some.injEq] at h
        rw [← h]
        exact ⟨_, _, _, _, _, by show aa.yy ≤ aa.yy + 1; omega, rfl⟩


/-! ## Requests within the loaded blocks -/

/-- The per-row arrays that `bwanal_start` leaves are those of its row loop, and in the
wavelet path `inp` is allocated with `maxsiz` entries. -/
theorem bwanal_start_rows (fp : Fp) (d : Decoder) (aa aa1 : BWAnal)
    (h : bwanal_start fp d aa = some aa1) :
    ∃ r, start_rows fp aa.req.typ aa.req.sy.toNat 0 (start_prep aa) 0 = some r ∧
      aa1.fftp = r.1.fftp ∧ aa1.awwid = r.1.awwid ∧
      (aa.req.typ = 0 → aa1.inp.length = r.2.toNat) := by
  rw [bwanal_start_eq] at h
  split_ifs at h
  split at h
  · simp at h
  · rename_i r hr
    split at h
    · simp at h
    · rename_i aa5 h5
      simp only [Option.some.injEq] at h
      obtain ⟨s, s0, s1, w, he⟩ := bwanal_window_frame fp _ aa5 (-1) (-1) h5
      refine ⟨r, hr, ?_, ?_, ?_⟩
      · rw [← h, he]
        unfold start_finish
        split_ifs <;> rfl
      · rw [← h, he]
        unfold start_finish
        split_ifs <;> rfl
      · intro ht
        rw [← h]
        unfold start_finish
        rw [if_pos ht]
        simp

/-- After `bwanal_start` in the wavelet path, row `y` holds the plan index computed for its
required size, and `awwid[y]` is the size of that plan. -/
theorem bwanal_start_plan (fp : Fp) (d : Decoder) (aa aa1 : BWAnal) (harr : ArrOk aa)
    (hs : bwanal_start fp d aa = some aa1) (ht : aa.req.typ = 0)
    (y : Nat) (hy : (y : Int) < aa.req.sy) :
    plan_index (row_siz fp aa.rate aa.req y) = some (aa1.fftp.getD y 0) ∧
    aa1.awwid.getD y 0 = PLAN_SIZE (aa1.fftp.getD y 0) := by
  obtain ⟨r, hr, e1, e2, _⟩ := bwanal_start_rows fp d aa aa1 hs
  obtain ⟨pc, pr, _, _⟩ := start_prep_fields aa
  have hok := start_prep_ArrOk aa harr
  have hl1 : 0 + aa.req.sy.toNat ≤ (start_prep aa).awwid.length := by
    rw [hok.2.2.2.2.2.2.2.1, pc]; omega
  have hl2 : 0 + aa.req.sy.toNat ≤ (start_prep aa).fftp.length := by
    rw [hok.2.2.2.2.2.2.2.2.1, pc]; omega
  obtain ⟨_, _, s3, _, _⟩ := start_rows_spec fp aa.req.typ aa.req.sy.toNat 0 (start_prep aa) 0
    r hr hl1 hl2
  rw [pc, pr] at s3
  obtain ⟨t1, _⟩ := s3 y (by omega) (by omega)
  obtain ⟨u1, _, u3⟩ := t1 ht
  rw [e1, e2]
  exact ⟨u1, u3⟩

/-- C16 (as stated, at a required size that is itself a plan size): on `demo_wide` the
required size of row 0 is 24; `bwanal_start` chooses plan index 24, whose size is 32,
although 24 is a size of the sequence and is not less than the required size. -/
theorem C16_exact_size_skipped :
    bwanal_start demo_fp demo_read demo_wide = some demo_wide_started ∧
    demo_wide.req.typ = 0 ∧
    row_siz demo_fp demo_wide.rate demo_wide.req 0 = 24 ∧
    demo_wide_started.fftp.getD 0 0 = 24 ∧
    PLAN_SIZE (demo_wide_started.fftp.getD 0 0) = 32 ∧
    IsPlanSize 24 ∧
    ¬ (∀ s, IsPlanSize s → row_siz demo_fp demo_wide.rate demo_wide.req 0 ≤ s →
        PLAN_SIZE (demo_wide_started.fftp.getD 0 0) ≤ s) := by
  have h24 : IsPlanSize 24 := ⟨3, Or.inr (by norm_num)⟩
  refine ⟨by decide, by decide, by decide, by decide, by decide, h24, ?_⟩
  intro hx
  have := hx 24 h24 (by decide)
  revert this
  decide

/-- C16 (amended): after `bwanal_start` in the wavelet path, for every row `y` whose required
size `siz = sx*tbase + (int)wwid[y] + 12` satisfies `12 <= siz < 2^30`, the selected size
`PLAN_SIZE(fftp[y])` belongs to the sequence 2, 3, 4, 6, 8, 12, 16, 24, ..., is strictly
greater than `siz`, and is the least member of the sequence that is strictly greater than
`siz`. -/
theorem C16_plan_size_least_above (fp : Fp) (d : Decoder) (aa aa1 : BWAnal) (harr : ArrOk aa)
    (hs : bwanal_start fp d aa = some aa1) (ht : aa.req.typ = 0)
    (y : Nat) (hy : (y : Int) < aa.req.sy)
    (h12 : 12 ≤ row_siz fp aa.rate aa.req y) (h30 : row_siz fp aa.rate aa.req y < 2 ^ 30) :
    IsPlanSize (PLAN_SIZE (aa1.fftp.getD y 0)) ∧
    row_siz fp aa.rate aa.req y < PLAN_SIZE (aa1.fftp.getD y 0) ∧
    ∀ s, IsPlanSize s → row_siz fp aa.rate aa.req y < s → PLAN_SIZE (aa1.fftp.getD y 0) ≤ s := by
  obtain ⟨p1, _⟩ := bwanal_start_plan fp d aa aa1 harr hs ht y hy
  obtain ⟨b, hb, _, _, q1, q2, q3⟩ := plan_index_least _ h12 h30
  rw [p1] at hb
  simp only [Option.some.injEq] at hb
  rw [hb]
  exact ⟨q1, q2, q3⟩

theorem C16_plan_size_least_above_witness :
    IsPlanSize (PLAN_SIZE (demo_wide_started.fftp.getD 1 0)) ∧
    row_siz demo_fp demo_wide.rate demo_wide.req (1 : Nat)
      < PLAN_SIZE (demo_wide_started.fftp.getD 1 0) ∧
    ∀ s, IsPlanSize s → row_siz demo_fp demo_wide.rate demo_wide.req (1 : Nat) < s →
      PLAN_SIZE (demo_wide_started.fftp.getD 1 0) ≤ s :=
  C16_plan_size_least_above demo_fp demo_read demo_wide demo_wide_started
    (by unfold ArrOk; decide) (by decide) (by decide) 1 (by decide) (by decide) (by decide)

/-- C17: for required sizes `12 <= siz < 2^30` the plan-size computation of `bwanal_start`
never ends in its error, the plan index it yields is a multiple of 3, and the index does
not decrease when `siz` grows.  Hence, after `bwanal_start` in the wavelet path with
required sizes in that range and window widths `(int)wwid[y]` that do not decrease with the
row index, `fftp[y]` and `awwid[y]` do not decrease with the row index, and the `maxsiz`
the row loop hands on (with which `inp` is allocated) is the size of the last row and is
at least the size of every row. -/
theorem C17_plan_index_monotone (fp : Fp) (d : Decoder) (aa aa1 : BWAnal) (harr : ArrOk aa)
    (hs : bwanal_start fp d aa = some aa1) (ht : aa.req.typ = 0) (hsy : 1 ≤ aa.req.sy)
    (hrange : ∀ y : Nat, (y : Int) < aa.req.sy →
      12 ≤ row_siz fp aa.rate aa.req y ∧ row_siz fp aa.rate aa.req y < 2 ^ 30)
    (hmono : ∀ y y2 : Nat, y ≤ y2 → (y2 : Int) < aa.req.sy →
      fp.trunc (row_wwid fp aa.rate aa.req y) ≤ fp.trunc (row_wwid fp aa.rate aa.req y2)) :
    (∀ siz, 12 ≤ siz → siz < 2 ^ 30 → ∃ b, plan_index siz = some b ∧ 3 ∣ b) ∧
    (∀ siz siz2 b b2, 12 ≤ siz → siz ≤ siz2 → siz2 < 2 ^ 30 →
      plan_index siz = some b → plan_index siz2 = some b2 → b ≤ b2) ∧
    (∀ y y2 : Nat, y ≤ y2 → (y2 : Int) < aa.req.sy →
      aa1.fftp.getD y 0 ≤ aa1.fftp.getD y2 0 ∧ aa1.awwid.getD y 0 ≤ aa1.awwid.getD y2 0) ∧
    (∃ r, start_rows fp aa.req.typ aa.req.sy.toNat 0 (start_prep aa) 0 = some r ∧
      aa1.inp.length = r.2.toNat ∧
      r.2 = aa1.awwid.getD (aa.req.sy.toNat - 1) 0 ∧
      ∀ y : Nat, (y : Int) < aa.req.sy → aa1.awwid.getD y 0 ≤ r.2) := by
  have hrows : ∀ y y2 : Nat, y ≤ y2 → (y2 : Int) < aa.req.sy →
      aa1.fftp.getD y 0 ≤ aa1.fftp.getD y2 0 ∧ aa1.awwid.getD y 0 ≤ aa1.awwid.getD y2 0 := by
    intro y y2 hle hy2
    obtain ⟨p1, p2⟩ := bwanal_start_plan fp d aa aa1 harr hs ht y (by omega)
    obtain ⟨q1, q2⟩ := bwanal_start_plan fp d aa aa1 harr hs ht y2 hy2
    obtain ⟨a12, a30⟩ := hrange y (by omega)
    obtain ⟨b12, b30⟩ := hrange y2 hy2
    have hsz : row_siz fp aa.rate aa.req y ≤ row_siz fp aa.rate aa.req y2 := by
      have := hmono y y2 hle hy2
      unfold row_siz
      omega
    refine ⟨plan_index_mono _ _ a12 hsz b30 _ _ p1 q1, ?_⟩
    obtain ⟨b, hb, _, _, _, _, m3⟩ := plan_index_least _ a12 a30
    obtain ⟨b2, hb2, _, _, n1, n2, _⟩ := plan_index_least _ b12 b30
    rw [p1] at hb
    rw [q1] at hb2
    simp only [Option.some.injEq] at hb hb2
    rw [p2, q2, hb, hb2]
    exact m3 _ n1 (by omega)
  refine ⟨?_, ?_, hrows, ?_⟩
  · intro siz h12 h30
    obtain ⟨b, hb, h3, _⟩ := plan_index_least siz h12 h30
    exact ⟨b, hb, h3⟩
  · intro siz siz2 b b2 h12 hle h30 hb hb2
    exact plan_index_mono siz siz2 h12 hle h30 b b2 hb hb2
  · obtain ⟨r, hr, e1, e2, e3⟩ := bwanal_start_rows fp d aa aa1 hs
    obtain ⟨pc, pr, _, _⟩ := start_prep_fields aa
    have hok := start_prep_ArrOk aa harr
    have hl1 : 0 + aa.req.sy.toNat ≤ (start_prep aa).awwid.length := by
      rw [hok.2.2.2.2.2.2.2.1, pc]; omega
    have hl2 : 0 + aa.req.sy.toNat ≤ (start_prep aa).fftp.length := by
      rw [hok.2.2.2.2.2.2.2.2.1, pc]; omega
    obtain ⟨_, _, _, _, s5⟩ := start_rows_spec fp aa.req.typ aa.req.sy.toNat 0
      (start_prep aa) 0 r hr hl1 hl2
    have hm := s5 (by omega)
    rw [if_pos ht] at hm
    simp only [Nat.zero_add] at hm
    rw [← e2] at hm
    refine ⟨r, hr, e3 ht, hm, ?_⟩
    intro y hy
    rw [hm]
    exact (hrows y (aa.req.sy.toNat - 1) (by omega) (by omega)).2

theorem C17_plan_index_monotone_witness :
    (∀ siz, 12 ≤ siz → siz < 2 ^ 30 → ∃ b, plan_index siz = some b ∧ 3 ∣ b) ∧
    (∀ siz siz2 b b2, 12 ≤ siz → siz ≤ siz2 → siz2 < 2 ^ 30 →
      plan_index siz = some b → plan_index siz2 = some b2 → b ≤ b2) ∧
    (∀ y y2 : Nat, y ≤ y2 → (y2 : Int) < demo_req.req.sy →
      demo_rows_started.fftp.getD y 0 ≤ demo_rows_started.fftp.getD y2 0 ∧
      demo_rows_started.awwid.getD y 0 ≤ demo_rows_started.awwid.getD y2 0) ∧
    (∃ r, start_rows demo_fp_rows demo_req.req.typ demo_req.req.sy.toNat 0
        (start_prep demo_req) 0 = some r ∧
      demo_rows_started.inp.length = r.2.toNat ∧
      r.2 = demo_rows_started.awwid.getD (demo_req.req.sy.toNat - 1) 0 ∧
      ∀ y : Nat, (y : Int) < demo_req.req.sy → demo_rows_started.awwid.getD y 0 ≤ r.2) :=
  C17_plan_index_monotone demo_fp_rows demo_read demo_req demo_rows_started
    (by unfold ArrOk; decide) (by decide) (by decide) (by decide)
    (fun y hy => by
      have h2 : y = 0 ∨ y = 1 := by
        have : demo_req.req.sy = 2 := by decide
        omega
      rcases h2 with rfl | rfl <;> decide)
    (fun y y2 hle hy => by
      have h2 : (y = 0 ∧ y2 = 0) ∨ (y = 0 ∧ y2 = 1) ∨ (y = 1 ∧ y2 = 1) := by
        have : demo_req.req.sy = 2 := by decide
        omega
      rcases h2 with ⟨rfl, rfl⟩ | ⟨rfl, rfl⟩ | ⟨rfl, rfl⟩ <;> decide)

/-- On the demo engine with a window widening from row to row (`(int)wwid` 0 and 8, required
sizes 18 and 26) the plan indices are 21 and 24, the sizes 24 and 32, and `inp` is allocated
with 32 entries. -/
theorem demo_rows_plans :
    demo_rows_started.fftp = [21, 24] ∧ demo_rows_started.awwid = [24, 32] ∧
    demo_rows_started.inp.length = 32 := by
  decide


/-! ## C18: the signal envelope -/

theorem column_scan_nan (l : List FV) (n : Bool) (mn mx : FV) :
    (column_scan l (n, mn, mx)).1 = (n || decide (FV.nan ∈ l)) := by
  induction l generalizing n mn mx with
  | nil => simp [column_scan]
  | cons v rest ih =>
    simp only [column_scan, ih, List.mem_cons]
    by_cases hv : v = FV.nan
    · simp [hv]
    · have : ¬ FV.nan = v := fun h => hv h.symm
      simp [hv, this]

/-- The scan of a column of numbers from a minimum `m` and a maximum `M` found so far. -/
theorem column_scan_vals (vs : List Int) (n : Bool) : ∀ (m M : Int),
    ∃ m2 M2 : Int, column_scan (vs.map FV.val) (n, FV.val m, FV.val M) = (n, FV.val m2, FV.val M2) ∧
      m2 ≤ m ∧ (∀ v ∈ vs, m2 ≤ v) ∧ (m2 = m ∨ m2 ∈ vs) ∧
      M ≤ M2 ∧ (∀ v ∈ vs, v ≤ M2) ∧ (M2 = M ∨ M2 ∈ vs) := by
  induction vs with
  | nil =>
    intro m M
    exact ⟨m, M, rfl, le_refl _, by simp, Or.inl rfl, le_refl _, by simp, Or.inl rfl⟩
  | cons v rest ih =>
    intro m M
    simp only [List.map_cons, column_scan]
    have hn : (n || decide (FV.val v = FV.nan)) = n := by simp
    rw [hn]
    obtain ⟨m2, M2, h, a1, a2, a3, b1, b2, b3⟩ :=
      ih (if v < m then v else m) (if M < v then v else M)
    have e1 : (if FV.lt (FV.val v) (FV.val m) = true then FV.val v else FV.val m)
        = FV.val (if v < m then v else m) := by
      simp only [FV.lt, decide_eq_true_eq]
      split_ifs <;> rfl
    have e2 : (if FV.lt (FV.val M) (FV.val v) = true then FV.val v else FV.val M)
        = FV.val (if M < v then v else M) := by
      simp only [FV.lt, decide_eq_true_eq]
      split_ifs <;> rfl
    rw [e1, e2, h]
    refine ⟨m2, M2, rfl, ?_, ?_, ?_, ?_, ?_, ?_⟩
    · split_ifs at a1 <;> omega
    · intro w hw
      rcases List.mem_cons.1 hw with rfl | hw
      · split_ifs at a1 <;> omega
      · exact a2 w hw
    · rcases a3 with a3 | a3
      · split_ifs at a3 with hlt
        · exact Or.inr (by rw [a3]; simp)
        · exact Or.inl a3
      · exact Or.inr (List.mem_cons_of_mem _ a3)
    · split_ifs at b1 <;> omega
    · intro w hw
      rcases List.mem_cons.1 hw with rfl | hw
      · split_ifs at b1 <;> omega
      · exact b2 w hw
    · rcases b3 with b3 | b3
      · split_ifs at b3 with hlt
        · exact Or.inr (by rw [b3]; simp)
        · exact Or.inl b3
      · exact Or.inr (List.mem_cons_of_mem _ b3)

/-- The scan of a column of at least one number, as `bwanal_window` starts it: no NaN is
seen, and the results are the least and the greatest number of the column. -/
theorem column_scan_min_max (vs : List Int) (hne : vs ≠ []) :
    ∃ m M : Int, column_scan (vs.map FV.val) (false, FV.pinf, FV.ninf) = (false, FV.val m, FV.val M) ∧
      m ∈ vs ∧ M ∈ vs ∧ ∀ v ∈ vs, m ≤ v ∧ v ≤ M := by
  cases vs with
  | nil => exact absurd rfl hne
  | cons v rest =>
    obtain ⟨m2, M2, h, a1, a2, a3, b1, b2, b3⟩ := column_scan_vals rest false v v
    refine ⟨m2, M2, ?_, ?_, ?_, ?_⟩
    · simp only [List.map_cons, column_scan]
      have e1 : (if FV.lt (FV.val v) FV.pinf = true then FV.val v else FV.pinf) = FV.val v := rfl
      have e2 : (if FV.lt FV.ninf (FV.val v) = true then FV.val v else FV.ninf) = FV.val v := rfl
      have e3 : (false || decide (FV.val v = FV.nan)) = false := by simp
      rw [e1, e2, e3, h]
    · rcases a3 with a3 | a3
      · rw [a3]; simp
      · exact List.mem_cons_of_mem _ a3
    · rcases b3 with b3 | b3
      · rw [b3]; simp
      · exact List.mem_cons_of_mem _ b3
    · intro w hw
      rcases List.mem_cons.1 hw with rfl | hw
      · exact ⟨a1, b1⟩
      · exact ⟨a2 w hw, b2 w hw⟩

/-- One turn of the column loop without a window: what it stores for column `a`, and that it
leaves the other columns alone. -/
theorem column_step_spec (tbase : Int) (tmp : List FV) (a : Nat) (aa : BWAnal)
    (h1 : a < aa.sig.length) (h2 : a < aa.sig0.length) (h3 : a < aa.sig1.length) :
    ((column_step false tbase tmp a aa).sig.length = aa.sig.length ∧
      (column_step false tbase tmp a aa).sig0.length = aa.sig0.length ∧
      (column_step false tbase tmp a aa).sig1.length = aa.sig1.length) ∧
    (∀ x, x ≠ a →
      (column_step false tbase tmp a aa).sig.getD x (FV.val 0) = aa.sig.getD x (FV.val 0) ∧
      (column_step false tbase tmp a aa).sig0.getD x (FV.val 0) = aa.sig0.getD x (FV.val 0) ∧
      (column_step false tbase tmp a aa).sig1.getD x (FV.val 0) = aa.sig1.getD x (FV.val 0)) ∧
    ((column_scan ((tmp.drop ((a : Int) * tbase).toNat).take tbase.toNat)
        (false, FV.pinf, FV.ninf)).1 = true →
      (column_step false tbase tmp a aa).sig.getD a (FV.val 0) = FV.nan ∧
      (column_step false tbase tmp a aa).sig0.getD a (FV.val 0) = FV.nan ∧
      (column_step false tbase tmp a aa).sig1.getD a (FV.val 0) = FV.nan) ∧
    ((column_scan ((tmp.drop ((a : Int) * tbase).toNat).take tbase.toNat)
        (false, FV.pinf, FV.ninf)).1 = false →
      (column_step false tbase tmp a aa).sig.getD a (FV.val 0)
        = tmp.getD ((a : Int) * tbase + tbase.tdiv 2).toNat (FV.val 0) ∧
      (column_step false tbase tmp a aa).sig0.getD a (FV.val 0)
        = (column_scan ((tmp.drop ((a : Int) * tbase).toNat).take tbase.toNat)
            (false, FV.pinf, FV.ninf)).2.1 ∧
      (column_step false tbase tmp a aa).sig1.getD a (FV.val 0)
        = (column_scan ((tmp.drop ((a : Int) * tbase).toNat).take tbase.toNat)
            (false, FV.pinf, FV.ninf)).2.2) := by
  unfold column_step
  simp only [Bool.false_eq_true, if_false]
  generalize column_scan ((tmp.drop ((a : Int) * tbase).toNat).take tbase.toNat)
    (false, FV.pinf, FV.ninf) = st
  by_cases hs : st.1 = true
  · simp only [hs, if_true]
    refine ⟨⟨by simp, by simp, by simp⟩, ?_, ?_, fun hx => by simp at hx⟩
    · intro x hx
      exact ⟨by rw [getD_set_ne _ _ _ _ _ (Ne.symm hx), getD_set_ne _ _ _ _ _ (Ne.symm hx)],
        getD_set_ne _ _ _ _ _ (Ne.symm hx), getD_set_ne _ _ _ _ _ (Ne.symm hx)⟩
    · intro _
      exact ⟨getD_set_self _ _ _ _ (by simp; exact h1), getD_set_self _ _ _ _ h2,
        getD_set_self _ _ _ _ h3⟩
  · simp only [hs, Bool.false_eq_true, if_false]
    refine ⟨⟨by simp, by simp, by simp⟩, ?_, fun hx => by simp at hx, ?_⟩
    · intro x hx
      exact ⟨getD_set_ne _ _ _ _ _ (Ne.symm hx), getD_set_ne _ _ _ _ _ (Ne.symm hx),
        getD_set_ne _ _ _ _ _ (Ne.symm hx)⟩
    · intro _
      exact ⟨getD_set_self _ _ _ _ h1, getD_set_self _ _ _ _ h2, getD_set_self _ _ _ _ h3⟩

/-- The column loop without a window over the columns `a .. a+cnt-1`. -/
theorem map_columns_spec (tbase : Int) (tmp : List FV) (cnt : Nat) : ∀ (a : Nat) (aa : BWAnal),
    a + cnt ≤ aa.sig.length → a + cnt ≤ aa.sig0.length → a + cnt ≤ aa.sig1.length →
    (∀ x, x < a →
      (map_columns false tbase tmp cnt a aa).sig.getD x (FV.val 0) = aa.sig.getD x (FV.val 0) ∧
      (map_columns false tbase tmp cnt a aa).sig0.getD x (FV.val 0) = aa.sig0.getD x (FV.val 0) ∧
      (map_columns false tbase tmp cnt a aa).sig1.getD x (FV.val 0)
        = aa.sig1.getD x (FV.val 0)) ∧
    (∀ x, a ≤ x → x < a + cnt →
      ((column_scan ((tmp.drop ((x : Int) * tbase).toNat).take tbase.toNat)
          (false, FV.pinf, FV.ninf)).1 = true →
        (map_columns false tbase tmp cnt a aa).sig.getD x (FV.val 0) = FV.nan ∧
        (map_columns false tbase tmp cnt a aa).sig0.getD x (FV.val 0) = FV.nan ∧
        (map_columns false tbase tmp cnt a aa).sig1.getD x (FV.val 0) = FV.nan) ∧
      ((column_scan ((tmp.drop ((x : Int) * tbase).toNat).take tbase.toNat)
          (false, FV.pinf, FV.ninf)).1 = false →
        (map_columns false tbase tmp cnt a aa).sig.getD x (FV.val 0)
          = tmp.getD ((x : Int) * tbase + tbase.tdiv 2).toNat (FV.val 0) ∧
        (map_columns false tbase tmp cnt a aa).sig0.getD x (FV.val 0)
          = (column_scan ((tmp.drop ((x : Int) * tbase).toNat).take tbase.toNat)
              (false, FV.pinf, FV.ninf)).2.1 ∧
        (map_columns false tbase tmp cnt a aa).sig1.getD x (FV.val 0)
          = (column_scan ((tmp.drop ((x : Int) * tbase).toNat).take tbase.toNat)
              (false, FV.pinf, FV.ninf)).2.2)) := by
  induction cnt with
  | zero =>
    intro a aa _ _ _
    exact ⟨fun x _ => ⟨rfl, rfl, rfl⟩, fun x h1 h2 => by omega⟩
  | succ k ih =>
    intro a aa h1 h2 h3
    obtain ⟨⟨l1, l2, l3⟩, c2, c3, c4⟩ := column_step_spec tbase tmp a aa (by omega) (by omega)
      (by omega)
    obtain ⟨i1, i2⟩ := ih (a + 1) (column_step false tbase tmp a aa) (by rw [l1]; omega)
      (by rw [l2]; omega) (by rw [l3]; omega)
    simp only [map_columns]
    constructor
    · intro x hx
      obtain ⟨u1, u2, u3⟩ := i1 x (by omega)
      obtain ⟨v1, v2, v3⟩ := c2 x (by omega)
      exact ⟨u1.trans v1, u2.trans v2, u3.trans v3⟩
    · intro x hx1 hx2
      rcases Nat.eq_or_lt_of_le hx1 with rfl | hlt
      · obtain ⟨u1, u2, u3⟩ := i1 a (by omega)
        rw [u1, u2, u3]
        exact ⟨c3, c4⟩
      · exact i2 x (by omega) (by omega)

theorem copy_main_sig_wind (aa : BWAnal) (w : Int) (chan : Int) (errors : Bool) (fuel : Nat) :
    ∀ (off len : Int), copy_main { aa with sig_wind := w } chan errors fuel off len
      = copy_main aa chan errors fuel off len := by
  induction fuel with
  | zero => intro off len; rfl
  | succ k ih =>
    intro off len
    simp only [copy_main, ih]

theorem copy_samples_sig_wind (aa : BWAnal) (w : Int) (off chan len : Int) (errors : Bool) :
    copy_samples { aa with sig_wind := w } off chan len errors
      = copy_samples aa off chan len errors := by
  unfold copy_samples
  simp only [copy_main_sig_wind]

/-- A value `copy_samples` takes from a block is NaN exactly when errors are asked for and
the sync-error flag of that sample is set; otherwise it is the sample. -/
theorem sample_at_nan (b : BWBlock) (chan : Int) (errors : Bool) (j : Nat) :
    (sample_at b chan errors j = FV.nan ↔ (errors = true ∧ b.err.getD j false = true)) ∧
    (sample_at b chan errors j ≠ FV.nan →
      sample_at b chan errors j = FV.val ((b.chan.getD chan.toNat []).getD j 0)) := by
  unfold sample_at
  by_cases h : errors = true ∧ b.err.getD j false = true
  · simp [h]
  · simp only [h, if_false]
    simp

/-- Every value delivered by the main loop of `copy_samples` is a padding zero or was taken
from a cached block by `sample_at`. -/
theorem copy_main_entries (aa : BWAnal) (chan : Int) (errors : Bool) (fuel : Nat) :
    ∀ (off len : Int) (t : List FV), copy_main aa chan errors fuel off len = some t →
    ∀ v ∈ t, v = FV.val 0 ∨ ∃ b ∈ aa.file.cache, ∃ j, v = sample_at b chan errors j := by
  induction fuel with
  | zero =>
    intro off len t h v hv
    simp only [copy_main] at h
    split_ifs at h
    simp only [Option.some.injEq] at h
    rw [← h] at hv
    simp at hv
  | succ k ih =>
    intro off len t h v hv
    simp only [copy_main] at h
    by_cases hl : len > 0
    · simp only [hl, if_true] at h
      split_ifs at h
      generalize hbb : (aa.blk.getD (off.tdiv aa.bsiz - aa.bnum).toNat none).bind
        (deref aa.file.cache) = bb at h
      cases bb with
      | none =>
        simp only [] at h
        split at h
        · simp at h
        · rename_i rest hrest
          simp only [Option.some.injEq] at h
          rw [← h] at hv
          simp only [List.append_assoc, List.mem_append, List.mem_replicate, List.nil_append] at hv
          rcases hv with hv | hv
          · exact Or.inl hv.2
          · exact ih _ _ _ hrest v hv
      | some b =>
        simp only [] at h
        have hb : b ∈ aa.file.cache := by
          cases hs : aa.blk.getD (off.tdiv aa.bsiz - aa.bnum).toNat none with
          | none => rw [hs] at hbb; simp at hbb
          | some a =>
            rw [hs] at hbb
            simp only [Option.bind] at hbb
            exact deref_mem _ _ _ hbb
        split at h
        · simp at h
        · rename_i rest hrest
          simp only [Option.some.injEq] at h
          rw [← h] at hv
          simp only [List.append_assoc, List.mem_append, List.mem_map, List.mem_range,
            List.mem_replicate] at hv
          rcases hv with hv | hv | hv
          · obtain ⟨i, _, hi⟩ := hv
            exact Or.inr ⟨b, hb, _, hi.symm⟩
          · exact Or.inl hv.2
          · exact ih _ _ _ hrest v hv
    · simp only [hl, if_false, Option.some.injEq] at h
      rw [← h] at hv
      simp at hv

theorem copy_samples_entries (aa : BWAnal) (off chan len : Int) (errors : Bool) (t : List FV)
    (h : copy_samples aa off chan len errors = some t) :
    ∀ v ∈ t, v = FV.val 0 ∨ ∃ b ∈ aa.file.cache, ∃ j, v = sample_at b chan errors j := by
  unfold copy_samples at h
  simp only [] at h
  split at h
  · simp at h
  · rename_i rest hrest
    simp only [Option.some.injEq] at h
    intro v hv
    rw [← h] at hv
    simp only [List.mem_append, List.mem_replicate] at hv
    rcases hv with hv | hv
    · exact Or.inl hv.2
    · exact copy_main_entries aa chan errors _ _ _ _ hrest v hv

/-- A list of copied values without NaN is a list of numbers. -/
theorem vals_of_no_nan (l : List FV)
    (h : ∀ v ∈ l, v = FV.nan ∨ ∃ x : Int, v = FV.val x) (hn : FV.nan ∉ l) :
    ∃ vs : List Int, l = vs.map FV.val := by
  induction l with
  | nil => exact ⟨[], rfl⟩
  | cons v rest ih =>
    obtain ⟨vs, hvs⟩ := ih (fun w hw => h w (List.mem_cons_of_mem _ hw))
      (fun hx => hn (List.mem_cons_of_mem _ hx))
    rcases h v (List.mem_cons_self _ _) with hv | ⟨x, hx⟩
    · exact absurd (by rw [hv]; exact List.mem_cons_self _ _) hn
    · exact ⟨x :: vs, by rw [hx, hvs]; rfl⟩

theorem copy_main_length (aa : BWAnal) (chan : Int) (errors : Bool) (fuel : Nat) :
    ∀ (off len : Int) (t : List FV), copy_main aa chan errors fuel off len = some t →
    t.length = len.toNat := by
  induction fuel with
  | zero =>
    intro off len t h
    simp only [copy_main] at h
    split_ifs at h
    simp only [Option.some.injEq] at h
    rw [← h]
    simp only [List.length_nil]
    omega
  | succ k ih =>
    intro off len t h
    simp only [copy_main] at h
    by_cases hl : len > 0
    · simp only [hl, if_true] at h
      split_ifs at h
      generalize (aa.blk.getD (off.tdiv aa.bsiz - aa.bnum).toNat none).bind
        (deref aa.file.cache) = bb at h
      generalize off - aa.bsiz * off.tdiv aa.bsiz = boff at h
      cases bb with
      | none =>
        simp only [] at h
        split at h
        · simp at h
        · rename_i rest hrest
          simp only [Option.some.injEq] at h
          rw [← h]
          simp only [List.length_append, List.length_nil, List.length_replicate,
            ih _ _ _ hrest]
          omega
      | some b =>
        simp only [] at h
        split at h
        · simp at h
        · rename_i rest hrest
          simp only [Option.some.injEq] at h
          rw [← h]
          simp only [List.length_append, List.length_map, List.length_range,
            List.length_replicate, ih _ _ _ hrest]
          omega
    · simp only [hl, if_false, Option.some.injEq] at h
      rw [← h]
      simp only [List.length_nil]
      omega

theorem copy_samples_length (aa : BWAnal) (off chan len : Int) (errors : Bool) (t : List FV)
    (h : copy_samples aa off chan len errors = some t) : t.length = len.toNat := by
  unfold copy_samples at h
  simp only [] at h
  split at h
  · simp at h
  · rename_i rest hrest
    simp only [Option.some.injEq] at h
    rw [← h]
    simp only [List.length_append, List.length_replicate, copy_main_length _ _ _ _ _ _ _ hrest]
    split_ifs <;> omega

theorem bwanal_signal_eq (fp : Fp) (aa : BWAnal) :
    bwanal_signal fp aa =
      match copy_samples aa aa.c.off aa.c.chan (aa.c.sx * aa.c.tbase) true with
      | none => none
      | some tmp =>
          some (map_columns false aa.c.tbase tmp aa.c.sx.toNat 0 { aa with sig_wind := 0 }) := by
  have hw : decide ((-1 : Int) ≥ 0 ∧ (-1 : Int) ≥ 0) = false := by decide
  unfold bwanal_signal bwanal_window
  simp only [hw, Bool.false_eq_true, if_false, copy_samples_sig_wind]

theorem getD_drop_take {α : Type} (l : List α) (p n i : Nat) (dflt : α) (hi : i < n) :
    ((l.drop p).take n).getD i dflt = l.getD (p + i) dflt := by
  simp only [List.getD_eq_getElem?_getD, List.getElem?_take, hi, if_true, List.getElem?_drop]


/-- C18: after `bwanal_signal` (no preview) with `tbase >= 1`, on an engine whose arrays have
the sizes of its set-up, let `tmp` be the `sx*tbase` values `copy_samples` delivers for
`[off, off+sx*tbase)` with errors asked for: every value is a padding zero or is taken from
a cached block, being NaN exactly when the sync-error flag of that sample is set.  For
every column `x < sx`: if one of the `tbase` values of the column is NaN then `sig[x]`,
`sig0[x]` and `sig1[x]` are NaN; otherwise the column consists of `tbase` numbers, `sig0[x]`
is their minimum, `sig1[x]` their maximum (so `sig0[x] <= sig1[x]`), and `sig[x]` is the
value at offset `tbase/2` of the column. -/
theorem C18_signal_envelope (fp : Fp) (aa aa1 : BWAnal) (harr : ArrOk aa)
    (hs : bwanal_signal fp aa = some aa1) (htb : 1 ≤ aa.c.tbase)
    (x : Nat) (hx : (x : Int) < aa.c.sx) :
    ∃ tmp, copy_samples aa aa.c.off aa.c.chan (aa.c.sx * aa.c.tbase) true = some tmp ∧
      tmp.length = (aa.c.sx * aa.c.tbase).toNat ∧
      (∀ v ∈ tmp, v = FV.val 0 ∨ ∃ b ∈ aa.file.cache, ∃ j, v = sample_at b aa.c.chan true j ∧
        (v = FV.nan ↔ b.err.getD j false = true)) ∧
      (FV.nan ∈ (tmp.drop ((x : Int) * aa.c.tbase).toNat).take aa.c.tbase.toNat →
        aa1.sig.getD x (FV.val 0) = FV.nan ∧ aa1.sig0.getD x (FV.val 0) = FV.nan ∧
        aa1.sig1.getD x (FV.val 0) = FV.nan) ∧
      (FV.nan ∉ (tmp.drop ((x : Int) * aa.c.tbase).toNat).take aa.c.tbase.toNat →
        ∃ vs : List Int,
          (tmp.drop ((x : Int) * aa.c.tbase).toNat).take aa.c.tbase.toNat = vs.map FV.val ∧
          vs.length = aa.c.tbase.toNat ∧
          ∃ m M : Int, m ∈ vs ∧ M ∈ vs ∧ (∀ v ∈ vs, m ≤ v ∧ v ≤ M) ∧ m ≤ M ∧
            aa1.sig0.getD x (FV.val 0) = FV.val m ∧ aa1.sig1.getD x (FV.val 0) = FV.val M ∧
            aa1.sig.getD x (FV.val 0) = FV.val (vs.getD (aa.c.tbase.tdiv 2).toNat 0)) := by
  rw [bwanal_signal_eq] at hs
  cases hc : copy_samples aa aa.c.off aa.c.chan (aa.c.sx * aa.c.tbase) true with
  | none => rw [hc] at hs; simp at hs
  | some tmp =>
    rw [hc] at hs
    simp only [Option.some.injEq] at hs
    have hlen := copy_samples_length aa _ _ _ _ tmp hc
    have hent := copy_samples_entries aa _ _ _ _ tmp hc
    obtain ⟨a1, a2, a3, _⟩ := harr
    have hxn : x < aa.c.sx.toNat := by omega
    obtain ⟨_, hcols⟩ := map_columns_spec aa.c.tbase tmp aa.c.sx.toNat 0
      { aa with sig_wind := 0 } (by show 0 + _ ≤ aa.sig.length; omega)
      (by show 0 + _ ≤ aa.sig0.length; omega) (by show 0 + _ ≤ aa.sig1.length; omega)
    obtain ⟨hnan, hval⟩ := hcols x (by omega) (by omega)
    rw [hs] at hnan hval
    have hscan := column_scan_nan ((tmp.drop ((x : Int) * aa.c.tbase).toNat).take aa.c.tbase.toNat)
      false FV.pinf FV.ninf
    refine ⟨tmp, rfl, hlen, ?_, ?_, ?_⟩
    · intro v hv
      rcases hent v hv with h0 | ⟨b, hb, j, hj⟩
      · exact Or.inl h0
      · refine Or.inr ⟨b, hb, j, hj, ?_⟩
        rw [hj, (sample_at_nan b aa.c.chan true j).1]
        simp
    · intro hin
      apply hnan
      rw [hscan]
      simp [hin]
    · intro hnin
      have hst : (column_scan ((tmp.drop ((x : Int) * aa.c.tbase).toNat).take aa.c.tbase.toNat)
          (false, FV.pinf, FV.ninf)).1 = false := by
        rw [hscan]
        simp [hnin]
      obtain ⟨r1, r2, r3⟩ := hval hst
      have hsub : ∀ v ∈ (tmp.drop ((x : Int) * aa.c.tbase).toNat).take aa.c.tbase.toNat,
          v = FV.nan ∨ ∃ y : Int, v = FV.val y := by
        intro v hv
        have hv2 : v ∈ tmp := List.mem_of_mem_drop (List.mem_of_mem_take hv)
        rcases hent v hv2 with h0 | ⟨b, _, j, hj⟩
        · exact Or.inr ⟨0, h0⟩
        · by_cases hn : v = FV.nan
          · exact Or.inl hn
          · rw [hj] at hn
            exact Or.inr ⟨_, by rw [hj]; exact (sample_at_nan b aa.c.chan true j).2 hn⟩
      obtain ⟨vs, hvs⟩ := vals_of_no_nan _ hsub hnin
      have hP : (0 : Int) ≤ (x : Int) * aa.c.tbase := by positivity
      have hQ : (x : Int) * aa.c.tbase + aa.c.tbase ≤ aa.c.sx * aa.c.tbase := by nlinarith
      have hvl : vs.length = aa.c.tbase.toNat := by
        have := congrArg List.length hvs
        simp only [List.length_take, List.length_drop, List.length_map, hlen] at this
        omega
      have hne : vs ≠ [] := by
        intro h0
        rw [h0] at hvl
        simp only [List.length_nil] at hvl
        omega
      obtain ⟨m, M, hmm, m1, m2, m3⟩ := column_scan_min_max vs hne
      rw [hvs, hmm] at r2 r3
      refine ⟨vs, hvs, hvl, m, M, m1, m2, m3, (m3 m m1).2, r2, r3, ?_⟩
      rw [r1]
      have ht2 : aa.c.tbase.tdiv 2 = aa.c.tbase / 2 := Int.tdiv_eq_ediv (by omega) (by decide)
      have hidx : ((x : Int) * aa.c.tbase + aa.c.tbase.tdiv 2).toNat
          = ((x : Int) * aa.c.tbase).toNat + (aa.c.tbase.tdiv 2).toNat := by
        rw [ht2]; omega
      rw [hidx, ← getD_drop_take tmp _ aa.c.tbase.toNat _ _ (by rw [ht2]; omega), hvs]
      simp only [List.getD_eq_getElem?_getD, List.getElem?_map]
      cases vs[(aa.c.tbase.tdiv 2).toNat]? <;> rfl

theorem C18_signal_envelope_witness :
    ∃ tmp, copy_samples demo_started demo_started.c.off demo_started.c.chan
        (demo_started.c.sx * demo_started.c.tbase) true = some tmp ∧
      tmp.length = (demo_started.c.sx * demo_started.c.tbase).toNat ∧
      (∀ v ∈ tmp, v = FV.val 0 ∨ ∃ b ∈ demo_started.file.cache, ∃ j,
        v = sample_at b demo_started.c.chan true j ∧
        (v = FV.nan ↔ b.err.getD j false = true)) ∧
      (FV.nan ∈ (tmp.drop (((1 : Nat) : Int) * demo_started.c.tbase).toNat).take
          demo_started.c.tbase.toNat →
        ((bwanal_signal demo_fp demo_started).getD demo_started).sig.getD 1 (FV.val 0) = FV.nan ∧
        ((bwanal_signal demo_fp demo_started).getD demo_started).sig0.getD 1 (FV.val 0) = FV.nan ∧
        ((bwanal_signal demo_fp demo_started).getD demo_started).sig1.getD 1 (FV.val 0)
          = FV.nan) ∧
      (FV.nan ∉ (tmp.drop (((1 : Nat) : Int) * demo_started.c.tbase).toNat).take
          demo_started.c.tbase.toNat →
        ∃ vs : List Int,
          (tmp.drop (((1 : Nat) : Int) * demo_started.c.tbase).toNat).take
            demo_started.c.tbase.toNat = vs.map FV.val ∧
          vs.length = demo_started.c.tbase.toNat ∧
          ∃ m M : Int, m ∈ vs ∧ M ∈ vs ∧ (∀ v ∈ vs, m ≤ v ∧ v ≤ M) ∧ m ≤ M ∧
            ((bwanal_signal demo_fp demo_started).getD demo_started).sig0.getD 1 (FV.val 0)
              = FV.val m ∧
            ((bwanal_signal demo_fp demo_started).getD demo_started).sig1.getD 1 (FV.val 0)
              = FV.val M ∧
            ((bwanal_signal demo_fp demo_started).getD demo_started).sig.getD 1 (FV.val 0)
              = FV.val (vs.getD (demo_started.c.tbase.tdiv 2).toNat 0)) :=
  C18_signal_envelope demo_fp demo_started
    ((bwanal_signal demo_fp demo_started).getD demo_started)
    (by unfold ArrOk; decide) (by decide) (by decide) 1 (by decide)

/-- On the demo engine (three columns of two samples, channel 0 holding 0, 1, 2, ..., a sync
error at sample 3): column 1 reads NaN in all three arrays; columns 0 and 2 hold the centre
sample, the minimum and the maximum of their two samples. -/
theorem demo_signal_envelope :
    (bwanal_signal demo_fp demo_started).map (fun r => (r.sig, r.sig0, r.sig1)) =
      some ([FV.val 1, FV.nan, FV.val 5], [FV.val 0, FV.nan, FV.val 4],
            [FV.val 1, FV.nan, FV.val 5]) := by
  decide


/-! ## C19: the frequency estimates of the biquad path -/

theorem write_row_length (vals : List FV) (arr : List FV) (bas : Int) :
    (write_row arr bas vals).length = arr.length := by
  induction vals generalizing arr bas with
  | nil => rfl
  | cons v rest ih => simp only [write_row, ih, List.length_set]

theorem write_row_getD_lt (vals : List FV) (arr : List FV) (bas : Int) (h0 : 0 ≤ bas) (i : Nat)
    (hi : i < bas.toNat) (dflt : FV) :
    (write_row arr bas vals).getD i dflt = arr.getD i dflt := by
  induction vals generalizing arr bas with
  | nil => rfl
  | cons v rest ih =>
    simp only [write_row]
    rw [ih _ (bas + 1) (by omega) (by omega)]
    simp only [List.getD_eq_getElem?_getD]
    rw [List.getElem?_set_ne (by omega)]

theorem write_row_getD (vals : List FV) (arr : List FV) (bas : Int) (h0 : 0 ≤ bas) (i : Nat)
    (hi : i < vals.length) (hl : bas.toNat + vals.length ≤ arr.length) (dflt : FV) :
    (write_row arr bas vals).getD (bas.toNat + i) dflt = vals.getD i dflt := by
  induction vals generalizing arr bas i with
  | nil => simp at hi
  | cons v rest ih =>
    simp only [write_row]
    simp only [List.length_cons] at hi hl
    have hb : (bas + 1).toNat = bas.toNat + 1 := by omega
    rcases Nat.eq_zero_or_pos i with rfl | hpos
    · rw [Nat.add_zero, write_row_getD_lt _ _ _ (by omega) _ (by omega)]
      simp only [List.getD_eq_getElem?_getD]
      rw [List.getElem?_set_self (by omega)]
      simp
    · obtain ⟨j, rfl⟩ : ∃ j, i = j + 1 := ⟨i - 1, by omega⟩
      have := ih (arr.set bas.toNat v) (bas + 1) (by omega) j (by omega)
        (by rw [List.length_set, hb]; omega)
      rw [hb] at this
      rw [show bas.toNat + (j + 1) = bas.toNat + 1 + j by omega, this]
      simp

/-- In the biquad path every entry of the row of `est` that `bwanal_calc` computes is the
number 0, whatever the entry held before. -/
theorem bwanal_calc_biquad_est (fp : Fp) (aa : BWAnal) (r : BWAnal × Int)
    (ht : aa.c.typ ≠ 0) (hy0 : 0 ≤ aa.yy) (hy : aa.yy < aa.c.sy) (hx0 : 0 ≤ aa.c.sx)
    (hl : (aa.yy * aa.c.sx).toNat + aa.c.sx.toNat ≤ aa.est.length)
    (h : bwanal_calc fp aa = some r) (x : Nat) (hx : (x : Int) < aa.c.sx) :
    r.1.est.getD ((aa.yy * aa.c.sx).toNat + x) FV.nan = FV.val 0 := by
  have h2 : ¬ aa.yy ≥ aa.c.sy := by omega
  unfold bwanal_calc at h
  simp only [h2, if_false] at h
  rw [if_pos ht] at h
  split at h
  · simp at h
  · simp only [Option.some.injEq] at h
    rw [← h]
    show (write_row aa.est (aa.yy * aa.c.sx) (List.replicate aa.c.sx.toNat (FV.val 0))).getD
      ((aa.yy * aa.c.sx).toNat + x) FV.nan = FV.val 0
    rw [write_row_getD _ _ _ (mul_nonneg hy0 hx0) x (by simp; omega) (by simpa using hl)]
    simp only [List.getD_eq_getElem?_getD]
    rw [List.getElem?_replicate]
    have : x < aa.c.sx.toNat := by omega
    simp [this]

/-- C19 (the code at a biquad input): on the demo engine restarted with analysis type 1,
where the first row of `est` still holds the values of the wavelet run (NaN in the two edge
columns), `bwanal_calc` computes row 0 and stores the number 0, not NaN, in every `est`
entry of that row. -/
theorem C19_biquad_est_is_zero :
    demo_biquad.c.typ = 1 ∧ demo_biquad.yy = 0 ∧
    demo_biquad.est.take 3 = [FV.nan, FV.val 1, FV.nan] ∧
    (bwanal_calc demo_fp demo_biquad).map (fun r => r.1.est.take 3)
      = some [FV.val 0, FV.val 0, FV.val 0] ∧
    FV.val 0 ≠ FV.nan := by
  decide


/-! ## C20: the magnitudes are not negative -/

theorem PLAN_SIZE_pos (n : Int) : 0 < PLAN_SIZE n := by
  unfold PLAN_SIZE
  have hp : (0 : Int) < 2 ^ (n.tdiv 6).toNat := by positivity
  split_ifs
  · omega
  · omega

theorem blackman_nonneg (ang : ℝ) : 0 ≤ blackman ang := by
  unfold blackman
  rw [Real.cos_two_mul]
  nlinarith [Real.neg_one_le_cos ang, Real.cos_le_one ang,
    mul_nonneg (by linarith [Real.neg_one_le_cos ang] : (0 : ℝ) ≤ Real.cos ang + 1)
      (by linarith [Real.neg_one_le_cos ang] : (0 : ℝ) ≤ Real.cos ang + 2.125)]

theorem wadj_loop_ge_one (wwid : ℝ) (n : Nat) : 1 ≤ wadj_loop wwid n := by
  induction n with
  | zero => simp only [wadj_loop]; norm_num
  | succ k ih =>
    simp only [wadj_loop]
    have := blackman_nonneg (((k + 1 : Nat) : ℝ) / wwid * (Real.pi * 1.0))
    linarith

theorem hypot_nonneg (x y : ℝ) : 0 ≤ hypot x y := Real.sqrt_nonneg _

/-- C20: over the real numbers, every Blackman weight `0.42 + 0.5*cos(ang) + 0.08*cos(2*ang)`
is `>= 0` (for every angle, so in particular for `0 <= ang <= pi`), hence `wadj >= 1` after
any number of turns of the window loop, and every magnitude `bwanal_calc` stores is `>= 0`:
`hypot(p0, p1) * 2 / siz / wadj` in the wavelet path, where `siz = PLAN_SIZE(pl) > 0`, and
`hypot(cc, ss)` in the biquad path. -/
theorem C20_magnitudes_nonneg :
    (∀ ang : ℝ, 0 ≤ blackman ang) ∧
    (∀ (wwid : ℝ) (n : Nat), 1 ≤ wadj_loop wwid n) ∧
    (∀ pl : Int, 0 < PLAN_SIZE pl) ∧
    (∀ (p0 p1 : ℝ) (pl : Int) (w : ℝ), 0 ≤ wavelet_mag p0 p1 pl w) ∧
    (∀ cc ss : ℝ, 0 ≤ biquad_mag cc ss) := by
  refine ⟨blackman_nonneg, wadj_loop_ge_one, PLAN_SIZE_pos, ?_, fun cc ss => hypot_nonneg cc ss⟩
  intro p0 p1 pl w
  unfold wavelet_mag
  have h1 := wadj_loop_ge_one (w * 0.5) (⌊w * 0.5⌋).toNat
  have h2 : (0 : ℝ) < ((PLAN_SIZE pl : Int) : ℝ) := by exact_mod_cast PLAN_SIZE_pos pl
  have h3 : (0 : ℝ) ≤ 2.0 / ((PLAN_SIZE pl : Int) : ℝ) / wadj_loop (w * 0.5) (⌊w * 0.5⌋).toNat := by
    apply div_nonneg
    · apply div_nonneg
      · norm_num
      · exact le_of_lt h2
    · linarith
  exact mul_nonneg (hypot_nonneg p0 p1) h3



/-! ## C21: the peak reported on the status line -/

/-- C21 (as stated, refuted): on a grid whose magnitudes are 5, 1, 5 in rows 0, 1, 2, with the
cursor on row 1, the downward scan stops at row 0, the upward scan at row 2, both at distance
1 from the cursor row, and the row reported is row 2, not the lower-indexed row 0. -/
theorem C21_tie_reports_higher_row :
    show_mag_oy1 demo_peaks 1 0 1 = 0 ∧ show_mag_oy2 demo_peaks 1 0 1 = 2 ∧
    (1 : Int) - show_mag_oy1 demo_peaks 1 0 1 = show_mag_oy2 demo_peaks 1 0 1 - 1 ∧
    show_mag_peak demo_peaks 1 0 1 = 2 ∧
    show_mag_peak demo_peaks 1 0 1 ≠ show_mag_oy1 demo_peaks 1 0 1 := by
  decide

/-- C21 (amended): in `show_mag_status`, when the row `oy1` found scanning towards lower row
indices lies below the cursor row `oy`, the row `oy2` found scanning towards higher row indices
lies above it, and both are at the same distance from `oy`, the row reported as the peak is
the higher-indexed row `oy2`.  (With `oy < oy2` the equal distances give `oy1 < oy`.) -/
theorem C21_tie_prefers_oy2 (aa : BWAnal) (s_vert xx yy : Int)
    (h2 : yy.tdiv s_vert < show_mag_oy2 aa s_vert xx yy)
    (ht : yy.tdiv s_vert - show_mag_oy1 aa s_vert xx yy
      = show_mag_oy2 aa s_vert xx yy - yy.tdiv s_vert) :
    show_mag_peak aa s_vert xx yy = show_mag_oy2 aa s_vert xx yy := by
  unfold show_mag_peak peak_select
  rw [if_neg (by omega), if_neg (by omega), if_neg (by omega)]

theorem C21_tie_prefers_oy2_witness :
    (1 : Int).tdiv 1 < show_mag_oy2 demo_peaks 1 0 1 ∧
    show_mag_peak demo_peaks 1 0 1 = show_mag_oy2 demo_peaks 1 0 1 :=
  ⟨by decide, C21_tie_prefers_oy2 demo_peaks 1 0 1 (by decide) (by decide)⟩



/-! ## C23: sync errors in preview mode -/

theorem overlay_getD_lt {α : Type} (new old : List α) (i : Nat) (d : α) (h : i < new.length) :
    (overlay new old).getD i d = new.getD i d := by
  unfold overlay
  simp only [List.getD_eq_getElem?_getD]
  rw [List.getElem?_append_left h]

theorem overlay_length {α : Type} (new old : List α) :
    (overlay new old).length = max new.length old.length := by
  unfold overlay
  simp only [List.length_append, List.length_drop]
  omega

theorem fmul_nan (w : FpWin) (y : FV) : fmul w FV.nan y = FV.nan := by
  simp [fmul]

theorem fdiv_nan (w : FpWin) (y : FV) : fdiv w FV.nan y = FV.nan := by
  simp [fdiv]

/-- A value that differs from the default and is read at an index is in the list. -/
theorem mem_of_getD_ne {α : Type} (l : List α) (i : Nat) (d v : α) (h : l.getD i d = v)
    (hne : v ≠ d) : v ∈ l := by
  simp only [List.getD_eq_getElem?_getD] at h
  cases hg : l[i]? with
  | none => rw [hg] at h; exact absurd h.symm hne
  | some x =>
    rw [hg] at h
    simp only [Option.getD_some] at h
    rw [← h]
    exact List.getElem?_mem hg

/-- A NaN at index `p` of the column `[x*tbase, (x+1)*tbase)` of `tmp` is found by the scan
of that column. -/
theorem nan_in_column (tmp : List FV) (tbase : Int) (x p : Nat)
    (h1 : (x : Int) * tbase ≤ p) (h2 : (p : Int) < (x : Int) * tbase + tbase)
    (hp : tmp.getD p (FV.val 0) = FV.nan) :
    (column_scan ((tmp.drop ((x : Int) * tbase).toNat).take tbase.toNat)
      (false, FV.pinf, FV.ninf)).1 = true := by
  rw [column_scan_nan]
  have hi : p - ((x : Int) * tbase).toNat < tbase.toNat := by omega
  have := getD_drop_take tmp ((x : Int) * tbase).toNat tbase.toNat
    (p - ((x : Int) * tbase).toNat) (FV.val 0) hi
  have e : ((x : Int) * tbase).toNat + (p - ((x : Int) * tbase).toNat) = p := by omega
  rw [e, hp] at this
  have hm := mem_of_getD_ne _ _ _ _ this (by simp)
  simp [hm]

/-- One turn of the column loop in preview mode: what it stores for column `a`, and that it
leaves the other columns alone. -/
theorem column_step_wind (tbase : Int) (tmp : List FV) (a : Nat) (aa : BWAnal)
    (h1 : a < aa.sig.length) (h2 : a < aa.sig0.length) (h3 : a < aa.sig1.length) :
    ((column_step true tbase tmp a aa).sig.length = aa.sig.length ∧
      (column_step true tbase tmp a aa).sig0.length = aa.sig0.length ∧
      (column_step true tbase tmp a aa).sig1.length = aa.sig1.length) ∧
    (∀ x, x ≠ a →
      (column_step true tbase tmp a aa).sig.getD x (FV.val 0) = aa.sig.getD x (FV.val 0) ∧
      (column_step true tbase tmp a aa).sig0.getD x (FV.val 0) = aa.sig0.getD x (FV.val 0) ∧
      (column_step true tbase tmp a aa).sig1.getD x (FV.val 0) = aa.sig1.getD x (FV.val 0)) ∧
    ((column_scan ((tmp.drop ((a : Int) * tbase).toNat).take tbase.toNat)
        (false, FV.pinf, FV.ninf)).1 = true →
      (column_step true tbase tmp a aa).sig.getD a (FV.val 0) = FV.nan ∧
      (column_step true tbase tmp a aa).sig0.getD a (FV.val 0) = FV.nan ∧
      (column_step true tbase tmp a aa).sig1.getD a (FV.val 0) = FV.nan) ∧
    ((column_scan ((tmp.drop ((a : Int) * tbase).toNat).take tbase.toNat)
        (false, FV.pinf, FV.ninf)).1 = false →
      (column_step true tbase tmp a aa).sig.getD a (FV.val 0) = aa.sig.getD a (FV.val 0) ∧
      (column_step true tbase tmp a aa).sig0.getD a (FV.val 0)
        = (column_scan ((tmp.drop ((a : Int) * tbase).toNat).take tbase.toNat)
            (false, FV.pinf, FV.ninf)).2.1 ∧
      (column_step true tbase tmp a aa).sig1.getD a (FV.val 0)
        = (column_scan ((tmp.drop ((a : Int) * tbase).toNat).take tbase.toNat)
            (false, FV.pinf, FV.ninf)).2.2) := by
  unfold column_step
  simp only [if_true]
  generalize column_scan ((tmp.drop ((a : Int) * tbase).toNat).take tbase.toNat)
    (false, FV.pinf, FV.ninf) = st
  by_cases hs : st.1 = true
  · simp only [hs, if_true]
    refine ⟨⟨by simp, by simp, by simp⟩, ?_, ?_, fun hx => by simp at hx⟩
    · intro x hx
      exact ⟨getD_set_ne _ _ _ _ _ (Ne.symm hx), getD_set_ne _ _ _ _ _ (Ne.symm hx),
        getD_set_ne _ _ _ _ _ (Ne.symm hx)⟩
    · intro _
      exact ⟨getD_set_self _ _ _ _ h1, getD_set_self _ _ _ _ h2, getD_set_self _ _ _ _ h3⟩
  · simp only [hs, Bool.false_eq_true, if_false]
    refine ⟨⟨by simp, by simp, by simp⟩, ?_, fun hx => by simp at hx, ?_⟩
    · intro x hx
      exact ⟨trivial, getD_set_ne _ _ _ _ _ (Ne.symm hx), getD_set_ne _ _ _ _ _ (Ne.symm hx)⟩
    · intro _
      exact ⟨trivial, getD_set_self _ _ _ _ h2, getD_set_self _ _ _ _ h3⟩

/-- The column loop in preview mode over the columns `a .. a+cnt-1`. -/
theorem map_columns_wind (tbase : Int) (tmp : List FV) (cnt : Nat) : ∀ (a : Nat) (aa : BWAnal),
    a + cnt ≤ aa.sig.length → a + cnt ≤ aa.sig0.length → a + cnt ≤ aa.sig1.length →
    (∀ x, x < a →
      (map_columns true tbase tmp cnt a aa).sig.getD x (FV.val 0) = aa.sig.getD x (FV.val 0) ∧
      (map_columns true tbase tmp cnt a aa).sig0.getD x (FV.val 0) = aa.sig0.getD x (FV.val 0) ∧
      (map_columns true tbase tmp cnt a aa).sig1.getD x (FV.val 0)
        = aa.sig1.getD x (FV.val 0)) ∧
    (∀ x, a ≤ x → x < a + cnt →
      ((column_scan ((tmp.drop ((x : Int) * tbase).toNat).take tbase.toNat)
          (false, FV.pinf, FV.ninf)).1 = true →
        (map_columns true tbase tmp cnt a aa).sig.getD x (FV.val 0) = FV.nan ∧
        (map_columns true tbase tmp cnt a aa).sig0.getD x (FV.val 0) = FV.nan ∧
        (map_columns true tbase tmp cnt a aa).sig1.getD x (FV.val 0) = FV.nan) ∧
      ((column_scan ((tmp.drop ((x : Int) * tbase).toNat).take tbase.toNat)
          (false, FV.pinf, FV.ninf)).1 = false →
        (map_columns true tbase tmp cnt a aa).sig.getD x (FV.val 0) = aa.sig.getD x (FV.val 0) ∧
        (map_columns true tbase tmp cnt a aa).sig0.getD x (FV.val 0)
          = (column_scan ((tmp.drop ((x : Int) * tbase).toNat).take tbase.toNat)
              (false, FV.pinf, FV.ninf)).2.1 ∧
        (map_columns true tbase tmp cnt a aa).sig1.getD x (FV.val 0)
          = (column_scan ((tmp.drop ((x : Int) * tbase).toNat).take tbase.toNat)
              (false, FV.pinf, FV.ninf)).2.2)) := by
  induction cnt with
  | zero =>
    intro a aa _ _ _
    exact ⟨fun x _ => ⟨rfl, rfl, rfl⟩, fun x h1 h2 => by omega⟩
  | succ k ih =>
    intro a aa h1 h2 h3
    obtain ⟨⟨l1, l2, l3⟩, c2, c3, c4⟩ := column_step_wind tbase tmp a aa (by omega) (by omega)
      (by omega)
    obtain ⟨i1, i2⟩ := ih (a + 1) (column_step true tbase tmp a aa) (by rw [l1]; omega)
      (by rw [l2]; omega) (by rw [l3]; omega)
    simp only [map_columns]
    constructor
    · intro x hx
      obtain ⟨u1, u2, u3⟩ := i1 x (by omega)
      obtain ⟨v1, v2, v3⟩ := c2 x (by omega)
      exact ⟨u1.trans v1, u2.trans v2, u3.trans v3⟩
    · intro x hx1 hx2
      rcases Nat.eq_or_lt_of_le hx1 with rfl | hlt
      · obtain ⟨u1, u2, u3⟩ := i1 a (by omega)
        rw [u1, u2, u3]
        exact ⟨c3, c4⟩
      · obtain ⟨j1, j2⟩ := i2 x (by omega) (by omega)
        obtain ⟨v1, _, _⟩ := c2 x (by omega)
        refine ⟨j1, ?_⟩
        intro hf
        obtain ⟨q1, q2, q3⟩ := j2 hf
        exact ⟨q1.trans v1, q2, q3⟩

/-- The backward loop of the biquad branch: lengths are kept, the indices not yet reached
are untouched, and a NaN sample inside the window stays NaN. -/
theorem preview_iir_loop_spec (w : FpWin) (c0 c1 c2 : FV) (len off awid tbase : Int) (k : Nat) :
    ∀ (tmp sig : List FV) (mx : FV),
      (preview_iir_loop w c0 c1 c2 len off awid tbase k (tmp, sig, mx)).1.length = tmp.length ∧
      (preview_iir_loop w c0 c1 c2 len off awid tbase k (tmp, sig, mx)).2.1.length
        = sig.length ∧
      (∀ a : Nat, k ≤ a →
        (preview_iir_loop w c0 c1 c2 len off awid tbase k (tmp, sig, mx)).1.getD a (FV.val 0)
          = tmp.getD a (FV.val 0)) ∧
      (∀ a : Nat, a < k → a < tmp.length → tmp.getD a (FV.val 0) = FV.nan →
        ¬ ((a : Int) > off ∨ (a : Int) ≤ off - awid) →
        (preview_iir_loop w c0 c1 c2 len off awid tbase k (tmp, sig, mx)).1.getD a (FV.val 0)
          = FV.nan) := by
  induction k with
  | zero =>
    intro tmp sig mx
    exact ⟨rfl, rfl, fun a _ => rfl, fun a h => by omega⟩
  | succ n ih =>
    intro tmp sig mx
    simp only [preview_iir_loop]
    by_cases hout : (n : Int) > off ∨ (n : Int) ≤ off - awid
    · rw [if_pos hout]
      obtain ⟨i1, i2, i3, i4⟩ := ih (tmp.set n (FV.val 0)) sig mx
      refine ⟨by rw [i1, List.length_set], i2, ?_, ?_⟩
      · intro a ha
        rw [i3 a (by omega), getD_set_ne _ _ _ _ _ (by omega)]
      · intro a ha hl hn hin
        have hne : a ≠ n := by
          intro he
          rw [he] at hin
          exact hin hout
        exact i4 a (by omega) (by rw [List.length_set]; exact hl)
          (by rw [getD_set_ne _ _ _ _ _ (Ne.symm hne)]; exact hn) hin
    · rw [if_neg hout]
      generalize (if FV.lt mx (fabs w (w.amp c0 c1 c2 len off (n : Int))) = true
        then fabs w (w.amp c0 c1 c2 len off (n : Int)) else mx) = mx1
      generalize hsg : (if FV.lt (sig.getD ((n : Int).tdiv tbase).toNat (FV.val 0))
          (fabs w (w.amp c0 c1 c2 len off (n : Int))) = true
        then sig.set ((n : Int).tdiv tbase).toNat (fabs w (w.amp c0 c1 c2 len off (n : Int)))
        else sig) = sig1
      have hsl : sig1.length = sig.length := by
        rw [← hsg]
        split_ifs
        · simp
        · rfl
      obtain ⟨i1, i2, i3, i4⟩ := ih
        (tmp.set n (fmul w (tmp.getD n (FV.val 0)) (w.amp c0 c1 c2 len off (n : Int)))) sig1 mx1
      refine ⟨by rw [i1, List.length_set], by rw [i2, hsl], ?_, ?_⟩
      · intro a ha
        rw [i3 a (by omega), getD_set_ne _ _ _ _ _ (by omega)]
      · intro a ha hl hn hin
        rcases Nat.lt_succ_iff_lt_or_eq.mp ha with hlt | heq
        · exact i4 a hlt (by rw [List.length_set]; exact hl)
            (by rw [getD_set_ne _ _ _ _ _ (by omega)]; exact hn) hin
        · rw [heq] at hn hl ⊢
          rw [i3 n (le_refl n), getD_set_self _ _ _ _ hl, hn, fmul_nan]

/-- In the wavelet branch of preview mode a NaN sample within `wid` of the window centre
stays NaN. -/
theorem preview_fft_tmp_nan (w : FpWin) (wwid : FV) (wid off len : Int) (tmp : List FV)
    (p : Nat) (hp : (p : Int) < len) (hn : tmp.getD p (FV.val 0) = FV.nan)
    (hin : ((((p : Int) - off).natAbs : Nat) : Int) ≤ wid) :
    (preview_fft_tmp w wwid wid off len tmp).getD p (FV.val 0) = FV.nan := by
  unfold preview_fft_tmp
  have hpl : p < len.toNat := by omega
  rw [overlay_getD_lt _ _ _ _ (by simp only [List.length_map, List.length_range]; exact hpl)]
  simp only [List.getD_eq_getElem?_getD, List.getElem?_map, List.getElem?_range hpl,
    Option.map_some', Option.getD_some]
  rw [if_pos hin]
  simp only [List.getD_eq_getElem?_getD] at hn
  rw [hn, fmul_nan]

/-- In the biquad branch of preview mode a NaN sample at an index `off-awid < p <= off` stays
NaN, and the array `sig` keeps its length. -/
theorem preview_iir_nan (w : FpWin) (aa : BWAnal) (xx yy : Int) (tmp0 : List FV)
    (hl : tmp0.length = (aa.c.sx * aa.c.tbase).toNat) (hs : aa.sig.length = aa.c.sx.toNat) :
    (preview_iir w aa xx yy tmp0).2.length = aa.c.sx.toNat ∧
    ∀ p : Nat, (p : Int) < aa.c.sx * aa.c.tbase → tmp0.getD p (FV.val 0) = FV.nan →
      xx * aa.c.tbase + aa.c.tbase.tdiv 2 - (aa.awwid.getD yy.toNat 0).tdiv 2 < (p : Int) →
      (p : Int) ≤ xx * aa.c.tbase + aa.c.tbase.tdiv 2 →
      (preview_iir w aa xx yy tmp0).1.getD p (FV.val 0) = FV.nan := by
  unfold preview_iir
  simp only []
  obtain ⟨i1, i2, _, i4⟩ := preview_iir_loop_spec w (aa.iir.getD (yy * 3).toNat (FV.val 0))
    (aa.iir.getD (yy * 3 + 1).toNat (FV.val 0)) (aa.iir.getD (yy * 3 + 2).toNat (FV.val 0))
    (aa.c.sx * aa.c.tbase) (xx * aa.c.tbase + aa.c.tbase.tdiv 2)
    ((aa.awwid.getD yy.toNat 0).tdiv 2) aa.c.tbase (aa.c.sx * aa.c.tbase).toNat tmp0
    (overlay (List.replicate aa.c.sx.toNat (FV.val 0)) aa.sig) (FV.val 0)
  generalize preview_iir_loop w (aa.iir.getD (yy * 3).toNat (FV.val 0))
    (aa.iir.getD (yy * 3 + 1).toNat (FV.val 0)) (aa.iir.getD (yy * 3 + 2).toNat (FV.val 0))
    (aa.c.sx * aa.c.tbase) (xx * aa.c.tbase + aa.c.tbase.tdiv 2)
    ((aa.awwid.getD yy.toNat 0).tdiv 2) aa.c.tbase (aa.c.sx * aa.c.tbase).toNat
    (tmp0, overlay (List.replicate aa.c.sx.toNat (FV.val 0)) aa.sig, FV.val 0) = st
    at i1 i2 i4
  constructor
  · rw [overlay_length, List.length_map, List.length_take, i2, overlay_length,
      List.length_replicate, hs]
    omega
  · intro p hp hn h1 h2
    have hpl : p < (aa.c.sx * aa.c.tbase).toNat := by omega
    have hst := i4 p hpl (by rw [hl]; exact hpl) hn (by omega)
    rw [overlay_getD_lt _ _ _ _ (by
      rw [List.length_map, List.length_take, i1, hl]; omega)]
    simp only [List.getD_eq_getElem?_getD, List.getElem?_map, List.getElem?_take, hpl, if_true]
    simp only [List.getD_eq_getElem?_getD] at hst
    cases hg : st.1[p]? with
    | none => rw [hg] at hst; simp at hst
    | some v =>
      rw [hg] at hst
      simp only [Option.getD_some] at hst
      simp only [Option.map_some', Option.getD_some, hst, fdiv_nan]

/-- C23 (amended): after `bwanal_window(xx, yy)` in preview mode (`xx >= 0` and `yy >= 0`),
for either analysis kind, every column `x` whose `tbase` samples include a sync-error-flagged
sample that lies within the support of the analysis window has `sig`, `sig0` and `sig1` all
NaN.  The sample at index `p` of the display is flagged when `copy_samples`, asked for errors,
delivers NaN for it; it lies within the support when `abs(p - off) <= wid` in the wavelet
path and when `off - awid < p <= off` in the biquad path, where
`off = xx*tbase + tbase/2`, `wid = floor(wwid[yy] * 0.5)` and `awid = awwid[yy] / 2`. -/
theorem C23_flagged_in_window_is_nan (w : FpWin) (fp : Fp) (aa aa2 : BWAnal) (xx yy : Int)
    (tmp0 : List FV) (x p : Nat) (harr : ArrOk aa)
    (hxx : 0 ≤ xx) (hyy : 0 ≤ yy) (htb : 1 ≤ aa.c.tbase)
    (hw : bwanal_window (fp_preview w fp) aa xx yy = some aa2)
    (hc : copy_samples aa aa.c.off aa.c.chan (aa.c.sx * aa.c.tbase) true = some tmp0)
    (hx : (x : Int) < aa.c.sx)
    (hp1 : (x : Int) * aa.c.tbase ≤ p) (hp2 : (p : Int) < (x : Int) * aa.c.tbase + aa.c.tbase)
    (hflag : tmp0.getD p (FV.val 0) = FV.nan)
    (hfft : aa.c.typ = 0 →
      ((((p : Int) - (xx * aa.c.tbase + aa.c.tbase.tdiv 2)).natAbs : Nat) : Int)
        ≤ fp.floor_half (aa.wwid.getD yy.toNat (FV.val 0)))
    (hiir : aa.c.typ ≠ 0 →
      xx * aa.c.tbase + aa.c.tbase.tdiv 2 - (aa.awwid.getD yy.toNat 0).tdiv 2 < (p : Int) ∧
      (p : Int) ≤ xx * aa.c.tbase + aa.c.tbase.tdiv 2) :
    aa2.sig.getD x (FV.val 0) = FV.nan ∧ aa2.sig0.getD x (FV.val 0) = FV.nan ∧
    aa2.sig1.getD x (FV.val 0) = FV.nan := by
  obtain ⟨a1, a2, a3, _⟩ := harr
  have hlen := copy_samples_length aa _ _ _ _ tmp0 hc
  have hpl : (p : Int) < aa.c.sx * aa.c.tbase := by nlinarith
  have hwd : decide (yy ≥ 0 ∧ xx ≥ 0) = true := decide_eq_true ⟨hyy, hxx⟩
  unfold bwanal_window at hw
  simp only [hwd, if_true, copy_samples_sig_wind, hc, Option.some.injEq] at hw
  have hT : (preview_tmp w fp.floor_half { aa with sig_wind := 1 } xx yy tmp0).getD p (FV.val 0)
      = FV.nan := by
    unfold preview_tmp
    by_cases ht : aa.c.typ = 0
    · rw [if_pos ht]
      exact preview_fft_tmp_nan w _ _ _ _ tmp0 p hpl hflag (hfft ht)
    · rw [if_neg ht]
      obtain ⟨h1, h2⟩ := hiir ht
      exact (preview_iir_nan w { aa with sig_wind := 1 } xx yy tmp0 hlen a1).2 p hpl hflag h1 h2
  have hS : (preview_sig w fp.floor_half { aa with sig_wind := 1 } xx yy tmp0).length
      = aa.c.sx.toNat := by
    unfold preview_sig
    by_cases ht : aa.c.typ = 0
    · rw [if_pos ht]
      unfold preview_fft_sig
      rw [overlay_length, List.length_map, List.length_range]
      show max aa.c.sx.toNat aa.sig.length = aa.c.sx.toNat
      omega
    · rw [if_neg ht]
      exact (preview_iir_nan w { aa with sig_wind := 1 } xx yy tmp0 hlen a1).1
  obtain ⟨_, hcols⟩ := map_columns_wind aa.c.tbase
    (preview_tmp w fp.floor_half { aa with sig_wind := 1 } xx yy tmp0) aa.c.sx.toNat 0
    { aa with sig_wind := 1,
              sig := preview_sig w fp.floor_half { aa with sig_wind := 1 } xx yy tmp0 }
    (by show 0 + _ ≤ (preview_sig w fp.floor_half { aa with sig_wind := 1 } xx yy tmp0).length
        omega)
    (by show 0 + _ ≤ aa.sig0.length; omega) (by show 0 + _ ≤ aa.sig1.length; omega)
  have hres := (hcols x (by omega) (by omega)).1 (nan_in_column _ aa.c.tbase x p hp1 hp2 hT)
  rw [← hw]
  exact hres

theorem C23_flagged_in_window_is_nan_witness :
    ((bwanal_window (fp_preview demo_win demo_fp) demo_wide_started 1 0).getD
        demo_wide_started).sig.getD 1 (FV.val 0) = FV.nan ∧
    ((bwanal_window (fp_preview demo_win demo_fp) demo_wide_started 1 0).getD
        demo_wide_started).sig0.getD 1 (FV.val 0) = FV.nan ∧
    ((bwanal_window (fp_preview demo_win demo_fp) demo_wide_started 1 0).getD
        demo_wide_started).sig1.getD 1 (FV.val 0) = FV.nan :=
  C23_flagged_in_window_is_nan demo_win demo_fp demo_wide_started
    ((bwanal_window (fp_preview demo_win demo_fp) demo_wide_started 1 0).getD demo_wide_started)
    1 0 [FV.val 0, FV.val 1, FV.val 2, FV.nan, FV.val 4, FV.val 5, FV.val 6, FV.val 7] 1 3
    (by unfold ArrOk; decide) (by decide) (by decide) (by decide) (by decide) (by decide)
    (by decide) (by decide) (by decide) (by decide) (fun _ => by decide)
    (fun h => absurd (by decide : demo_wide_started.c.typ = 0) h)

/-- C23 (as stated, refuted): on the demo engine with four columns of two samples, sample 3
(in column 1) is flagged.  In preview mode with the window of row 0 at column 3 the window
is centred on sample 7 with half-width 2, so column 1 lies outside its support: the preview
stores the number 0 in `sig[1]`, `sig0[1]` and `sig1[1]`, not NaN.  The same happens in the
biquad path on the demo engine with three columns, window at column 2 (support: the samples
4 and 5). -/
theorem C23_outside_window_reads_zero :
    (copy_samples demo_wide_started demo_wide_started.c.off demo_wide_started.c.chan
        (demo_wide_started.c.sx * demo_wide_started.c.tbase) true).map
      (fun t => t.getD 3 (FV.val 0)) = some FV.nan ∧
    demo_wide_started.c.typ = 0 ∧
    (bwanal_window (fp_preview demo_win demo_fp) demo_wide_started 3 0).map
      (fun r => (r.sig.getD 1 FV.nan, r.sig0.getD 1 FV.nan, r.sig1.getD 1 FV.nan))
      = some (FV.val 0, FV.val 0, FV.val 0) ∧
    (copy_samples demo_biquad demo_biquad.c.off demo_biquad.c.chan
        (demo_biquad.c.sx * demo_biquad.c.tbase) true).map
      (fun t => t.getD 3 (FV.val 0)) = some FV.nan ∧
    demo_biquad.c.typ = 1 ∧
    (bwanal_window (fp_preview demo_win demo_fp) demo_biquad 2 0).map
      (fun r => (r.sig.getD 1 FV.nan, r.sig0.getD 1 FV.nan, r.sig1.getD 1 FV.nan))
      = some (FV.val 0, FV.val 0, FV.val 0) := by
  decide

/-- Preview mode on the demo engines: with the window at column 1 the flagged sample 3 lies
within its support and column 1 reads NaN in all three arrays, in the wavelet path and in
the biquad path. -/
theorem demo_preview_envelopes :
    (bwanal_window (fp_preview demo_win demo_fp) demo_wide_started 1 0).map
      (fun r => (r.sig, r.sig0, r.sig1))
      = some ([FV.val 2, FV.nan, FV.val 2, FV.val 0], [FV.val 0, FV.nan, FV.val 10, FV.val 0],
              [FV.val 2, FV.nan, FV.val 12, FV.val 0]) ∧
    (bwanal_window (fp_preview demo_win demo_fp) demo_biquad 1 0).map
      (fun r => (r.sig, r.sig0, r.sig1))
      = some ([FV.val 0, FV.nan, FV.val 0], [FV.val 0, FV.nan, FV.val 0],
              [FV.val 0, FV.nan, FV.val 0]) := by
  decide



/-! ## C24: the values delivered by `copy_samples` -/

theorem same_block (bsiz off i : Int) (hb : 0 < bsiz) (hi : 0 ≤ i)
    (h : off - bsiz * (off / bsiz) + i < bsiz) :
    (off + i) / bsiz = off / bsiz ∧ (off + i) % bsiz = off - bsiz * (off / bsiz) + i := by
  have h1 := Int.emod_add_ediv off bsiz
  have h2 := Int.emod_nonneg off (by omega : bsiz ≠ 0)
  rw [Int.ediv_emod_unique hb]
  refine ⟨by ring, by omega, h⟩

theorem getD_append_left_lt {α : Type} (l1 l2 : List α) (i : Nat) (d : α) (h : i < l1.length) :
    (l1 ++ l2).getD i d = l1.getD i d := by
  simp only [List.getD_eq_getElem?_getD]
  rw [List.getElem?_append_left h]

theorem getD_append_right_ge {α : Type} (l1 l2 : List α) (i : Nat) (d : α)
    (h : l1.length ≤ i) : (l1 ++ l2).getD i d = l2.getD (i - l1.length) d := by
  simp only [List.getD_eq_getElem?_getD]
  rw [List.getElem?_append_right h]

/-- The value the main loop of `copy_samples` delivers at index `i` is the value of the
sample position `off + i`. -/
theorem copy_main_values (aa : BWAnal) (chan : Int) (errors : Bool) (hb : 1 ≤ aa.bsiz)
    (hlen : ∀ a b, (aa.blk.getD a none).bind (deref aa.file.cache) = some b → b.len ≤ aa.bsiz)
    (fuel : Nat) : ∀ (off len : Int) (t : List FV), 0 ≤ off →
      copy_main aa chan errors fuel off len = some t →
      ∀ i : Nat, (i : Int) < len →
        t.getD i (FV.val 0) = sample_value aa chan errors (off + i) := by
  induction fuel with
  | zero =>
    intro off len t _ h i hi
    simp only [copy_main] at h
    split_ifs at h with hl
    omega
  | succ k ih =>
    intro off len t h0 h i hi
    simp only [copy_main] at h
    have hl : len > 0 := by omega
    simp only [hl, if_true] at h
    have hb0 : (0 : Int) < aa.bsiz := by omega
    have hdiv : off.tdiv aa.bsiz = off / aa.bsiz := Int.tdiv_eq_ediv h0 (by omega)
    rw [hdiv] at h
    split_ifs at h with hslot
    have hm1 : off / aa.bsiz * aa.bsiz ≤ off := Int.ediv_mul_le off (by omega)
    have hm2 : off < (off / aa.bsiz + 1) * aa.bsiz := Int.lt_ediv_add_one_mul_self off hb0
    have hboff : 0 ≤ off - aa.bsiz * (off / aa.bsiz) ∧
        off - aa.bsiz * (off / aa.bsiz) < aa.bsiz := by
      rw [mul_comm]
      constructor
      · omega
      · have : (off / aa.bsiz + 1) * aa.bsiz = off / aa.bsiz * aa.bsiz + aa.bsiz := by ring
        omega
    have hsb := same_block aa.bsiz off
    generalize hbo : off - aa.bsiz * (off / aa.bsiz) = boff at h hboff hsb
    have hsv : ∀ j : Int, 0 ≤ j → boff + j < aa.bsiz →
        sample_value aa chan errors (off + j) =
          block_value
            ((aa.blk.getD (off / aa.bsiz - aa.bnum).toNat none).bind (deref aa.file.cache))
            chan errors (boff + j) := by
      intro j hj hjb
      obtain ⟨e1, e2⟩ := hsb j hb0 hj hjb
      unfold sample_value
      rw [if_neg (by omega), e1, e2]
    have hlb := hlen (off / aa.bsiz - aa.bnum).toNat
    generalize hbb : (aa.blk.getD (off / aa.bsiz - aa.bnum).toNat none).bind
      (deref aa.file.cache) = bb at h hsv hlb
    cases bb with
    | none =>
      simp only [] at h
      have hc2 : 1 ≤ max 0 (min (len - 0) (aa.bsiz - (boff + 0))) ∧
          max 0 (min (len - 0) (aa.bsiz - (boff + 0))) ≤ len ∧
          max 0 (min (len - 0) (aa.bsiz - (boff + 0))) ≤ aa.bsiz - boff := by omega
      generalize max 0 (min (len - 0) (aa.bsiz - (boff + 0))) = cnt2 at h hc2
      split at h
      · simp at h
      · rename_i rest hrest
        simp only [Option.some.injEq, List.nil_append] at h
        rw [← h]
        by_cases hi2 : (i : Int) < cnt2
        · rw [getD_append_left_lt _ _ _ _ (by simp only [List.length_replicate]; omega)]
          rw [hsv i (by omega) (by omega)]
          simp only [List.getD_eq_getElem?_getD, List.getElem?_replicate, block_value]
          have : i < cnt2.toNat := by omega
          simp [this]
        · rw [getD_append_right_ge _ _ _ _ (by simp only [List.length_replicate]; omega)]
          simp only [List.length_replicate]
          rw [ih _ _ _ (by omega) hrest (i - cnt2.toNat) (by omega)]
          congr 1
          omega
    | some b =>
      simp only [] at h
      have hbl : b.len ≤ aa.bsiz := hlb b rfl
      have hc1 : 0 ≤ max 0 (min len (b.len - boff)) ∧ max 0 (min len (b.len - boff)) ≤ len ∧
          max 0 (min len (b.len - boff)) ≤ max 0 (b.len - boff) ∧
          (max 0 (min len (b.len - boff)) < len →
            b.len - boff ≤ max 0 (min len (b.len - boff))) := by omega
      generalize max 0 (min len (b.len - boff)) = cnt1 at h hc1
      have hc2 : 0 ≤ max 0 (min (len - cnt1) (aa.bsiz - (boff + cnt1))) ∧
          max 0 (min (len - cnt1) (aa.bsiz - (boff + cnt1))) ≤ len - cnt1 ∧
          max 0 (min (len - cnt1) (aa.bsiz - (boff + cnt1))) ≤ max 0 (aa.bsiz - (boff + cnt1)) ∧
          (cnt1 = 0 → 1 ≤ max 0 (min (len - cnt1) (aa.bsiz - (boff + cnt1)))) := by omega
      generalize max 0 (min (len - cnt1) (aa.bsiz - (boff + cnt1))) = cnt2 at h hc2
      split at h
      · simp at h
      · rename_i rest hrest
        simp only [Option.some.injEq] at h
        rw [← h]
        by_cases hi1 : (i : Int) < cnt1
        · rw [getD_append_left_lt _ _ _ _ (by
            simp only [List.length_append, List.length_map, List.length_range]; omega)]
          rw [getD_append_left_lt _ _ _ _ (by
            simp only [List.length_map, List.length_range]; omega)]
          rw [hsv i (by omega) (by omega)]
          simp only [block_value]
          rw [if_pos (by omega)]
          have hin : i < cnt1.toNat := by omega
          simp only [List.getD_eq_getElem?_getD, List.getElem?_map, List.getElem?_range hin,
            Option.map_some', Option.getD_some, sample_at]
          have hj : (boff + (i : Int)).toNat = boff.toNat + i := by omega
          rw [hj]
        · by_cases hi2 : (i : Int) < cnt1 + cnt2
          · rw [getD_append_left_lt _ _ _ _ (by
              simp only [List.length_append, List.length_map, List.length_range,
                List.length_replicate]; omega)]
            rw [getD_append_right_ge _ _ _ _ (by
              simp only [List.length_map, List.length_range]; omega)]
            rw [hsv i (by omega) (by omega)]
            simp only [block_value]
            rw [if_neg (by omega)]
            simp only [List.getD_eq_getElem?_getD, List.getElem?_replicate, List.length_map,
              List.length_range]
            have : i - cnt1.toNat < cnt2.toNat := by omega
            simp [this]
          · rw [getD_append_right_ge _ _ _ _ (by
              simp only [List.length_append, List.length_map, List.length_range,
                List.length_replicate]; omega)]
            simp only [List.length_append, List.length_map, List.length_range,
              List.length_replicate]
            rw [ih _ _ _ (by omega) hrest (i - (cnt1.toNat + cnt2.toNat)) (by omega)]
            congr 1
            omega

/-- C24: when the part of `[off, off+len)` at or after sample 0 lies in the blocks
`bnum .. bnum+n_blk-1` held by the engine (block size at least 1, no cached block holding
more than `bsiz` samples), `copy_samples(arr, off, chan, len, errors)` returns and writes
exactly `len` values, and for every `0 <= i < len` the value `arr[i]` is the value of the
sample position `p = off + i`: 0 if `p < 0`; otherwise, with `b = p / bsiz` and
`j = p mod bsiz`, the sample `chan[chan][j]` of block `b` when that block is held and
`j < len` of the block, NaN instead when `errors` is set and `err[j]` is set, and 0 when the
slot of block `b` is null or `j >= len` of the block. -/
theorem C24_copy_samples_values (aa : BWAnal) (off chan len : Int) (errors : Bool)
    (hb : 1 ≤ aa.bsiz)
    (hspan : 0 < len → 0 < off + len →
      aa.bnum * aa.bsiz ≤ max off 0 ∧ off + len ≤ (aa.bnum + aa.n_blk) * aa.bsiz)
    (hlen : ∀ b ∈ aa.file.cache, b.len ≤ aa.bsiz) :
    ∃ t, copy_samples aa off chan len errors = some t ∧ t.length = len.toNat ∧
      ∀ i : Nat, (i : Int) < len →
        t.getD i (FV.val 0) = sample_value aa chan errors (off + i) ∧
        (off + i < 0 → t.getD i (FV.val 0) = FV.val 0) ∧
        (0 ≤ off + i → t.getD i (FV.val 0) =
          block_value
            ((aa.blk.getD ((off + i) / aa.bsiz - aa.bnum).toNat none).bind (deref aa.file.cache))
            chan errors ((off + i) % aa.bsiz)) := by
  obtain ⟨t, ht, hl⟩ := copy_samples_some aa off chan len errors hb hspan
  refine ⟨t, ht, hl, ?_⟩
  have hlen2 : ∀ a b, (aa.blk.getD a none).bind (deref aa.file.cache) = some b →
      b.len ≤ aa.bsiz := by
    intro a b hab
    cases hs : aa.blk.getD a none with
    | none => rw [hs] at hab; simp at hab
    | some x =>
      rw [hs] at hab
      simp only [Option.bind] at hab
      exact hlen b (deref_mem _ _ _ hab)
  have key : ∀ i : Nat, (i : Int) < len →
      t.getD i (FV.val 0) = sample_value aa chan errors (off + i) := by
    intro i hi
    unfold copy_samples at ht
    simp only [] at ht
    have hc : (0 ≤ (if off < 0 ∧ len > 0 then min (-off) len else 0)) ∧
        ((if off < 0 ∧ len > 0 then min (-off) len else 0) ≤ len) ∧
        ((if off < 0 ∧ len > 0 then min (-off) len else 0) ≤ max 0 (-off)) ∧
        ((if off < 0 ∧ len > 0 then min (-off) len else 0) < len →
          0 ≤ off + (if off < 0 ∧ len > 0 then min (-off) len else 0)) := by
      split_ifs with hx
      · omega
      · omega
    generalize (if off < 0 ∧ len > 0 then min (-off) len else 0) = cnt0 at ht hc
    split at ht
    · simp at ht
    · rename_i rest hrest
      simp only [Option.some.injEq] at ht
      rw [← ht]
      by_cases hi0 : (i : Int) < cnt0
      · rw [getD_append_left_lt _ _ _ _ (by simp only [List.length_replicate]; omega)]
        unfold sample_value
        rw [if_pos (by omega)]
        simp only [List.getD_eq_getElem?_getD, List.getElem?_replicate]
        have : i < cnt0.toNat := by omega
        simp [this]
      · rw [getD_append_right_ge _ _ _ _ (by simp only [List.length_replicate]; omega)]
        simp only [List.length_replicate]
        rw [copy_main_values aa chan errors hb hlen2 _ _ _ _ (hc.2.2.2 (by omega)) hrest
          (i - cnt0.toNat) (by omega)]
        congr 1
        omega
  intro i hi
  refine ⟨key i hi, ?_, ?_⟩
  · intro hneg
    rw [key i hi]
    unfold sample_value
    rw [if_pos hneg]
  · intro hpos
    rw [key i hi]
    unfold sample_value
    rw [if_neg (by omega)]

theorem C24_copy_samples_values_witness :
    ∃ t, copy_samples demo_started (-2) 0 14 true = some t ∧ t.length = (14 : Int).toNat ∧
      ∀ i : Nat, (i : Int) < 14 →
        t.getD i (FV.val 0) = sample_value demo_started 0 true (-2 + i) ∧
        (-2 + (i : Int) < 0 → t.getD i (FV.val 0) = FV.val 0) ∧
        (0 ≤ -2 + (i : Int) → t.getD i (FV.val 0) =
          block_value
            ((demo_started.blk.getD ((-2 + (i : Int)) / demo_started.bsiz
              - demo_started.bnum).toNat none).bind (deref demo_started.file.cache))
            0 true ((-2 + (i : Int)) % demo_started.bsiz)) :=
  C24_copy_samples_values demo_started (-2) 0 14 true (by decide)
    (fun _ _ => by decide) (by decide)

/-- On the demo engine (blocks 0, 1, 2 of the ten-sample stream held, the slot of block 3
null): the 14 values from position -2, errors asked for, are two zeros, the samples 0, 1, 2,
NaN for the flagged sample 3, the samples 4 to 9, and zeros beyond the end of the stream. -/
theorem demo_copy_samples :
    copy_samples demo_started (-2) 0 14 true =
      some [FV.val 0, FV.val 0, FV.val 0, FV.val 1, FV.val 2, FV.nan, FV.val 4, FV.val 5,
            FV.val 6, FV.val 7, FV.val 8, FV.val 9, FV.val 0, FV.val 0] ∧
    (List.range 14).map (fun (i : Nat) => sample_value demo_started 0 true (-2 + (i : Int))) =
      [FV.val 0, FV.val 0, FV.val 0, FV.val 1, FV.val 2, FV.nan, FV.val 4, FV.val 5,
       FV.val 6, FV.val 7, FV.val 8, FV.val 9, FV.val 0, FV.val 0] := by
  decide



/-! ## C25: the convolution multiply -/

theorem pair_at_append_lt (out ext : List ℝ) (k : Nat) (h : 2 * k + 1 < out.length) :
    pair_at (out ++ ext) k = pair_at out k := by
  unfold pair_at
  simp only [List.getD_eq_getElem?_getD]
  rw [List.getElem?_append_left (by omega), List.getElem?_append_left h]

theorem pair_at_append_eq (out : List ℝ) (x y : ℝ) (k : Nat) (h : out.length = 2 * k) :
    pair_at (out ++ [x, y]) k = ⟨x, y⟩ := by
  unfold pair_at
  simp only [List.getD_eq_getElem?_getD]
  rw [List.getElem?_append_right (by omega), List.getElem?_append_right (by omega)]
  have e1 : 2 * k - out.length = 0 := by omega
  have e2 : 2 * k + 1 - out.length = 1 := by omega
  rw [e1, e2]
  rfl

/-- The loop over the elements `1 .. siz/2-1`: each turn appends the product of `wav[a]` and
element `a` of the spectrum. -/
theorem conv_lower_spec (N : Nat) (wav inp : List ℝ) (cnt : Nat) :
    ∀ (a : Nat) (s : ConvSt ℝ), 1 ≤ a → 2 * (a + cnt) ≤ N →
      s.q = a → s.p0 = a → s.p1 = (N : Int) - a + 1 → s.out.length = 2 * a →
      (∀ k, k < a → pair_at s.out k = ((wav.getD k 0 : ℝ) : ℂ) * spectrum N inp k) →
      (conv_lower wav inp cnt s).q = ((a + cnt : Nat) : Int) ∧
      (conv_lower wav inp cnt s).p0 = ((a + cnt : Nat) : Int) ∧
      (conv_lower wav inp cnt s).p1 = (N : Int) - ((a + cnt : Nat) : Int) + 1 ∧
      (conv_lower wav inp cnt s).out.length = 2 * (a + cnt) ∧
      (∀ k, k < a + cnt →
        pair_at (conv_lower wav inp cnt s).out k = ((wav.getD k 0 : ℝ) : ℂ) * spectrum N inp k) := by
  induction cnt with
  | zero =>
    intro a s _ _ hq hp0 hp1 hl hk
    exact ⟨by simpa using hq, by simpa using hp0, by simpa using hp1, by simpa using hl,
      by simpa using hk⟩
  | succ n ih =>
    intro a s ha hN hq hp0 hp1 hl hk
    simp only [conv_lower]
    have e1 : s.q.toNat = a := by omega
    have e2 : s.p0.toNat = a := by omega
    have e3 : (s.p1 - 1).toNat = N - a := by omega
    rw [e1, e2, e3]
    have := ih (a + 1)
      { out := s.out ++ [inp.getD a 0 * wav.getD a 0, inp.getD (N - a) 0 * wav.getD a 0],
        q := s.q + 1, p0 := s.p0 + 1, p1 := s.p1 - 1 }
      (by omega) (by omega) (by show s.q + 1 = ((a + 1 : Nat) : Int); omega)
      (by show s.p0 + 1 = ((a + 1 : Nat) : Int); omega)
      (by show s.p1 - 1 = (N : Int) - ((a + 1 : Nat) : Int) + 1; omega)
      (by simp only [List.length_append, List.length_cons, List.length_nil]; omega)
      (by
        intro k hk2
        rcases Nat.lt_succ_iff_lt_or_eq.mp hk2 with hlt | heq
        · rw [pair_at_append_lt _ _ _ (by omega)]
          exact hk k hlt
        · rw [heq, pair_at_append_eq _ _ _ _ hl]
          unfold spectrum
          rw [if_neg (by omega), if_neg (by omega), if_pos (by omega)]
          apply Complex.ext <;> simp [mul_comm])
    have e4 : a + 1 + n = a + (n + 1) := by omega
    rw [e4] at this
    exact this

/-- The loop over the elements `siz/2+1 .. siz-1`: each turn appends the product of `wav[a]`
and element `a` of the spectrum, the conjugate of element `siz-a`. -/
theorem conv_upper_spec (N : Nat) (wav inp : List ℝ) (cnt : Nat) :
    ∀ (a : Nat) (s : ConvSt ℝ), N < 2 * a → a + cnt ≤ N →
      s.q = a → s.p0 = (N : Int) - a + 1 → s.p1 = a → s.out.length = 2 * a →
      (∀ k, k < a → pair_at s.out k = ((wav.getD k 0 : ℝ) : ℂ) * spectrum N inp k) →
      (conv_upper wav inp cnt s).out.length = 2 * (a + cnt) ∧
      (∀ k, k < a + cnt →
        pair_at (conv_upper wav inp cnt s).out k = ((wav.getD k 0 : ℝ) : ℂ) * spectrum N inp k) := by
  induction cnt with
  | zero =>
    intro a s _ _ _ _ _ hl hk
    exact ⟨by simpa using hl, by simpa using hk⟩
  | succ n ih =>
    intro a s ha hN hq hp0 hp1 hl hk
    simp only [conv_upper]
    have e1 : s.q.toNat = a := by omega
    have e2 : (s.p0 - 1).toNat = N - a := by omega
    have e3 : s.p1.toNat = a := by omega
    rw [e1, e2, e3]
    have := ih (a + 1)
      { out := s.out ++ [inp.getD (N - a) 0 * wav.getD a 0, inp.getD a 0 * -wav.getD a 0],
        q := s.q + 1, p0 := s.p0 - 1, p1 := s.p1 + 1 }
      (by omega) (by omega) (by show s.q + 1 = ((a + 1 : Nat) : Int); omega)
      (by show s.p0 - 1 = (N : Int) - ((a + 1 : Nat) : Int) + 1; omega)
      (by show s.p1 + 1 = ((a + 1 : Nat) : Int); omega)
      (by simp only [List.length_append, List.length_cons, List.length_nil]; omega)
      (by
        intro k hk2
        rcases Nat.lt_succ_iff_lt_or_eq.mp hk2 with hlt | heq
        · rw [pair_at_append_lt _ _ _ (by omega)]
          exact hk k hlt
        · rw [heq, pair_at_append_eq _ _ _ _ hl]
          unfold spectrum
          rw [if_neg (by omega), if_neg (by omega), if_neg (by omega)]
          apply Complex.ext <;> simp [mul_comm])
    have e4 : a + 1 + n = a + (n + 1) := by omega
    rw [e4] at this
    exact this

/-- C25: for every even `siz >= 4`, the convolution multiply of `bwanal_calc` writes exactly
`2*siz` values to `tmp`, and for every `k` in `[0, siz)` the pair `(tmp[2k], tmp[2k+1])` is
the complex product `wav[k] * X[k]`, where `X` is the spectrum encoded by the half-complex
array `inp`: `X[0] = inp[0]`, `X[siz/2] = inp[siz/2]`, and for `0 < k < siz/2`
`X[k] = inp[k] + i*inp[siz-k]` and `X[siz-k]` is the complex conjugate of `X[k]`. -/
theorem C25_convolution_multiply (N : Nat) (wav inp : List ℝ) (heven : 2 ∣ N) (h4 : 4 ≤ N) :
    (conv_multiply (N : Int) wav inp).length = 2 * N ∧
    (∀ k, k < N →
      pair_at (conv_multiply (N : Int) wav inp) k
        = ((wav.getD k 0 : ℝ) : ℂ) * spectrum N inp k) ∧
    spectrum N inp 0 = ((inp.getD 0 0 : ℝ) : ℂ) ∧
    spectrum N inp (N / 2) = ((inp.getD (N / 2) 0 : ℝ) : ℂ) ∧
    (∀ k, 0 < k → 2 * k < N →
      spectrum N inp k = ⟨inp.getD k 0, inp.getD (N - k) 0⟩ ∧
      spectrum N inp (N - k) = (starRingEnd ℂ) (spectrum N inp k)) := by
  obtain ⟨h, rfl⟩ := heven
  have hdiv : ((2 * h : Nat) : Int).tdiv 2 = (h : Int) := by
    rw [Int.tdiv_eq_ediv (by omega) (by decide)]
    omega
  have hspec : ∀ k, 0 < k → 2 * k < 2 * h →
      spectrum (2 * h) inp k = ⟨inp.getD k 0, inp.getD (2 * h - k) 0⟩ ∧
      spectrum (2 * h) inp (2 * h - k) = (starRingEnd ℂ) (spectrum (2 * h) inp k) := by
    intro k h0 hk
    have e1 : spectrum (2 * h) inp k = ⟨inp.getD k 0, inp.getD (2 * h - k) 0⟩ := by
      unfold spectrum
      rw [if_neg (by omega), if_neg (by omega), if_pos hk]
    refine ⟨e1, ?_⟩
    rw [e1]
    unfold spectrum
    rw [if_neg (by omega), if_neg (by omega), if_neg (by omega)]
    have e2 : 2 * h - (2 * h - k) = k := by omega
    rw [e2]
    apply Complex.ext <;> simp
  have hmid : spectrum (2 * h) inp (2 * h / 2) = ((inp.getD (2 * h / 2) 0 : ℝ) : ℂ) := by
    unfold spectrum
    have e : 2 * h / 2 = h := by omega
    rw [e, if_neg (by omega), if_pos rfl]
  refine ⟨?_, ?_, by unfold spectrum; rw [if_pos rfl], hmid, hspec⟩
  all_goals
    unfold conv_multiply
    simp only [hdiv]
    have hc1 : ((h : Int) - 1).toNat = h - 1 := by omega
    have hc2 : (((2 * h : Nat) : Int) - ((h : Int) + 1)).toNat = h - 1 := by omega
    rw [hc1, hc2]
    obtain ⟨l1, l2, l3, l4, l5⟩ := conv_lower_spec (2 * h) wav inp (h - 1) 1
      { out := [wav.getD 0 0 * inp.getD 0 0, 0], q := 1, p0 := 1, p1 := ((2 * h : Nat) : Int) }
      (le_refl 1) (by omega) rfl rfl (by show ((2 * h : Nat) : Int) = _; omega) rfl
      (by
        intro k hk
        have : k = 0 := by omega
        rw [this]
        unfold spectrum pair_at
        rw [if_pos rfl]
        apply Complex.ext <;> simp)
    have e1 : 1 + (h - 1) = h := by omega
    rw [e1] at l1 l2 l3 l4 l5
    generalize conv_lower wav inp (h - 1)
      { out := [wav.getD 0 0 * inp.getD 0 0, 0], q := 1, p0 := 1, p1 := ((2 * h : Nat) : Int) }
      = s1 at l1 l2 l3 l4 l5
    obtain ⟨u1, u2⟩ := conv_upper_spec (2 * h) wav inp (h - 1) (h + 1)
      { s1 with out := s1.out ++ [wav.getD s1.q.toNat 0 * inp.getD s1.p0.toNat 0, 0],
                q := s1.q + 1 }
      (by omega) (by omega) (by show s1.q + 1 = ((h + 1 : Nat) : Int); omega)
      (by show s1.p0 = ((2 * h : Nat) : Int) - ((h + 1 : Nat) : Int) + 1; omega)
      (by show s1.p1 = ((h + 1 : Nat) : Int); omega)
      (by simp only [List.length_append, List.length_cons, List.length_nil]; omega)
      (by
        intro k hk
        rcases Nat.lt_succ_iff_lt_or_eq.mp hk with hlt | heq
        · rw [pair_at_append_lt _ _ _ (by omega)]
          exact l5 k hlt
        · rw [heq, pair_at_append_eq _ _ _ _ l4]
          have q1 : s1.q.toNat = h := by omega
          have q2 : s1.p0.toNat = h := by omega
          rw [q1, q2]
          unfold spectrum
          have e : 2 * h / 2 = h := by omega
          rw [if_neg (by omega), if_pos rfl, e]
          apply Complex.ext <;> simp)
    have e2 : h + 1 + (h - 1) = 2 * h := by omega
    rw [e2] at u1 u2
  · exact u1
  · exact u2

theorem C25_convolution_multiply_witness :
    (conv_multiply ((4 : Nat) : Int) ([1, 2, 3, 4] : List ℝ) [10, 20, 30, 40]).length = 2 * 4 ∧
    (∀ k, k < 4 →
      pair_at (conv_multiply ((4 : Nat) : Int) [1, 2, 3, 4] [10, 20, 30, 40]) k
        = ((([1, 2, 3, 4] : List ℝ).getD k 0 : ℝ) : ℂ) * spectrum 4 [10, 20, 30, 40] k) ∧
    spectrum 4 [10, 20, 30, 40] 0 = (((([10, 20, 30, 40] : List ℝ).getD 0 0 : ℝ)) : ℂ) ∧
    spectrum 4 [10, 20, 30, 40] (4 / 2)
      = (((([10, 20, 30, 40] : List ℝ).getD (4 / 2) 0 : ℝ)) : ℂ) ∧
    (∀ k, 0 < k → 2 * k < 4 →
      spectrum 4 [10, 20, 30, 40] k
        = ⟨([10, 20, 30, 40] : List ℝ).getD k 0, ([10, 20, 30, 40] : List ℝ).getD (4 - k) 0⟩ ∧
      spectrum 4 [10, 20, 30, 40] (4 - k)
        = (starRingEnd ℂ) (spectrum 4 [10, 20, 30, 40] k)) :=
  C25_convolution_multiply 4 [1, 2, 3, 4] [10, 20, 30, 40] (by decide) (by decide)

/-- The multiply on integers, for `siz = 8`, `wav = 1, ..., 8` and `inp = 10, ..., 80`:
sixteen values; element 1 is `2 * (20 + 80i)`, element 4 is `5 * 50`, and element 5 is
`6 * (40 - 60i)`, the conjugate of element 3 scaled. -/
theorem demo_conv_multiply :
    conv_multiply 8 ([1, 2, 3, 4, 5, 6, 7, 8] : List Int) [10, 20, 30, 40, 50, 60, 70, 80]
      = [10, 0, 40, 160, 90, 210, 160, 240, 250, 0, 240, -360, 210, -490, 160, -640] := by
  decide



/-! ## C26: the carrier buffer of the wavelet branch -/

/-- C26 (the code at a row of size 24 with half-width 2): with `re a = 10 + a` and
`im a = 20 + a` standing for the carrier values, the buffer is 1 at index 0, holds the real
parts at indices 1 and 2, and holds the imaginary parts of elements 1 and 2 at the indices
`siz-a-1`, that is 22 and 21; index `siz-1 = 23`, where the half-complex layout keeps the
imaginary part of element 1, is left 0, and index `siz-2 = 22` holds the imaginary part of
element 1 instead of that of element 2.  The stores go to the indices 1, 22, 2, 21. -/
theorem C26_carrier_imag_off_by_one :
    (carrier 24 2 (fun a => 10 + a) (fun a => 20 + a) : List Int) =
      [1, 11, 12, 0, 0, 0, 0, 0, 0, 0, 0, 0, 0, 0, 0, 0, 0, 0, 0, 0, 0, 22, 21, 0] ∧
    (carrier 24 2 (fun a => 10 + a) (fun a => 20 + a) : List Int).getD (24 - 1) 0 = 0 ∧
    (carrier 24 2 (fun a => 10 + a) (fun a => 20 + a) : List Int).getD (24 - 1 - 1) 0 = 20 + 1 ∧
    (carrier 24 2 (fun a => 10 + a) (fun a => 20 + a) : List Int).getD (24 - 2) 0 ≠ 20 + 2 ∧
    carrier_stores 24 2 1 = [1, 22, 2, 21] := by
  decide

/-- With a half-width `wid <= 0` the loop over `a = 1 .. wid` makes no turn: the carrier
buffer is 1 at index 0 and 0 elsewhere, whatever the carrier values of the row are. -/
theorem carrier_narrow {R : Type} [Zero R] [One R] (siz wid : Int) (hw : wid ≤ 0)
    (re im re2 im2 : Int → R) :
    carrier siz wid re im = buf_store (List.replicate siz.toNat 0) 0 1 ∧
    carrier siz wid re im = carrier siz wid re2 im2 := by
  have h0 : wid.toNat = 0 := by omega
  unfold carrier
  rw [h0]
  exact ⟨rfl, rfl⟩



/-! ## C27: incrementing and decrementing the time-base -/

theorem two_rpow_eighth_lt : (2 : ℝ) ^ ((1 : ℝ) / 8) < 1.5 := by
  by_contra h
  push_neg at h
  have h8 : ((2 : ℝ) ^ ((1 : ℝ) / 8)) ^ (8 : ℕ) = 2 := by
    rw [← Real.rpow_natCast, ← Real.rpow_mul (by norm_num)]
    norm_num
  have : (1.5 : ℝ) ^ (8 : ℕ) ≤ ((2 : ℝ) ^ ((1 : ℝ) / 8)) ^ (8 : ℕ) :=
    pow_le_pow_left₀ (by norm_num) h 8
  rw [h8] at this
  norm_num at this

/-- The step of an `"ie8"` setting is `+1` in both directions: `pow(2, 1/8)` and `pow(2, -1/8)`
both lie in `[0.5, 1.5)`, so `floor(0.5 + pow(2, dir/8))` is 1 for `dir = 1` and for
`dir = -1`, and the replacement of a zero step by `dir` never applies. -/
theorem ie_delta_eight (dir : Int) (h : dir = 1 ∨ dir = -1) : ie_delta 8 dir = 1 := by
  have key : ⌊(0.5 : ℝ) + (2 : ℝ) ^ ((dir : ℝ) / 8)⌋ = 1 := by
    rw [Int.floor_eq_iff]
    rcases h with rfl | rfl
    · have h1 : (1 : ℝ) ≤ (2 : ℝ) ^ (((1 : Int) : ℝ) / 8) :=
        Real.one_le_rpow (by norm_num) (by norm_num)
      have h2 := two_rpow_eighth_lt
      norm_num at h1 h2 ⊢
      constructor <;> linarith
    · have h1 : (2 : ℝ) ^ (-1 : ℝ) ≤ (2 : ℝ) ^ (((-1 : Int) : ℝ) / 8) :=
        Real.rpow_le_rpow_of_exponent_le (by norm_num) (by norm_num)
      have h2 : (2 : ℝ) ^ (((-1 : Int) : ℝ) / 8) ≤ (2 : ℝ) ^ (0 : ℝ) :=
        Real.rpow_le_rpow_of_exponent_le (by norm_num) (by norm_num)
      rw [Real.rpow_neg_one] at h1
      rw [Real.rpow_zero] at h2
      norm_num at h1 h2 ⊢
      constructor <;> linarith
  unfold ie_delta
  simp only [key]
  norm_num

theorem int_cast_intCast (n : Int) : int_cast (n : ℝ) = n := by
  unfold int_cast
  split_ifs
  · exact Int.floor_intCast n
  · exact Int.ceil_intCast n

/-- With the time-base at `v >= 1`, `set_incdec` on setting 5 leaves it at `v + 1`, for
`dir = +1` and for `dir = -1` alike; all other settings are unchanged. -/
theorem set_incdec_tbase (n_chan : Int) (s : Settings) (dir : Int) (h : dir = 1 ∨ dir = -1)
    (hv : 1 ≤ s.s_tbase) :
    set_incdec n_chan s 5 dir = { s with s_tbase := s.s_tbase + 1 } := by
  unfold set_incdec
  simp only [set_inc, set_get, ie_delta_eight dir h]
  have hc : int_cast ((s.s_tbase : ℝ) + ((1 : Int) : ℝ)) = s.s_tbase + 1 := by
    rw [← Int.cast_add, int_cast_intCast]
  unfold set_put
  simp only [hc]
  rw [if_neg (by omega), if_neg (by omega)]

/-- C27 (the code at a decrement): with the time-base at 4, `set_incdec` with `dir = -1` on
setting 5 computes the step `floor(0.5 + pow(2, -1/8)) = 1` and leaves the time-base at 5,
which is not `<= 4 - 1`; with `dir = +1` it leaves it at 5 as well. -/
theorem C27_decrement_raises_tbase :
    demo_settings.s_tbase = 4 ∧ ie_delta 8 (-1) = 1 ∧
    (set_incdec 2 demo_settings 5 (-1)).s_tbase = 5 ∧
    ¬ (set_incdec 2 demo_settings 5 (-1)).s_tbase ≤ 4 - 1 ∧
    (set_incdec 2 demo_settings 5 1).s_tbase = 5 := by
  have hv : (1 : Int) ≤ demo_settings.s_tbase := by
    show (1 : Int) ≤ 4
    decide
  rw [set_incdec_tbase 2 demo_settings (-1) (Or.inr rfl) hv,
    set_incdec_tbase 2 demo_settings 1 (Or.inl rfl) hv]
  refine ⟨rfl, ie_delta_eight (-1) (Or.inr rfl), ?_, ?_, ?_⟩
  · show (4 : Int) + 1 = 5
    decide
  · show ¬ (4 : Int) + 1 ≤ 4 - 1
    decide
  · show (4 : Int) + 1 = 5
    decide



/-! ## C28: what a call of `bwanal_calc` writes -/

theorem write_row_getD_ge (vals : List FV) (arr : List FV) (bas : Int) (h0 : 0 ≤ bas) (i : Nat)
    (hi : bas.toNat + vals.length ≤ i) (dflt : FV) :
    (write_row arr bas vals).getD i dflt = arr.getD i dflt := by
  induction vals generalizing arr bas with
  | nil => rfl
  | cons v rest ih =>
    simp only [write_row]
    simp only [List.length_cons] at hi
    rw [ih _ (bas + 1) (by omega) (by omega)]
    simp only [List.getD_eq_getElem?_getD]
    rw [List.getElem?_set_ne (by omega)]

/-- The entries of a row written by `write_row`, and the entries outside it. -/
theorem write_row_spec (vals : List FV) (arr : List FV) (bas : Int) (h0 : 0 ≤ bas)
    (hl : bas.toNat + vals.length ≤ arr.length) (dflt : FV) :
    (write_row arr bas vals).length = arr.length ∧
    (∀ i, i < vals.length →
      (write_row arr bas vals).getD (bas.toNat + i) dflt = vals.getD i dflt) ∧
    (∀ i, i < bas.toNat ∨ bas.toNat + vals.length ≤ i →
      (write_row arr bas vals).getD i dflt = arr.getD i dflt) := by
  refine ⟨write_row_length _ _ _, fun i hi => write_row_getD _ _ _ h0 i hi hl dflt, ?_⟩
  intro i hi
  rcases hi with hi | hi
  · exact write_row_getD_lt _ _ _ h0 i hi dflt
  · exact write_row_getD_ge _ _ _ h0 i hi dflt

/-- C28: a call of `bwanal_calc` that computes row `y = yy` (with `sx >= 1`, whatever `tbase`
is, on result grids of `sx*sy` entries) stores a computed value in every `mag` and `est` entry with
index in `[y*sx, (y+1)*sx)`: in the biquad path the magnitude of the column and the number 0,
in the wavelet path the magnitude of the column and either NaN (edge columns) or the
frequency estimate.  Every `mag` and `est` entry outside that range keeps its value, so the
rows below `y` are unchanged; the grids keep their sizes; and `sig`, `sig0`, `sig1`, `freq`,
`wwid`, `awwid`, `fftp` and `iir` are not modified. -/
theorem C28_calc_writes_one_row (fp : Fp) (aa : BWAnal) (r : BWAnal × Int)
    (h : bwanal_calc fp aa = some r) (hy0 : 0 ≤ aa.yy) (hy : aa.yy < aa.c.sy)
    (hsx : 1 ≤ aa.c.sx)
    (hm : aa.mag.length = (aa.c.sx * aa.c.sy).toNat)
    (he : aa.est.length = (aa.c.sx * aa.c.sy).toNat) :
    (r.1.mag.length = aa.mag.length ∧ r.1.est.length = aa.est.length) ∧
    (∃ mrow erow : Nat → FV,
      (aa.c.typ ≠ 0 → ∃ tmp,
        copy_samples aa (aa.c.off - (aa.awwid.getD aa.yy.toNat 0).tdiv 2) aa.c.chan
          ((aa.awwid.getD aa.yy.toNat 0).tdiv 2 + aa.c.sx * aa.c.tbase) false = some tmp ∧
        mrow = (fun (b : Nat) => fp.iir_mag aa tmp b) ∧ erow = (fun _ => FV.val 0)) ∧
      (aa.c.typ = 0 → ∃ v,
        mrow = (fun (a : Nat) => fp.fft_mag
          { aa with inp := v, inp_siz := PLAN_SIZE (aa.fftp.getD aa.yy.toNat 0) } a) ∧
        erow = (fun (a : Nat) => if (a : Int) - 1 < 0 ∨ (a : Int) + 1 ≥ aa.c.sx then FV.nan
          else fp.fft_est
            { aa with inp := v, inp_siz := PLAN_SIZE (aa.fftp.getD aa.yy.toNat 0) } a)) ∧
      ∀ x : Nat, (x : Int) < aa.c.sx →
        r.1.mag.getD ((aa.yy * aa.c.sx).toNat + x) FV.nan = mrow x ∧
        r.1.est.getD ((aa.yy * aa.c.sx).toNat + x) FV.nan = erow x) ∧
    (∀ i : Nat, (i : Int) < aa.yy * aa.c.sx ∨ (aa.yy + 1) * aa.c.sx ≤ (i : Int) →
      r.1.mag.getD i FV.nan = aa.mag.getD i FV.nan ∧
      r.1.est.getD i FV.nan = aa.est.getD i FV.nan) ∧
    (r.1.sig = aa.sig ∧ r.1.sig0 = aa.sig0 ∧ r.1.sig1 = aa.sig1 ∧ r.1.freq = aa.freq ∧
      r.1.wwid = aa.wwid ∧ r.1.awwid = aa.awwid ∧ r.1.fftp = aa.fftp ∧ r.1.iir = aa.iir) := by
  have hbas : 0 ≤ aa.yy * aa.c.sx := mul_nonneg hy0 (by omega)
  have hfit : aa.yy * aa.c.sx + aa.c.sx ≤ aa.c.sx * aa.c.sy := by nlinarith
  have hx0 : (0 : Int) ≤ aa.c.sx := by omega
  have hlm : ∀ vals : List FV, vals.length = aa.c.sx.toNat →
      (aa.yy * aa.c.sx).toNat + vals.length ≤ aa.mag.length := by
    intro vals hv; rw [hv, hm]; omega
  have hle : ∀ vals : List FV, vals.length = aa.c.sx.toNat →
      (aa.yy * aa.c.sx).toNat + vals.length ≤ aa.est.length := by
    intro vals hv; rw [hv, he]; omega
  have hout : ∀ (i : Nat) (vals : List FV), vals.length = aa.c.sx.toNat →
      ((i : Int) < aa.yy * aa.c.sx ∨ (aa.yy + 1) * aa.c.sx ≤ (i : Int)) →
      (i < (aa.yy * aa.c.sx).toNat ∨ (aa.yy * aa.c.sx).toNat + vals.length ≤ i) := by
    intro i vals hv hi
    rw [hv]
    have : (aa.yy + 1) * aa.c.sx = aa.yy * aa.c.sx + aa.c.sx := by ring
    omega
  have h2 : ¬ aa.yy ≥ aa.c.sy := by omega
  unfold bwanal_calc at h
  simp only [h2, if_false] at h
  by_cases ht : aa.c.typ ≠ 0
  · rw [if_pos ht] at h
    split at h
    · simp at h
    · rename_i tmp htmp
      simp only [Option.some.injEq] at h
      rw [← h]
      have l1 : ((List.range aa.c.sx.toNat).map (fun (b : Nat) => fp.iir_mag aa tmp b)).length
          = aa.c.sx.toNat := by simp
      have l2 : (List.replicate aa.c.sx.toNat (FV.val 0)).length = aa.c.sx.toNat := by simp
      obtain ⟨m1, m2, m3⟩ := write_row_spec _ aa.mag _ hbas (hlm _ l1) FV.nan
      obtain ⟨e1, e2, e3⟩ := write_row_spec _ aa.est _ hbas (hle _ l2) FV.nan
      refine ⟨⟨m1, e1⟩, ⟨fun b => fp.iir_mag aa tmp b, fun _ => FV.val 0,
        fun _ => ⟨tmp, htmp, rfl, rfl⟩, fun h0 => absurd h0 ht, ?_⟩, ?_, ?_⟩
      · intro x hx
        have hxn : x < aa.c.sx.toNat := by omega
        refine ⟨?_, ?_⟩
        · show (write_row aa.mag _ _).getD _ _ = _
          rw [m2 x (by rw [l1]; exact hxn)]
          simp [List.getD_eq_getElem?_getD, hxn]
        · show (write_row aa.est _ _).getD _ _ = _
          rw [e2 x (by rw [l2]; exact hxn)]
          simp [List.getD_eq_getElem?_getD, hxn]
      · intro i hi
        exact ⟨m3 i (hout i _ l1 hi), e3 i (hout i _ l2 hi)⟩
      · exact ⟨rfl, rfl, rfl, rfl, rfl, rfl, rfl, rfl⟩
  · rw [if_neg ht] at h
    have ht0 : aa.c.typ = 0 := by
      by_contra hx; exact ht hx
    split at h
    · simp at h
    · rename_i v hv
      simp only [Option.some.injEq] at h
      rw [← h]
      have l1 : ((List.range aa.c.sx.toNat).map (fun (a : Nat) => fp.fft_mag
          { aa with inp := v, inp_siz := PLAN_SIZE (aa.fftp.getD aa.yy.toNat 0) } a)).length
          = aa.c.sx.toNat := by simp
      have l2 : ((List.range aa.c.sx.toNat).map (fun (a : Nat) =>
          if (a : Int) - 1 < 0 ∨ (a : Int) + 1 ≥ aa.c.sx then FV.nan
          else fp.fft_est
            { aa with inp := v, inp_siz := PLAN_SIZE (aa.fftp.getD aa.yy.toNat 0) } a)).length
          = aa.c.sx.toNat := by simp
      obtain ⟨m1, m2, m3⟩ := write_row_spec _ aa.mag _ hbas (hlm _ l1) FV.nan
      obtain ⟨e1, e2, e3⟩ := write_row_spec _ aa.est _ hbas (hle _ l2) FV.nan
      refine ⟨⟨m1, e1⟩, ⟨_, _, fun h0 => absurd ht0 h0, fun _ => ⟨v, rfl, rfl⟩, ?_⟩, ?_, ?_⟩
      · intro x hx
        have hxn : x < aa.c.sx.toNat := by omega
        refine ⟨?_, ?_⟩
        · show (write_row aa.mag _ _).getD _ _ = _
          rw [m2 x (by rw [l1]; exact hxn)]
          simp [List.getD_eq_getElem?_getD, hxn]
        · show (write_row aa.est _ _).getD _ _ = _
          rw [e2 x (by rw [l2]; exact hxn)]
          simp [List.getD_eq_getElem?_getD, hxn]
      · intro i hi
        exact ⟨m3 i (hout i _ l1 hi), e3 i (hout i _ l2 hi)⟩
      · exact ⟨rfl, rfl, rfl, rfl, rfl, rfl, rfl, rfl⟩

/-- On the demo engine with row 0 computed: the call that computes row 1 leaves the entries
of row 0 of `mag` and `est`, and the arrays `sig`, `sig0`, `sig1`, `freq`, `wwid`, `awwid`,
`fftp` and `iir`, as they are. -/
theorem C28_calc_writes_one_row_witness :
    demo_row1.yy = 1 ∧ demo_row1.c.sx = 3 ∧
    (∀ i : Nat, (i : Int) < demo_row1.yy * demo_row1.c.sx ∨
        (demo_row1.yy + 1) * demo_row1.c.sx ≤ (i : Int) →
      ((bwanal_calc demo_fp demo_row1).getD (demo_row1, 0)).1.mag.getD i FV.nan
        = demo_row1.mag.getD i FV.nan ∧
      ((bwanal_calc demo_fp demo_row1).getD (demo_row1, 0)).1.est.getD i FV.nan
        = demo_row1.est.getD i FV.nan) ∧
    (((bwanal_calc demo_fp demo_row1).getD (demo_row1, 0)).1.sig = demo_row1.sig ∧
      ((bwanal_calc demo_fp demo_row1).getD (demo_row1, 0)).1.sig0 = demo_row1.sig0 ∧
      ((bwanal_calc demo_fp demo_row1).getD (demo_row1, 0)).1.sig1 = demo_row1.sig1 ∧
      ((bwanal_calc demo_fp demo_row1).getD (demo_row1, 0)).1.freq = demo_row1.freq ∧
      ((bwanal_calc demo_fp demo_row1).getD (demo_row1, 0)).1.wwid = demo_row1.wwid ∧
      ((bwanal_calc demo_fp demo_row1).getD (demo_row1, 0)).1.awwid = demo_row1.awwid ∧
      ((bwanal_calc demo_fp demo_row1).getD (demo_row1, 0)).1.fftp = demo_row1.fftp ∧
      ((bwanal_calc demo_fp demo_row1).getD (demo_row1, 0)).1.iir = demo_row1.iir) :=
  ⟨by decide, by decide,
   (C28_calc_writes_one_row demo_fp demo_row1 ((bwanal_calc demo_fp demo_row1).getD (demo_row1, 0))
      (by decide) (by decide) (by decide) (by decide) (by decide) (by decide)).2.2.1,
   (C28_calc_writes_one_row demo_fp demo_row1 ((bwanal_calc demo_fp demo_row1).getD (demo_row1, 0))
      (by decide) (by decide) (by decide) (by decide) (by decide) (by decide)).2.2.2⟩

/-- The two rows of the demo engine: the grid after the first call and after the second. -/
theorem demo_calc_rows :
    demo_row1.mag = [FV.val 0, FV.val 1, FV.val 2, FV.val 0, FV.val 0, FV.val 0] ∧
    (bwanal_calc demo_fp demo_row1).map (fun r => r.1.mag)
      = some [FV.val 0, FV.val 1, FV.val 2, FV.val 0, FV.val 1, FV.val 2] ∧
    demo_row1.est = [FV.nan, FV.val 1, FV.nan, FV.val 0, FV.val 0, FV.val 0] ∧
    (bwanal_calc demo_fp demo_row1).map (fun r => r.1.est)
      = some [FV.nan, FV.val 1, FV.nan, FV.nan, FV.val 1, FV.nan] := by
  decide



/-! ## C29: reference counts and the slots of `aa->blk` -/

theorem RefCnt_perm (ff : BWFile) (H H2 : List (Nat × Int)) (hp : H.Perm H2)
    (h : RefCnt ff H) : RefCnt ff H2 := by
  obtain ⟨hm, hA, hH, hC⟩ := h
  refine ⟨hm, hA, ?_, ?_⟩
  · intro x hx
    exact hH x (hp.mem_iff.2 hx)
  · intro b hb
    rw [← (hp.map Prod.fst).count_eq b.addr]
    exact hC b hb

/-- What `bwfile_free` does to the cache of a store that keeps no unreferenced block and
holds none: the block is removed when its reference count was 1, and otherwise its count
is decremented. -/
theorem free_exact (ff : BWFile) (a : Nat) (bb : BWBlock) (hm : ff.max_unref = 0)
    (hd : deref ff.cache a = some bb) (hge : ∀ b ∈ ff.cache, 1 ≤ b.ref) :
    ∃ l1 l2, ff.cache = l1 ++ bb :: l2 ∧
      (bwfile_free ff a).cache =
        if bb.ref = 1 then l1 ++ l2 else l1 ++ { bb with ref := bb.ref - 1 } :: l2 := by
  obtain ⟨l1, l2, hs, _, hrel⟩ := released_eq ff a bb hd
  refine ⟨l1, l2, hs, ?_⟩
  rw [bwfile_free_eq ff a bb hd]
  by_cases h0 : bb.ref - 1 = 0
  · have h1 : bb.ref = 1 := by omega
    rw [if_pos h0, if_pos h1]
    rw [if_pos h0] at hrel
    have hcnt : (scan_unref (ff.use + 1) (released ff a) 0 (0, none, 0)).1 > ff.max_unref := by
      rw [scan_unref_count, hm, hrel, unref_count_append, unref_count_cons]
      simp only [h0, if_true]
      omega
    rw [if_pos hcnt]
    rcases scan_unref_sel (ff.use + 1) (released ff a) 0 0 none 0 with ⟨_, hno⟩ | ⟨j, b, hj, hsel, hb0, _, _⟩
    · have := (hno { bb with ref := bb.ref - 1, last_used := ff.use }
        (by rw [hrel]; simp) h0).1
      exact absurd rfl this
    · rw [hsel]
      simp only [Nat.zero_add]
      have hjl : j = l1.length := by
        rw [hrel] at hj
        rcases Nat.lt_trichotomy j l1.length with hlt | heq | hgt
        · rw [List.getElem?_append_left hlt] at hj
          have hmem : b ∈ ff.cache := by
            rw [hs]
            exact List.mem_append_left _ (List.getElem?_mem hj)
          have := hge b hmem
          omega
        · exact heq
        · rw [List.getElem?_append_right (by omega)] at hj
          obtain ⟨k, hk⟩ : ∃ k, j - l1.length = k + 1 := ⟨j - l1.length - 1, by omega⟩
          rw [hk, List.getElem?_cons_succ] at hj
          have hmem : b ∈ ff.cache := by
            rw [hs]
            exact List.mem_append_right _ (List.mem_cons_of_mem _ (List.getElem?_mem hj))
          have := hge b hmem
          omega
      rw [hjl, hrel, List.eraseIdx_append_of_length_le (le_refl _)]
      simp
  · have h1 : ¬ bb.ref = 1 := by omega
    rw [if_neg h0, if_neg h1]
    rw [if_neg h0] at hrel
    exact hrel

theorem count_fst_cons (H H2 : List (Nat × Int)) (h : Nat × Int) (hp : H.Perm (h :: H2))
    (x : Nat) :
    (H.map Prod.fst).count x = (if h.1 = x then 1 else 0) + (H2.map Prod.fst).count x := by
  rw [(hp.map Prod.fst).count_eq x, List.map_cons, List.count_cons]
  by_cases he : h.1 = x
  · simp [he]
    omega
  · simp [he]

/-- Releasing a held pointer keeps the reference counts in agreement with the remaining
held pointers. -/
theorem RefCnt_free (ff : BWFile) (H H2 : List (Nat × Int)) (h : Nat × Int)
    (hr : RefCnt ff H) (hp : H.Perm (h :: H2)) : RefCnt (bwfile_free ff h.1) H2 := by
  obtain ⟨hm, hA, hH, hC⟩ := hr
  have hh : h ∈ H := hp.mem_iff.2 (List.mem_cons_self _ _)
  obtain ⟨bb, hbb, hba, hbn⟩ := hH h hh
  have hd : deref ff.cache h.1 = some bb := by
    rw [← hba]; exact deref_of_mem _ _ hA.1 hbb
  obtain ⟨l1, l2, hs, hfc⟩ := free_exact ff h.1 bb hm hd (fun b hb => (hC b hb).1)
  have hnd := hA.1
  rw [hs] at hnd
  simp only [List.map_append, List.map_cons] at hnd
  have hne : ∀ b ∈ l1 ++ l2, b.addr ≠ bb.addr := by
    intro b hb he
    rw [List.nodup_append] at hnd
    obtain ⟨n1, n2, n3⟩ := hnd
    rw [List.nodup_cons] at n2
    rcases List.mem_append.1 hb with hb1 | hb2
    · exact n3 (List.mem_map.2 ⟨b, hb1, rfl⟩) (by rw [he]; exact List.mem_cons_self _ _)
    · exact n2.1 (List.mem_map.2 ⟨b, hb2, he⟩)
  have hcb := hC bb hbb
  have hcnt := count_fst_cons H H2 h hp
  refine ⟨by rw [bwfile_free_max_unref]; exact hm, AddrInv_free ff h.1 hA, ?_, ?_⟩
  · intro x hx
    have hxH : x ∈ H := hp.mem_iff.2 (List.mem_cons_of_mem _ hx)
    obtain ⟨bx, hbx, hxa, hxn⟩ := hH x hxH
    rw [hfc]
    by_cases hxe : x.1 = h.1
    · -- the address of the released block is still held: its count was at least 2
      have h2 : 1 ≤ (H2.map Prod.fst).count h.1 := by
        apply List.count_pos_iff.2
        rw [← hxe]
        exact List.mem_map.2 ⟨x, hx, rfl⟩
      have h3 := hcnt bb.addr
      rw [hba] at h3
      simp only [if_true] at h3
      have hbx2 : bx = bb := by
        have e1 := deref_of_mem _ _ hA.1 hbx
        rw [hxa, hxe] at e1
        rw [hd] at e1
        exact (Option.some.inj e1).symm
      rw [if_neg (by rw [hcb.2, hba]; omega)]
      refine ⟨{ bb with ref := bb.ref - 1 }, by simp, ?_, ?_⟩
      · show bb.addr = x.1
        rw [← hbx2]; exact hxa
      · show bb.num = x.2
        rw [← hbx2]; exact hxn
    · have hbx2 : bx ∈ l1 ++ l2 := by
        rw [hs] at hbx
        simp only [List.mem_append, List.mem_cons] at hbx ⊢
        rcases hbx with hb | hb | hb
        · exact Or.inl hb
        · rw [hb] at hxa; rw [hba] at hxa; exact absurd hxa.symm hxe
        · exact Or.inr hb
      refine ⟨bx, ?_, hxa, hxn⟩
      split_ifs
      · exact hbx2
      · simp only [List.mem_append, List.mem_cons] at hbx2 ⊢
        rcases hbx2 with hb | hb
        · exact Or.inl hb
        · exact Or.inr (Or.inr hb)
  · intro b hb
    rw [hfc] at hb
    have hother : ∀ b ∈ l1 ++ l2, 1 ≤ b.ref ∧
        b.ref = (((H2.map Prod.fst).count b.addr : Nat) : Int) := by
      intro b hb
      have hbc : b ∈ ff.cache := by
        rw [hs]
        simp only [List.mem_append, List.mem_cons] at hb ⊢
        rcases hb with hb | hb
        · exact Or.inl hb
        · exact Or.inr (Or.inr hb)
      have h3 := hcnt b.addr
      have hn : ¬ h.1 = b.addr := by
        rw [← hba]; exact fun he => hne b hb he.symm
      rw [if_neg hn] at h3
      obtain ⟨c1, c2⟩ := hC b hbc
      exact ⟨c1, by rw [c2, h3]; simp⟩
    by_cases h1 : bb.ref = 1
    · rw [if_pos h1] at hb
      exact hother b hb
    · rw [if_neg h1] at hb
      simp only [List.mem_append, List.mem_cons] at hb
      rcases hb with hb | hb | hb
      · exact hother b (List.mem_append_left _ hb)
      · rw [hb]
        have h3 := hcnt bb.addr
        rw [hba] at h3
        simp only [if_true] at h3
        show 1 ≤ bb.ref - 1 ∧ bb.ref - 1 = _
        rw [hba]
        rw [hba] at hcb
        omega
      · exact hother b (List.mem_append_right _ hb)

/-- A pointer returned by `bwfile_get` is one more held pointer; a null result leaves the
held pointers as they are. -/
theorem RefCnt_get (d : Decoder) (ff : BWFile) (H : List (Nat × Int)) (num : Int)
    (hr : RefCnt ff H) :
    (∀ a, (bwfile_get d ff num).2 = some a → RefCnt (bwfile_get d ff num).1 ((a, num) :: H)) ∧
    ((bwfile_get d ff num).2 = none → RefCnt (bwfile_get d ff num).1 H) := by
  obtain ⟨hm, hA, hH, hC⟩ := hr
  have hA2 := AddrInv_get d ff num hA
  have hm2 : (bwfile_get d ff num).1.max_unref = 0 := by rw [bwfile_get_max_unref]; exact hm
  cases hc : cache_hit num ff.cache with
  | some p =>
    obtain ⟨c, a2⟩ := p
    obtain ⟨l1, bb, l2, hs, _, hn, ha, hc2⟩ := cache_hit_some num ff.cache c a2 hc
    rw [bwfile_get_hit d ff num c a2 hc] at hA2 hm2 ⊢
    have hnd := hA.1
    rw [hs] at hnd
    simp only [List.map_append, List.map_cons] at hnd
    have hne : ∀ b ∈ l1 ++ l2, b.addr ≠ bb.addr := by
      intro b hb he
      rw [List.nodup_append] at hnd
      obtain ⟨n1, n2, n3⟩ := hnd
      rw [List.nodup_cons] at n2
      rcases List.mem_append.1 hb with hb1 | hb2
      · exact n3 (List.mem_map.2 ⟨b, hb1, rfl⟩) (by rw [he]; exact List.mem_cons_self _ _)
      · exact n2.1 (List.mem_map.2 ⟨b, hb2, he⟩)
    constructor
    · intro a hga
      simp only [Option.some.injEq] at hga
      refine ⟨hm2, hA2, ?_, ?_⟩
      · intro x hx
        show ∃ b ∈ c, b.addr = x.1 ∧ b.num = x.2
        rw [hc2]
        rcases List.mem_cons.1 hx with rfl | hx
        · exact ⟨{ bb with ref := bb.ref + 1 }, by simp, by rw [← hga, ha], hn⟩
        · obtain ⟨bx, hbx, hxa, hxn⟩ := hH x hx
          rw [hs] at hbx
          simp only [List.mem_append, List.mem_cons] at hbx
          rcases hbx with hb | hb | hb
          · exact ⟨bx, by simp [hb], hxa, hxn⟩
          · exact ⟨{ bb with ref := bb.ref + 1 }, by simp, by rw [← hb]; exact hxa,
              by rw [← hb]; exact hxn⟩
          · exact ⟨bx, by simp [hb], hxa, hxn⟩
      · intro b hb
        have hb2 : b ∈ l1 ++ { bb with ref := bb.ref + 1 } :: l2 := by rw [← hc2]; exact hb
        simp only [List.map_cons, List.count_cons]
        simp only [List.mem_append, List.mem_cons] at hb2
        have hother : ∀ b ∈ l1 ++ l2, 1 ≤ b.ref ∧
            b.ref = ((((H.map Prod.fst).count b.addr + if (a == b.addr) = true then 1 else 0 : Nat)) : Int) := by
          intro b hb
          have hbc : b ∈ ff.cache := by
            rw [hs]
            simp only [List.mem_append, List.mem_cons] at hb ⊢
            rcases hb with hb | hb
            · exact Or.inl hb
            · exact Or.inr (Or.inr hb)
          have hn2 : ¬ (a == b.addr) = true := by
            rw [beq_iff_eq, ← hga, ha]
            exact fun he => hne b hb he.symm
          rw [if_neg hn2]
          exact hC b hbc
        rcases hb2 with hb | hb | hb
        · exact hother b (List.mem_append_left _ hb)
        · rw [hb]
          have hy : (a == bb.addr) = true := by rw [beq_iff_eq, ← hga, ha]
          obtain ⟨c1, c2⟩ := hC bb (by rw [hs]; simp)
          show 1 ≤ bb.ref + 1 ∧ bb.ref + 1 = _
          rw [if_pos hy]
          push_cast
          omega
        · exact hother b (List.mem_append_right _ hb)
    · intro hx
      simp at hx
  | none =>
    rw [bwfile_get_miss d ff num hc] at hA2 hm2 ⊢
    have hcache := (get_block_frame d ff num).1
    cases hg : (get_block d ff num).2 with
    | none =>
      simp only [hg] at hA2 hm2 ⊢
      constructor
      · intro a hx
        simp at hx
      · intro _
        refine ⟨hm2, hA2, ?_, ?_⟩
        · intro x hx
          rw [hcache]
          exact hH x hx
        · intro b hb
          rw [hcache] at hb
          exact hC b hb
    | some bb =>
      simp only [hg] at hA2 hm2 ⊢
      obtain ⟨k1, k2, k3, _, _⟩ := get_block_block d ff num bb hg
      have hfresh : (H.map Prod.fst).count ff.brk = 0 := by
        apply List.count_eq_zero.2
        intro hmem
        obtain ⟨x, hx, hxe⟩ := List.mem_map.1 hmem
        obtain ⟨bx, hbx, hxa, _⟩ := hH x hx
        have := hA.2 bx hbx
        omega
      constructor
      · intro a hga
        simp only [Option.some.injEq] at hga
        refine ⟨hm2, hA2, ?_, ?_⟩
        · intro x hx
          rcases List.mem_cons.1 hx with rfl | hx
          · exact ⟨{ bb with ref := bb.ref + 1 }, List.mem_cons_self _ _, hga, k2⟩
          · obtain ⟨bx, hbx, hxa, hxn⟩ := hH x hx
            exact ⟨bx, List.mem_cons_of_mem _ hbx, hxa, hxn⟩
        · intro b hb
          simp only [List.map_cons, List.count_cons]
          rcases List.mem_cons.1 hb with rfl | hb
          · show 1 ≤ bb.ref + 1 ∧ bb.ref + 1 = _
            have hy : (a == bb.addr) = true := by rw [beq_iff_eq, ← hga]
            rw [if_pos hy, k1, hfresh, k3]
            simp
          · have hlt := hA.2 b hb
            have hn2 : ¬ (a == b.addr) = true := by
              rw [beq_iff_eq, ← hga, k1]
              omega
            rw [if_neg hn2]
            exact hC b hb
      · intro hx
        simp at hx



/-- The growth check keeps the reference counts in agreement with the held pointers, each
now held for the number its block carries afterwards: its own number or the sentinel. -/
theorem RefCnt_check_eof (ff : BWFile) (H : List (Nat × Int)) (hr : RefCnt ff H) :
    ∃ g : Int → Int, (∀ n, g n = n ∨ g n = -999) ∧
      RefCnt (bwfile_check_eof ff) (H.map (fun h => (h.1, g h.2))) := by
  obtain ⟨hm, hA, hH, hC⟩ := hr
  have hm2 : (bwfile_check_eof ff).max_unref = 0 := by
    rw [bwfile_check_eof_max_unref]; exact hm
  have hA2 := AddrInv_check_eof ff hA
  have hfst : ∀ g : Int → Int, (H.map (fun h => (h.1, g h.2))).map Prod.fst = H.map Prod.fst := by
    intro g
    rw [List.map_map]
    rfl
  rcases bwfile_check_eof_cache ff with hc | ⟨n, hc⟩
  · refine ⟨id, fun n => Or.inl rfl, hm2, hA2, ?_, ?_⟩
    · intro x hx
      obtain ⟨y, hy, rfl⟩ := List.mem_map.1 hx
      rw [hc]
      exact hH y hy
    · intro b hb
      rw [hc] at hb
      rw [hfst]
      exact hC b hb
  · refine ⟨renumber n, ?_, hm2, hA2, ?_, ?_⟩
    · intro m
      unfold renumber
      by_cases h : m ≥ n
      · right; simp [h]
      · left; simp [h]
    · intro x hx
      obtain ⟨y, hy, rfl⟩ := List.mem_map.1 hx
      obtain ⟨b, hb, hba, hbn⟩ := hH y hy
      rw [hc]
      refine ⟨if b.num ≥ n then { b with num := -999 } else b,
        List.mem_map.2 ⟨b, hb, rfl⟩, ?_, ?_⟩
      · split_ifs <;> exact hba
      · show _ = renumber n y.2
        unfold renumber
        rw [← hbn]
        split_ifs <;> rfl
    · intro b hb
      rw [hc] at hb
      obtain ⟨b0, hb0, rfl⟩ := List.mem_map.1 hb
      rw [hfst]
      have := hC b0 hb0
      split_ifs <;> exact this

theorem holders_length_none (slots : List (Option Nat)) (num : Int) :
    holders (none :: slots) num = holders slots (num + 1) := rfl

/-- The first loop of `load_data`. -/
theorem release_outside_spec (blk0 blk1 : Int) (slots : List (Option Nat)) :
    ∀ (ff : BWFile) (num : Int) (C : List (Nat × Int)),
      RefCnt ff (C ++ holders slots num) →
      RefCnt (release_outside blk0 blk1 ff slots num).1
        (C ++ holders (release_outside blk0 blk1 ff slots num).2 num) := by
  induction slots with
  | nil => intro ff num C h; exact h
  | cons slot rest ih =>
    intro ff num C h
    simp only [release_outside]
    by_cases hout : num < blk0 ∨ num ≥ blk1
    · rw [if_pos hout]
      cases slot with
      | none => exact ih ff (num + 1) C h
      | some a =>
        simp only [holders]
        apply ih
        exact RefCnt_free ff _ _ (a, num) h List.perm_middle
    · rw [if_neg hout]
      cases slot with
      | none => exact ih ff (num + 1) C h
      | some a =>
        simp only [holders] at h ⊢
        have := ih ff (num + 1) (C ++ [(a, num)]) (by simpa using h)
        simpa using this

/-- The second loop of `load_data`. -/
theorem load_blocks_spec (d : Decoder) (cnt : Nat) :
    ∀ (ff : BWFile) (num : Int) (C : List (Nat × Int)),
      RefCnt ff C →
      RefCnt (load_blocks d cnt ff num).1 (holders (load_blocks d cnt ff num).2 num ++ C) ∧
      (load_blocks d cnt ff num).2.length = cnt := by
  induction cnt with
  | zero => intro ff num C h; exact ⟨h, rfl⟩
  | succ k ih =>
    intro ff num C h
    simp only [load_blocks]
    obtain ⟨g1, g2⟩ := RefCnt_get d ff C num h
    cases hg : (bwfile_get d ff num).2 with
    | none =>
      obtain ⟨i1, i2⟩ := ih (bwfile_get d ff num).1 (num + 1) C (g2 hg)
      exact ⟨i1, by simp [i2]⟩
    | some a =>
      obtain ⟨i1, i2⟩ := ih (bwfile_get d ff num).1 (num + 1) ((a, num) :: C) (g1 a hg)
      refine ⟨?_, by simp [i2]⟩
      simp only [holders]
      exact RefCnt_perm _ _ _ List.perm_middle i1

/-- The third loop of `load_data`. -/
theorem release_all_spec (slots : List (Option Nat)) :
    ∀ (ff : BWFile) (num : Int) (C : List (Nat × Int)),
      RefCnt ff (C ++ holders slots num) → RefCnt (release_all ff slots) C := by
  induction slots with
  | nil => intro ff num C h; simpa [holders, release_all] using h
  | cons slot rest ih =>
    intro ff num C h
    cases slot with
    | none => exact ih ff (num + 1) C h
    | some a =>
      simp only [release_all]
      apply ih _ (num + 1)
      exact RefCnt_free ff _ _ (a, num) h List.perm_middle

theorem release_outside_length (blk0 blk1 : Int) (slots : List (Option Nat)) :
    ∀ (ff : BWFile) (num : Int),
      (release_outside blk0 blk1 ff slots num).2.length = slots.length := by
  induction slots with
  | nil => intro ff num; rfl
  | cons slot rest ih =>
    intro ff num
    simp only [release_outside]
    split_ifs <;> simp [ih]

/-- The loop of `bwanal_recheck_file`: the slots whose block carries the sentinel are
released and cleared; the others keep their block, which carries the number of its slot. -/
theorem drop_stale_spec (g : Int → Int) (hg : ∀ n, g n = n ∨ g n = -999)
    (slots : List (Option Nat)) :
    ∀ (ff : BWFile) (num : Int) (C : List (Nat × Int)), 0 ≤ num →
      RefCnt ff (C ++ (holders slots num).map (fun h => (h.1, g h.2))) →
      RefCnt (drop_stale ff slots).1 (C ++ holders (drop_stale ff slots).2 num) ∧
      (drop_stale ff slots).2.length = slots.length := by
  induction slots with
  | nil => intro ff num C _ h; exact ⟨by simpa [holders, drop_stale] using h, rfl⟩
  | cons slot rest ih =>
    intro ff num C h0 h
    cases slot with
    | none =>
      obtain ⟨i1, i2⟩ := ih ff (num + 1) C (by omega) h
      exact ⟨i1, by simp [drop_stale, i2]⟩
    | some a =>
      simp only [holders, List.map_cons] at h
      obtain ⟨_, hA, hH, _⟩ := id h
      obtain ⟨bb, hbb, hba, hbn⟩ := hH (a, g num) (by simp)
      have hd : deref ff.cache a = some bb := by
        have := deref_of_mem _ _ hA.1 hbb
        rw [hba] at this
        exact this
      simp only [drop_stale, hd]
      by_cases hneg : bb.num < 0
      · rw [if_pos hneg]
        obtain ⟨i1, i2⟩ := ih (bwfile_free ff a) (num + 1) C (by omega)
          (RefCnt_free ff _ _ (a, g num) h List.perm_middle)
        exact ⟨i1, by simp [i2]⟩
      · rw [if_neg hneg]
        have hgn : g num = num := by
          rcases hg num with h1 | h1
          · exact h1
          · have : bb.num = g num := hbn
            omega
        rw [hgn] at h
        obtain ⟨i1, i2⟩ := ih ff (num + 1) (C ++ [(a, num)]) (by omega) (by simpa using h)
        refine ⟨?_, by simp [i2]⟩
        simp only [holders]
        simpa using i1

/-- The scan loop of `bwanal_length` leaves the held pointers as they are. -/
theorem length_scan_RefCnt (d : Decoder) (H : List (Nat × Int)) (fuel : Nat) :
    ∀ ff : BWFile, RefCnt ff H → RefCnt (length_scan d fuel ff).1 H := by
  induction fuel with
  | zero => intro ff h; exact h
  | succ k ih =>
    intro ff h
    simp only [length_scan]
    split_ifs
    · exact h
    · obtain ⟨g1, g2⟩ := RefCnt_get d ff H ff.n_blk h
      rcases hx : bwfile_get d ff ff.n_blk with ⟨ff1, r⟩
      rw [hx] at g1 g2
      cases r with
      | none => exact g2 rfl
      | some a =>
        exact ih _ (RefCnt_free ff1 _ _ (a, ff.n_blk) (g1 a rfl) (List.Perm.refl _))



theorem holders_mem (slots : List (Option Nat)) : ∀ (num : Int) (a : Nat) (m : Int),
    (a, m) ∈ holders slots num ↔ ∃ i : Nat, slots[i]? = some (some a) ∧ m = num + i := by
  induction slots with
  | nil => intro num a m; simp [holders]
  | cons slot rest ih =>
    intro num a m
    cases slot with
    | none =>
      simp only [holders, ih]
      constructor
      · rintro ⟨i, h1, h2⟩
        exact ⟨i + 1, by simpa using h1, by rw [h2]; push_cast; ring⟩
      · rintro ⟨i, h1, h2⟩
        cases i with
        | zero => simp at h1
        | succ j => exact ⟨j, by simpa using h1, by rw [h2]; push_cast; ring⟩
    | some a2 =>
      simp only [holders, List.mem_cons, ih, Prod.mk.injEq]
      constructor
      · rintro (⟨h1, h2⟩ | ⟨i, h1, h2⟩)
        · exact ⟨0, by simp [h1], by simp [h2]⟩
        · exact ⟨i + 1, by simpa using h1, by rw [h2]; push_cast; ring⟩
      · rintro ⟨i, h1, h2⟩
        cases i with
        | zero =>
          left
          simp only [List.getElem?_cons_zero, Option.some.injEq] at h1
          exact ⟨h1.symm, by simpa using h2⟩
        | succ j => exact Or.inr ⟨j, by simpa using h1, by rw [h2]; push_cast; ring⟩

theorem holders_snd_nodup (slots : List (Option Nat)) : ∀ num : Int,
    ((holders slots num).map Prod.snd).Nodup := by
  induction slots with
  | nil => intro num; simp [holders]
  | cons slot rest ih =>
    intro num
    cases slot with
    | none => exact ih (num + 1)
    | some a =>
      simp only [holders, List.map_cons, List.nodup_cons]
      refine ⟨?_, ih (num + 1)⟩
      intro hmem
      obtain ⟨x, hx, hxe⟩ := List.mem_map.1 hmem
      obtain ⟨i, _, h2⟩ := (holders_mem rest (num + 1) x.1 x.2).1 hx
      omega

/-- Two held pointers to the same address are held for the same number. -/
theorem RefCnt_fst_inj (ff : BWFile) (H : List (Nat × Int)) (hr : RefCnt ff H)
    (x y : Nat × Int) (hx : x ∈ H) (hy : y ∈ H) (he : x.1 = y.1) : x = y := by
  obtain ⟨_, hA, hH, _⟩ := hr
  obtain ⟨bx, hbx, hxa, hxn⟩ := hH x hx
  obtain ⟨b2, hb2, hya, hyn⟩ := hH y hy
  have e1 := deref_of_mem _ _ hA.1 hbx
  have e2 := deref_of_mem _ _ hA.1 hb2
  rw [hxa, he] at e1
  rw [hya] at e2
  have : bx = b2 := Option.some.inj (e1.symm.trans e2)
  apply Prod.ext he
  rw [← hxn, ← hyn, this]

theorem getD_some_iff (l : List (Option Nat)) (i a : Nat) :
    l.getD i none = some a ↔ l[i]? = some (some a) := by
  simp only [List.getD_eq_getElem?_getD]
  cases l[i]? with
  | none => simp
  | some x => simp

/-- The counting invariant gives the property of the slots as stated. -/
theorem HeldInv_Held (aa : BWAnal) (h : HeldInv aa) : Held aa := by
  obtain ⟨_, hb0, hr⟩ := h
  have hinj := RefCnt_fst_inj aa.file _ hr
  obtain ⟨_, hA, hH, hC⟩ := id hr
  have hnd : ((holders (aa.blk.take aa.n_blk.toNat) aa.bnum).map Prod.fst).Nodup := by
    apply List.Nodup.map_on
    · intro x hx y hy he
      exact hinj x y hx hy he
    · exact List.Nodup.of_map _ (holders_snd_nodup _ _)
  have hslot : ∀ (i a : Nat), ((i : Int) < aa.n_blk ∧ aa.blk.getD i none = some a) ↔
      (a, aa.bnum + i) ∈ holders (aa.blk.take aa.n_blk.toNat) aa.bnum := by
    intro i a
    rw [holders_mem, getD_some_iff]
    constructor
    · rintro ⟨h1, h2⟩
      refine ⟨i, ?_, rfl⟩
      rw [List.getElem?_take]
      rw [if_pos (by omega)]
      exact h2
    · rintro ⟨j, h1, h2⟩
      have hij : j = i := by omega
      rw [hij] at h1
      rw [List.getElem?_take] at h1
      split_ifs at h1 with hlt
      exact ⟨by omega, h1⟩
  have href : ∀ b ∈ aa.file.cache, b.ref = 1 := by
    intro b hb
    obtain ⟨c1, c2⟩ := hC b hb
    have := List.nodup_iff_count_le_one.1 hnd b.addr
    omega
  refine ⟨?_, ?_, ?_⟩
  · intro b hb
    refine ⟨href b hb, ?_⟩
    obtain ⟨c1, c2⟩ := hC b hb
    have hpos : 0 < ((holders (aa.blk.take aa.n_blk.toNat) aa.bnum).map Prod.fst).count b.addr := by
      omega
    obtain ⟨x, hx, hxe⟩ := List.mem_map.1 (List.count_pos_iff.1 hpos)
    obtain ⟨i, hi1, hi2⟩ := (holders_mem _ aa.bnum x.1 x.2).1 hx
    have hxi : (b.addr, aa.bnum + (i : Int)) ∈ holders (aa.blk.take aa.n_blk.toNat) aa.bnum := by
      rw [← hxe, ← hi2]
      exact hx
    refine ⟨i, (hslot i b.addr).2 hxi, ?_⟩
    intro j hj
    have hxj := (hslot j b.addr).1 hj
    have := hinj _ _ hxj hxi rfl
    simp only [Prod.mk.injEq, true_and] at this
    omega
  · intro i a h1 h2
    obtain ⟨b, hb, hba, hbn⟩ := hH _ ((hslot i a).1 ⟨h1, h2⟩)
    refine ⟨b, hb, hba, hbn, ?_⟩
    rw [hbn]
    show 0 ≤ aa.bnum + (i : Int)
    omega
  · intro b hb
    rw [href b hb]
    decide

theorem HeldInv_congr (aa aa2 : BWAnal) (h : HeldInv aa) (h1 : aa2.bsiz = aa.bsiz)
    (h2 : aa2.bnum = aa.bnum) (h3 : aa2.file = aa.file) (h4 : aa2.blk = aa.blk)
    (h5 : aa2.n_blk = aa.n_blk) : HeldInv aa2 := by
  unfold HeldInv
  rw [h1, h2, h3, h4, h5]
  exact h

theorem HeldInv_load_data (d : Decoder) (aa : BWAnal) (siz : Int) (h : HeldInv aa) :
    HeldInv (load_data d aa siz) := by
  obtain ⟨hb, _, hr⟩ := h
  unfold load_data
  simp only []
  generalize aa.c.off + (aa.c.sx * aa.c.tbase).tdiv 2 - siz.tdiv 2 - 1 = off0
  generalize ((if aa.half ≠ 0
      then aa.c.off + (aa.c.sx * aa.c.tbase).tdiv 2 + (aa.c.sx * aa.c.tbase).tdiv 2 + 1
      else aa.c.off + (aa.c.sx * aa.c.tbase).tdiv 2 + siz.tdiv 2 + 1) + aa.bsiz - 1).tdiv aa.bsiz
    = blk1
  have hblk0 : 0 ≤ (if off0 < 0 then 0 else off0.tdiv aa.bsiz) := by
    split_ifs with hneg
    · exact le_refl 0
    · rw [Int.tdiv_eq_ediv (by omega) (by omega)]
      exact Int.ediv_nonneg (by omega) (by omega)
  generalize (if off0 < 0 then 0 else off0.tdiv aa.bsiz) = blk0 at hblk0
  have s1 := release_outside_spec blk0 blk1 (aa.blk.take aa.n_blk.toNat) aa.file aa.bnum []
    (by simpa using hr)
  obtain ⟨s2, s2l⟩ := load_blocks_spec d (blk1 - blk0).toNat
    (release_outside blk0 blk1 aa.file (aa.blk.take aa.n_blk.toNat) aa.bnum).1 blk0 _ s1
  have s3 := release_all_spec
    (release_outside blk0 blk1 aa.file (aa.blk.take aa.n_blk.toNat) aa.bnum).2 _ aa.bnum _
    (by simpa using s2)
  have e := List.take_of_length_le (le_of_eq s2l)
  refine ⟨hb, hblk0, ?_⟩
  simp only [e]
  exact s3

theorem start_row_store (fp : Fp) (typ : Int) (aa : BWAnal) (a : Int) (r : BWAnal × Int)
    (h : start_row fp typ aa a = some r) :
    r.1.bsiz = aa.bsiz ∧ r.1.bnum = aa.bnum ∧ r.1.file = aa.file ∧ r.1.blk = aa.blk ∧
    r.1.n_blk = aa.n_blk := by
  unfold start_row at h
  simp only [] at h
  split_ifs at h
  · split at h
    · simp at h
    · simp only [Option.some.injEq] at h
      rw [← h]
      exact ⟨rfl, rfl, rfl, rfl, rfl⟩
  · simp only [Option.some.injEq] at h
    rw [← h]
    exact ⟨rfl, rfl, rfl, rfl, rfl⟩

theorem start_rows_store (fp : Fp) (typ : Int) (cnt : Nat) :
    ∀ (a : Int) (aa : BWAnal) (m : Int) (r : BWAnal × Int),
      start_rows fp typ cnt a aa m = some r →
      r.1.bsiz = aa.bsiz ∧ r.1.bnum = aa.bnum ∧ r.1.file = aa.file ∧ r.1.blk = aa.blk ∧
      r.1.n_blk = aa.n_blk := by
  induction cnt with
  | zero =>
    intro a aa m r h
    simp only [start_rows, Option.some.injEq] at h
    rw [← h]
    exact ⟨rfl, rfl, rfl, rfl, rfl⟩
  | succ k ih =>
    intro a aa m r h
    simp only [start_rows] at h
    split at h
    · simp at h
    · rename_i r1 hr1
      obtain ⟨a1, a2, a3, a4, a5⟩ := start_row_store fp typ aa a r1 hr1
      obtain ⟨b1, b2, b3, b4, b5⟩ := ih _ _ _ r h
      exact ⟨b1.trans a1, b2.trans a2, b3.trans a3, b4.trans a4, b5.trans a5⟩

theorem start_prep_store (aa : BWAnal) :
    (start_prep aa).bsiz = aa.bsiz ∧ (start_prep aa).bnum = aa.bnum ∧
    (start_prep aa).file = aa.file ∧ (start_prep aa).blk = aa.blk ∧
    (start_prep aa).n_blk = aa.n_blk := by
  unfold start_prep
  simp only []
  split_ifs <;> exact ⟨rfl, rfl, rfl, rfl, rfl⟩

theorem HeldInv_start (fp : Fp) (d : Decoder) (aa aa2 : BWAnal) (h : HeldInv aa)
    (hs : bwanal_start fp d aa = some aa2) : HeldInv aa2 := by
  rw [bwanal_start_eq] at hs
  split_ifs at hs
  split at hs
  · simp at hs
  · rename_i r hr
    obtain ⟨a1, a2, a3, a4, a5⟩ := start_rows_store fp _ _ _ _ _ r hr
    obtain ⟨p1, p2, p3, p4, p5⟩ := start_prep_store aa
    have h1 : HeldInv r.1 :=
      HeldInv_congr aa r.1 h (a1.trans p1) (a2.trans p2) (a3.trans p3) (a4.trans p4)
        (a5.trans p5)
    have h2 := HeldInv_load_data d r.1 r.2 h1
    split at hs
    · simp at hs
    · rename_i aa5 h5
      simp only [Option.some.injEq] at hs
      obtain ⟨s, s0, s1, w, he⟩ := bwanal_window_frame fp _ aa5 (-1) (-1) h5
      rw [← hs]
      unfold start_finish
      simp only []
      rw [he]
      split_ifs <;> exact h2

theorem take_append_drop_of (l r2 : List (Option Nat)) (n : Nat)
    (h : r2.length = (l.take n).length) : (r2 ++ l.drop n).take n = r2 := by
  rw [List.length_take] at h
  by_cases hn : n ≤ l.length
  · have : r2.length = n := by omega
    rw [List.take_append_of_le_length (by omega), List.take_of_length_le (by omega)]
  · have hd : l.drop n = [] := List.drop_eq_nil_of_le (by omega)
    rw [hd, List.append_nil, List.take_of_length_le (by omega)]

theorem HeldInv_recheck (aa : BWAnal) (h : HeldInv aa) : HeldInv (bwanal_recheck_file aa) := by
  obtain ⟨hb, hb0, hr⟩ := h
  obtain ⟨g, hg, hr2⟩ := RefCnt_check_eof aa.file _ hr
  obtain ⟨i1, i2⟩ := drop_stale_spec g hg (aa.blk.take aa.n_blk.toNat) (bwfile_check_eof aa.file)
    aa.bnum [] hb0 (by simpa using hr2)
  refine ⟨hb, hb0, ?_⟩
  show RefCnt (drop_stale (bwfile_check_eof aa.file) (aa.blk.take aa.n_blk.toNat)).1
    (holders (List.take aa.n_blk.toNat
      ((drop_stale (bwfile_check_eof aa.file) (aa.blk.take aa.n_blk.toNat)).2
        ++ aa.blk.drop aa.n_blk.toNat)) aa.bnum)
  rw [take_append_drop_of _ _ _ i2]
  simpa using i1

theorem HeldInv_length (d : Decoder) (fuel : Nat) (aa : BWAnal) (h : HeldInv aa) :
    HeldInv (bwanal_length d fuel aa).1 := by
  obtain ⟨hb, hb0, hr⟩ := HeldInv_recheck aa h
  have := length_scan_RefCnt d _ fuel _ hr
  unfold bwanal_length
  simp only []
  split_ifs <;> exact ⟨hb, hb0, this⟩

theorem HeldInv_new (chan : Int) (pos0 : Nat) (rate : Sample) :
    HeldInv (bwanal_new chan pos0 rate) := by
  refine ⟨by show (1 : Int) ≤ 1024; decide, le_refl 0, rfl, AddrInv_open chan pos0 1024 0, ?_, ?_⟩
  · intro h hh
    simp [bwanal_new, holders] at hh
  · intro b hb
    simp [bwanal_new, bwfile_open] at hb

theorem Driven_HeldInv (fp : Fp) (aa0 aa : BWAnal) (h0 : HeldInv aa0)
    (h : Driven fp aa0 aa) : HeldInv aa := by
  induction h with
  | made => exact h0
  | request aa req _ ih => exact ih
  | start aa aa2 d _ hs ih => exact HeldInv_start fp d aa aa2 ih hs
  | row aa r _ hc ih =>
    obtain ⟨mag, est, inp, isz, yy, _, he⟩ := bwanal_calc_frame fp aa r hc
    rw [he]
    exact ih
  | window aa aa2 xx yy _ hw ih =>
    obtain ⟨s, s0, s1, w, he⟩ := bwanal_window_frame fp aa aa2 xx yy hw
    rw [he]
    exact ih
  | recheck aa _ ih => exact HeldInv_recheck aa ih
  | length aa d fuel _ ih => exact HeldInv_length d fuel aa ih

/-- C29: for an analysis object made by `bwanal_new` (store opened with `max_unref = 0`) and
driven by its caller, after every call that returns, so after each of `bwanal_start`,
`bwanal_recheck_file` and `bwanal_length`: every block in the store's cache has reference
count exactly 1 and is held in exactly one of the slots `aa->blk[0 .. n_blk-1]`; every such
slot `aa->blk[a]` that is not null holds a cached block whose number is `bnum + a`, which is
not negative; and no cached block has reference count 0. -/
theorem C29_blocks_held_once (fp : Fp) (chan : Int) (pos0 : Nat) (rate : Sample) (aa : BWAnal)
    (h : Driven fp (bwanal_new chan pos0 rate) aa) :
    (∀ b ∈ aa.file.cache, b.ref = 1 ∧
      ∃! i : Nat, (i : Int) < aa.n_blk ∧ aa.blk.getD i none = some b.addr) ∧
    (∀ (i a : Nat), (i : Int) < aa.n_blk → aa.blk.getD i none = some a →
      ∃ b ∈ aa.file.cache, b.addr = a ∧ b.num = aa.bnum + i ∧ 0 ≤ b.num) ∧
    (∀ b ∈ aa.file.cache, b.ref ≠ 0) :=
  HeldInv_Held aa (Driven_HeldInv fp _ aa (HeldInv_new chan pos0 rate) h)

theorem some_getD_of_isSome (o : Option BWAnal) (dflt : BWAnal) (h : o.isSome = true) :
    o = some (o.getD dflt) := by
  cases o with
  | none => simp at h
  | some x => rfl

theorem C29_blocks_held_once_witness :
    (∀ b ∈ demo_new_started.file.cache, b.ref = 1 ∧
      ∃! i : Nat, (i : Int) < demo_new_started.n_blk ∧
        demo_new_started.blk.getD i none = some b.addr) ∧
    (∀ (i a : Nat), (i : Int) < demo_new_started.n_blk →
      demo_new_started.blk.getD i none = some a →
      ∃ b ∈ demo_new_started.file.cache, b.addr = a ∧ b.num = demo_new_started.bnum + i ∧
        0 ≤ b.num) ∧
    (∀ b ∈ demo_new_started.file.cache, b.ref ≠ 0) :=
  C29_blocks_held_once demo_fp 2 0 256 demo_new_started
    (Driven.start demo_new_req demo_new_started (stream_read 1024 demo_stream)
      (Driven.request (bwanal_new 2 0 256)
        { typ := 0, off := 0, chan := 0, tbase := 2, sx := 3, sy := 2,
          freq0 := 128, freq1 := 64, wwrat := 1 } Driven.made)
      (some_getD_of_isSome _ _ (by decide)))

/-- On the fresh object after `bwanal_start` on the ten-sample stream: block 0 is cached with
reference count 1 and held in slot 0; after `bwanal_recheck_file` that block, the last of
the stream, has been released and the cache is empty; `bwanal_length` then returns 10 and
leaves the cache empty. -/
theorem demo_new_blocks :
    demo_new_started.file.cache.map (fun b => (b.addr, b.num, b.ref)) = [(0, 0, 1)] ∧
    demo_new_started.blk = [some 0] ∧ demo_new_started.n_blk = 1 ∧ demo_new_started.bnum = 0 ∧
    (bwanal_recheck_file demo_new_started).file.cache = [] ∧
    (bwanal_recheck_file demo_new_started).blk = [none] ∧
    (bwanal_length (stream_read 1024 demo_stream) 5 demo_new_started).1.file.cache = [] ∧
    (bwanal_length (stream_read 1024 demo_stream) 5 demo_new_started).2 = LenResult.value 10 := by
  decide



/-! ## C30: the numbers of the cached blocks -/

theorem pairwise_nums_of_map (c c2 : List BWBlock)
    (h : c2.map (fun b => b.num) = c.map (fun b => b.num))
    (hp : c.Pairwise (fun b c => b.num = c.num → b.num = -999)) :
    c2.Pairwise (fun b c => b.num = c.num → b.num = -999) := by
  have h1 : (c.map (fun b => b.num)).Pairwise (fun x y => x = y → x = -999) :=
    List.pairwise_map.2 hp
  rw [← h] at h1
  exact List.pairwise_map.1 h1

theorem released_nums (ff : BWFile) (a : Nat) :
    (released ff a).map (fun b => b.num) = ff.cache.map (fun b => b.num) := by
  unfold released
  induction ff.cache with
  | nil => rfl
  | cons x rest ih =>
    by_cases hx : x.addr = a
    · simp only [modify_at, hx, if_true, List.map_cons]
      split_ifs <;> simp
    · simp [modify_at, hx, ih]

theorem NumsOk_get (d : Decoder) (s : BWFile) (num : Int) (h : NumsOk s) :
    NumsOk (bwfile_get d s num).1 := by
  obtain ⟨hw, h3, hp⟩ := h
  cases hc : cache_hit num s.cache with
  | some p =>
    obtain ⟨c, a⟩ := p
    obtain ⟨l1, bb, l2, hs, _, _, _, hc2⟩ := cache_hit_some num s.cache c a hc
    rw [bwfile_get_hit d s num c a hc]
    refine ⟨hw, ?_, ?_⟩
    · intro b hb
      simp only [hc2, List.mem_append, List.mem_cons] at hb
      rcases hb with hb | rfl | hb
      · exact h3 b (by simp [hs, hb])
      · exact h3 bb (by simp [hs])
      · exact h3 b (by simp [hs, hb])
    · apply pairwise_nums_of_map s.cache c _ hp
      rw [hc2, hs]
      simp
  | none =>
    obtain ⟨c1, _, c3, c4⟩ := get_block_core d s num hw
    rw [bwfile_get_miss d s num hc]
    have hold : ∀ b ∈ s.cache, b.num = -999 ∨ (0 ≤ b.num ∧ b.num < (get_block d s num).1.n_blk) := by
      intro b hb
      have := h3 b hb
      have := c3.1
      omega
    cases hg : (get_block d s num).2 with
    | none =>
      refine ⟨c1, ?_, ?_⟩
      · intro b hb
        simp only [(get_block_frame d s num).1] at hb
        exact hold b hb
      · simp only [(get_block_frame d s num).1]
        exact hp
    | some bb =>
      obtain ⟨g1, g2, _⟩ := c4 bb hg
      obtain ⟨_, k2, _, _, _⟩ := get_block_block d s num bb hg
      refine ⟨c1, ?_, ?_⟩
      · intro b hb
        simp only [List.mem_cons] at hb
        rcases hb with rfl | hb
        · right; simp only [k2]; exact ⟨g1, g2⟩
        · exact hold b hb
      · simp only [List.pairwise_cons]
        refine ⟨?_, hp⟩
        intro b hb he
        simp only [k2] at he
        exact absurd he.symm (cache_hit_none num s.cache hc b hb)

theorem NumsOk_free (s : BWFile) (a : Nat) (h : NumsOk s) : NumsOk (bwfile_free s a) := by
  obtain ⟨hw, h3, hp⟩ := h
  obtain ⟨f1, f2, _⟩ := bwfile_free_frame s a
  refine ⟨by unfold Wf; rw [f1, f2]; exact hw, ?_, ?_⟩
  · intro b hb
    obtain ⟨b0, hb0, hsd⟩ := bwfile_free_mem s a b hb
    rw [f2, hsd.2.1]; exact h3 b0 hb0
  · have hrel : (released s a).Pairwise (fun b c => b.num = c.num → b.num = -999) :=
      pairwise_nums_of_map s.cache _ (released_nums s a) hp
    rcases bwfile_free_cache s a with hc | ⟨i, hc⟩
    · rw [hc]; exact hrel
    · rw [hc]; exact hrel.sublist (List.eraseIdx_sublist _ _)

theorem renumber_pairwise (n : Int) (c : List BWBlock)
    (hp : c.Pairwise (fun b c => b.num = c.num → b.num = -999)) :
    (List.map (fun bb => if bb.num ≥ n then { bb with num := -999 } else bb) c).Pairwise
      (fun b c => b.num = c.num → b.num = -999) := by
  rw [List.pairwise_map]
  refine hp.imp ?_
  intro x y hxy
  by_cases hx : x.num ≥ n
  · simp [hx]
  · by_cases hy : y.num ≥ n
    · simp only [hx, hy, if_true, if_false]
      intro he
      exact he
    · simp only [hx, hy, if_false]
      exact hxy

theorem NumsOk_check_eof (s : BWFile) (h : NumsOk s) : NumsOk (bwfile_check_eof s) := by
  obtain ⟨hw, h3, hp⟩ := h
  have hw2 := bwfile_check_eof_Wf s hw
  refine ⟨hw2, ?_, ?_⟩
  · intro b hb
    obtain ⟨b0, hb0, _, _, _, _, _, _, hnum⟩ := bwfile_check_eof_mem s b hb
    rcases hnum with ⟨hn, hlt⟩ | hn | ⟨rfl, hx⟩
    · rcases h3 b0 hb0 with h9 | ⟨h0, _⟩
      · left; rw [hn]; exact h9
      · right; rw [hn]; exact ⟨h0, hlt⟩
    · left; exact hn
    · rw [hx]; exact h3 b hb0
  · unfold bwfile_check_eof
    split_ifs with e1 e2
    · exact hp
    · exact renumber_pairwise _ _ hp
    · exact renumber_pairwise _ _ hp

theorem NumsOk_open (chan : Int) (pos0 : Nat) (bsiz max_unref : Int) :
    NumsOk (bwfile_open chan pos0 bsiz max_unref) := by
  refine ⟨⟨by simp [bwfile_open], by simp [bwfile_open]⟩, ?_, ?_⟩
  · intro b hb
    simp [bwfile_open] at hb
  · simp [bwfile_open]

theorem Ops_NumsOk (s0 s : BWFile) (h0 : NumsOk s0) (h : Ops s0 s) : NumsOk s := by
  induction h with
  | start => exact h0
  | get s d num _ ih => exact NumsOk_get d s num ih
  | free s a _ ih => exact NumsOk_free s a ih
  | check_eof s _ ih => exact NumsOk_check_eof s ih

/-- A request for block `n_blk` at end-of-file returns the null pointer without decoding. -/
theorem get_block_next_eof (d : Decoder) (s : BWFile) (h0 : 0 ≤ s.n_blk) (he : s.eof = true) :
    (get_block d s s.n_blk).2 = none ∧ (get_block d s s.n_blk).1.dlog = s.dlog := by
  obtain ⟨_, _, _, _, _, _, _, gn, _, ge, _, gd⟩ :=
    grow_blk_frame { s with brk := s.brk + 1 } s.n_blk
  have ge2 : (grow_blk { s with brk := s.brk + 1 } s.n_blk).eof = true := by rw [ge]; exact he
  have h1 : ¬ s.n_blk < 0 := by omega
  have h2 : ¬ (s.n_blk > (grow_blk { s with brk := s.brk + 1 } s.n_blk).n_blk ∧
      (grow_blk { s with brk := s.brk + 1 } s.n_blk).eof = false) := by
    rw [gn]; intro hx; exact absurd hx.1 (lt_irrefl _)
  unfold get_block
  simp only []
  rw [if_neg h1, if_neg (lt_irrefl _), if_neg h2]
  simp only [ge2, if_true]
  exact ⟨trivial, gd⟩

/-- C30: after every sequence of `bwfile_get`, `bwfile_free` and `bwfile_check_eof` calls on
a freshly opened store, every cached block's number is the sentinel -999 or satisfies
`0 <= num < n_blk`, and no two cached blocks share a number other than the sentinel.
Consequently `bwfile_get(ff, n_blk)` never hits the cache: at end-of-file it returns the
null pointer without decoding, and otherwise it invokes the decoder once more, at `pos`, for
block `n_blk`, and returns that block. -/
theorem C30_cache_numbers (chan : Int) (pos0 : Nat) (bsiz max_unref : Int)
    (s : BWFile) (hr : Ops (bwfile_open chan pos0 bsiz max_unref) s) :
    (∀ b ∈ s.cache, b.num = -999 ∨ (0 ≤ b.num ∧ b.num < s.n_blk)) ∧
    s.cache.Pairwise (fun b c => b.num = c.num → b.num = -999) ∧
    cache_hit s.n_blk s.cache = none ∧
    ∀ d : Decoder,
      (s.eof = true → (bwfile_get d s s.n_blk).2 = none ∧
        (bwfile_get d s s.n_blk).1.dlog = s.dlog) ∧
      (s.eof = false → (∃ a, (bwfile_get d s s.n_blk).2 = some a) ∧
        (bwfile_get d s s.n_blk).1.dlog = (s.n_blk, s.pos) :: s.dlog) := by
  obtain ⟨hw, h3, hp⟩ := Ops_NumsOk _ s (NumsOk_open chan pos0 bsiz max_unref) hr
  have hmiss : cache_hit s.n_blk s.cache = none := by
    apply cache_hit_none_of
    intro b hb
    have := h3 b hb
    have := hw.1
    omega
  refine ⟨h3, hp, hmiss, ?_⟩
  intro d
  rw [bwfile_get_miss d s s.n_blk hmiss]
  constructor
  · intro he
    obtain ⟨e1, e2⟩ := get_block_next_eof d s hw.1 he
    rw [e1]
    exact ⟨rfl, e2⟩
  · intro he
    rw [get_block_next d s hw.1 he]
    simp only []
    refine ⟨⟨_, rfl⟩, ?_⟩
    rw [(read_target_fields d _ _).2.1]
    obtain ⟨_, _, gn, gp, _, _, gd, _, _⟩ := grow_blk_tick s s.n_blk hw
    rw [gn, gp, gd]

theorem C30_cache_numbers_witness :
    (∀ b ∈ demo_two.cache, b.num = -999 ∨ (0 ≤ b.num ∧ b.num < demo_two.n_blk)) ∧
    demo_two.cache.Pairwise (fun b c => b.num = c.num → b.num = -999) ∧
    cache_hit demo_two.n_blk demo_two.cache = none ∧
    ∀ d : Decoder,
      (demo_two.eof = true → (bwfile_get d demo_two demo_two.n_blk).2 = none ∧
        (bwfile_get d demo_two demo_two.n_blk).1.dlog = demo_two.dlog) ∧
      (demo_two.eof = false → (∃ a, (bwfile_get d demo_two demo_two.n_blk).2 = some a) ∧
        (bwfile_get d demo_two demo_two.n_blk).1.dlog
          = (demo_two.n_blk, demo_two.pos) :: demo_two.dlog) :=
  C30_cache_numbers 2 0 4 1 demo_two
    (Ops.free _ 0 (Ops.get _ demo_read 1 (Ops.get _ demo_read 0 Ops.start)))

/-- On the demo store holding blocks 1 and 0 (two blocks recorded, end-of-file not reached):
a request for block 2 misses the cache, decodes at position 8 and returns the new block;
after the growth check on the store at end-of-file the cached last block carries -999 and a
request for block `n_blk = 2` decodes again. -/
theorem demo_get_next :
    demo_two.cache.map (fun b => b.num) = [1, 0] ∧ demo_two.n_blk = 2 ∧
    (bwfile_get demo_read demo_two 2).2 = some 2 ∧
    (bwfile_get demo_read demo_two 2).1.dlog.head? = some (2, 8) ∧
    (bwfile_check_eof demo_eof).cache.map (fun b => b.num) = [-999] ∧
    (bwfile_check_eof demo_eof).n_blk = 2 ∧
    (bwfile_get demo_read (bwfile_check_eof demo_eof) 2).1.dlog.head? = some (2, 8) := by
  decide


end Bwview
